import Mathlib

/-! Reversi bitboard engine: embedding of `board.c` and its verification.

The board of `board.c` is a record of a size, a mover, two colour planes, a
legal-move mask and an enumeration cursor.  The planes are `unsigned __int128`
values; they are embedded as natural numbers with every left shift, complement
and subtraction reduced modulo `2 ^ 128`.  The only loop of the engine that is
not bounded by a counter is the `do ... while` of
`board_distance_between_no_opponents`; it is embedded with a fuel argument and
an `Option` result (`none` = the loop did not stop within the fuel), and that
result is threaded through every caller.
-/

namespace Reversi

/-! ## Machine arithmetic -/

/-- Base bitboard type (`unsigned __int128`), held as a natural number below `2 ^ 128`. -/
abbrev bitboard_t := Nat

/-- Left shift of an `unsigned __int128`: the bits pushed beyond bit 127 are lost. -/
def shl128 (x n : Nat) : Nat := (x <<< n) % 2 ^ 128

/-- Bitwise complement of an `unsigned __int128`. -/
def not128 (x : Nat) : Nat := (2 ^ 128 - 1) ^^^ x

/-- Wrapping subtraction of `unsigned __int128` values. -/
def sub128 (a b : Nat) : Nat := (a + 2 ^ 128 - b) % 2 ^ 128

/-- Conversion of a `size_t` expression to `int`: the low 32 bits, read in two's complement.
The argument is the mathematical value of the `size_t` expression before its reduction
modulo `2 ^ 64`, which the reduction modulo `2 ^ 32` absorbs. -/
def to_int (x : Int) : Int := (x + 2 ^ 31) % 2 ^ 32 - 2 ^ 31

/-- Value of a `size_t` expression: reduction modulo `2 ^ 64`. -/
def to_size_t (x : Int) : Nat := (x % 2 ^ 64).toNat

/-! ## Data model (`board.h`) -/

def MIN_BOARD_SIZE : Nat := 2

def MAX_BOARD_SIZE : Nat := 10

def DIRECTIONS : Nat := 8

/-- Board discs. -/
inductive disc_t
  | BLACK_DISC
  | WHITE_DISC
  | EMPTY_DISC
  | HINT_DISC
deriving DecidableEq, Repr

/-- A move in the reversi game. -/
structure move_t where
  row : Nat
  column : Nat
deriving DecidableEq, Repr

/-- Score of the game (`unsigned short` fields). -/
structure score_t where
  black : Nat
  white : Nat
deriving DecidableEq, Repr

/-- Internal board structure. -/
structure board_t where
  size : Nat
  player : disc_t
  black : bitboard_t
  white : bitboard_t
  moves : bitboard_t
  next_move : bitboard_t
deriving DecidableEq, Repr

/-- Movement to do in the row in function of the direction. -/
def row_direction (d : Fin 8) : Int :=
  match d with
  | 0 => 1
  | 1 => 1
  | 2 => 0
  | 3 => -1
  | 4 => -1
  | 5 => -1
  | 6 => 0
  | 7 => 1

/-- Movement to do in the column in function of the direction. -/
def column_direction (d : Fin 8) : Int :=
  match d with
  | 0 => 0
  | 1 => -1
  | 2 => -1
  | 3 => -1
  | 4 => 0
  | 5 => 1
  | 6 => 1
  | 7 => 1

/-- The direction indices `0 .. DIRECTIONS - 1`, in loop order. -/
def all_directions : List (Fin 8) := [0, 1, 2, 3, 4, 5, 6, 7]

/-! ## Bitboard primitives (`board.c`) -/

def board_cheak_size (size : Nat) : Bool :=
  decide (size ≥ MIN_BOARD_SIZE) && decide (size ≤ MAX_BOARD_SIZE) && decide (size % 2 = 0)

def shift_north (size : Nat) (bitboard : bitboard_t) : bitboard_t :=
  if !board_cheak_size size then 0
  else
    let ones := sub128 (shl128 1 (size * (size - 1))) 1
    let ones := shl128 ones size
    let first_row := bitboard &&& not128 ones
    let bitboard2 := bitboard &&& ones
    (bitboard2 >>> size) ||| shl128 first_row ((size - 1) * size)

def shift_south (size : Nat) (bitboard : bitboard_t) : bitboard_t :=
  if !board_cheak_size size then 0
  else
    let ones := sub128 (shl128 1 (size * (size - 1))) 1
    let first_row := bitboard &&& not128 ones
    let bitboard2 := bitboard &&& ones
    shl128 bitboard2 size ||| (first_row >>> ((size - 1) * size))

/-- The loop `for (i = 0; i < size - 1; i++) ones |= (ones << size)` of the east and west
shifts, with `n` iterations left. -/
def spread_rows (size : Nat) : Nat → bitboard_t → bitboard_t
  | 0, ones => ones
  | n + 1, ones => spread_rows size n (ones ||| shl128 ones size)

def shift_east (size : Nat) (bitboard : bitboard_t) : bitboard_t :=
  if !board_cheak_size size then 0
  else
    let ones := sub128 (shl128 1 (size - 1)) 1
    let ones := spread_rows size (size - 1) ones
    let last_column := bitboard &&& not128 ones
    let bitboard2 := bitboard &&& ones
    let bitboard2 := shl128 bitboard2 1
    let last_column := last_column >>> (size - 1)
    bitboard2 ||| last_column

def shift_west (size : Nat) (bitboard : bitboard_t) : bitboard_t :=
  if !board_cheak_size size then 0
  else
    let ones := sub128 (shl128 1 (size - 1)) 1
    let ones := shl128 ones 1
    let ones := spread_rows size (size - 1) ones
    let last_column := bitboard &&& not128 ones
    let bitboard2 := bitboard &&& ones
    let bitboard2 := bitboard2 >>> 1
    let last_column := shl128 last_column (size - 1)
    bitboard2 ||| last_column

def shift_nw (size : Nat) (bitboard : bitboard_t) : bitboard_t :=
  shift_north size (shift_west size bitboard)

def shift_sw (size : Nat) (bitboard : bitboard_t) : bitboard_t :=
  shift_south size (shift_west size bitboard)

def shift_se (size : Nat) (bitboard : bitboard_t) : bitboard_t :=
  shift_south size (shift_east size bitboard)

def shift_ne (size : Nat) (bitboard : bitboard_t) : bitboard_t :=
  shift_north size (shift_east size bitboard)

/-- Array of function pointers on directions. -/
def shifts (d : Fin 8) : Nat → bitboard_t → bitboard_t :=
  match d with
  | 0 => shift_north
  | 1 => shift_ne
  | 2 => shift_east
  | 3 => shift_se
  | 4 => shift_south
  | 5 => shift_sw
  | 6 => shift_west
  | 7 => shift_nw

/-- Set the bit (row, column) to 1 in the returned bitboard of size `size`. -/
def set_bitboard (size row column : Nat) : bitboard_t :=
  if !board_cheak_size size || decide (row ≥ size) || decide (column ≥ size) then 0
  else shl128 1 (row * size + column)

/-! ## Move generation -/

/-- The `do ... while` loop of `board_distance_between_no_opponents`; `none` when the fuel
runs out before the loop condition fails. -/
def distance_loop (size : Nat) (direction : Fin 8) (bit : bitboard_t) :
    Nat → bitboard_t → Nat → Option Nat
  | 0, _, _ => none
  | fuel + 1, adversary, gap =>
    let adversary := shifts direction size adversary
    let gap := (gap + 1) % 2 ^ 64
    if adversary &&& bit ≠ 0 then distance_loop size direction bit fuel adversary gap
    else some gap

/-- Find the distance between two no-opponents to know the size associate. -/
def board_distance_between_no_opponents (fuel size : Nat) (opponent : bitboard_t)
    (move : move_t) (direction : Fin 8) : Option Nat :=
  let adversary := opponent
  let bit := set_bitboard size move.row move.column
  distance_loop size direction bit fuel adversary 0

/-- Body of the direction loop of `compute_moves` for the mover disc at (row, col). -/
def compute_moves_dir (fuel size : Nat) (player opponent : bitboard_t) (row col : Nat)
    (possible_moves : bitboard_t) (d : Fin 8) : Option bitboard_t := do
  let gap ← board_distance_between_no_opponents fuel size opponent ⟨row, col⟩ d
  let i := to_int (row + row_direction d * gap)
  let j := to_int (col + column_direction d * gap)
  if gap ≤ 1 ∨ i < 0 ∨ i.toNat ≥ size ∨ j < 0 ∨ j.toNat ≥ size then
    pure possible_moves
  else
    let bit := set_bitboard size i.toNat j.toNat
    if player &&& bit = 0 then pure (possible_moves ||| bit) else pure possible_moves

/-- Body of the column loop of `compute_moves`. -/
def compute_moves_cell (fuel size : Nat) (player opponent : bitboard_t) (row : Nat)
    (possible_moves : bitboard_t) (col : Nat) : Option bitboard_t :=
  if player &&& set_bitboard size row col = 0 then pure possible_moves
  else all_directions.foldlM (compute_moves_dir fuel size player opponent row col) possible_moves

/-- Compute all the possible moves for the current player. -/
def compute_moves (fuel size : Nat) (player opponent : bitboard_t) : Option bitboard_t :=
  (List.range size).foldlM
    (fun possible_moves row =>
      (List.range size).foldlM (compute_moves_cell fuel size player opponent row) possible_moves)
    0

/-! ## Board management -/

/-- Allocate a board of size `size` with empty planes; `none` is the `NULL` result.
Failure of `malloc` is not modelled. -/
def board_alloc (size : Nat) (player : disc_t) : Option board_t :=
  if !board_cheak_size size ||
      (decide (player ≠ disc_t.BLACK_DISC) && decide (player ≠ disc_t.WHITE_DISC)) then none
  else
    some { size := size, player := player, black := 0, white := 0, moves := 0, next_move := 0 }

def board_size (board : board_t) : Nat := board.size

def board_player (board : board_t) : disc_t := board.player

/-- Set the current player and, for a colour, recompute its legal moves. -/
def board_set_player (fuel : Nat) (board : board_t) (player : disc_t) : Option board_t :=
  if player = disc_t.HINT_DISC then some board
  else
    let board := { board with player := player }
    if board.player = disc_t.BLACK_DISC then do
      let moves ← compute_moves fuel board.size board.black board.white
      pure { board with moves := moves }
    else if board.player = disc_t.WHITE_DISC then do
      let moves ← compute_moves fuel board.size board.white board.black
      pure { board with moves := moves }
    else some board

/-- Get the content of the square at the given coordinate. -/
def board_get (board : board_t) (row column : Nat) : disc_t :=
  if row ≥ board.size ∨ column ≥ board.size then disc_t.EMPTY_DISC
  else
    let bit := set_bitboard board.size row column
    if board.black &&& bit ≠ 0 then disc_t.BLACK_DISC
    else if board.white &&& bit ≠ 0 then disc_t.WHITE_DISC
    else if board.moves &&& bit ≠ 0 then disc_t.HINT_DISC
    else disc_t.EMPTY_DISC

/-- The `switch (disc)` of `board_set`: the planes after writing `disc` on the cell `bit`. -/
def board_set_planes (board : board_t) (disc : disc_t) (bit : bitboard_t) : board_t :=
  match disc with
  | disc_t.BLACK_DISC =>
    let board := { board with black := board.black ||| bit }
    { board with white := board.white &&& not128 bit }
  | disc_t.WHITE_DISC =>
    let board := { board with white := board.white ||| bit }
    { board with black := board.black &&& not128 bit }
  | disc_t.EMPTY_DISC =>
    let board := { board with black := board.black &&& not128 bit }
    { board with white := board.white &&& not128 bit }
  | disc_t.HINT_DISC => board

/-- Set the content of the square at the given coordinate. -/
def board_set (fuel : Nat) (board : board_t) (disc : disc_t) (row column : Nat) :
    Option board_t :=
  if row ≥ board.size ∨ column ≥ board.size then some board
  else
    let bit := set_bitboard board.size row column
    let board := board_set_planes board disc bit
    if board.player = disc_t.EMPTY_DISC then some board
    else if board.player = disc_t.BLACK_DISC then do
      let moves ← compute_moves fuel board.size board.black board.white
      pure { board with moves := moves }
    else do
      let moves ← compute_moves fuel board.size board.white board.black
      pure { board with moves := moves }

/-- A SWAR popcount algorithm for one 64-bit half of a bitboard, carried out in
`unsigned __int128` arithmetic as in the source. -/
def popcount_half (copy : bitboard_t) : Nat :=
  let only_3 : bitboard_t := 0x3333333333333333
  let only_5 : bitboard_t := 0x5555555555555555
  let only_0F : bitboard_t := 0x0F0F0F0F0F0F0F0F
  let only_01 : bitboard_t := 0x0101010101010101
  let copy := sub128 copy ((copy >>> 1) &&& only_5)
  let copy := ((copy &&& only_3) + ((copy >>> 2) &&& only_3)) % 2 ^ 128
  let copy := ((copy + (copy >>> 4)) % 2 ^ 128) &&& only_0F
  (((copy * only_01) % 2 ^ 128) >>> 56) &&& 0x7F

/-- A SWAR popcount algorithm for `bitboard_t`. -/
def bitboard_popcount (bitboard : bitboard_t) : Nat :=
  let copy1 := bitboard
  let copy2 := bitboard >>> 64
  (popcount_half copy1 + popcount_half copy2) % 2 ^ 64

/-- Get the score of the given board. -/
def board_score (board : board_t) : score_t :=
  { white := bitboard_popcount board.white % 2 ^ 16,
    black := bitboard_popcount board.black % 2 ^ 16 }

/-- Initialize all the squares of the board as a starting game with the size `size`. -/
def board_init (fuel size : Nat) : Option board_t := do
  let game_board ← board_alloc size disc_t.BLACK_DISC
  let game_board :=
    { game_board with white := set_bitboard size (size / 2 - 1) (size / 2 - 1) }
  let game_board :=
    { game_board with white := game_board.white ||| set_bitboard size (size / 2) (size / 2) }
  let game_board :=
    { game_board with black := set_bitboard size (size / 2 - 1) (size / 2) }
  let game_board :=
    { game_board with black := game_board.black ||| set_bitboard size (size / 2) (size / 2 - 1) }
  let moves ← compute_moves fuel size game_board.black game_board.white
  let game_board := { game_board with moves := moves }
  if size = 2 then pure { game_board with player := disc_t.EMPTY_DISC }
  else pure game_board

/-- Create a copy of the board structure; `none` is the `NULL` result. -/
def board_copy (board : board_t) : Option board_t := do
  let game_board ← board_alloc board.size board.player
  let game_board := { game_board with black := board.black }
  let game_board := { game_board with white := board.white }
  let game_board := { game_board with moves := board.moves }
  pure { game_board with next_move := board.next_move }

/-- Count the number of possible moves for the current player. -/
def board_count_player_moves (board : board_t) : Nat :=
  if board.player ≠ disc_t.WHITE_DISC ∧ board.player ≠ disc_t.BLACK_DISC then 0
  else bitboard_popcount board.moves

/-- Check if a move is valid within the given board. -/
def board_is_move_valid (board : board_t) (move : move_t) : Bool :=
  if board.player ≠ disc_t.WHITE_DISC ∧ board.player ≠ disc_t.BLACK_DISC then false
  else decide (set_bitboard board.size move.row move.column &&& board.moves ≠ 0)

/-- Body of the direction loop of `board_reverse_opponents`; `adversary` and `player` are
the planes read before the loop. -/
def board_reverse_dir (fuel : Nat) (adversary player : bitboard_t) (move : move_t)
    (board : board_t) (d : Fin 8) : Option board_t := do
  let gap ← board_distance_between_no_opponents fuel (board_size board) adversary move d
  let i := to_int (move.row + row_direction d * gap)
  let j := to_int (move.column + column_direction d * gap)
  if gap ≤ 1 ∨ i < 0 ∨ i.toNat ≥ board.size ∨ j < 0 ∨ j.toNat ≥ board.size ∨
      player &&& set_bitboard board.size i.toNat j.toNat = 0 then
    pure board
  else
    (List.range' 1 (gap - 1)).foldlM
      (fun board (t : Nat) =>
        board_set fuel board (board_player board)
          (to_size_t (move.row + t * row_direction d))
          (to_size_t (move.column + t * column_direction d)))
      board

/-- Reverse all the opponents between two player discs. -/
def board_reverse_opponents (fuel : Nat) (board : board_t) (move : move_t) : Option board_t :=
  let adversary :=
    if board_player board = disc_t.BLACK_DISC then board.white else board.black
  let player :=
    if board_player board = disc_t.WHITE_DISC then board.white else board.black
  all_directions.foldlM (board_reverse_dir fuel adversary player move) board

/-- The first part of `board_play`: when the stored mask is empty it is recomputed for a
colour, and the call fails at once for any other mover (`none`). -/
def board_play_refresh (fuel : Nat) (board : board_t) : Option (Option board_t) :=
  if board.moves = 0 then
    match board.player with
    | disc_t.WHITE_DISC => do
      let moves ← compute_moves fuel board.size board.white board.black
      pure (some { board with moves := moves })
    | disc_t.BLACK_DISC => do
      let moves ← compute_moves fuel board.size board.black board.white
      pure (some { board with moves := moves })
    | _ => pure none
  else pure (some board)

/-- The `switch (board->player)` of `board_play` that places the disc, reverses the
opponents and passes the hand; the inner `none` is the `default : return false`. -/
def board_play_place (fuel : Nat) (board : board_t) (move : move_t) :
    Option (Option board_t) :=
  match board.player with
  | disc_t.WHITE_DISC => do
    let board :=
      { board with white := board.white ||| set_bitboard board.size move.row move.column }
    let board ← board_reverse_opponents fuel board move
    let board ← board_set_player fuel board disc_t.BLACK_DISC
    let moves ← compute_moves fuel board.size board.black board.white
    pure (some { board with moves := moves })
  | disc_t.BLACK_DISC => do
    let board :=
      { board with black := board.black ||| set_bitboard board.size move.row move.column }
    let board ← board_reverse_opponents fuel board move
    let board ← board_set_player fuel board disc_t.WHITE_DISC
    let moves ← compute_moves fuel board.size board.white board.black
    pure (some { board with moves := moves })
  | _ => pure none

/-- The pass rule of `board_play`: when the current player has no possible move the hand
goes to the other colour. -/
def board_play_pass (fuel : Nat) (board : board_t) : Option (Option board_t) :=
  if board_count_player_moves board = 0 then
    match board.player with
    | disc_t.WHITE_DISC => do
      let board ← board_set_player fuel board disc_t.BLACK_DISC
      let moves ← compute_moves fuel board.size board.black board.white
      pure (some { board with moves := moves })
    | disc_t.BLACK_DISC => do
      let board ← board_set_player fuel board disc_t.WHITE_DISC
      let moves ← compute_moves fuel board.size board.white board.black
      pure (some { board with moves := moves })
    | _ => pure none
  else pure (some board)

/-- The end of `board_play`: the pass rule, then the end of the game when the opponent cannot
move either. -/
def board_play_finish (fuel : Nat) (board : board_t) : Option (Bool × board_t) := do
  match ← board_play_pass fuel board with
  | none => pure (false, board)
  | some board =>
    if board_count_player_moves board = 0 then do
      let board ← board_set_player fuel board disc_t.EMPTY_DISC
      pure (true, board)
    else pure (true, board)

/-- Apply a move according to the rules.  The result is the returned boolean together with
the board as the call leaves it; `none` when a distance loop ran out of fuel. -/
def board_play (fuel : Nat) (board : board_t) (move : move_t) : Option (Bool × board_t) := do
  match ← board_play_refresh fuel board with
  | none => pure (false, board)
  | some board =>
    if !board_is_move_valid board move then pure (false, board)
    else
      match ← board_play_place fuel board move with
      | none => pure (false, board)
      | some board => board_play_finish fuel board

/-- The scan of `board_next_move`: the first cell, in row-major order, whose bit is in the
cursor. -/
def next_move_scan (size : Nat) (cursor : bitboard_t) : Option (Nat × Nat) :=
  (List.range size).findSome? fun i =>
    (List.range size).findSome? fun j =>
      if set_bitboard size i j &&& cursor ≠ 0 then some (i, j) else none

/-- Return the next move of the enumeration cursor and the board as the call leaves it. -/
def board_next_move (board : board_t) : move_t × board_t :=
  let next_move : move_t := { row := MAX_BOARD_SIZE, column := MAX_BOARD_SIZE }
  if board.moves = 0 then (next_move, board)
  else
    let board :=
      if board.next_move = 0 then { board with next_move := board.moves } else board
    match next_move_scan board.size board.next_move with
    | some (i, j) =>
      ({ row := i, column := j },
        { board with next_move := board.next_move &&& not128 (set_bitboard board.size i j) })
    | none => (next_move, board)


/-! ## Evaluation (`player.c`) -/

/-- Return the difference of the score between the current player and its opponent.  The
values are `int`; for the sizes `board_alloc` accepts every intermediate value is below
`2 ^ 31`, so the additions and the negation are the mathematical ones. -/
def score_heuristic (board : board_t) (player_init : disc_t) : Int :=
  let int_max : Int := to_int (board_size board * board_size board)
  let score := board_score board
  let max_player :=
    if score.black > score.white then disc_t.BLACK_DISC else disc_t.WHITE_DISC
  let abs_score : Int :=
    if score.black > score.white then (score.black : Int) - (score.white : Int)
    else (score.white : Int) - (score.black : Int)
  if board_player board = disc_t.EMPTY_DISC then
    if score.black = score.white then 0
    else if player_init = max_player then int_max + abs_score
    else -(int_max + abs_score)
  else if player_init = max_player then abs_score
  else -abs_score

/-! ## Strategies (`player.c`) -/

/-- The ways a call of a strategy can fail to return a value: a division by zero, a distance
loop or a search out of fuel, and the return of a variable that was never assigned. -/
inductive fault_t
  | division_by_zero
  | out_of_fuel
  | uninitialised
deriving DecidableEq, Repr

/-- Alpha / Beta structure to store the state of both values. -/
structure alpha_beta_t where
  alpha : Int
  beta : Int
deriving DecidableEq, Repr

deriving instance DecidableEq for Except

def infinity : Int := MAX_BOARD_SIZE * MAX_BOARD_SIZE * 3

/-- The statement `board_play (copy, move);` of the searches: the returned boolean is dropped
and the board is kept as the call leaves it. -/
def play_on_copy (fuel : Nat) (copy : board_t) (move : move_t) : Except fault_t board_t :=
  match board_play fuel copy move with
  | some r => Except.ok r.2
  | none => Except.error fault_t.out_of_fuel

/-- The expression `rand () % n`, for the value `rnd` that `rand ()` returns. -/
def rand_mod (rnd n : Nat) : Except fault_t Nat :=
  if n = 0 then Except.error fault_t.division_by_zero else Except.ok (rnd % n)

/-- The `while (cpt_rand != 0)` loop of `random_player`. -/
def random_player_loop : Nat → move_t × board_t → move_t × board_t
  | 0, st => st
  | cpt_rand + 1, st => random_player_loop cpt_rand (board_next_move st.2)

/-- A random AI player that returns a random move; `rnd` is the value of `rand ()`.  The
result is the move together with the board as the call leaves it. -/
def random_player (board : board_t) (rnd : Nat) : Except fault_t (move_t × board_t) :=
  match rand_mod rnd (board_count_player_moves board) with
  | Except.error e => Except.error e
  | Except.ok cpt_rand => Except.ok (random_player_loop cpt_rand (board_next_move board))

/-- The `for` loop of `max`, for the `todo` iterations that remain; `child` is the value the
body gives to the copy after the move. -/
def max_loop (fuel : Nat) (child : board_t → Except fault_t Int) :
    Nat → board_t → Int → Except fault_t Int
  | 0, _, max_value => Except.ok max_value
  | todo + 1, board, max_value =>
    match board_copy (board_next_move board).2 with
    | none => Except.ok (-infinity)
    | some copy =>
      match play_on_copy fuel copy (board_next_move board).1 with
      | Except.error e => Except.error e
      | Except.ok copy =>
        match child copy with
        | Except.error e => Except.error e
        | Except.ok value =>
          max_loop fuel child todo (board_next_move board).2
            (if value > max_value then value else max_value)

/-- The `for` loop of `min`. -/
def min_loop (fuel : Nat) (child : board_t → Except fault_t Int) :
    Nat → board_t → Int → Except fault_t Int
  | 0, _, min_value => Except.ok min_value
  | todo + 1, board, min_value =>
    match board_copy (board_next_move board).2 with
    | none => Except.ok infinity
    | some copy =>
      match play_on_copy fuel copy (board_next_move board).1 with
      | Except.error e => Except.error e
      | Except.ok copy =>
        match child copy with
        | Except.error e => Except.error e
        | Except.ok value =>
          min_loop fuel child todo (board_next_move board).2
            (if value < min_value then value else min_value)

mutual
/-- Return the max score of the children next moves. -/
def max (fuel : Nat) : Nat → board_t → Nat → disc_t → Except fault_t Int
  | 0, _, _, _ => Except.error fault_t.out_of_fuel
  | gas + 1, board, depth, player_init =>
    if depth = 0 ∨ board_player board = disc_t.EMPTY_DISC then
      Except.ok (score_heuristic board player_init)
    else
      max_loop fuel
        (fun copy =>
          if board_player copy = disc_t.EMPTY_DISC then
            Except.ok (score_heuristic copy player_init)
          else if board_player copy = board_player board then
            max fuel gas copy (if depth ≤ 2 then 0 else depth - 2) player_init
          else
            match min fuel gas copy (depth - 1) player_init with
            | Except.error e => Except.error e
            | Except.ok v => Except.ok (-v))
        (board_count_player_moves board) board
        (to_int (-((board_size board * board_size board : Nat) : Int)))
/-- Return the min score of the children next moves. -/
def min (fuel : Nat) : Nat → board_t → Nat → disc_t → Except fault_t Int
  | 0, _, _, _ => Except.error fault_t.out_of_fuel
  | gas + 1, board, depth, player_init =>
    if depth = 0 ∨ board_player board = disc_t.EMPTY_DISC then
      Except.ok (-score_heuristic board player_init)
    else
      min_loop fuel
        (fun copy =>
          if board_player copy = disc_t.EMPTY_DISC then
            Except.ok (-score_heuristic copy player_init)
          else if board_player copy = board_player board then
            min fuel gas copy (if depth ≤ 2 then 0 else depth - 2) player_init
          else
            match max fuel gas copy (depth - 1) player_init with
            | Except.error e => Except.error e
            | Except.ok v => Except.ok (-v))
        (board_count_player_moves board) board
        (to_int ((board_size board * board_size board : Nat) : Int))
end

/-- The body of the `for` loop of `ab_max` once the move is played on the copy: the window
after this child.  `tampon_ab` is written before it is read in every iteration, so it is
local to the body. -/
def ab_max_child (child_max child_min : board_t → alpha_beta_t → Except fault_t alpha_beta_t)
    (player player_init : disc_t) (copy : board_t) (result_ab : alpha_beta_t) :
    Except fault_t alpha_beta_t :=
  if board_player copy = disc_t.EMPTY_DISC then
    let tampon_beta := score_heuristic copy player_init
    Except.ok (if tampon_beta > result_ab.alpha then { result_ab with alpha := tampon_beta }
      else result_ab)
  else if board_player copy = player then
    match child_max copy result_ab with
    | Except.error e => Except.error e
    | Except.ok tampon_ab =>
      Except.ok (if tampon_ab.alpha > result_ab.alpha then
        { result_ab with alpha := tampon_ab.alpha } else result_ab)
  else
    match child_min copy result_ab with
    | Except.error e => Except.error e
    | Except.ok tampon_ab =>
      Except.ok (if tampon_ab.beta > result_ab.alpha then
        { result_ab with alpha := tampon_ab.beta } else result_ab)

/-- The body of the `for` loop of `ab_min` once the move is played on the copy. -/
def ab_min_child (child_min child_max : board_t → alpha_beta_t → Except fault_t alpha_beta_t)
    (opponent player_init : disc_t) (copy : board_t) (result_ab : alpha_beta_t) :
    Except fault_t alpha_beta_t :=
  if board_player copy = disc_t.EMPTY_DISC then
    let tampon_alpha := score_heuristic copy player_init
    Except.ok (if tampon_alpha < result_ab.alpha then { result_ab with beta := tampon_alpha }
      else result_ab)
  else if board_player copy = opponent then
    match child_min copy result_ab with
    | Except.error e => Except.error e
    | Except.ok tampon_ab =>
      Except.ok (if tampon_ab.beta < result_ab.beta then
        { result_ab with beta := tampon_ab.beta } else result_ab)
  else
    match child_max copy result_ab with
    | Except.error e => Except.error e
    | Except.ok tampon_ab =>
      Except.ok (if tampon_ab.alpha < result_ab.beta then
        { result_ab with beta := tampon_ab.alpha } else result_ab)

/-- The `for` loop of `ab_max` and of `ab_min`, for the `todo` iterations that remain;
`child` is the body once the move is played on the copy. -/
def ab_loop (fuel : Nat) (child : board_t → alpha_beta_t → Except fault_t alpha_beta_t) :
    Nat → board_t → alpha_beta_t → Except fault_t alpha_beta_t
  | 0, _, result_ab => Except.ok result_ab
  | todo + 1, board, result_ab =>
    match board_copy (board_next_move board).2 with
    | none => Except.ok { alpha := infinity, beta := -infinity }
    | some copy =>
      match play_on_copy fuel copy (board_next_move board).1 with
      | Except.error e => Except.error e
      | Except.ok copy =>
        match child copy result_ab with
        | Except.error e => Except.error e
        | Except.ok result_ab =>
          if result_ab.alpha ≥ result_ab.beta then Except.ok result_ab
          else ab_loop fuel child todo (board_next_move board).2 result_ab

mutual
/-- Calculate the alpha and beta for a max node. -/
def ab_max (fuel : Nat) :
    Nat → board_t → Nat → alpha_beta_t → disc_t → Except fault_t alpha_beta_t
  | 0, _, _, _, _ => Except.error fault_t.out_of_fuel
  | gas + 1, board, depth, a_b, player_init =>
    if depth = 0 then
      let tampon_alpha := score_heuristic board player_init
      Except.ok (if tampon_alpha > a_b.alpha then { a_b with alpha := tampon_alpha } else a_b)
    else
      ab_loop fuel
        (ab_max_child
          (fun copy result_ab =>
            ab_max fuel gas copy (if depth ≤ 2 then 0 else depth - 2) result_ab player_init)
          (fun copy result_ab => ab_min fuel gas copy (depth - 1) result_ab player_init)
          (board_player board) player_init)
        (board_count_player_moves board) board a_b
/-- Calculate the alpha and beta for a min node. -/
def ab_min (fuel : Nat) :
    Nat → board_t → Nat → alpha_beta_t → disc_t → Except fault_t alpha_beta_t
  | 0, _, _, _, _ => Except.error fault_t.out_of_fuel
  | gas + 1, board, depth, a_b, player_init =>
    if depth = 0 then
      let tampon_beta := score_heuristic board player_init
      Except.ok (if tampon_beta < a_b.beta then { a_b with beta := tampon_beta } else a_b)
    else
      ab_loop fuel
        (ab_min_child
          (fun copy result_ab =>
            ab_min fuel gas copy (if depth ≤ 2 then 0 else depth - 2) result_ab player_init)
          (fun copy result_ab => ab_max fuel gas copy (depth - 1) result_ab player_init)
          (board_player board) player_init)
        (board_count_player_moves board) board a_b
end

/-- The state of the loop of `minimax_player`: the best value so far and the moves that
reach it, which are the `cpt_move` first entries of the array `possible_moves`. -/
structure minimax_state where
  best_value : Int
  possible_moves : List move_t
deriving DecidableEq, Repr

/-- The `for` loop of `minimax_player`; the state `none` is the return of the sentinel when
the copy is `NULL`. -/
def minimax_loop (fuel gas depth_ini : Nat) (player_init : disc_t) :
    Nat → board_t → minimax_state → Except fault_t (Option minimax_state × board_t)
  | 0, board, st => Except.ok (some st, board)
  | todo + 1, board, st =>
    match board_copy (board_next_move board).2 with
    | none => Except.ok (none, (board_next_move board).2)
    | some copy =>
      match play_on_copy fuel copy (board_next_move board).1 with
      | Except.error e => Except.error e
      | Except.ok copy =>
        match min fuel gas copy depth_ini player_init with
        | Except.error e => Except.error e
        | Except.ok v =>
          minimax_loop fuel gas depth_ini player_init todo (board_next_move board).2
            (if -v > st.best_value then
              { best_value := -v, possible_moves := [(board_next_move board).1] }
            else if -v = st.best_value then
              { st with possible_moves := st.possible_moves ++ [(board_next_move board).1] }
            else st)

/-- The depth of `minimax_player` for the size of the board. -/
def minimax_depth (size : Nat) : Nat :=
  if size = 4 then 8 else if size = 6 then 5 else if size = 8 then 4 else 3

/-- A minimax AI player that returns a move computed with the minimax algorithm; `rnd` is the
value of `rand ()`.  The result is the move together with the board as the call leaves
it. -/
def minimax_player (fuel gas : Nat) (board : board_t) (rnd : Nat) :
    Except fault_t (move_t × board_t) :=
  let depth_ini := minimax_depth (board_size board)
  let player_init := board_player board
  let number_max_moves := board_count_player_moves board
  if number_max_moves = 1 then Except.ok (board_next_move board)
  else
    match minimax_loop fuel gas depth_ini player_init number_max_moves board
        { best_value := -infinity, possible_moves := [] } with
    | Except.error e => Except.error e
    | Except.ok (none, board) =>
      Except.ok ({ row := MAX_BOARD_SIZE + 1, column := MAX_BOARD_SIZE + 1 }, board)
    | Except.ok (some st, board) =>
      match rand_mod rnd st.possible_moves.length with
      | Except.error e => Except.error e
      | Except.ok k =>
        Except.ok (st.possible_moves.getD k { row := MAX_BOARD_SIZE, column := MAX_BOARD_SIZE },
          board)

/-- The state of the loop of `ab_main_loop`. -/
structure ab_main_state where
  result_ab : alpha_beta_t
  tampon_ab : alpha_beta_t
  best_move : move_t
deriving DecidableEq, Repr

/-- The `for` loop of `ab_main_loop`, for the searches `search_min` and `search_max` the
index `ai` selects, up to the `return` that follows it. -/
def ab_main_for (fuel : Nat)
    (search_min search_max : board_t → alpha_beta_t → Except fault_t alpha_beta_t)
    (player_init : disc_t) :
    Nat → board_t → ab_main_state → Except fault_t (move_t × board_t)
  | 0, board, st => Except.ok (st.best_move, board)
  | todo + 1, board, st =>
    match board_copy (board_next_move board).2 with
    | none =>
      Except.ok ({ row := MAX_BOARD_SIZE + 1, column := MAX_BOARD_SIZE + 1 },
        (board_next_move board).2)
    | some copy =>
      match play_on_copy fuel copy (board_next_move board).1 with
      | Except.error e => Except.error e
      | Except.ok copy =>
        let finish := fun (tampon_ab : alpha_beta_t) =>
          if tampon_ab.alpha ≥ tampon_ab.beta then
            ab_main_for fuel search_min search_max player_init todo (board_next_move board).2
              { st with tampon_ab := tampon_ab }
          else if tampon_ab.beta > st.result_ab.alpha then
            ab_main_for fuel search_min search_max player_init todo (board_next_move board).2
              { result_ab := { st.result_ab with alpha := tampon_ab.beta },
                tampon_ab := tampon_ab, best_move := (board_next_move board).1 }
          else
            ab_main_for fuel search_min search_max player_init todo (board_next_move board).2
              { st with tampon_ab := tampon_ab }
        if board_player copy = disc_t.EMPTY_DISC then
          if score_heuristic copy player_init > 0 then
            Except.ok ((board_next_move board).1, (board_next_move board).2)
          else if score_heuristic copy player_init < 0 then
            ab_main_for fuel search_min search_max player_init todo (board_next_move board).2 st
          else finish { st.tampon_ab with beta := score_heuristic copy player_init }
        else if board_player copy ≠ player_init then
          match search_min copy st.result_ab with
          | Except.error e => Except.error e
          | Except.ok tampon_ab => finish tampon_ab
        else
          match search_max copy st.result_ab with
          | Except.error e => Except.error e
          | Except.ok tampon_ab => finish tampon_ab

/-- Execute the main loop of `minimax_ab_player`; the searches `search_min` and `search_max`
stand for the entries `ab_min_used[ai]` and `ab_max_used[ai]` of the tables. -/
def ab_main_loop (fuel : Nat)
    (search_min search_max : board_t → alpha_beta_t → Except fault_t alpha_beta_t)
    (board : board_t) (best_move : move_t) : Except fault_t (move_t × board_t) :=
  ab_main_for fuel search_min search_max (board_player board)
    (board_count_player_moves board) board
    { result_ab := { alpha := -infinity, beta := infinity },
      tampon_ab := { alpha := -infinity, beta := infinity }, best_move := best_move }

/-- The depth of `minimax_ab_player` for the size of the board. -/
def minimax_ab_depth (size : Nat) : Nat :=
  if size = 4 then 12 else if size = 6 then 10 else if size = 8 then 7 else 5

/-- A minimax AI player with alpha and beta cuts; `rnd` is the value of `rand ()`. -/
def minimax_ab_player (fuel gas : Nat) (board : board_t) (rnd : Nat) :
    Except fault_t (move_t × board_t) :=
  let depth_ini := minimax_ab_depth (board_size board)
  let player_init := board_player board
  match random_player board rnd with
  | Except.error e => Except.error e
  | Except.ok (best_move, board) =>
    let number_max_moves := board_count_player_moves board
    if number_max_moves = 1 then Except.ok (board_next_move board)
    else
      ab_main_loop fuel
        (fun copy a_b => ab_min fuel gas copy depth_ini a_b player_init)
        (fun copy a_b => ab_max fuel gas copy depth_ini a_b player_init)
        board best_move

/-! ## Corner management (`board.c`) -/

/-- Get the bitboard that contains the bits of all corner positions. -/
def get_corners (size : Nat) : bitboard_t :=
  if !board_cheak_size size then 0
  else
    let corners : bitboard_t := 1
    let corners := shl128 corners (size - 1) ||| corners
    shl128 corners ((size - 1) * size) ||| corners

/-- Test if the move is a corner. -/
def is_corner (size : Nat) (move : move_t) : Bool :=
  decide (set_bitboard size move.row move.column &&& get_corners size ≠ 0)

/-- Convert the i-th corner as a move. -/
def get_corner_as_move (size : Nat) (i : Int) : move_t :=
  if i < 0 ∨ i > 3 ∨ board_cheak_size size = false then
    { row := MAX_BOARD_SIZE, column := MAX_BOARD_SIZE }
  else
    { row := if i < 2 then 0 else size - 1,
      column := if i % 2 = 1 then size - 1 else 0 }

/-- Compute if the next board has a joint movement with the actual board. -/
def joint_movement (actual_board next_board : board_t) : bitboard_t :=
  if board_player actual_board = board_player next_board then 0
  else actual_board.moves &&& next_board.moves

/-- Cast all the corner player moves as a bitboard. -/
def get_playable_corners (actual_board : board_t) : bitboard_t :=
  actual_board.moves &&& get_corners (board_size actual_board)

/-- The body of the loop of `get_corners_to_exam` for the corner of index `i`.  When the copy
is `NULL`, `board_play` and `joint_movement` return at once and the joint movement is 0. -/
def corners_step (fuel : Nat) (board : board_t) (playable_corner : bitboard_t)
    (corners : List bitboard_t) (dangerous_corner : bitboard_t) (i : Nat) :
    Option bitboard_t :=
  if corners.getD i 0 &&& playable_corner = corners.getD i 0 then
    match board_copy board with
    | none => some (dangerous_corner ||| (playable_corner &&& 0))
    | some copy =>
      match board_play fuel copy (get_corner_as_move (board_size board) i) with
      | none => none
      | some r =>
        some (dangerous_corner ||| (playable_corner &&& joint_movement board r.2))
  else some dangerous_corner

/-- Compute the corner moves the player needs to protect, as a bitboard; `none` when a
distance loop ran out of fuel. -/
def get_corners_to_exam (fuel : Nat) (board : board_t) : Option bitboard_t :=
  let playable_corner := get_playable_corners board
  if playable_corner = 0 ∨ bitboard_popcount playable_corner = 1 then some playable_corner
  else
    let size := board_size board
    let corner0 : bitboard_t := 1
    let corner1 := shl128 corner0 (size - 1)
    let corner3 := shl128 corner0 (size * size - 1)
    let corner2 := corner3 >>> (size - 1)
    match [0, 1, 2, 3].foldlM
        (corners_step fuel board playable_corner [corner0, corner1, corner2, corner3]) 0 with
    | none => none
    | some dangerous_corner =>
      if dangerous_corner = 0 then some playable_corner else some dangerous_corner

/-! ## Border management (`board.c`) -/

/-- Create the array of the bitboards of the north, south, east and west borders.  The
allocation is taken to succeed. -/
def get_borders (size : Nat) : List bitboard_t :=
  if !board_cheak_size size then [0, 0, 0, 0]
  else
    let one : bitboard_t := 1
    let north := sub128 (shl128 one size) 1
    let south := shl128 north ((size - 1) * size)
    let west := (List.range (size - 1)).foldl (fun west _ => shl128 west size ||| one) one
    let east := shl128 west (size - 1)
    [north, south, east, west]

/-- Get the initial position of the four borders. -/
def get_boarders_init (size : Nat) : List bitboard_t :=
  if !board_cheak_size size then [0, 0, 0, 0]
  else
    let north : bitboard_t := 1
    let west := north
    let south := shl128 north (size * (size - 1))
    let east := shl128 north (size - 1)
    [north, south, east, west]

/-- Get the distance between two points of the four borders; `none` is the `NULL` result. -/
def get_borders_increment (size : Nat) : Option (List Nat) :=
  if !board_cheak_size size then none else some [1, 1, size, size]

/-- The `while` loop of `get_border_as_move`: the number of shifts of `bit_test` until it
meets `bit`; `none` when the fuel runs out. -/
def border_scan (bit : bitboard_t) (increment : Nat) : Nat → bitboard_t → Nat → Option Nat
  | 0, _, _ => none
  | fuel + 1, bit_test, cpt =>
    if bit_test &&& bit ≠ bit then
      border_scan bit increment fuel (shl128 bit_test increment) (cpt + 1)
    else some cpt

/-- Transform a bitboard of a border into a move; `none` when the loop ran out of fuel.  The
entry `borders[border]` is read before the range of `border` is tested; it is 0 here outside
the array. -/
def get_border_as_move (fuel : Nat) (bit : bitboard_t) (size : Nat) (border : Int) :
    Option move_t :=
  let borders := get_borders size
  let test := decide (borders.getD border.toNat 0 &&& bit = bit)
  if bitboard_popcount bit ≠ 1 ∨ board_cheak_size size = false ∨ border < 0 ∨ border > 3 ∨
      test = false then
    some { row := MAX_BOARD_SIZE, column := MAX_BOARD_SIZE }
  else
    let bit_test : bitboard_t :=
      if border = 0 then 1
      else if border = 1 then shl128 1 (size * (size - 1))
      else if border = 2 then shl128 1 (size - 1)
      else 1
    let increment := if border = 0 ∨ border = 1 then 1 else size
    match border_scan bit increment fuel bit_test 0 with
    | none => none
    | some cpt =>
      if border < 2 then some { row := if border = 0 then 0 else size - 1, column := cpt }
      else some { row := cpt, column := if border = 2 then size - 1 else 0 }

/-- The loop of `get_interesting_borders` that looks for the first ally, from the position
`k` down to the position 1. -/
def first_ally_loop (init : bitboard_t) (increment : Nat) (new_player : bitboard_t) :
    Nat → bitboard_t → bitboard_t
  | 0, first_ally => first_ally
  | k + 1, first_ally =>
    let tmp := shl128 init ((k + 1) * increment)
    if tmp &&& new_player = 0 then first_ally
    else first_ally_loop init increment new_player k tmp

/-- The loop of `get_interesting_borders` that looks for the last ally, from the position `k`
for the `todo` positions up to the end of the border. -/
def last_ally_loop (init : bitboard_t) (increment : Nat) (new_player : bitboard_t) :
    Nat → Nat → bitboard_t → bitboard_t
  | 0, _, last_ally => last_ally
  | todo + 1, k, last_ally =>
    let tmp := shl128 init (k * increment)
    if tmp &&& new_player = 0 then last_ally
    else last_ally_loop init increment new_player todo (k + 1) tmp

/-- The tests of the inner loop of `get_interesting_borders` on the copy after the move on the
position `j` of the border `i`, of bit `bit`: whether the bit is added to the result. -/
def borders_test (board copy : board_t) (borders borders_init : List bitboard_t)
    (increment : List Nat) (i j : Nat) (bit : bitboard_t) : Bool :=
  let size := board_size board
  let player := board_player board
  if board_player copy = disc_t.EMPTY_DISC then
    let score : Int :=
      to_int ((bitboard_popcount copy.black : Int) - bitboard_popcount copy.white)
    let score := if player = disc_t.BLACK_DISC then score else -score
    decide (score ≥ 0)
  else
    let new_opponent := if player = disc_t.BLACK_DISC then copy.white else copy.black
    let new_player := if player = disc_t.BLACK_DISC then copy.black else copy.white
    let opponent_move := if player = board_player copy then 0 else copy.moves
    if opponent_move = 0 ∨ (new_opponent ||| opponent_move) &&& borders.getD i 0 = 0 then true
    else
      let first_ally :=
        first_ally_loop (borders_init.getD i 0) (increment.getD i 0) new_player (j - 1) bit
      let last_ally :=
        last_ally_loop (borders_init.getD i 0) (increment.getD i 0) new_player
          (size - (j + 1)) (j + 1) bit
      decide (first_ally = borders_init.getD i 0) ||
        decide (last_ally = shl128 (borders_init.getD i 0) ((size - 1) * increment.getD i 0)) ||
        (decide ((first_ally >>> increment.getD i 0) &&& new_opponent ≠ 0) &&
          decide (shl128 last_ally (increment.getD i 0) &&& new_opponent ≠ 0)) ||
        (decide ((first_ally >>> increment.getD i 0) &&& opponent_move ≠ 0) &&
          decide (shl128 last_ally (increment.getD i 0) &&& opponent_move ≠ 0))

/-- The body of the inner loop of `get_interesting_borders`, for the position `j` of the
border `i`. -/
def borders_cell (fuel : Nat) (board : board_t) (borders borders_init : List bitboard_t)
    (increment : List Nat) (i : Nat) (playable_border : bitboard_t)
    (interesting_borders : bitboard_t) (j : Nat) : Option bitboard_t :=
  let bit := shl128 (borders_init.getD i 0) (j * increment.getD i 0)
  if bit &&& playable_border = 0 then some interesting_borders
  else
    match get_border_as_move fuel bit (board_size board) i with
    | none => none
    | some move =>
      match board_copy board with
      | none => some interesting_borders
      | some copy =>
        match board_play fuel copy move with
        | none => none
        | some r =>
          if borders_test board r.2 borders borders_init increment i j bit then
            some (interesting_borders ||| bit)
          else some interesting_borders

/-- The body of the outer loop of `get_interesting_borders`, for the border `i`. -/
def borders_line (fuel : Nat) (board : board_t) (borders borders_init : List bitboard_t)
    (increment : List Nat) (interesting_borders : bitboard_t) (i : Nat) : Option bitboard_t :=
  let playable_border := borders.getD i 0 &&& board.moves
  if playable_border = 0 then some interesting_borders
  else
    (List.range' 1 (board_size board - 2)).foldlM
      (borders_cell fuel board borders borders_init increment i playable_border)
      interesting_borders

/-- Compute all the interesting borders that are safe to play; `none` when a loop ran out of
fuel. -/
def get_interesting_borders (fuel : Nat) (board : board_t) : Option bitboard_t :=
  if board_player board = disc_t.EMPTY_DISC then some 0
  else
    match get_borders_increment (board_size board) with
    | none => some 0
    | some increment =>
      [0, 1, 2, 3].foldlM
        (borders_line fuel board (get_borders (board_size board))
          (get_boarders_init (board_size board)) increment) 0

/-! ## Newton tactics (`player.c`) -/

/-- The `for` loop of `newton_max` and of `newton_min`, for the `todo` iterations that
remain; `early` is the return on a corner move, tested before the copy, and `child` is the
body once the move is played on the copy. -/
def newton_loop (fuel : Nat) (early : move_t → Option alpha_beta_t)
    (child : board_t → alpha_beta_t → Except fault_t alpha_beta_t) :
    Nat → board_t → alpha_beta_t → Except fault_t alpha_beta_t
  | 0, _, result_ab => Except.ok result_ab
  | todo + 1, board, result_ab =>
    match early (board_next_move board).1 with
    | some r => Except.ok r
    | none =>
      match board_copy (board_next_move board).2 with
      | none => Except.ok { alpha := infinity, beta := -infinity }
      | some copy =>
        match play_on_copy fuel copy (board_next_move board).1 with
        | Except.error e => Except.error e
        | Except.ok copy =>
          match child copy result_ab with
          | Except.error e => Except.error e
          | Except.ok result_ab =>
            if result_ab.alpha ≥ result_ab.beta then Except.ok result_ab
            else newton_loop fuel early child todo (board_next_move board).2 result_ab

mutual
/-- Calculate the alpha and beta for a max node in `newton_player`; `depth_ini` is the value
of the global of that name. -/
def newton_max (fuel depth_ini : Nat) :
    Nat → board_t → Nat → alpha_beta_t → disc_t → Except fault_t alpha_beta_t
  | 0, _, _, _, _ => Except.error fault_t.out_of_fuel
  | gas + 1, board, depth, a_b, player_init =>
    if depth = 0 then
      let tampon_alpha := score_heuristic board player_init
      Except.ok (if tampon_alpha > a_b.alpha then { a_b with alpha := tampon_alpha } else a_b)
    else
      newton_loop fuel
        (fun move =>
          if is_corner (board_size board) move = true ∧
              depth = to_size_t ((depth_ini : Int) - 2) then
            some { alpha := to_int ((board_size board * board_size board : Nat) : Int),
                   beta := a_b.beta }
          else none)
        (ab_max_child
          (fun copy result_ab =>
            newton_max fuel depth_ini gas copy (if depth ≤ 2 then 0 else depth - 2) result_ab
              player_init)
          (fun copy result_ab =>
            newton_min fuel depth_ini gas copy (depth - 1) result_ab player_init)
          (board_player board) player_init)
        (board_count_player_moves board) board a_b
/-- Calculate the alpha and beta for a min node in `newton_player`. -/
def newton_min (fuel depth_ini : Nat) :
    Nat → board_t → Nat → alpha_beta_t → disc_t → Except fault_t alpha_beta_t
  | 0, _, _, _, _ => Except.error fault_t.out_of_fuel
  | gas + 1, board, depth, a_b, player_init =>
    if depth = 0 then
      let tampon_beta := score_heuristic board player_init
      Except.ok (if tampon_beta < a_b.beta then { a_b with beta := tampon_beta } else a_b)
    else
      newton_loop fuel
        (fun move =>
          if is_corner (board_size board) move = true ∧
              depth = to_size_t ((depth_ini : Int) - 1) then
            some { alpha := infinity, beta := -infinity }
          else none)
        (ab_min_child
          (fun copy result_ab =>
            newton_min fuel depth_ini gas copy (if depth ≤ 2 then 0 else depth - 2) result_ab
              player_init)
          (fun copy result_ab =>
            newton_max fuel depth_ini gas copy (depth - 1) result_ab player_init)
          (board_player board) player_init)
        (board_count_player_moves board) board a_b
end

/-- The `for` loop of `newton_corner_loop` over the corners of the indices that remain, up to
the `return` that follows it. -/
def newton_corner_for (fuel : Nat)
    (search_min search_max : board_t → alpha_beta_t → Except fault_t alpha_beta_t)
    (board : board_t) (corners : List bitboard_t) (corner : bitboard_t) :
    List Nat → ab_main_state → Except fault_t move_t
  | [], st => Except.ok st.best_move
  | i :: rest, st =>
    if corner &&& corners.getD i 0 = 0 then
      newton_corner_for fuel search_min search_max board corners corner rest st
    else
      match board_copy board with
      | none => Except.ok { row := MAX_BOARD_SIZE + 1, column := MAX_BOARD_SIZE + 1 }
      | some copy =>
        match play_on_copy fuel copy (get_corner_as_move (board_size board) i) with
        | Except.error e => Except.error e
        | Except.ok copy =>
          let finish := fun (tampon_ab : alpha_beta_t) =>
            if tampon_ab.alpha ≥ tampon_ab.beta then
              newton_corner_for fuel search_min search_max board corners corner rest
                { st with tampon_ab := tampon_ab }
            else if tampon_ab.beta > st.result_ab.alpha then
              newton_corner_for fuel search_min search_max board corners corner rest
                { result_ab := { st.result_ab with alpha := tampon_ab.beta },
                  tampon_ab := tampon_ab,
                  best_move := get_corner_as_move (board_size board) i }
            else
              newton_corner_for fuel search_min search_max board corners corner rest
                { st with tampon_ab := tampon_ab }
          if board_player copy = disc_t.EMPTY_DISC then
            if score_heuristic copy (board_player board) > 0 then
              Except.ok (get_corner_as_move (board_size board) i)
            else if score_heuristic copy (board_player board) < 0 then
              newton_corner_for fuel search_min search_max board corners corner rest st
            else finish { st.tampon_ab with beta := score_heuristic copy (board_player board) }
          else if board_player copy ≠ board_player board then
            match search_min copy st.result_ab with
            | Except.error e => Except.error e
            | Except.ok tampon_ab => finish tampon_ab
          else
            match search_max copy st.result_ab with
            | Except.error e => Except.error e
            | Except.ok tampon_ab => finish tampon_ab

/-- Make the loop on all possible and interesting corners that the AI can play. -/
def newton_corner_loop (fuel : Nat)
    (search_min search_max : board_t → alpha_beta_t → Except fault_t alpha_beta_t)
    (board : board_t) (best_move : move_t) (corners : List bitboard_t) (corner : bitboard_t) :
    Except fault_t move_t :=
  newton_corner_for fuel search_min search_max board corners corner [0, 1, 2, 3]
    { result_ab := { alpha := -infinity, beta := infinity },
      tampon_ab := { alpha := -infinity, beta := infinity }, best_move := best_move }

/-- The state of the loops of `newton_border_loop`; `best_move` is `none` as long as
the variable was not assigned. -/
structure border_state where
  result_ab : alpha_beta_t
  tampon_ab : alpha_beta_t
  best_move : Option move_t
deriving DecidableEq, Repr

/-- The two nested `for` loops of `newton_border_loop`, over the cells (i, j) that remain in
the order of the loops, up to the `return` that follows them: the `break` with `out` set
leaves both loops. -/
def newton_border_for (fuel : Nat)
    (search_min search_max : board_t → alpha_beta_t → Except fault_t alpha_beta_t)
    (playable_borders : bitboard_t) (board : board_t) (borders borders_init : List bitboard_t)
    (increment : List Nat) :
    List (Nat × Nat) → border_state → Except fault_t move_t
  | [], st =>
    match st.best_move with
    | some move => Except.ok move
    | none => Except.error fault_t.uninitialised
  | (i, j) :: rest, st =>
    if borders.getD i 0 &&& playable_borders = 0 then
      newton_border_for fuel search_min search_max playable_borders board borders borders_init
        increment rest st
    else if shl128 (borders_init.getD i 0) (j * increment.getD i 0) &&& playable_borders ≠
        shl128 (borders_init.getD i 0) (j * increment.getD i 0) then
      newton_border_for fuel search_min search_max playable_borders board borders borders_init
        increment rest st
    else
      match get_border_as_move fuel (shl128 (borders_init.getD i 0) (j * increment.getD i 0))
          (board_size board) i with
      | none => Except.error fault_t.out_of_fuel
      | some move =>
        match board_copy board with
        | none => Except.ok { row := MAX_BOARD_SIZE + 1, column := MAX_BOARD_SIZE + 1 }
        | some copy =>
          match play_on_copy fuel copy move with
          | Except.error e => Except.error e
          | Except.ok copy =>
            let finish := fun (tampon_ab : alpha_beta_t) =>
              if tampon_ab.alpha ≥ tampon_ab.beta then
                newton_border_for fuel search_min search_max playable_borders board borders
                  borders_init increment rest { st with tampon_ab := tampon_ab }
              else if tampon_ab.beta > st.result_ab.alpha then
                newton_border_for fuel search_min search_max playable_borders board borders
                  borders_init increment rest
                  { result_ab := { st.result_ab with alpha := tampon_ab.beta },
                    tampon_ab := tampon_ab, best_move := some move }
              else
                newton_border_for fuel search_min search_max playable_borders board borders
                  borders_init increment rest { st with tampon_ab := tampon_ab }
            if board_player copy = disc_t.EMPTY_DISC then
              if score_heuristic copy (board_player board) > 0 then Except.ok move
              else if score_heuristic copy (board_player board) < 0 then
                newton_border_for fuel search_min search_max playable_borders board borders
                  borders_init increment rest st
              else finish { st.tampon_ab with beta := score_heuristic copy (board_player board) }
            else if board_player copy ≠ board_player board then
              match search_min copy st.result_ab with
              | Except.error e => Except.error e
              | Except.ok tampon_ab => finish tampon_ab
            else
              match search_max copy st.result_ab with
              | Except.error e => Except.error e
              | Except.ok tampon_ab => finish tampon_ab

/-- Make the loop on all possible and interesting borders that the AI can play. -/
def newton_border_loop (fuel : Nat)
    (search_min search_max : board_t → alpha_beta_t → Except fault_t alpha_beta_t)
    (playable_borders : bitboard_t) (board : board_t) : Except fault_t move_t :=
  match get_borders_increment (board_size board) with
  | none => Except.ok { row := MAX_BOARD_SIZE, column := MAX_BOARD_SIZE }
  | some increment =>
    newton_border_for fuel search_min search_max playable_borders board
      (get_borders (board_size board)) (get_boarders_init (board_size board)) increment
      (([0, 1, 2, 3] : List Nat).flatMap fun i =>
        (List.range' 1 (board_size board - 2)).map fun j => (i, j))
      { result_ab := { alpha := -infinity, beta := infinity },
        tampon_ab := { alpha := -infinity, beta := infinity }, best_move := none }

/-- The depth of `newton_player` for the size of the board. -/
def newton_depth (size : Nat) : Nat :=
  if size = 4 then 12 else if size = 6 then 10 else if size = 8 then 7 else 5

/-- The end of `newton_player`, from the management of the borders on. -/
def newton_player_borders (fuel : Nat)
    (search_min search_max : board_t → alpha_beta_t → Except fault_t alpha_beta_t)
    (board : board_t) (best_move : move_t) : Except fault_t (move_t × board_t) :=
  match get_interesting_borders fuel board with
  | none => Except.error fault_t.out_of_fuel
  | some interesting_borders =>
    let count := bitboard_popcount interesting_borders
    let main := ab_main_loop fuel search_min search_max board best_move
    if count = 1 then
      match ([0, 1, 2, 3] : List Nat).find? (fun i =>
          decide ((get_borders (board_size board)).getD i 0 &&& interesting_borders =
            interesting_borders)) with
      | some i =>
        match get_border_as_move fuel interesting_borders (board_size board) i with
        | none => Except.error fault_t.out_of_fuel
        | some move => Except.ok (move, board)
      | none => main
    else if count > 1 then
      match newton_border_loop fuel search_min search_max interesting_borders board with
      | Except.error e => Except.error e
      | Except.ok move => Except.ok (move, board)
    else main

/-- A minimax AI player with alpha and beta cuts in which the corners and the borders are
weighed; `rnd` is the value of `rand ()`. -/
def newton_player (fuel gas : Nat) (board : board_t) (rnd : Nat) :
    Except fault_t (move_t × board_t) :=
  let depth_ini := newton_depth (board_size board)
  let player_init := board_player board
  match random_player board rnd with
  | Except.error e => Except.error e
  | Except.ok (best_move, board) =>
    let number_max_moves := board_count_player_moves board
    if number_max_moves = 1 then Except.ok (board_next_move board)
    else
      let size := board_size board
      match get_corners_to_exam fuel board with
      | none => Except.error fault_t.out_of_fuel
      | some corner =>
        let count := bitboard_popcount corner
        let corner0 : bitboard_t := 1
        let corner1 := shl128 corner0 (size - 1)
        let corner3 := shl128 corner0 (size * size - 1)
        let corner2 := corner3 >>> (size - 1)
        let corners := [corner0, corner1, corner2, corner3]
        let search_min := fun copy a_b =>
          newton_min fuel depth_ini gas copy depth_ini a_b player_init
        let search_max := fun copy a_b =>
          newton_max fuel depth_ini gas copy depth_ini a_b player_init
        if count = 1 then
          match ([0, 1, 2, 3] : List Nat).find? (fun i =>
              decide (corner &&& corners.getD i 0 = corners.getD i 0)) with
          | some i => Except.ok (get_corner_as_move size i, board)
          | none => newton_player_borders fuel search_min search_max board best_move
        else if count > 1 then
          match newton_corner_loop fuel search_min search_max board best_move corners corner with
          | Except.error e => Except.error e
          | Except.ok move => Except.ok (move, board)
        else newton_player_borders fuel search_min search_max board best_move

/-! ## Auxiliary notions used by the statements -/

/-- A bitboard is confined to the `s × s` cells when it has no bit at index `s * s` or above. -/
def Confined (s : Nat) (b : bitboard_t) : Prop := b < 2 ^ (s * s)

/-- The mask `ones` of `shift_north`: the cells of every row but the first. -/
def north_ones (s : Nat) : bitboard_t := shl128 (sub128 (shl128 1 (s * (s - 1))) 1) s

/-- The mask `ones` of `shift_south`: the cells of every row but the last. -/
def south_ones (s : Nat) : bitboard_t := sub128 (shl128 1 (s * (s - 1))) 1

/-- The mask `ones` of `shift_east`: the cells of every column but the last. -/
def east_ones (s : Nat) : bitboard_t := spread_rows s (s - 1) (sub128 (shl128 1 (s - 1)) 1)

/-- The mask `ones` of `shift_west`: the cells of every column but the first. -/
def west_ones (s : Nat) : bitboard_t :=
  spread_rows s (s - 1) (shl128 (sub128 (shl128 1 (s - 1)) 1) 1)

/-- Wrap an integer coordinate around a board of side `s`. -/
def wrap (s : Nat) (x : Int) : Nat := (x % (s : Int)).toNat

/-- Index of the cell reached from (r, c) after `k` cyclic steps in direction `d`. -/
def cyc (s r c : Nat) (d : Fin 8) (k : Nat) : Nat :=
  wrap s (r + k * row_direction d) * s + wrap s (c + k * column_direction d)

/-- The value the distance loop returns from the cell (r, c) in direction `d`, read off a run
with fuel `s`. -/
def gap_of (s : Nat) (o : bitboard_t) (r c : Nat) (d : Fin 8) : Nat :=
  (board_distance_between_no_opponents s s o ⟨r, c⟩ d).getD 0

/-- Bitwise union of the values of `g` over a list. -/
def orAll {α : Type} (g : α → Nat) : List α → Nat
  | [] => 0
  | x :: l => g x ||| orAll g l

/-- What one direction adds to the mask in `compute_moves`, for the mover disc at (r, c). -/
def dir_contrib (s : Nat) (p o : bitboard_t) (r c : Nat) (d : Fin 8) : Nat :=
  let gap := gap_of s o r c d
  let i := to_int (r + row_direction d * gap)
  let j := to_int (c + column_direction d * gap)
  if gap ≤ 1 ∨ i < 0 ∨ i.toNat ≥ s ∨ j < 0 ∨ j.toNat ≥ s then 0
  else if p &&& set_bitboard s i.toNat j.toNat = 0 then set_bitboard s i.toNat j.toNat else 0

/-- What the cell (r, c) adds to the mask in `compute_moves`. -/
def cell_contrib (s : Nat) (p o : bitboard_t) (r c : Nat) : Nat :=
  if p &&& set_bitboard s r c = 0 then 0 else orAll (dir_contrib s p o r c) all_directions

/-- The mask `compute_moves` returns when its distance loops stop. -/
def moves_of (s : Nat) (p o : bitboard_t) : Nat :=
  orAll (fun r => orAll (cell_contrib s p o r) (List.range s)) (List.range s)

/-- The bit of the cell (x, y) in the plane `b`, false outside the board: cells are addressed
by integers so that a step off the board is visible instead of wrapping around. -/
def cellAt (s : Nat) (b : bitboard_t) (x y : Int) : Bool :=
  decide (0 ≤ x ∧ x < s ∧ 0 ≤ y ∧ y < s) && b.testBit (x.toNat * s + y.toNat)

/-- Stepping from (r, c) in direction `d` inside the board passes over exactly `k ≥ 1`
consecutive discs of `o` and then reaches a disc of `p`. -/
def Flanks (s : Nat) (p o : bitboard_t) (r c : Int) (d : Fin 8) (k : Nat) : Prop :=
  1 ≤ k ∧
    (∀ j : Nat, 1 ≤ j → j ≤ k →
      cellAt s o (r + j * row_direction d) (c + j * column_direction d) = true) ∧
    cellAt s p (r + (k + 1 : Nat) * row_direction d) (c + (k + 1 : Nat) * column_direction d) =
      true

/-- The rule of the game: (r, c) is empty and flanks a run of opponent discs in at least one
of the 8 directions. -/
def Legal (s : Nat) (p o : bitboard_t) (r c : Nat) : Prop :=
  cellAt s p r c = false ∧ cellAt s o r c = false ∧ ∃ d k, Flanks s p o r c d k

/-- The direction opposite to `d`. -/
def opposite (d : Fin 8) : Fin 8 := d + 4

/-- First SWAR step with the mask `m`: pair sums. -/
def swar1 (m x : Nat) : Nat := x - ((x >>> 1) &&& m)

/-- Second SWAR step with the mask `m`: nibble sums. -/
def swar2 (m y : Nat) : Nat := (y &&& m) + ((y >>> 2) &&& m)

/-- Third SWAR step with the mask `m`: byte sums. -/
def swar3 (m z : Nat) : Nat := (z + (z >>> 4)) &&& m

/-- The byte `b` repeated `n` times. -/
def rep (b : Nat) : Nat → Nat
  | 0 => 0
  | n + 1 => b + 256 * rep b n

/-- The three SWAR steps on a single byte. -/
def pc8 (lo : Nat) : Nat := swar3 0x0F (swar2 0x33 (swar1 0x55 lo))

/-- The three SWAR steps with the masks `m5`, `m3` and `mF`. -/
def swar (m5 m3 mF x : Nat) : Nat := swar3 mF (swar2 m3 (swar1 m5 x))

/-- The per-byte counts of the `n` lowest bytes of `x`, each in its own byte. -/
def byte_sums : Nat → Nat → Nat
  | 0, _ => 0
  | n + 1, x => pc8 (x % 256) + 256 * byte_sums n (x / 256)

/-- The sum of the per-byte counts of the `n` lowest bytes of `x`. -/
def byte_total : Nat → Nat → Nat
  | 0, _ => 0
  | n + 1, x => pc8 (x % 256) + byte_total n (x / 256)

/-- Number of set bits among the `k` lowest bits. -/
def bits (k x : Nat) : Nat := (List.range k).countP (fun i => x.testBit i)

/-- Number of set bits of a 128-bit bitboard. -/
def popcount_spec (b : bitboard_t) : Nat := (List.range 128).countP (fun i => b.testBit i)

/-- The planes of a board are well formed: valid size, both planes confined to the board and
disjoint. -/
structure PlanesOK (b : board_t) : Prop where
  size_ok : board_cheak_size b.size = true
  black_in : Confined b.size b.black
  white_in : Confined b.size b.white
  disjoint : b.black &&& b.white = 0

/-- The stored mask is the one `compute_moves` gives for the mover on the current planes. -/
def MaskFresh (b : board_t) : Prop :=
  (b.player = disc_t.BLACK_DISC → b.moves = moves_of b.size b.black b.white) ∧
    (b.player = disc_t.WHITE_DISC → b.moves = moves_of b.size b.white b.black)

/-- The plane of the mover, as `board_reverse_opponents` reads it. -/
def mover_plane (b : board_t) : bitboard_t :=
  if b.player = disc_t.WHITE_DISC then b.white else b.black

/-- The plane of the opponent, as `board_reverse_opponents` reads it. -/
def other_plane (b : board_t) : bitboard_t :=
  if b.player = disc_t.BLACK_DISC then b.white else b.black

/-- The invariant of the loops of `board_reverse_opponents`. -/
def Steady (s : Nat) (pl : disc_t) (nm : bitboard_t) (b : board_t) : Prop :=
  PlanesOK b ∧ b.size = s ∧ b.player = pl ∧ b.next_move = nm

/-- The cells one direction of `board_reverse_opponents` reverses: those strictly between the
move and the end of the run, when the run the distance loop found has at least one disc and
ends inside the board on a disc of `pl`. -/
def FlipDir (s : Nat) (adv pl : bitboard_t) (mr mc : Nat) (d : Fin 8) (i : Nat) : Prop :=
  2 ≤ gap_of s adv mr mc d ∧
    cellAt s pl (mr + (gap_of s adv mr mc d : Nat) * row_direction d)
      (mc + (gap_of s adv mr mc d : Nat) * column_direction d) = true ∧
    ∃ t : Nat, 1 ≤ t ∧ t < gap_of s adv mr mc d ∧
      i = ((mr : Int) + t * row_direction d).toNat * s +
        ((mc : Int) + t * column_direction d).toNat

/-- The other colour. -/
def opponent_of (d : disc_t) : disc_t :=
  match d with
  | disc_t.BLACK_DISC => disc_t.WHITE_DISC
  | disc_t.WHITE_DISC => disc_t.BLACK_DISC
  | d => d

/-- The plane of a colour. -/
def plane_of (b : board_t) (d : disc_t) : bitboard_t :=
  match d with
  | disc_t.BLACK_DISC => b.black
  | disc_t.WHITE_DISC => b.white
  | _ => 0

/-- The opponent discs a move on (mr, mc) reverses by the rule: those on an unbroken run
inside the board, in one of the 8 directions, strictly between the move and a mover disc. -/
def Flipped (s : Nat) (p o : bitboard_t) (mr mc : Nat) (i : Nat) : Prop :=
  ∃ (d : Fin 8) (k t : Nat), Flanks s p o mr mc d k ∧ 1 ≤ t ∧ t ≤ k ∧
    i = ((mr : Int) + t * row_direction d).toNat * s +
      ((mc : Int) + t * column_direction d).toNat

/-- The colour has at least one legal move by the rule. -/
def HasMove (s : Nat) (p o : bitboard_t) : Prop :=
  ∃ r c, r < s ∧ c < s ∧ Legal s p o r c

/-- The boards the interface can produce: from `board_init` or `board_alloc`, by any sequence
of `board_set`, `board_set_player`, `board_play`, `board_next_move` and `board_copy` calls
that return. -/
inductive Reachable (fuel : Nat) : board_t → Prop
  | init (size : Nat) (b : board_t) : board_init fuel size = some b → Reachable fuel b
  | alloc (size : Nat) (player : disc_t) (b : board_t) :
      board_alloc size player = some b → Reachable fuel b
  | set (b : board_t) (disc : disc_t) (row column : Nat) (b2 : board_t) :
      Reachable fuel b → board_set fuel b disc row column = some b2 → Reachable fuel b2
  | set_player (b : board_t) (player : disc_t) (b2 : board_t) :
      Reachable fuel b → board_set_player fuel b player = some b2 → Reachable fuel b2
  | play (b : board_t) (move : move_t) (ok : Bool) (b2 : board_t) :
      Reachable fuel b → board_play fuel b move = some (ok, b2) → Reachable fuel b2
  | next_move (b : board_t) : Reachable fuel b → Reachable fuel (board_next_move b).2
  | copy (b b2 : board_t) : Reachable fuel b → board_copy b = some b2 → Reachable fuel b2

/-- The black plane of the starting position. -/
def init_black (size : Nat) : bitboard_t :=
  set_bitboard size (size / 2 - 1) (size / 2) ||| set_bitboard size (size / 2) (size / 2 - 1)

/-- The white plane of the starting position. -/
def init_white (size : Nat) : bitboard_t :=
  set_bitboard size (size / 2 - 1) (size / 2 - 1) ||| set_bitboard size (size / 2) (size / 2)

/-- The starting position of the 4 × 4 board. -/
def start4 : board_t := ⟨4, disc_t.BLACK_DISC, 576, 1056, 18450, 0⟩

/-- The 4 × 4 board after Black opened on (0, 1). -/
def second4 : board_t := ⟨4, disc_t.WHITE_DISC, 610, 1024, 261, 0⟩

/-- The boards of claims about the plain engine: from `board_init` or `board_alloc`, by any
sequence of `board_set`, `board_set_player` and `board_play` calls that return. -/
inductive ReachableBasic (fuel : Nat) : board_t → Prop
  | init (size : Nat) (b : board_t) : board_init fuel size = some b → ReachableBasic fuel b
  | alloc (size : Nat) (player : disc_t) (b : board_t) :
      board_alloc size player = some b → ReachableBasic fuel b
  | set (b : board_t) (disc : disc_t) (row column : Nat) (b2 : board_t) :
      ReachableBasic fuel b → board_set fuel b disc row column = some b2 →
      ReachableBasic fuel b2
  | set_player (b : board_t) (player : disc_t) (b2 : board_t) :
      ReachableBasic fuel b → board_set_player fuel b player = some b2 →
      ReachableBasic fuel b2
  | play (b : board_t) (move : move_t) (ok : Bool) (b2 : board_t) :
      ReachableBasic fuel b → board_play fuel b move = some (ok, b2) → ReachableBasic fuel b2

/-- The boards of `ReachableBasic` when `board_set_player` is called with `EMPTY_DISC` only
on a board whose stored mask is 0. -/
inductive ReachableKept (fuel : Nat) : board_t → Prop
  | init (size : Nat) (b : board_t) : board_init fuel size = some b → ReachableKept fuel b
  | alloc (size : Nat) (player : disc_t) (b : board_t) :
      board_alloc size player = some b → ReachableKept fuel b
  | set (b : board_t) (disc : disc_t) (row column : Nat) (b2 : board_t) :
      ReachableKept fuel b → board_set fuel b disc row column = some b2 →
      ReachableKept fuel b2
  | set_player (b : board_t) (player : disc_t) (b2 : board_t) :
      ReachableKept fuel b → (player = disc_t.EMPTY_DISC → b.moves = 0) →
      board_set_player fuel b player = some b2 → ReachableKept fuel b2
  | play (b : board_t) (move : move_t) (ok : Bool) (b2 : board_t) :
      ReachableKept fuel b → board_play fuel b move = some (ok, b2) → ReachableKept fuel b2

/-- The 2 × 2 board `board_init` returns: the game is over at once. -/
def start2 : board_t := ⟨2, disc_t.EMPTY_DISC, 6, 9, 0, 0⟩

/-- The starting position of the 4 × 4 board after `board_set_player` with `EMPTY_DISC`. -/
def ended4 : board_t := ⟨4, disc_t.EMPTY_DISC, 576, 1056, 18450, 0⟩

/-- The number of discs of a colour, as `board_score` counts them. -/
def disc_count (b : board_t) (p : disc_t) : Nat :=
  match p with
  | disc_t.BLACK_DISC => (board_score b).black
  | disc_t.WHITE_DISC => (board_score b).white
  | _ => 0

/-- The moves that `n` successive `board_next_move` calls return, in the order of the calls,
and the board the last call leaves. -/
def next_moves : Nat → board_t → List move_t × board_t
  | 0, b => ([], b)
  | n + 1, b =>
    ((board_next_move b).1 :: (next_moves n (board_next_move b).2).1,
      (next_moves n (board_next_move b).2).2)

/-- The indices of the cells of a mask on the board of size `s`, in increasing order. -/
def cells_of (s : Nat) (x : bitboard_t) : List Nat :=
  (List.range (s * s)).filter (fun i => x.testBit i)

/-- The cell of a row-major index. -/
def cell_of_index (s i : Nat) : move_t := ⟨i / s, i % s⟩

/-- The boards of the claim on the cursor: from `board_init`, by any sequence of
`board_next_move`, `board_copy` and `board_play` calls that return. -/
inductive ReachableMoves (fuel : Nat) : board_t → Prop
  | init (size : Nat) (b : board_t) : board_init fuel size = some b → ReachableMoves fuel b
  | next_move (b : board_t) : ReachableMoves fuel b → ReachableMoves fuel (board_next_move b).2
  | copy (b b2 : board_t) : ReachableMoves fuel b → board_copy b = some b2 →
      ReachableMoves fuel b2
  | play (b : board_t) (move : move_t) (ok : Bool) (b2 : board_t) :
      ReachableMoves fuel b → board_play fuel b move = some (ok, b2) → ReachableMoves fuel b2

/-- The boards of `ReachableMoves` when `board_play` succeeds only on a board whose cursor is
empty. -/
inductive ReachableDrained (fuel : Nat) : board_t → Prop
  | init (size : Nat) (b : board_t) : board_init fuel size = some b → ReachableDrained fuel b
  | next_move (b : board_t) :
      ReachableDrained fuel b → ReachableDrained fuel (board_next_move b).2
  | copy (b b2 : board_t) : ReachableDrained fuel b → board_copy b = some b2 →
      ReachableDrained fuel b2
  | play (b : board_t) (move : move_t) (ok : Bool) (b2 : board_t) :
      ReachableDrained fuel b → (ok = true → b.next_move = 0) →
      board_play fuel b move = some (ok, b2) → ReachableDrained fuel b2

/-- The 4 × 4 board after one `board_next_move`, a `board_copy` and `board_play` of the
returned move (0, 1): the cursor still holds the rest of the mask of the starting position. -/
def stale4 : board_t := ⟨4, disc_t.WHITE_DISC, 610, 1024, 261, 18448⟩

/-- The cursor holds only cells of the mask. -/
def CursorInMask (b : board_t) : Prop :=
  ∀ i, b.next_move.testBit i = true → b.moves.testBit i = true

/-- The index of the cell one cyclic step in direction `d` away from the cell of index `i`. -/
def moved (s : Nat) (d : Fin 8) (i : Nat) : Nat :=
  wrap s (((i / s : Nat) : Int) + row_direction d) * s +
    wrap s (((i % s : Nat) : Int) + column_direction d)

/-- The legal moves of a board in row-major order; none when the mover is not a colour. -/
def legal_moves (b : board_t) : List move_t :=
  if b.player = disc_t.BLACK_DISC ∨ b.player = disc_t.WHITE_DISC then
    (cells_of b.size b.moves).map (cell_of_index b.size)
  else []

/-- The maximum (`is_max`) or the minimum of a list of values; `none` for the empty list and
when a value is missing. -/
def best_of (is_max : Bool) : List (Option Int) → Option Int
  | [] => none
  | [v] => v
  | v :: vs =>
    match v, best_of is_max vs with
    | some x, some y => some (if is_max then (if x > y then x else y) else (if x < y then x else y))
    | _, _ => none

/-- The minimax value V(b, d) of the claims, for the root player `p`: the evaluation of the
board when d = 0 or the board is terminal, otherwise the maximum (when `p` is to move) or the
minimum (when the opponent of `p` is to move) over the legal moves of the value of the
position after the move, at depth max(d − 2, 0) when the mover stays the same and d − 1
otherwise.  `gas` bounds the depth of the recursion. -/
def minimax_value (fuel : Nat) : Nat → board_t → Nat → disc_t → Option Int
  | 0, _, _, _ => none
  | gas + 1, b, d, p =>
    if d = 0 ∨ b.player = disc_t.EMPTY_DISC then some (score_heuristic b p)
    else
      best_of (decide (b.player = p))
        ((legal_moves b).map fun m =>
          match board_play fuel b m with
          | none => none
          | some r =>
            minimax_value fuel gas r.2 (if r.2.player = b.player then d - 2 else d - 1) p)

/-- The 4 × 4 board after Black opened on (0, 1) and White answered on (0, 2). -/
def third4 : board_t := ⟨4, disc_t.BLACK_DISC, 546, 1092, 34952, 0⟩

/-- The 4 × 4 starting position after `random_player` drew its first move: the cursor holds
the three other moves. -/
def drawn4 : board_t := ⟨4, disc_t.BLACK_DISC, 576, 1056, 18450, 18448⟩

/-- The mover is one of the two colours. -/
def IsColour (d : disc_t) : Prop := d = disc_t.BLACK_DISC ∨ d = disc_t.WHITE_DISC

/-- A max node keeps beta and does not lower alpha. -/
def RaisesAlpha (r w : alpha_beta_t) : Prop := w.beta = r.beta ∧ r.alpha ≤ w.alpha

/-- A min node keeps alpha and does not raise beta. -/
def LowersBeta (r w : alpha_beta_t) : Prop := w.alpha = r.alpha ∧ w.beta ≤ r.beta

/-- The board with another cursor. -/
def with_cursor (x : bitboard_t) (b : board_t) : board_t := { b with next_move := x }

/-- The cursor of an enumeration in progress: the next cell `board_next_move` returns is the
one of rank `k` among the cells of the mask. -/
def CursorAt (b : board_t) (k : Nat) : Prop :=
  Confined b.size b.next_move ∧ k < (cells_of b.size b.moves).length ∧
    (cells_of b.size b.next_move = (cells_of b.size b.moves).drop k ∨
      (k = 0 ∧ b.next_move = 0))

/-- The legal move of rank `k` in row-major order. -/
def move_at (b : board_t) (k : Nat) : move_t :=
  cell_of_index b.size ((cells_of b.size b.moves).getD k 0)

/-- The move `m` ends the game at once with strictly more discs for the mover. -/
def WinsAtOnce (fuel : Nat) (b : board_t) (m : move_t) : Prop :=
  ∃ c, board_play fuel b m = some (true, c) ∧ c.player = disc_t.EMPTY_DISC ∧
    disc_count c b.player > disc_count c (opponent_of b.player)

/-- The move `m` ends the game at once with strictly fewer discs for the mover. -/
def LosesAtOnce (fuel : Nat) (b : board_t) (m : move_t) : Prop :=
  ∃ c, board_play fuel b m = some (true, c) ∧ c.player = disc_t.EMPTY_DISC ∧
    disc_count c b.player < disc_count c (opponent_of b.player)

/-- Two boards that differ at most by the cursor. -/
def SamePosition (b c : board_t) : Prop :=
  c.size = b.size ∧ c.player = b.player ∧ c.black = b.black ∧ c.white = b.white ∧
    c.moves = b.moves

/-- The board `c` of an enumeration on the position `b`: it differs from `b` at most by the
cursor, whose next cell is the legal move of rank `k`. -/
structure Scan (fuel : Nat) (b c : board_t) (k : Nat) : Prop where
  reach : Reachable fuel c
  same : SamePosition b c
  cursor : CursorAt c k

/-- The mask `compute_moves` gives for the mover `pl` on the planes `bk` and `wh`. -/
def mask_for (s : Nat) (pl : disc_t) (bk wh : bitboard_t) : bitboard_t :=
  if pl = disc_t.BLACK_DISC then moves_of s bk wh else moves_of s wh bk

/-- The board with the discs of `b` on the cells of index below `j` only. -/
def board_upto (b : board_t) (j : Nat) : board_t :=
  ⟨b.size, b.player, b.black % 2 ^ j, b.white % 2 ^ j,
    mask_for b.size b.player (b.black % 2 ^ j) (b.white % 2 ^ j), 0⟩

/-- A 4 × 4 position of a game, Black to move: (2, 3) and (3, 2) go on with the game, (3, 3)
ends it with 9 black discs against 1. -/
def win4 : board_t := ⟨4, disc_t.BLACK_DISC, 878, 1025, 51200, 0⟩

/-- A 4 × 4 position, Black to move, with the two empty cells (1, 2) and (2, 0): either move
ends the game with fewer black discs than white ones. -/
def loseall4 : board_t := ⟨4, disc_t.BLACK_DISC, 21, 65194, 320, 0⟩

/-- The copy on which the loop of `minimax_player` plays the legal move of rank `k`: the
board after `k + 1` calls of `board_next_move`, with the move played on it. -/
def root_child (fuel : Nat) (b : board_t) (k : Nat) : Except fault_t board_t :=
  play_on_copy fuel (next_moves (k + 1) b).2 (move_at b k)

/-- The root value of the legal move of rank `k`: the opposite of what `min` returns on the
copy after the move, at the depth and for the mover of the root. -/
def root_value (fuel gas : Nat) (b : board_t) (k : Nat) : Except fault_t Int :=
  match root_child fuel b k with
  | Except.error e => Except.error e
  | Except.ok c =>
    match min fuel gas c (minimax_depth (board_size b)) (board_player b) with
    | Except.error e => Except.error e
    | Except.ok v => Except.ok (-v)

/-- The state of the selection of `minimax_player` after the `j` first legal moves, for the
root values `val`: nothing yet, or the greatest value so far and the moves that reach it. -/
def Selected (b : board_t) (val : Nat → Int) (j : Nat) (st : minimax_state) : Prop :=
  (j = 0 ∧ st = { best_value := -infinity, possible_moves := [] }) ∨
    (0 < j ∧ (∀ i, i < j → val i ≤ st.best_value) ∧
      st.possible_moves =
        ((List.range j).filter (fun i => decide (val i = st.best_value))).map (move_at b) ∧
      ∃ i, i < j ∧ val i = st.best_value)

/-- The root value of the legal move of rank `k` as an integer, 0 standing for a fault. -/
def root_value_of (fuel gas : Nat) (b : board_t) (k : Nat) : Int :=
  match root_value fuel gas b k with
  | Except.ok v => v
  | Except.error _ => 0

/-- The index of the cell of the i-th corner. -/
def corner_cell (size i : Nat) : Nat :=
  (get_corner_as_move size i).row * size + (get_corner_as_move size i).column

/-- Whether the i-th corner is in the set D: it is playable and, after the simulated play of
the corner, the opponent is to move and the opponent's mask intersected with the original
mask meets the playable corners. -/
def claimed_corner (fuel : Nat) (b : board_t) (i : Nat) : Option Bool :=
  if (get_playable_corners b).testBit (corner_cell b.size i) then
    match board_play fuel b (get_corner_as_move b.size i) with
    | none => none
    | some r =>
      some (decide (r.2.player = opponent_of b.player ∧
        r.2.moves &&& b.moves &&& get_playable_corners b ≠ 0))
  else some false

/-- The set D when it is not empty, all playable corners when it is. -/
def claimed_corners (fuel : Nat) (b : board_t) : Option bitboard_t :=
  match [0, 1, 2, 3].foldlM
      (fun d i => (claimed_corner fuel b i).map
        (fun f => if f then d ||| 2 ^ corner_cell b.size i else d)) 0 with
  | none => none
  | some d => some (if d = 0 then get_playable_corners b else d)

/-- The 4 × 4 board after the moves (0, 1), (2, 0), (3, 2) and (0, 2): Black is to move and
the corners (0, 0), (0, 3) and (3, 0) are playable. -/
def corners4 : board_t := ⟨4, disc_t.BLACK_DISC, 17474, 804, 12313, 0⟩

/-- The 4 × 4 board after the moves (0, 1), (0, 0), (3, 2), (3, 1), (1, 0) and (1, 3): Black
is to move, the corners (3, 0) and (3, 3) are playable and both hand White the mask 260. -/
def twin4 : board_t := ⟨4, disc_t.BLACK_DISC, 17010, 9345, 38912, 0⟩

/-- The play of the i-th corner exposes the cell `n`: both are playable corners, the play
hands the move to the opponent, and `n` is in the opponent's mask after it. -/
def Exposes (fuel : Nat) (b : board_t) (i n : Nat) : Prop :=
  (get_playable_corners b).testBit (corner_cell b.size i) = true ∧
    (get_playable_corners b).testBit n = true ∧
    ∃ c, board_play fuel b (get_corner_as_move b.size i) = some (true, c) ∧
      c.player = opponent_of b.player ∧ c.moves.testBit n = true

/-- The cell `n` is a playable corner that the play of some playable corner exposes. -/
def Exposed (fuel : Nat) (b : board_t) (n : Nat) : Prop :=
  ∃ i, i < 4 ∧ Exposes fuel b i n

/-- The boards of a game: from `board_init` for the size, by `board_play` and
`board_next_move` calls; the index counts the `board_play` calls that returned true. -/
inductive PlayedFrom (fuel size : Nat) : Nat → board_t → Prop
  | init (b : board_t) : board_init fuel size = some b → PlayedFrom fuel size 0 b
  | play (n : Nat) (b : board_t) (move : move_t) (b2 : board_t) :
      PlayedFrom fuel size n b → board_play fuel b move = some (true, b2) →
      PlayedFrom fuel size (n + 1) b2
  | fail (n : Nat) (b : board_t) (move : move_t) (b2 : board_t) :
      PlayedFrom fuel size n b → board_play fuel b move = some (false, b2) →
      PlayedFrom fuel size n b2
  | next_move (n : Nat) (b : board_t) :
      PlayedFrom fuel size n b → PlayedFrom fuel size n (board_next_move b).2

/-- The 4 × 4 board after the moves (0, 1), (0, 2), (0, 3), (0, 0), (1, 0), (2, 0), (3, 3),
(2, 3), (1, 3) and (3, 2): Black is to move and both legal moves, (3, 0) and (3, 1), end the
game. -/
def endgame4 : board_t := ⟨4, disc_t.BLACK_DISC, 52462, 785, 12288, 0⟩

/-- The cell of position `k` on the border `i` (0 north, 1 south, 2 east, 3 west), as a
move. -/
def edge_move (s i k : Nat) : move_t :=
  if i = 0 then ⟨0, k⟩ else if i = 1 then ⟨s - 1, k⟩ else if i = 2 then ⟨k, s - 1⟩ else ⟨k, 0⟩

/-- The index of the cell of position `k` on the border `i`. -/
def edge_cell (s i k : Nat) : Nat := (edge_move s i k).row * s + (edge_move s i k).column

/-- The distance between two cells of the border `i`. -/
def edge_step (s i : Nat) : Nat := if i = 0 ∨ i = 1 then 1 else s

/-- The run of the discs of the plane `mine` along the border `i` through the position `j`:
the positions from `lo` to `hi` hold such discs and the run cannot be extended. -/
def RunThrough (s i : Nat) (mine : bitboard_t) (j lo hi : Nat) : Prop :=
  lo ≤ j ∧ j ≤ hi ∧ hi < s ∧
    (∀ t, t < s → lo ≤ t → t ≤ hi → mine.testBit (edge_cell s i t) = true) ∧
    (lo = 0 ∨ mine.testBit (edge_cell s i (lo - 1)) = false) ∧
    (hi = s - 1 ∨ mine.testBit (edge_cell s i (hi + 1)) = false)

/-- The legal-move mask of the opponent of the mover of `b` on the board `c` that a move of
`b` gives: the mask of `c` when this opponent is to move, empty otherwise. -/
def opponent_moves (b c : board_t) : bitboard_t :=
  if c.player = opponent_of b.player then c.moves else 0

/-- After the move the game is over and the mover of `b` is not behind. -/
def GameOverNotBehind (b c : board_t) : Prop :=
  c.player = disc_t.EMPTY_DISC ∧
    bitboard_popcount (plane_of c (opponent_of b.player)) ≤
      bitboard_popcount (plane_of c b.player)

/-- After the move no disc and no legal move of the opponent lies on the border `i`. -/
def EdgeFree (b c : board_t) (i : Nat) : Prop :=
  ∀ k, k < b.size →
    (plane_of c (opponent_of b.player)).testBit (edge_cell b.size i k) = false ∧
      (opponent_moves b c).testBit (edge_cell b.size i k) = false

/-- After the move on the position `j` of the border `i`, the run of the mover through `j`
reaches the high corner of the border, or has an opponent disc just beyond both ends, or has
an opponent legal move just beyond both ends. -/
def RunFlagged (b c : board_t) (i j : Nat) : Prop :=
  ∃ lo hi, RunThrough b.size i (plane_of c b.player) j lo hi ∧
    (hi = b.size - 1 ∨
      (1 ≤ lo ∧
        (plane_of c (opponent_of b.player)).testBit (edge_cell b.size i (lo - 1)) = true ∧
        (plane_of c (opponent_of b.player)).testBit (edge_cell b.size i (hi + 1)) = true) ∨
      (1 ≤ lo ∧ (opponent_moves b c).testBit (edge_cell b.size i (lo - 1)) = true ∧
        (opponent_moves b c).testBit (edge_cell b.size i (hi + 1)) = true))

/-- What makes `get_interesting_borders` keep the move on the position `j` of the border `i`,
`c` being the board after the move. -/
def FlagAfter (b c : board_t) (i j : Nat) : Prop :=
  GameOverNotBehind b c ∨
    (c.player ≠ disc_t.EMPTY_DISC ∧
      (opponent_moves b c = 0 ∨ EdgeFree b c i ∨ RunFlagged b c i j))

/-- The position `j` of the border `i` is a legal move of the mover, and the tests of
`get_interesting_borders` succeed on the position after that move. -/
def Flagged (fuel : Nat) (b : board_t) (i j : Nat) : Prop :=
  b.moves.testBit (edge_cell b.size i j) = true ∧
    ∃ c, board_play fuel b (edge_move b.size i j) = some (true, c) ∧ FlagAfter b c i j

/-- The cell `n` is a position of a border, corners apart, that is `Flagged`. -/
def FlaggedCell (fuel : Nat) (b : board_t) (n : Nat) : Prop :=
  ∃ i j, i < 4 ∧ 1 ≤ j ∧ j + 1 < b.size ∧ n = edge_cell b.size i j ∧ Flagged fuel b i j

/-- The test of the specification on the run of the mover through the position `j` of the
border `i`, `c` being the board after the move: the run is anchored at both ends, each end
independently being the corner of the border, an opponent disc or a legal move of the
opponent. -/
def RunAnchored (b c : board_t) (i j : Nat) : Prop :=
  ∃ lo hi, RunThrough b.size i (plane_of c b.player) j lo hi ∧
    (lo = 0 ∨
      (plane_of c (opponent_of b.player)).testBit (edge_cell b.size i (lo - 1)) = true ∨
      (opponent_moves b c).testBit (edge_cell b.size i (lo - 1)) = true) ∧
    (hi = b.size - 1 ∨
      (plane_of c (opponent_of b.player)).testBit (edge_cell b.size i (hi + 1)) = true ∨
      (opponent_moves b c).testBit (edge_cell b.size i (hi + 1)) = true)

/-- The 4 × 4 board after the moves (0, 1), (0, 0), (1, 0), (0, 2), (0, 3), (2, 0), (3, 0),
(1, 3), (2, 3) and (3, 1): Black to move, with the one legal move (3, 2). -/
def lowcorner4 : board_t := ⟨4, disc_t.BLACK_DISC, 7304, 9079, 16384, 0⟩

/-- The 4 × 4 board after the moves (0, 1), (0, 0), (1, 0), (0, 2), (0, 3), (2, 0), (3, 2),
(1, 3), (2, 3) and (3, 3): Black to move, with the legal moves (3, 0) and (3, 1). -/
def mixed4 : board_t := ⟨4, disc_t.BLACK_DISC, 18568, 34679, 12288, 0⟩

/-- The 4 × 4 board after the moves (0, 1), (0, 0), (1, 0), (0, 2), (2, 3), (2, 0), (0, 3),
(1, 3) and (3, 3), Black having passed twice: White to move, with the legal moves (3, 0),
(3, 1) and (3, 2). -/
def highcorner4 : board_t := ⟨4, disc_t.WHITE_DISC, 520, 36343, 28672, 0⟩

/-- The 4 × 4 board after the moves (0, 1), (0, 2), (1, 3) and (0, 0): Black to move, with
the legal moves (1, 0), (2, 3), (3, 1) and (3, 2). -/
def oneborder4 : board_t := ⟨4, disc_t.BLACK_DISC, 704, 1063, 26640, 0⟩

/-- The 4 × 4 board after the moves (0, 1), (0, 0), (3, 2), (0, 2), (1, 0), (2, 3), (1, 3),
(3, 3) and (3, 1): White to move, with the legal moves (0, 3), (2, 0) and (3, 0). -/
def cornerdefault4 : board_t := ⟨4, disc_t.WHITE_DISC, 26320, 34855, 4360, 0⟩

/-- The 4 × 4 board after the moves (1, 0), (2, 0), (3, 0), (0, 0), (3, 2), (3, 3), (0, 2),
(3, 1) and (2, 3): White to move, with the legal moves (0, 1) and (1, 3). -/
def unassigned4 : board_t := ⟨4, disc_t.WHITE_DISC, 8052, 57345, 130, 0⟩

/-- After the move on the position `j` of the border `i`, the run of the mover through `j`
reaches a corner of the border, at either end, or has an opponent disc just beyond both
ends, or has a legal move of the opponent just beyond both ends. -/
def RunCornered (b c : board_t) (i j : Nat) : Prop :=
  ∃ lo hi, RunThrough b.size i (plane_of c b.player) j lo hi ∧
    (lo = 0 ∨ hi = b.size - 1 ∨
      (1 ≤ lo ∧
        (plane_of c (opponent_of b.player)).testBit (edge_cell b.size i (lo - 1)) = true ∧
        (plane_of c (opponent_of b.player)).testBit (edge_cell b.size i (hi + 1)) = true) ∨
      (1 ≤ lo ∧ (opponent_moves b c).testBit (edge_cell b.size i (lo - 1)) = true ∧
        (opponent_moves b c).testBit (edge_cell b.size i (hi + 1)) = true))

/-- The 4 × 4 board after the moves (0, 1), (0, 0), (1, 0), (0, 2), (2, 3), (3, 1), (3, 2),
(3, 3) and (0, 3): White to move, with the legal moves (1, 3) and (2, 0). -/
def stalechild4 : board_t := ⟨4, disc_t.WHITE_DISC, 2648, 58407, 384, 0⟩

/-! ## Bit-level facts about the shifts -/

theorem testBit_shl128 (x n i : Nat) :
    (shl128 x n).testBit i = (decide (i < 128) && (decide (n ≤ i) && x.testBit (i - n))) := by
  simp only [shl128, Nat.testBit_mod_two_pow, Nat.testBit_shiftLeft, ge_iff_le]

theorem testBit_not128 (x i : Nat) :
    (not128 x).testBit i = (decide (i < 128) ^^ x.testBit i) := by
  simp only [not128, Nat.testBit_xor, Nat.testBit_two_pow_sub_one]

theorem valid_size_cases {s : Nat} (h : board_cheak_size s = true) :
    s = 2 ∨ s = 4 ∨ s = 6 ∨ s = 8 ∨ s = 10 := by
  simp [board_cheak_size, MIN_BOARD_SIZE, MAX_BOARD_SIZE] at h
  omega

theorem Confined.testBit_false {s b i : Nat} (h : Confined s b) (hi : s * s ≤ i) :
    b.testBit i = false :=
  Nat.testBit_lt_two_pow (lt_of_lt_of_le h (Nat.pow_le_pow_right (by norm_num) hi))

theorem confined_of_testBit {s b : Nat} (h : ∀ i, s * s ≤ i → b.testBit i = false) :
    Confined s b :=
  Nat.lt_pow_two_of_testBit b h

/-- A closed mask below `2 ^ 100` is described by a predicate as soon as it is on the first
hundred indices. -/
theorem mask_char (m : Nat) (p : Nat → Bool) (hm : m < 2 ^ 100)
    (hp : ∀ i, 100 ≤ i → p i = false) (h : ∀ i, i < 100 → m.testBit i = p i) (i : Nat) :
    m.testBit i = p i := by
  by_cases hi : i < 100
  · exact h i hi
  · rw [hp i (by omega)]
    exact Nat.testBit_lt_two_pow (lt_of_lt_of_le hm (Nat.pow_le_pow_right (by norm_num) (by omega)))

theorem north_ones_testBit {s : Nat} (hs : board_cheak_size s = true) (i : Nat) :
    (north_ones s).testBit i = decide (s ≤ i ∧ i < s * s) := by
  have key := fun m hm hp h => mask_char m (fun i => decide (s ≤ i ∧ i < s * s)) hm hp h i
  rcases valid_size_cases hs with h | h | h | h | h <;> subst h <;>
    refine key _ ?_ ?_ ?_ <;>
    first
    | decide
    | (intro j hj; simp only [decide_eq_false_iff_not]; omega)

theorem south_ones_testBit {s : Nat} (hs : board_cheak_size s = true) (i : Nat) :
    (south_ones s).testBit i = decide (i < s * (s - 1)) := by
  have key := fun m hm hp h => mask_char m (fun i => decide (i < s * (s - 1))) hm hp h i
  rcases valid_size_cases hs with h | h | h | h | h <;> subst h <;>
    refine key _ ?_ ?_ ?_ <;>
    first
    | decide
    | (intro j hj; simp only [decide_eq_false_iff_not]; omega)

theorem east_ones_testBit {s : Nat} (hs : board_cheak_size s = true) (i : Nat) :
    (east_ones s).testBit i = decide (i % s < s - 1 ∧ i < s * s) := by
  have key := fun m hm hp h => mask_char m (fun i => decide (i % s < s - 1 ∧ i < s * s)) hm hp h i
  rcases valid_size_cases hs with h | h | h | h | h <;> subst h <;>
    refine key _ ?_ ?_ ?_ <;>
    first
    | decide
    | (intro j hj; simp only [decide_eq_false_iff_not]; omega)

theorem west_ones_testBit {s : Nat} (hs : board_cheak_size s = true) (i : Nat) :
    (west_ones s).testBit i = decide (0 < i % s ∧ i < s * s) := by
  have key := fun m hm hp h => mask_char m (fun i => decide (0 < i % s ∧ i < s * s)) hm hp h i
  rcases valid_size_cases hs with h | h | h | h | h <;> subst h <;>
    refine key _ ?_ ?_ ?_ <;>
    first
    | decide
    | (intro j hj; simp only [decide_eq_false_iff_not]; omega)

theorem xor_decide (p q : Prop) [Decidable p] [Decidable q] :
    (decide p ^^ decide q) = decide (¬(p ↔ q)) := by
  by_cases hp : p <;> by_cases hq : q <;> simp [hp, hq]

theorem shift_north_testBit {s b : Nat} (hs : board_cheak_size s = true) (hb : Confined s b)
    (i : Nat) :
    (shift_north s b).testBit i =
      ((decide (i + s < s * s) && b.testBit (i + s)) ||
        (decide (s * (s - 1) ≤ i ∧ i < s * s) && b.testBit (i - s * (s - 1)))) := by
  have hm := north_ones_testBit hs
  unfold north_ones at hm
  simp only [shift_north, hs, Bool.not_true, Bool.false_eq_true, if_false, Nat.testBit_or,
    Nat.testBit_shiftRight, Nat.testBit_and, testBit_shl128, testBit_not128, hm]
  have hc1 := fun h => hb.testBit_false (i := s + i) h
  have hc2 := fun h => hb.testBit_false (i := i - (s - 1) * s) h
  rcases valid_size_cases hs with h | h | h | h | h <;> subst h <;>
    simp only [Nat.reduceMul, Nat.reduceSub, Nat.add_comm _ i] at hc1 hc2 ⊢ <;>
    generalize b.testBit (i + _) = x at hc1 ⊢ <;>
    generalize b.testBit (i - _) = y at hc2 ⊢ <;>
    cases x <;> cases y <;>
    simp only [Bool.false_and, Bool.and_false, Bool.true_and, Bool.and_true, Bool.or_false,
      Bool.false_or, xor_decide, ← Bool.decide_and, ← Bool.decide_or, decide_eq_decide,
      Bool.false_eq_true, imp_false, not_le, reduceCtorEq] at hc1 hc2 ⊢ <;>
    omega

theorem shift_south_testBit {s b : Nat} (hs : board_cheak_size s = true) (hb : Confined s b)
    (i : Nat) :
    (shift_south s b).testBit i =
      ((decide (s ≤ i ∧ i < s * s) && b.testBit (i - s)) ||
        (decide (i < s) && b.testBit (i + s * (s - 1)))) := by
  have hm := south_ones_testBit hs
  unfold south_ones at hm
  simp only [shift_south, hs, Bool.not_true, Bool.false_eq_true, if_false, Nat.testBit_or,
    Nat.testBit_shiftRight, Nat.testBit_and, testBit_shl128, testBit_not128, hm]
  have hc1 := fun h => hb.testBit_false (i := i - s) h
  have hc2 := fun h => hb.testBit_false (i := (s - 1) * s + i) h
  rcases valid_size_cases hs with h | h | h | h | h <;> subst h <;>
    simp only [Nat.reduceMul, Nat.reduceSub, Nat.add_comm _ i] at hc1 hc2 ⊢ <;>
    generalize b.testBit (i + _) = x at hc2 ⊢ <;>
    generalize b.testBit (i - _) = y at hc1 ⊢ <;>
    cases x <;> cases y <;>
    simp only [Bool.false_and, Bool.and_false, Bool.true_and, Bool.and_true, Bool.or_false,
      Bool.false_or, xor_decide, ← Bool.decide_and, ← Bool.decide_or, decide_eq_decide,
      Bool.false_eq_true, imp_false, not_le, reduceCtorEq] at hc1 hc2 ⊢ <;>
    omega

theorem shift_east_testBit {s b : Nat} (hs : board_cheak_size s = true) (hb : Confined s b)
    (i : Nat) :
    (shift_east s b).testBit i =
      (decide (i < s * s) &&
        ((decide (0 < i % s) && b.testBit (i - 1)) ||
          (decide (i % s = 0) && b.testBit (i + (s - 1))))) := by
  have hm := east_ones_testBit hs
  unfold east_ones at hm
  simp only [shift_east, hs, Bool.not_true, Bool.false_eq_true, if_false, Nat.testBit_or,
    Nat.testBit_shiftRight, Nat.testBit_and, testBit_shl128, testBit_not128, hm]
  have hc1 := fun h => hb.testBit_false (i := i - 1) h
  have hc2 := fun h => hb.testBit_false (i := s - 1 + i) h
  rcases valid_size_cases hs with h | h | h | h | h <;> subst h <;>
    simp only [Nat.reduceMul, Nat.reduceSub, Nat.add_comm _ i] at hc1 hc2 ⊢ <;>
    generalize b.testBit (i + _) = x at hc2 ⊢ <;>
    generalize b.testBit (i - _) = y at hc1 ⊢ <;>
    cases x <;> cases y <;>
    simp only [Bool.false_and, Bool.and_false, Bool.true_and, Bool.and_true, Bool.or_false,
      Bool.false_or, xor_decide, ← Bool.decide_and, ← Bool.decide_or, decide_eq_decide,
      Bool.false_eq_true, imp_false, not_le, reduceCtorEq] at hc1 hc2 ⊢ <;>
    omega

theorem shift_west_testBit {s b : Nat} (hs : board_cheak_size s = true) (hb : Confined s b)
    (i : Nat) :
    (shift_west s b).testBit i =
      (decide (i < s * s) &&
        ((decide (i % s < s - 1) && b.testBit (i + 1)) ||
          (decide (i % s = s - 1) && b.testBit (i - (s - 1))))) := by
  have hm := west_ones_testBit hs
  unfold west_ones at hm
  simp only [shift_west, hs, Bool.not_true, Bool.false_eq_true, if_false, Nat.testBit_or,
    Nat.testBit_shiftRight, Nat.testBit_and, testBit_shl128, testBit_not128, hm]
  have hc1 := fun h => hb.testBit_false (i := i - (s - 1)) h
  have hc2 := fun h => hb.testBit_false (i := 1 + i) h
  rcases valid_size_cases hs with h | h | h | h | h <;> subst h <;>
    simp only [Nat.reduceMul, Nat.reduceSub, Nat.add_comm _ i] at hc1 hc2 ⊢ <;>
    generalize b.testBit (i + _) = x at hc2 ⊢ <;>
    generalize b.testBit (i - _) = y at hc1 ⊢ <;>
    cases x <;> cases y <;>
    simp only [Bool.false_and, Bool.and_false, Bool.true_and, Bool.and_true, Bool.or_false,
      Bool.false_or, xor_decide, ← Bool.decide_and, ← Bool.decide_or, decide_eq_decide,
      Bool.false_eq_true, imp_false, not_le, reduceCtorEq] at hc1 hc2 ⊢ <;>
    omega

theorem pick_left (P Q : Prop) [Decidable P] [Decidable Q] (x y : Bool) (hP : P) (hQ : ¬Q) :
    ((decide P && x) || (decide Q && y)) = x := by
  simp [hP, hQ]

theorem pick_right (P Q : Prop) [Decidable P] [Decidable Q] (x y : Bool) (hP : ¬P) (hQ : Q) :
    ((decide P && x) || (decide Q && y)) = y := by
  simp [hP, hQ]

theorem pick_in (R : Prop) [Decidable R] (z : Bool) (hR : R) : (decide R && z) = z := by
  simp [hR]

theorem shift_north_cell {s b r c : Nat} (hs : board_cheak_size s = true) (hb : Confined s b)
    (hr : r < s) (hc : c < s) :
    (shift_north s b).testBit (r * s + c) = b.testBit (wrap s (r + 1) * s + c) := by
  rw [shift_north_testBit hs hb]
  have A : (wrap s (r + 1) * s + c = r * s + c + s ∧ r * s + c + s < s * s ∧
        ¬(s * (s - 1) ≤ r * s + c ∧ r * s + c < s * s)) ∨
      (wrap s (r + 1) * s + c = r * s + c - s * (s - 1) ∧ ¬(r * s + c + s < s * s) ∧
        (s * (s - 1) ≤ r * s + c ∧ r * s + c < s * s)) := by
    unfold wrap
    rcases valid_size_cases hs with h | h | h | h | h <;> subst h <;> omega
  rcases A with ⟨e, p, q⟩ | ⟨e, p, q⟩ <;> rw [e]
  · exact pick_left _ _ _ _ p q
  · exact pick_right _ _ _ _ p q

theorem shift_south_cell {s b r c : Nat} (hs : board_cheak_size s = true) (hb : Confined s b)
    (hr : r < s) (hc : c < s) :
    (shift_south s b).testBit (r * s + c) = b.testBit (wrap s (r + -1) * s + c) := by
  rw [shift_south_testBit hs hb]
  have A : (wrap s (r + -1) * s + c = r * s + c - s ∧ (s ≤ r * s + c ∧ r * s + c < s * s) ∧
        ¬(r * s + c < s)) ∨
      (wrap s (r + -1) * s + c = r * s + c + s * (s - 1) ∧
        ¬(s ≤ r * s + c ∧ r * s + c < s * s) ∧ r * s + c < s) := by
    unfold wrap
    rcases valid_size_cases hs with h | h | h | h | h <;> subst h <;> omega
  rcases A with ⟨e, p, q⟩ | ⟨e, p, q⟩ <;> rw [e]
  · exact pick_left _ _ _ _ p q
  · exact pick_right _ _ _ _ p q

theorem shift_east_cell {s b r c : Nat} (hs : board_cheak_size s = true) (hb : Confined s b)
    (hr : r < s) (hc : c < s) :
    (shift_east s b).testBit (r * s + c) = b.testBit (r * s + wrap s (c + -1)) := by
  rw [shift_east_testBit hs hb]
  have A : r * s + c < s * s ∧
      ((r * s + wrap s (c + -1) = r * s + c - 1 ∧ 0 < (r * s + c) % s ∧
        ¬((r * s + c) % s = 0)) ∨
      (r * s + wrap s (c + -1) = r * s + c + (s - 1) ∧ ¬(0 < (r * s + c) % s) ∧
        (r * s + c) % s = 0)) := by
    unfold wrap
    rcases valid_size_cases hs with h | h | h | h | h <;> subst h <;> omega
  rcases A with ⟨h0, ⟨e, p, q⟩ | ⟨e, p, q⟩⟩ <;> rw [e, pick_in _ _ h0]
  · exact pick_left _ _ _ _ p q
  · exact pick_right _ _ _ _ p q

theorem shift_west_cell {s b r c : Nat} (hs : board_cheak_size s = true) (hb : Confined s b)
    (hr : r < s) (hc : c < s) :
    (shift_west s b).testBit (r * s + c) = b.testBit (r * s + wrap s (c + 1)) := by
  rw [shift_west_testBit hs hb]
  have A : r * s + c < s * s ∧
      ((r * s + wrap s (c + 1) = r * s + c + 1 ∧ (r * s + c) % s < s - 1 ∧
        ¬((r * s + c) % s = s - 1)) ∨
      (r * s + wrap s (c + 1) = r * s + c - (s - 1) ∧ ¬((r * s + c) % s < s - 1) ∧
        (r * s + c) % s = s - 1)) := by
    unfold wrap
    rcases valid_size_cases hs with h | h | h | h | h <;> subst h <;> omega
  rcases A with ⟨h0, ⟨e, p, q⟩ | ⟨e, p, q⟩⟩ <;> rw [e, pick_in _ _ h0]
  · exact pick_left _ _ _ _ p q
  · exact pick_right _ _ _ _ p q

theorem shift_north_confined {s b : Nat} (hs : board_cheak_size s = true)
    (hb : Confined s b) : Confined s (shift_north s b) := by
  apply confined_of_testBit
  intro i hi
  rw [shift_north_testBit hs hb]
  simp only [Bool.or_eq_false_iff, Bool.and_eq_false_imp, decide_eq_true_eq]
  constructor <;> intro h <;> omega

theorem shift_south_confined {s b : Nat} (hs : board_cheak_size s = true)
    (hb : Confined s b) : Confined s (shift_south s b) := by
  apply confined_of_testBit
  intro i hi
  rw [shift_south_testBit hs hb]
  simp only [Bool.or_eq_false_iff, Bool.and_eq_false_imp, decide_eq_true_eq]
  constructor <;> intro h
  · omega
  · exact hb.testBit_false (by omega)

theorem shift_east_confined {s b : Nat} (hs : board_cheak_size s = true)
    (hb : Confined s b) : Confined s (shift_east s b) := by
  apply confined_of_testBit
  intro i hi
  rw [shift_east_testBit hs hb]
  simp only [Bool.and_eq_false_imp, decide_eq_true_eq]
  intro h
  omega

theorem shift_west_confined {s b : Nat} (hs : board_cheak_size s = true)
    (hb : Confined s b) : Confined s (shift_west s b) := by
  apply confined_of_testBit
  intro i hi
  rw [shift_west_testBit hs hb]
  simp only [Bool.and_eq_false_imp, decide_eq_true_eq]
  intro h
  omega

theorem wrap_lt {s : Nat} (hs : 0 < s) (x : Int) : wrap s x < s := by
  unfold wrap
  have h1 := Int.emod_nonneg x (b := (s : Int)) (by omega)
  have h2 := Int.emod_lt_of_pos x (b := (s : Int)) (by omega)
  omega

theorem wrap_of_lt {s r : Nat} (h : r < s) : wrap s (r + 0) = r := by
  unfold wrap
  rw [Int.add_zero, Int.emod_eq_of_lt (by omega) (by omega)]
  simp

theorem valid_size_pos {s : Nat} (hs : board_cheak_size s = true) : 0 < s := by
  rcases valid_size_cases hs with h | h | h | h | h <;> omega

/-- Each shift is the one-cell cyclic translation given by the direction tables. -/
theorem shifts_cell {s b r c : Nat} (hs : board_cheak_size s = true) (hb : Confined s b)
    (d : Fin 8) (hr : r < s) (hc : c < s) :
    (shifts d s b).testBit (r * s + c) =
      b.testBit (wrap s (r + row_direction d) * s + wrap s (c + column_direction d)) := by
  have hp := valid_size_pos hs
  have wr := fun x => wrap_lt hp x
  fin_cases d <;>
    simp only [shifts, row_direction, column_direction, shift_ne, shift_se, shift_sw, shift_nw]
  · rw [shift_north_cell hs hb hr hc, wrap_of_lt hc]
  · rw [shift_north_cell hs (shift_east_confined hs hb) hr hc,
      shift_east_cell hs hb (wr _) hc]
  · rw [shift_east_cell hs hb hr hc, wrap_of_lt hr]
  · rw [shift_south_cell hs (shift_east_confined hs hb) hr hc,
      shift_east_cell hs hb (wr _) hc]
  · rw [shift_south_cell hs hb hr hc, wrap_of_lt hc]
  · rw [shift_south_cell hs (shift_west_confined hs hb) hr hc,
      shift_west_cell hs hb (wr _) hc]
  · rw [shift_west_cell hs hb hr hc, wrap_of_lt hr]
  · rw [shift_north_cell hs (shift_west_confined hs hb) hr hc,
      shift_west_cell hs hb (wr _) hc]

theorem shifts_confined {s b : Nat} (hs : board_cheak_size s = true) (hb : Confined s b)
    (d : Fin 8) : Confined s (shifts d s b) := by
  fin_cases d <;>
    simp only [shifts, shift_ne, shift_se, shift_sw, shift_nw]
  · exact shift_north_confined hs hb
  · exact shift_north_confined hs (shift_east_confined hs hb)
  · exact shift_east_confined hs hb
  · exact shift_south_confined hs (shift_east_confined hs hb)
  · exact shift_south_confined hs hb
  · exact shift_south_confined hs (shift_west_confined hs hb)
  · exact shift_west_confined hs hb
  · exact shift_north_confined hs (shift_west_confined hs hb)

/-! ## The distance loop -/

theorem shl128_one {i : Nat} (hi : i < 128) : shl128 1 i = 2 ^ i := by
  unfold shl128
  rw [Nat.one_shiftLeft]
  exact Nat.mod_eq_of_lt (Nat.pow_lt_pow_right (by norm_num) hi)

theorem and_two_pow_eq_zero (x i : Nat) : x &&& 2 ^ i = 0 ↔ x.testBit i = false := by
  constructor
  · intro hz
    have := congrArg (fun y => y.testBit i) hz
    simpa [Nat.testBit_and, Nat.testBit_two_pow] using this
  · intro h
    apply Nat.eq_of_testBit_eq
    intro j
    simp only [Nat.testBit_and, Nat.testBit_two_pow, Nat.zero_testBit]
    by_cases hj : i = j
    · subst hj; simp [h]
    · simp [hj]

theorem cell_index_lt {s r c : Nat} (hs : board_cheak_size s = true) (hr : r < s)
    (hc : c < s) : r * s + c < s * s ∧ s * s ≤ 100 := by
  rcases valid_size_cases hs with h | h | h | h | h <;> subst h <;> omega

theorem set_bitboard_eq {s r c : Nat} (hs : board_cheak_size s = true) (hr : r < s)
    (hc : c < s) : set_bitboard s r c = 2 ^ (r * s + c) := by
  have h := cell_index_lt hs hr hc
  unfold set_bitboard
  rw [if_neg (by simp [hs, hr, hc]), shl128_one (by omega)]

theorem set_bitboard_out {s r c : Nat} (h : ¬(r < s ∧ c < s)) : set_bitboard s r c = 0 := by
  unfold set_bitboard
  rw [if_pos]
  simp only [Bool.or_eq_true, decide_eq_true_eq, ge_iff_le]
  by_cases hr : r < s
  · right; omega
  · left; right; omega

theorem and_set_bitboard_eq_zero {s r c : Nat} (hs : board_cheak_size s = true) (hr : r < s)
    (hc : c < s) (x : Nat) : x &&& set_bitboard s r c = 0 ↔ x.testBit (r * s + c) = false := by
  rw [set_bitboard_eq hs hr hc, and_two_pow_eq_zero]

theorem wrap_wrap_add (s : Nat) (hs : 0 < s) (x y : Int) :
    wrap s ((wrap s x : Nat) + y) = wrap s (x + y) := by
  unfold wrap
  have h1 := Int.emod_nonneg x (b := (s : Int)) (by omega)
  rw [Int.toNat_of_nonneg h1, Int.emod_add_emod]

theorem iterate_shifts_confined {s : Nat} (hs : board_cheak_size s = true) (d : Fin 8)
    (k : Nat) : ∀ b, Confined s b → Confined s ((shifts d s)^[k] b) := by
  induction k with
  | zero => intro b hb; exact hb
  | succ k ih =>
    intro b hb
    rw [Function.iterate_succ_apply]
    exact ih _ (shifts_confined hs hb d)

theorem iterate_shifts_cell {s r c : Nat} (hs : board_cheak_size s = true) (d : Fin 8)
    (hr : r < s) (hc : c < s) (k : Nat) :
    ∀ b, Confined s b → ((shifts d s)^[k] b).testBit (r * s + c) = b.testBit (cyc s r c d k) := by
  have hp := valid_size_pos hs
  induction k with
  | zero =>
    intro b _
    have h1 := wrap_of_lt hr
    have h2 := wrap_of_lt hc
    simp only [Int.add_zero] at h1 h2
    simp [cyc, h1, h2]
  | succ k ih =>
    intro b hb
    rw [Function.iterate_succ_apply, ih _ (shifts_confined hs hb d)]
    unfold cyc
    rw [shifts_cell hs hb d (wrap_lt hp _) (wrap_lt hp _), wrap_wrap_add s hp,
      wrap_wrap_add s hp]
    have e : ∀ x y : Int, x + (k : Int) * y + y = x + ((k + 1 : Nat) : Int) * y := by
      intro x y
      push_cast
      ring
    rw [e, e]

theorem distance_loop_spec (s : Nat) (d : Fin 8) (idx : Nat) :
    ∀ (fuel : Nat) (adv gap k : Nat), 1 ≤ k → k ≤ fuel → gap + k < 2 ^ 64 →
      (∀ j, 1 ≤ j → j < k → ((shifts d s)^[j] adv).testBit idx = true) →
      ((shifts d s)^[k] adv).testBit idx = false →
      distance_loop s d (2 ^ idx) fuel adv gap = some (gap + k) := by
  intro fuel
  induction fuel with
  | zero => intro adv gap k h1 h2; omega
  | succ fuel ih =>
    intro adv gap k h1 h2 h3 hlt hk
    unfold distance_loop
    simp only
    have hg : (gap + 1) % 2 ^ 64 = gap + 1 := Nat.mod_eq_of_lt (by omega)
    rw [hg]
    by_cases hk1 : k = 1
    · subst hk1
      rw [Function.iterate_one] at hk
      rw [if_neg]
      intro hne
      exact hne ((and_two_pow_eq_zero _ _).2 hk)
    · have h1j := hlt 1 (le_refl 1) (by omega)
      rw [Function.iterate_one] at h1j
      rw [if_pos]
      · have := ih (shifts d s adv) (gap + 1) (k - 1) (by omega) (by omega) (by omega)
          (fun j hj1 hj2 => by
            have := hlt (j + 1) (by omega) (by omega)
            rwa [Function.iterate_succ_apply] at this)
          (by
            have e : k = (k - 1) + 1 := by omega
            rw [e, Function.iterate_succ_apply] at hk
            exact hk)
        rw [this]
        congr 1
        omega
      · intro hz
        rw [(and_two_pow_eq_zero _ _).1 hz] at h1j
        exact Bool.false_ne_true h1j

theorem cyc_full {s r c : Nat} (hr : r < s) (hc : c < s) (d : Fin 8) :
    cyc s r c d s = r * s + c := by
  unfold cyc wrap
  rw [Int.add_mul_emod_self_left, Int.add_mul_emod_self_left,
    Int.emod_eq_of_lt (by omega) (by omega), Int.emod_eq_of_lt (by omega) (by omega)]
  simp

theorem distance_exists {s o r c : Nat} (hs : board_cheak_size s = true) (ho : Confined s o)
    (hr : r < s) (hc : c < s) (hcell : o.testBit (r * s + c) = false) (d : Fin 8) :
    ∃ g, 1 ≤ g ∧ g ≤ s ∧ (∀ j, 1 ≤ j → j < g → o.testBit (cyc s r c d j) = true) ∧
      o.testBit (cyc s r c d g) = false ∧
      ∀ fuel, s ≤ fuel → board_distance_between_no_opponents fuel s o ⟨r, c⟩ d = some g := by
  have hp := valid_size_pos hs
  have hex : ∃ k, 1 ≤ k ∧ o.testBit (cyc s r c d k) = false :=
    ⟨s, hp, by rw [cyc_full hr hc]; exact hcell⟩
  classical
  refine ⟨Nat.find hex, (Nat.find_spec hex).1, Nat.find_min' hex ⟨hp, by rw [cyc_full hr hc]; exact hcell⟩, ?_, (Nat.find_spec hex).2, ?_⟩
  · intro j hj1 hj2
    have := Nat.find_min hex hj2
    simp only [not_and, Bool.not_eq_false] at this
    exact this hj1
  · intro fuel hfuel
    have hle : Nat.find hex ≤ s := Nat.find_min' hex ⟨hp, by rw [cyc_full hr hc]; exact hcell⟩
    have hs100 := (cell_index_lt hs hr hc).2
    have hs10 : s ≤ 10 := by rcases valid_size_cases hs with h | h | h | h | h <;> omega
    unfold board_distance_between_no_opponents
    simp only
    rw [set_bitboard_eq hs hr hc]
    have := distance_loop_spec s d (r * s + c) fuel o 0 (Nat.find hex) (Nat.find_spec hex).1
      (by omega) (by omega)
      (fun j hj1 hj2 => by
        rw [iterate_shifts_cell hs d hr hc j o ho]
        have := Nat.find_min hex hj2
        simp only [not_and, Bool.not_eq_false] at this
        exact this hj1)
      (by
        rw [iterate_shifts_cell hs d hr hc _ o ho]
        exact (Nat.find_spec hex).2)
    rw [this, Nat.zero_add]

theorem gap_of_spec {s o r c : Nat} (hs : board_cheak_size s = true) (ho : Confined s o)
    (hr : r < s) (hc : c < s) (hcell : o.testBit (r * s + c) = false) (d : Fin 8) :
    1 ≤ gap_of s o r c d ∧ gap_of s o r c d ≤ s ∧
      (∀ j, 1 ≤ j → j < gap_of s o r c d → o.testBit (cyc s r c d j) = true) ∧
      o.testBit (cyc s r c d (gap_of s o r c d)) = false ∧
      ∀ fuel, s ≤ fuel →
        board_distance_between_no_opponents fuel s o ⟨r, c⟩ d = some (gap_of s o r c d) := by
  obtain ⟨g, h1, h2, h3, h4, h5⟩ := distance_exists hs ho hr hc hcell d
  have e : gap_of s o r c d = g := by
    unfold gap_of
    rw [h5 s (le_refl s)]
    rfl
  rw [e]
  exact ⟨h1, h2, h3, h4, h5⟩

/-! ## compute_moves as a union of contributions -/

theorem testBit_orAll {α : Type} (g : α → Nat) (l : List α) (i : Nat) :
    (orAll g l).testBit i = true ↔ ∃ x ∈ l, (g x).testBit i = true := by
  induction l with
  | nil => simp [orAll]
  | cons x l ih => simp [orAll, Nat.testBit_or, ih]

theorem foldlM_or_some {α : Type} (f : Nat → α → Option Nat) (g : α → Nat) (l : List α)
    (h : ∀ x ∈ l, ∀ acc, f acc x = some (acc ||| g x)) :
    ∀ a, l.foldlM f a = some (a ||| orAll g l) := by
  induction l with
  | nil => intro a; simp [orAll]
  | cons x l ih =>
    intro a
    rw [List.foldlM_cons, h x (List.mem_cons_self x l)]
    simp only [Option.some_bind, Option.bind_eq_bind]
    rw [ih (fun y hy => h y (List.mem_cons_of_mem x hy))]
    simp [orAll, Nat.lor_assoc]

theorem to_int_eq {x : Int} (h1 : -2 ^ 31 ≤ x) (h2 : x < 2 ^ 31) : to_int x = x := by
  unfold to_int
  omega

theorem row_direction_cases (d : Fin 8) :
    row_direction d = -1 ∨ row_direction d = 0 ∨ row_direction d = 1 := by
  fin_cases d <;> simp [row_direction]

theorem column_direction_cases (d : Fin 8) :
    column_direction d = -1 ∨ column_direction d = 0 ∨ column_direction d = 1 := by
  fin_cases d <;> simp [column_direction]

theorem compute_moves_dir_eq {fuel s p o r c : Nat} (hs : board_cheak_size s = true)
    (ho : Confined s o) (hr : r < s) (hc : c < s) (hcell : o.testBit (r * s + c) = false)
    (hfuel : s ≤ fuel) (pm : Nat) (d : Fin 8) :
    compute_moves_dir fuel s p o r c pm d = some (pm ||| dir_contrib s p o r c d) := by
  obtain ⟨_, _, _, _, h5⟩ := gap_of_spec hs ho hr hc hcell d
  unfold compute_moves_dir dir_contrib
  rw [h5 fuel hfuel]
  simp only [Option.some_bind, Option.bind_eq_bind]
  split_ifs <;> simp

theorem compute_moves_cell_eq {fuel s p o r c : Nat} (hs : board_cheak_size s = true)
    (ho : Confined s o) (hdisj : p &&& o = 0) (hr : r < s) (hc : c < s)
    (hfuel : s ≤ fuel) (pm : Nat) :
    compute_moves_cell fuel s p o r pm c = some (pm ||| cell_contrib s p o r c) := by
  unfold compute_moves_cell cell_contrib
  by_cases h : p &&& set_bitboard s r c = 0
  · simp [h]
  · rw [if_neg h, if_neg h]
    apply foldlM_or_some
    intro d _ acc
    apply compute_moves_dir_eq hs ho hr hc _ hfuel
    rw [and_set_bitboard_eq_zero hs hr hc, Bool.not_eq_false] at h
    have := congrArg (fun y => y.testBit (r * s + c)) hdisj
    simpa [Nat.testBit_and, h] using this

theorem compute_moves_eq {fuel s p o : Nat} (hs : board_cheak_size s = true)
    (ho : Confined s o) (hdisj : p &&& o = 0) (hfuel : s ≤ fuel) :
    compute_moves fuel s p o = some (moves_of s p o) := by
  unfold compute_moves moves_of
  rw [foldlM_or_some _ (fun r => orAll (cell_contrib s p o r) (List.range s))]
  · simp
  · intro r hr acc
    apply foldlM_or_some
    intro c hc acc2
    exact compute_moves_cell_eq hs ho hdisj (List.mem_range.1 hr) (List.mem_range.1 hc) hfuel _

/-! ## Runs of opponent discs -/

theorem row_direction_opposite (d : Fin 8) : row_direction (opposite d) = -row_direction d := by
  fin_cases d <;> rfl

theorem column_direction_opposite (d : Fin 8) :
    column_direction (opposite d) = -column_direction d := by
  fin_cases d <;> rfl

theorem mem_all_directions (d : Fin 8) : d ∈ all_directions := by
  fin_cases d <;> simp [all_directions]

theorem direction_ne_zero (d : Fin 8) : row_direction d ≠ 0 ∨ column_direction d ≠ 0 := by
  fin_cases d <;> simp [row_direction, column_direction]

theorem wrap_in_range {s : Nat} {x : Int} (h0 : 0 ≤ x) (h1 : x < s) : wrap s x = x.toNat := by
  unfold wrap
  rw [Int.emod_eq_of_lt h0 h1]

theorem cellAt_nat {s : Nat} (b : Nat) {r c : Nat} (hr : r < s) (hc : c < s) :
    cellAt s b r c = b.testBit (r * s + c) := by
  unfold cellAt
  simp [hr, hc]

theorem cellAt_in {s : Nat} {b : Nat} {x y : Int} (h : cellAt s b x y = true) :
    0 ≤ x ∧ x < s ∧ 0 ≤ y ∧ y < s := by
  unfold cellAt at h
  simp only [Bool.and_eq_true, decide_eq_true_eq] at h
  exact h.1

/-- On a ray that ends inside the board every cell is inside the board, and the cyclic index
the shifts compute is the index of the real cell. -/
theorem ray_cells {s r c : Nat} (hr : r < s) (hc : c < s) (d : Fin 8) (g j : Nat)
    (hj : j ≤ g)
    (hE : 0 ≤ (r : Int) + g * row_direction d ∧ (r : Int) + g * row_direction d < s ∧
      0 ≤ (c : Int) + g * column_direction d ∧ (c : Int) + g * column_direction d < s) :
    (0 ≤ (r : Int) + j * row_direction d ∧ (r : Int) + j * row_direction d < s ∧
      0 ≤ (c : Int) + j * column_direction d ∧ (c : Int) + j * column_direction d < s) ∧
    cyc s r c d j =
      ((r : Int) + j * row_direction d).toNat * s + ((c : Int) + j * column_direction d).toNat := by
  have hin : 0 ≤ (r : Int) + j * row_direction d ∧ (r : Int) + j * row_direction d < s ∧
      0 ≤ (c : Int) + j * column_direction d ∧ (c : Int) + j * column_direction d < s := by
    rcases row_direction_cases d with h | h | h <;>
      rcases column_direction_cases d with h2 | h2 | h2 <;>
      rw [h, h2] at hE ⊢ <;>
      simp only [mul_neg, mul_one, mul_zero, add_zero] at hE ⊢ <;> omega
  refine ⟨hin, ?_⟩
  unfold cyc
  rw [wrap_in_range hin.1 hin.2.1, wrap_in_range hin.2.2.1 hin.2.2.2]

theorem cellAt_of_in {s : Nat} (b : Nat) {x y : Int}
    (h : 0 ≤ x ∧ x < s ∧ 0 ≤ y ∧ y < s) : cellAt s b x y = b.testBit (x.toNat * s + y.toNat) := by
  unfold cellAt
  simp [h]

/-- When the end of the run the distance loop found lies inside the board, the run is a row
of real opponent discs and its end is not an opponent disc. -/
theorem run_in_board {s o r c : Nat} (hs : board_cheak_size s = true) (ho : Confined s o)
    (hr : r < s) (hc : c < s) (hcell : o.testBit (r * s + c) = false) (d : Fin 8)
    (hE : 0 ≤ (r : Int) + (gap_of s o r c d : Nat) * row_direction d ∧
      (r : Int) + (gap_of s o r c d : Nat) * row_direction d < s ∧
      0 ≤ (c : Int) + (gap_of s o r c d : Nat) * column_direction d ∧
      (c : Int) + (gap_of s o r c d : Nat) * column_direction d < s) :
    (∀ j : Nat, 1 ≤ j → j < gap_of s o r c d →
      cellAt s o (r + j * row_direction d) (c + j * column_direction d) = true) ∧
    cellAt s o (r + (gap_of s o r c d : Nat) * row_direction d)
      (c + (gap_of s o r c d : Nat) * column_direction d) = false := by
  obtain ⟨_, _, h3, h4, _⟩ := gap_of_spec hs ho hr hc hcell d
  constructor
  · intro j hj1 hj2
    obtain ⟨hin, hidx⟩ := ray_cells hr hc d _ j (le_of_lt hj2) hE
    rw [cellAt_of_in o hin, ← hidx]
    exact h3 j hj1 hj2
  · obtain ⟨hin, hidx⟩ := ray_cells hr hc d _ _ (le_refl _) hE
    rw [cellAt_of_in o hin, ← hidx]
    exact h4

/-- A row of `k` real opponent discs from (r, c) that ends inside the board on a cell without
an opponent disc is the run the distance loop finds. -/
theorem run_unique {s o r c : Nat} (hs : board_cheak_size s = true) (ho : Confined s o)
    (hr : r < s) (hc : c < s) (hcell : o.testBit (r * s + c) = false) (d : Fin 8) (k : Nat)
    (hrun : ∀ j : Nat, 1 ≤ j → j ≤ k →
      cellAt s o (r + j * row_direction d) (c + j * column_direction d) = true)
    (hE : 0 ≤ (r : Int) + (k + 1 : Nat) * row_direction d ∧
      (r : Int) + (k + 1 : Nat) * row_direction d < s ∧
      0 ≤ (c : Int) + (k + 1 : Nat) * column_direction d ∧
      (c : Int) + (k + 1 : Nat) * column_direction d < s)
    (hend : cellAt s o (r + (k + 1 : Nat) * row_direction d)
      (c + (k + 1 : Nat) * column_direction d) = false) :
    gap_of s o r c d = k + 1 := by
  obtain ⟨h1, _, h3, h4, _⟩ := gap_of_spec hs ho hr hc hcell d
  rcases Nat.lt_trichotomy (gap_of s o r c d) (k + 1) with hlt | heq | hgt
  · exfalso
    obtain ⟨hin, hidx⟩ := ray_cells hr hc d (k + 1) (gap_of s o r c d) (le_of_lt hlt) hE
    have := hrun _ h1 (by omega)
    rw [cellAt_of_in o hin, ← hidx, h4] at this
    exact Bool.false_ne_true this
  · exact heq
  · exfalso
    obtain ⟨hin, hidx⟩ := ray_cells hr hc d (k + 1) (k + 1) (le_refl _) hE
    rw [cellAt_of_in o hin, ← hidx, h3 (k + 1) (by omega) hgt] at hend
    exact Bool.false_ne_true hend.symm

theorem valid_size_le {s : Nat} (hs : board_cheak_size s = true) : 2 ≤ s ∧ s ≤ 10 := by
  rcases valid_size_cases hs with h | h | h | h | h <;> omega

/-- The integer coordinates the code computes for the end of a run are exact. -/
theorem to_int_end {s r g : Nat} (hs : board_cheak_size s = true) (hr : r < s) (hg : g ≤ s)
    (x : Int) (hx : x = -1 ∨ x = 0 ∨ x = 1) :
    to_int (r + x * g) = r + g * x := by
  have := valid_size_le hs
  rw [to_int_eq] <;> rcases hx with h | h | h <;> subst h <;> omega

/-- The bits one direction contributes: the end of the run the loop found, when the run has
at least one opponent disc and ends inside the board on a cell without a mover disc. -/
theorem dir_contrib_testBit {s p o r c : Nat} (hs : board_cheak_size s = true)
    (ho : Confined s o) (hr : r < s) (hc : c < s) (hcell : o.testBit (r * s + c) = false)
    (d : Fin 8) (i : Nat) :
    (dir_contrib s p o r c d).testBit i = true ↔
      2 ≤ gap_of s o r c d ∧
      (0 ≤ (r : Int) + (gap_of s o r c d : Nat) * row_direction d ∧
        (r : Int) + (gap_of s o r c d : Nat) * row_direction d < s ∧
        0 ≤ (c : Int) + (gap_of s o r c d : Nat) * column_direction d ∧
        (c : Int) + (gap_of s o r c d : Nat) * column_direction d < s) ∧
      cellAt s p ((r : Int) + (gap_of s o r c d : Nat) * row_direction d)
        ((c : Int) + (gap_of s o r c d : Nat) * column_direction d) = false ∧
      i = ((r : Int) + (gap_of s o r c d : Nat) * row_direction d).toNat * s +
        ((c : Int) + (gap_of s o r c d : Nat) * column_direction d).toNat := by
  obtain ⟨h1, h2, _, _, _⟩ := gap_of_spec hs ho hr hc hcell d
  unfold dir_contrib
  simp only
  rw [to_int_end hs hr h2 _ (row_direction_cases d),
    to_int_end hs hc h2 _ (column_direction_cases d)]
  generalize hx : (r : Int) + (gap_of s o r c d : Nat) * row_direction d = x
  generalize hy : (c : Int) + (gap_of s o r c d : Nat) * column_direction d = y
  by_cases hin : 0 ≤ x ∧ x < s ∧ 0 ≤ y ∧ y < s
  · have hxn : x.toNat < s := by omega
    have hyn : y.toNat < s := by omega
    by_cases hg : gap_of s o r c d ≤ 1
    · rw [if_pos (Or.inl hg)]
      simp only [Nat.zero_testBit, Bool.false_eq_true, false_iff, not_and]
      intro h
      omega
    · rw [if_neg (by omega)]
      rw [cellAt_of_in p hin]
      by_cases hp : p.testBit (x.toNat * s + y.toNat) = false
      · rw [if_pos ((and_set_bitboard_eq_zero hs hxn hyn p).2 hp), set_bitboard_eq hs hxn hyn,
          Nat.testBit_two_pow]
        simp only [decide_eq_true_eq]
        constructor
        · intro h
          exact ⟨by omega, hin, hp, h.symm⟩
        · intro h
          exact h.2.2.2.symm
      · rw [if_neg (fun h => hp ((and_set_bitboard_eq_zero hs hxn hyn p).1 h))]
        simp only [Nat.zero_testBit, Bool.false_eq_true, false_iff, not_and]
        intro _ _ h
        exact absurd h hp
  · rw [if_pos (by omega)]
    simp only [Nat.zero_testBit, Bool.false_eq_true, false_iff, not_and]
    intro _ h
    exact absurd h hin

/-! ## The mask of compute_moves and the rule of the game -/

theorem disjoint_testBit {p o : Nat} (h : p &&& o = 0) {i : Nat} (hp : p.testBit i = true) :
    o.testBit i = false := by
  have := congrArg (fun y => y.testBit i) h
  simpa [Nat.testBit_and, hp] using this

theorem index_inj {s r c r2 c2 : Nat} (hc : c < s) (hc2 : c2 < s)
    (h : r * s + c = r2 * s + c2) : r = r2 ∧ c = c2 := by
  have hs : 0 < s := by omega
  have h1 : (r * s + c) / s = r := by
    rw [Nat.add_comm, Nat.add_mul_div_right _ _ hs, Nat.div_eq_of_lt hc, Nat.zero_add]
  have h2 : (r2 * s + c2) / s = r2 := by
    rw [Nat.add_comm, Nat.add_mul_div_right _ _ hs, Nat.div_eq_of_lt hc2, Nat.zero_add]
  have hr : r = r2 := by rw [← h1, ← h2, h]
  subst hr
  exact ⟨rfl, by omega⟩

theorem cell_contrib_testBit {s p o r c : Nat} (hs : board_cheak_size s = true)
    (hr : r < s) (hc : c < s) (i : Nat) :
    (cell_contrib s p o r c).testBit i = true ↔
      p.testBit (r * s + c) = true ∧ ∃ d, (dir_contrib s p o r c d).testBit i = true := by
  unfold cell_contrib
  by_cases h : p.testBit (r * s + c) = false
  · rw [if_pos ((and_set_bitboard_eq_zero hs hr hc p).2 h)]
    simp [h]
  · rw [if_neg (fun h2 => h ((and_set_bitboard_eq_zero hs hr hc p).1 h2)), testBit_orAll]
    simp only [Bool.not_eq_false] at h
    simp [h, mem_all_directions]

theorem moves_of_testBit_raw {s p o : Nat} (hs : board_cheak_size s = true) (i : Nat) :
    (moves_of s p o).testBit i = true ↔
      ∃ r c, r < s ∧ c < s ∧ p.testBit (r * s + c) = true ∧
        ∃ d, (dir_contrib s p o r c d).testBit i = true := by
  unfold moves_of
  rw [testBit_orAll]
  constructor
  · rintro ⟨r, hr, h⟩
    rw [testBit_orAll] at h
    obtain ⟨c, hc, h⟩ := h
    rw [List.mem_range] at hr hc
    rw [cell_contrib_testBit hs hr hc] at h
    exact ⟨r, c, hr, hc, h.1, h.2⟩
  · rintro ⟨r, c, hr, hc, h1, h2⟩
    refine ⟨r, List.mem_range.2 hr, ?_⟩
    rw [testBit_orAll]
    refine ⟨c, List.mem_range.2 hc, ?_⟩
    rw [cell_contrib_testBit hs hr hc]
    exact ⟨h1, h2⟩

/-- The mask of `compute_moves` holds exactly the cells that are legal by the rule. -/
theorem moves_of_testBit_iff {s p o : Nat} (hs : board_cheak_size s = true)
    (ho : Confined s o) (hdisj : p &&& o = 0) (i : Nat) :
    (moves_of s p o).testBit i = true ↔
      ∃ r c, r < s ∧ c < s ∧ i = r * s + c ∧ Legal s p o r c := by
  rw [moves_of_testBit_raw hs]
  constructor
  · rintro ⟨r0, c0, hr0, hc0, hp0, d, hd⟩
    have ho0 := disjoint_testBit hdisj hp0
    rw [dir_contrib_testBit hs ho hr0 hc0 ho0] at hd
    obtain ⟨hg, hE, hpE, hi⟩ := hd
    obtain ⟨hrun, hend⟩ := run_in_board hs ho hr0 hc0 ho0 d hE
    generalize hx : (r0 : Int) + (gap_of s o r0 c0 d : Nat) * row_direction d = x at *
    generalize hy : (c0 : Int) + (gap_of s o r0 c0 d : Nat) * column_direction d = y at *
    generalize hgg : gap_of s o r0 c0 d = g at *
    have hxc : ((x.toNat : Nat) : Int) = x := Int.toNat_of_nonneg hE.1
    have hyc : ((y.toNat : Nat) : Int) = y := Int.toNat_of_nonneg hE.2.2.1
    refine ⟨x.toNat, y.toNat, by omega, by omega, hi, ?_⟩
    unfold Legal
    rw [hxc, hyc]
    refine ⟨hpE, hend, opposite d, g - 1, ?_⟩
    refine ⟨by omega, ?_, ?_⟩
    · intro j hj1 hj2
      have := hrun (g - j) (by omega) (by omega)
      rw [row_direction_opposite, column_direction_opposite]
      have e1 : x + (j : Int) * -row_direction d = r0 + ((g - j : Nat) : Int) * row_direction d := by
        rw [← hx, Nat.cast_sub (by omega)]
        ring
      have e2 : y + (j : Int) * -column_direction d =
          c0 + ((g - j : Nat) : Int) * column_direction d := by
        rw [← hy, Nat.cast_sub (by omega)]
        ring
      rw [e1, e2]
      exact this
    · rw [row_direction_opposite, column_direction_opposite]
      have e1 : x + ((g - 1 + 1 : Nat) : Int) * -row_direction d = r0 := by
        rw [← hx, show g - 1 + 1 = g by omega]
        ring
      have e2 : y + ((g - 1 + 1 : Nat) : Int) * -column_direction d = c0 := by
        rw [← hy, show g - 1 + 1 = g by omega]
        ring
      rw [e1, e2, cellAt_nat p hr0 hc0]
      exact hp0
  · rintro ⟨r, c, hr, hc, hi, hpc, hoc, d, k, hk, hrun, hend⟩
    have hin := cellAt_in hend
    generalize hx : (r : Int) + ((k + 1 : Nat) : Int) * row_direction d = x at *
    generalize hy : (c : Int) + ((k + 1 : Nat) : Int) * column_direction d = y at *
    have hxc : ((x.toNat : Nat) : Int) = x := Int.toNat_of_nonneg hin.1
    have hyc : ((y.toNat : Nat) : Int) = y := Int.toNat_of_nonneg hin.2.2.1
    have hxn : x.toNat < s := by omega
    have hyn : y.toNat < s := by omega
    have hp0 : p.testBit (x.toNat * s + y.toNat) = true := by
      rw [cellAt_of_in p hin] at hend
      exact hend
    have ho0 := disjoint_testBit hdisj hp0
    have e1 : ∀ j : Nat, ((x.toNat : Nat) : Int) + (j : Int) * row_direction (opposite d) =
        r + ((k + 1 : Nat) : Int) * row_direction d - j * row_direction d := by
      intro j
      rw [hxc, ← hx, row_direction_opposite]
      ring
    have e2 : ∀ j : Nat, ((y.toNat : Nat) : Int) + (j : Int) * column_direction (opposite d) =
        c + ((k + 1 : Nat) : Int) * column_direction d - j * column_direction d := by
      intro j
      rw [hyc, ← hy, column_direction_opposite]
      ring
    have e1k : ((x.toNat : Nat) : Int) + ((k + 1 : Nat) : Int) * row_direction (opposite d) = r := by
      rw [e1]; ring
    have e2k : ((y.toNat : Nat) : Int) + ((k + 1 : Nat) : Int) * column_direction (opposite d) = c := by
      rw [e2]; ring
    have hgap : gap_of s o x.toNat y.toNat (opposite d) = k + 1 := by
      apply run_unique hs ho hxn hyn ho0 (opposite d) k
      · intro j hj1 hj2
        have := hrun (k + 1 - j) (by omega) (by omega)
        have f1 : ((x.toNat : Nat) : Int) + (j : Int) * row_direction (opposite d) =
            r + ((k + 1 - j : Nat) : Int) * row_direction d := by
          rw [e1, Nat.cast_sub (by omega)]
          ring
        have f2 : ((y.toNat : Nat) : Int) + (j : Int) * column_direction (opposite d) =
            c + ((k + 1 - j : Nat) : Int) * column_direction d := by
          rw [e2, Nat.cast_sub (by omega)]
          ring
        rw [f1, f2]
        exact this
      · rw [e1k, e2k]
        omega
      · rw [e1k, e2k]
        exact hoc
    refine ⟨x.toNat, y.toNat, hxn, hyn, hp0, opposite d, ?_⟩
    rw [dir_contrib_testBit hs ho hxn hyn ho0, hgap, e1k, e2k]
    refine ⟨by omega, by omega, hpc, ?_⟩
    simpa using hi

/-! ## The SWAR popcount -/

theorem land_split (X Y : Nat) :
    X &&& Y = ((X % 256) &&& (Y % 256)) + 256 * ((X / 256) &&& (Y / 256)) := by
  have key : X &&& Y = 2 ^ 8 * ((X / 2 ^ 8) &&& (Y / 2 ^ 8)) + ((X % 2 ^ 8) &&& (Y % 2 ^ 8)) := by
    have hA : (X % 2 ^ 8) &&& (Y % 2 ^ 8) < 2 ^ 8 :=
      Nat.and_lt_two_pow _ (Nat.mod_lt _ (by norm_num))
    apply Nat.eq_of_testBit_eq
    intro i
    rw [Nat.testBit_mul_pow_two_add _ hA]
    simp only [← Nat.shiftRight_eq_div_pow, Nat.testBit_and, Nat.testBit_mod_two_pow,
      Nat.testBit_shiftRight]
    by_cases h : i < 8
    · simp [h]
    · simp only [h, if_false]
      rw [show 8 + (i - 8) = i by omega]
  norm_num at key
  omega

set_option maxRecDepth 100000 in
theorem swar1_peel (m lo hi : Nat) (hlo : lo < 256) :
    swar1 (0x55 + 256 * m) (lo + 256 * hi) = swar1 0x55 lo + 256 * swar1 m hi := by
  unfold swar1
  rw [land_split ((lo + 256 * hi) >>> 1) (0x55 + 256 * m)]
  simp only [Nat.shiftRight_eq_div_pow]
  have e1 : (lo + 256 * hi) / 2 ^ 1 % 256 = lo / 2 + 128 * (hi % 2) := by omega
  have e2 : (lo + 256 * hi) / 2 ^ 1 / 256 = hi / 2 ^ 1 := by omega
  have e3 : (0x55 + 256 * m) % 256 = 0x55 := by omega
  have e4 : (0x55 + 256 * m) / 256 = m := by omega
  rw [e1, e2, e3, e4]
  have k0 : ∀ lo, lo < 256 → ∀ e, e < 2 → (lo / 2 + 128 * e) &&& 0x55 = (lo / 2 ^ 1) &&& 0x55 := by
    decide
  have k1 : ∀ lo, lo < 256 → (lo / 2 ^ 1) &&& 0x55 ≤ lo := by decide
  rw [k0 lo hlo (hi % 2) (Nat.mod_lt _ (by norm_num))]
  have h1 := k1 lo hlo
  have h2 : (hi / 2 ^ 1) &&& m ≤ hi := le_trans Nat.and_le_left (Nat.div_le_self _ _)
  omega

set_option maxRecDepth 100000 in
theorem swar2_peel (m a h : Nat) (ha : a < 256) :
    swar2 (0x33 + 256 * m) (a + 256 * h) = swar2 0x33 a + 256 * swar2 m h := by
  unfold swar2
  rw [land_split (a + 256 * h) (0x33 + 256 * m),
    land_split ((a + 256 * h) >>> 2) (0x33 + 256 * m)]
  simp only [Nat.shiftRight_eq_div_pow]
  have e0 : (a + 256 * h) % 256 = a := by omega
  have e0d : (a + 256 * h) / 256 = h := by omega
  have e1 : (a + 256 * h) / 2 ^ 2 % 256 = a / 4 + 64 * (h % 4) := by omega
  have e2 : (a + 256 * h) / 2 ^ 2 / 256 = h / 2 ^ 2 := by omega
  have e3 : (0x33 + 256 * m) % 256 = 0x33 := by omega
  have e4 : (0x33 + 256 * m) / 256 = m := by omega
  rw [e0, e0d, e1, e2, e3, e4]
  have k0 : ∀ a, a < 256 → ∀ e, e < 4 → (a / 4 + 64 * e) &&& 0x33 = (a / 2 ^ 2) &&& 0x33 := by
    decide
  rw [k0 a ha (h % 4) (Nat.mod_lt _ (by norm_num))]
  omega

theorem land_15 (x : Nat) : x &&& 0x0F = x % 16 := Nat.and_pow_two_sub_one_eq_mod x 4

theorem swar3_peel (m a h : Nat) (ha : a < 256) (hcarry : a + a / 16 + 16 * (h % 16) < 256) :
    swar3 (0x0F + 256 * m) (a + 256 * h) = swar3 0x0F a + 256 * swar3 m h := by
  unfold swar3
  rw [land_split (a + 256 * h + (a + 256 * h) >>> 4) (0x0F + 256 * m)]
  simp only [Nat.shiftRight_eq_div_pow]
  have e1 : (a + 256 * h + (a + 256 * h) / 2 ^ 4) % 256 = a + a / 16 + 16 * (h % 16) := by omega
  have e2 : (a + 256 * h + (a + 256 * h) / 2 ^ 4) / 256 = h + h / 2 ^ 4 := by omega
  have e3 : (0x0F + 256 * m) % 256 = 0x0F := by omega
  have e4 : (0x0F + 256 * m) / 256 = m := by omega
  rw [e1, e2, e3, e4, land_15, land_15]
  omega

set_option maxRecDepth 100000 in
theorem byte_facts : ∀ lo, lo < 256 →
    swar1 0x55 lo < 256 ∧ swar2 0x33 (swar1 0x55 lo) ≤ 68 ∧
      swar2 0x33 (swar1 0x55 lo) % 16 ≤ 4 ∧ pc8 lo = bits 8 lo := by
  decide

theorem land_zero_right (x : Nat) : x &&& 0 = 0 := by
  apply Nat.eq_of_testBit_eq
  intro i
  simp

theorem low_nibble (n hi : Nat) :
    swar2 (rep 0x33 n) (swar1 (rep 0x55 n) hi) % 16 ≤ 4 := by
  cases n with
  | zero => simp [rep, swar2, land_zero_right]
  | succ n =>
    have hlt : hi % 256 < 256 := Nat.mod_lt _ (by norm_num)
    obtain ⟨f1, _, f3, _⟩ := byte_facts (hi % 256) hlt
    have e : hi = hi % 256 + 256 * (hi / 256) := (Nat.mod_add_div hi 256).symm
    rw [e]
    simp only [rep]
    rw [swar1_peel _ _ _ hlt, swar2_peel _ _ _ f1]
    omega

theorem swar_peel (n lo hi : Nat) (hlo : lo < 256) :
    swar (rep 0x55 (n + 1)) (rep 0x33 (n + 1)) (rep 0x0F (n + 1)) (lo + 256 * hi) =
      pc8 lo + 256 * swar (rep 0x55 n) (rep 0x33 n) (rep 0x0F n) hi := by
  obtain ⟨f1, f2, _, _⟩ := byte_facts lo hlo
  have hn := low_nibble n hi
  unfold swar pc8
  simp only [rep]
  rw [swar1_peel _ _ _ hlo, swar2_peel _ _ _ f1, swar3_peel _ _ _ (by omega) (by omega)]

theorem swar_rep (n : Nat) :
    ∀ x, swar (rep 0x55 n) (rep 0x33 n) (rep 0x0F n) x = byte_sums n x := by
  induction n with
  | zero => intro x; simp [swar, swar3, rep, byte_sums, land_zero_right]
  | succ n ih =>
    intro x
    have hlt : x % 256 < 256 := Nat.mod_lt _ (by norm_num)
    have e : x = x % 256 + 256 * (x / 256) := (Nat.mod_add_div x 256).symm
    conv_lhs => rw [e]
    rw [swar_peel n _ _ hlt, ih]
    rfl

theorem pc8_le (x : Nat) : pc8 (x % 256) ≤ 8 := by
  have hlt : x % 256 < 256 := Nat.mod_lt _ (by norm_num)
  have h := (byte_facts _ hlt).2.2.2
  rw [h]
  unfold bits
  have := List.countP_le_length (fun i => (x % 256).testBit i) (l := List.range 8)
  simpa using this

theorem popcount_half_swar (x : Nat) (hx : x < 2 ^ 128) :
    popcount_half x =
      ((swar (rep 0x55 8) (rep 0x33 8) (rep 0x0F 8) x * 0x0101010101010101) >>> 56) &&& 0x7F := by
  have r5 : rep 0x55 8 = 0x5555555555555555 := by decide
  have r3 : rep 0x33 8 = 0x3333333333333333 := by decide
  have rF : rep 0x0F 8 = 0x0F0F0F0F0F0F0F0F := by decide
  rw [r5, r3, rF]
  unfold popcount_half swar swar1 swar2 swar3 sub128
  simp only
  have h1 : (x >>> 1) &&& 0x5555555555555555 ≤ x := by
    rw [Nat.shiftRight_eq_div_pow]
    exact le_trans Nat.and_le_left (Nat.div_le_self _ _)
  have e1 : (x + 2 ^ 128 - ((x >>> 1) &&& 0x5555555555555555)) % 2 ^ 128 =
      x - ((x >>> 1) &&& 0x5555555555555555) := by
    have : x + 2 ^ 128 - ((x >>> 1) &&& 0x5555555555555555) =
        (x - ((x >>> 1) &&& 0x5555555555555555)) + 2 ^ 128 := by omega
    rw [this, Nat.add_mod_right]
    exact Nat.mod_eq_of_lt (by omega)
  rw [e1]
  generalize x - ((x >>> 1) &&& 0x5555555555555555) = c1
  have h2a : c1 &&& 0x3333333333333333 ≤ 0x3333333333333333 := Nat.and_le_right
  have h2b : (c1 >>> 2) &&& 0x3333333333333333 ≤ 0x3333333333333333 := Nat.and_le_right
  have e2 : ((c1 &&& 0x3333333333333333) + ((c1 >>> 2) &&& 0x3333333333333333)) % 2 ^ 128 =
      (c1 &&& 0x3333333333333333) + ((c1 >>> 2) &&& 0x3333333333333333) :=
    Nat.mod_eq_of_lt (by omega)
  rw [e2]
  have h2 : (c1 &&& 0x3333333333333333) + ((c1 >>> 2) &&& 0x3333333333333333) < 2 ^ 65 := by
    omega
  generalize (c1 &&& 0x3333333333333333) + ((c1 >>> 2) &&& 0x3333333333333333) = c2 at h2 ⊢
  have h3 : c2 >>> 4 ≤ c2 := by
    rw [Nat.shiftRight_eq_div_pow]
    exact Nat.div_le_self _ _
  have e3 : (c2 + c2 >>> 4) % 2 ^ 128 = c2 + c2 >>> 4 := Nat.mod_eq_of_lt (by omega)
  rw [e3]
  have h4 : (c2 + c2 >>> 4) &&& 0x0F0F0F0F0F0F0F0F ≤ 0x0F0F0F0F0F0F0F0F := Nat.and_le_right
  generalize (c2 + c2 >>> 4) &&& 0x0F0F0F0F0F0F0F0F = c3 at h4 ⊢
  rw [Nat.mod_eq_of_lt (by omega)]

theorem popcount_half_eq (x : Nat) (hx : x < 2 ^ 128) : popcount_half x = byte_total 8 x := by
  rw [popcount_half_swar x hx, swar_rep]
  simp only [byte_sums, byte_total]
  have b0 := pc8_le x
  have b1 := pc8_le (x / 256)
  have b2 := pc8_le (x / 256 / 256)
  have b3 := pc8_le (x / 256 / 256 / 256)
  have b4 := pc8_le (x / 256 / 256 / 256 / 256)
  have b5 := pc8_le (x / 256 / 256 / 256 / 256 / 256)
  have b6 := pc8_le (x / 256 / 256 / 256 / 256 / 256 / 256)
  have b7 := pc8_le (x / 256 / 256 / 256 / 256 / 256 / 256 / 256)
  generalize pc8 (x % 256) = p0 at b0 ⊢
  generalize pc8 (x / 256 % 256) = p1 at b1 ⊢
  generalize pc8 (x / 256 / 256 % 256) = p2 at b2 ⊢
  generalize pc8 (x / 256 / 256 / 256 % 256) = p3 at b3 ⊢
  generalize pc8 (x / 256 / 256 / 256 / 256 % 256) = p4 at b4 ⊢
  generalize pc8 (x / 256 / 256 / 256 / 256 / 256 % 256) = p5 at b5 ⊢
  generalize pc8 (x / 256 / 256 / 256 / 256 / 256 / 256 % 256) = p6 at b6 ⊢
  generalize pc8 (x / 256 / 256 / 256 / 256 / 256 / 256 / 256 % 256) = p7 at b7 ⊢
  rw [Nat.shiftRight_eq_div_pow, show (0x7F : Nat) = 2 ^ 7 - 1 by norm_num,
    Nat.and_pow_two_sub_one_eq_mod]
  have hsplit : (p0 + 256 * (p1 + 256 * (p2 + 256 * (p3 + 256 * (p4 + 256 * (p5 + 256 *
      (p6 + 256 * (p7 + 256 * 0)))))))) * 0x0101010101010101 =
      (p0 + 256 * (p0 + p1) + 256 ^ 2 * (p0 + p1 + p2) + 256 ^ 3 * (p0 + p1 + p2 + p3) +
        256 ^ 4 * (p0 + p1 + p2 + p3 + p4) + 256 ^ 5 * (p0 + p1 + p2 + p3 + p4 + p5) +
        256 ^ 6 * (p0 + p1 + p2 + p3 + p4 + p5 + p6)) +
      2 ^ 56 * ((p0 + p1 + p2 + p3 + p4 + p5 + p6 + p7) +
        256 * ((p1 + p2 + p3 + p4 + p5 + p6 + p7) + 256 * (p2 + p3 + p4 + p5 + p6 + p7) +
          256 ^ 2 * (p3 + p4 + p5 + p6 + p7) + 256 ^ 3 * (p4 + p5 + p6 + p7) +
          256 ^ 4 * (p5 + p6 + p7) + 256 ^ 5 * (p6 + p7) + 256 ^ 6 * p7)) := by
    ring
  rw [hsplit, Nat.add_mul_div_left _ _ (by norm_num : 0 < 2 ^ 56)]
  have hlow : (p0 + 256 * (p0 + p1) + 256 ^ 2 * (p0 + p1 + p2) + 256 ^ 3 * (p0 + p1 + p2 + p3) +
        256 ^ 4 * (p0 + p1 + p2 + p3 + p4) + 256 ^ 5 * (p0 + p1 + p2 + p3 + p4 + p5) +
        256 ^ 6 * (p0 + p1 + p2 + p3 + p4 + p5 + p6)) / 2 ^ 56 = 0 :=
    Nat.div_eq_of_lt (by omega)
  rw [hlow]
  omega

theorem bits_add (a b x : Nat) : bits (a + b) x = bits a x + bits b (x / 2 ^ a) := by
  unfold bits
  rw [List.range_add, List.countP_append, List.countP_map]
  congr 1
  apply congrArg (fun f => List.countP f (List.range b))
  funext i
  simp only [Function.comp, ← Nat.shiftRight_eq_div_pow, Nat.testBit_shiftRight]

theorem bits_mod (x : Nat) : bits 8 (x % 256) = bits 8 x := by
  unfold bits
  apply List.countP_congr
  intro i hi
  rw [List.mem_range] at hi
  rw [show (256 : Nat) = 2 ^ 8 by norm_num, Nat.testBit_mod_two_pow]
  simp [hi]

theorem byte_total_eq (n : Nat) : ∀ x, byte_total n x = bits (8 * n) x := by
  induction n with
  | zero => intro x; simp [byte_total, bits]
  | succ n ih =>
    intro x
    have hlt : x % 256 < 256 := Nat.mod_lt _ (by norm_num)
    rw [show 8 * (n + 1) = 8 + 8 * n by ring, bits_add, ← ih, ← bits_mod,
      ← (byte_facts _ hlt).2.2.2]
    rfl

theorem bits_le (k x : Nat) : bits k x ≤ k := by
  unfold bits
  have := List.countP_le_length (fun i => x.testBit i) (l := List.range k)
  simpa using this

/-- The SWAR popcount returns the number of set bits of every 128-bit value. -/
theorem bitboard_popcount_eq (b : Nat) (hb : b < 2 ^ 128) :
    bitboard_popcount b = popcount_spec b := by
  have h2 : b >>> 64 < 2 ^ 128 := by
    rw [Nat.shiftRight_eq_div_pow]
    exact lt_of_le_of_lt (Nat.div_le_self _ _) hb
  unfold bitboard_popcount
  simp only
  rw [popcount_half_eq b hb, popcount_half_eq _ h2, byte_total_eq, byte_total_eq,
    Nat.shiftRight_eq_div_pow, ← bits_add]
  have := bits_le (8 * 8 + 8 * 8) b
  rw [Nat.mod_eq_of_lt (by omega)]
  rfl

/-! ## Writing discs and reversing one direction -/

theorem testBit_set (x idx i : Nat) :
    (x ||| 2 ^ idx).testBit i = (x.testBit i || decide (i = idx)) := by
  rw [Nat.testBit_or, Nat.testBit_two_pow]
  congr 1
  by_cases h : i = idx
  · simp [h]
  · simp [h, Ne.symm h]

theorem testBit_clear {s y idx : Nat} (hs100 : s * s ≤ 100) (hy : Confined s y) (i : Nat) :
    (y &&& not128 (2 ^ idx)).testBit i = (y.testBit i && !decide (i = idx)) := by
  rw [Nat.testBit_and, testBit_not128, Nat.testBit_two_pow]
  by_cases hi : i < 128
  · by_cases h : i = idx
    · subst h; simp [hi]
    · simp [h, hi, Ne.symm h]
  · rw [hy.testBit_false (by omega)]
    simp

theorem confined_set {s x idx : Nat} (hx : Confined s x) (hidx : idx < s * s) :
    Confined s (x ||| 2 ^ idx) := by
  apply confined_of_testBit
  intro i hi
  rw [testBit_set, hx.testBit_false hi]
  simp
  omega

theorem confined_clear {s y : Nat} (hy : Confined s y) (m : Nat) : Confined s (y &&& m) :=
  lt_of_le_of_lt Nat.and_le_left hy

theorem disjoint_set_clear {s x y idx : Nat} (hs100 : s * s ≤ 100) (hy : Confined s y)
    (hd : x &&& y = 0) : (x ||| 2 ^ idx) &&& (y &&& not128 (2 ^ idx)) = 0 := by
  apply Nat.eq_of_testBit_eq
  intro i
  rw [Nat.testBit_and, testBit_set, testBit_clear hs100 hy, Nat.zero_testBit]
  have := congrArg (fun z => z.testBit i) hd
  simp only [Nat.testBit_and, Nat.zero_testBit] at this
  cases hx : x.testBit i <;> cases hyb : y.testBit i <;> simp_all

theorem land_comm_zero {x y : Nat} (h : x &&& y = 0) : y &&& x = 0 := by
  rw [Nat.land_comm]; exact h

/-- Writing the colour of the mover on a cell of the board: the call returns, the mover gains
the cell, the opponent loses it, and the mask is recomputed. -/
theorem board_set_mover {fuel : Nat} {b : board_t} (hok : PlanesOK b)
    (hpl : b.player = disc_t.BLACK_DISC ∨ b.player = disc_t.WHITE_DISC)
    (hfuel : 10 ≤ fuel) {r c : Nat} (hr : r < b.size) (hc : c < b.size) :
    ∃ b2, board_set fuel b b.player r c = some b2 ∧ PlanesOK b2 ∧ MaskFresh b2 ∧
      b2.size = b.size ∧ b2.player = b.player ∧ b2.next_move = b.next_move ∧
      (∀ i, (mover_plane b2).testBit i =
        ((mover_plane b).testBit i || decide (i = r * b.size + c))) ∧
      (∀ i, (other_plane b2).testBit i =
        ((other_plane b).testBit i && !decide (i = r * b.size + c))) := by
  obtain ⟨hs, hbk, hwh, hdj⟩ := hok
  have hidx := cell_index_lt hs hr hc
  have hs10 := (valid_size_le hs).2
  obtain ⟨s, pl, bk, wh, mv, nm⟩ := b
  simp only at hs hbk hwh hdj hpl hr hc hidx hs10
  rcases hpl with h | h <;> subst h
  · have hd2 := @disjoint_set_clear s bk wh (r * s + c) hidx.2 hwh hdj
    have hc1 := confined_set hbk hidx.1
    have hc2 := confined_clear hwh (not128 (2 ^ (r * s + c)))
    refine ⟨⟨s, disc_t.BLACK_DISC, bk ||| 2 ^ (r * s + c), wh &&& not128 (2 ^ (r * s + c)),
      moves_of s (bk ||| 2 ^ (r * s + c)) (wh &&& not128 (2 ^ (r * s + c))), nm⟩, ?_,
      ⟨hs, hc1, hc2, hd2⟩, ?_, rfl, rfl, rfl, ?_, ?_⟩
    · unfold board_set
      rw [if_neg (by simp only [ge_iff_le]; omega)]
      simp only [board_set_planes, set_bitboard_eq hs hr hc, reduceCtorEq, if_false, if_true]
      rw [compute_moves_eq hs hc2 hd2 (by omega)]
      rfl
    · exact ⟨fun _ => rfl, fun h => (by cases h)⟩
    · intro i
      simp only [mover_plane, reduceCtorEq, if_false]
      exact testBit_set _ _ _
    · intro i
      simp only [other_plane, if_true]
      exact testBit_clear hidx.2 hwh _
  · have hd2 := @disjoint_set_clear s wh bk (r * s + c) hidx.2 hbk (land_comm_zero hdj)
    have hc1 := confined_set hwh hidx.1
    have hc2 := confined_clear hbk (not128 (2 ^ (r * s + c)))
    refine ⟨⟨s, disc_t.WHITE_DISC, bk &&& not128 (2 ^ (r * s + c)), wh ||| 2 ^ (r * s + c),
      moves_of s (wh ||| 2 ^ (r * s + c)) (bk &&& not128 (2 ^ (r * s + c))), nm⟩, ?_,
      ⟨hs, hc2, hc1, land_comm_zero hd2⟩, ?_, rfl, rfl, rfl, ?_, ?_⟩
    · unfold board_set
      rw [if_neg (by simp only [ge_iff_le]; omega)]
      simp only [board_set_planes, set_bitboard_eq hs hr hc, reduceCtorEq, if_false, if_true]
      rw [compute_moves_eq hs hc2 hd2 (by omega)]
      rfl
    · exact ⟨fun h => (by cases h), fun _ => rfl⟩
    · intro i
      simp only [mover_plane, if_true]
      exact testBit_set _ _ _
    · intro i
      simp only [other_plane, reduceCtorEq, if_false]
      exact testBit_clear hidx.2 hbk _

/-- A loop whose every step returns, keeps the property `G`, gives the mover the cells of
`F x` and takes them from the opponent, does the same for the union of the `F x`. -/
theorem fold_steps {α : Type} (f : board_t → α → Option board_t) (F : α → Nat → Prop)
    (G : board_t → Prop) (L : List α)
    (hstep : ∀ x ∈ L, ∀ b, G b → ∃ b2, f b x = some b2 ∧ G b2 ∧
      (∀ i, (mover_plane b2).testBit i = true ↔ (mover_plane b).testBit i = true ∨ F x i) ∧
      (∀ i, (other_plane b2).testBit i = true ↔ (other_plane b).testBit i = true ∧ ¬F x i)) :
    ∀ b, G b → ∃ b2, L.foldlM f b = some b2 ∧ G b2 ∧
      (∀ i, (mover_plane b2).testBit i = true ↔
        (mover_plane b).testBit i = true ∨ ∃ x ∈ L, F x i) ∧
      (∀ i, (other_plane b2).testBit i = true ↔
        (other_plane b).testBit i = true ∧ ¬∃ x ∈ L, F x i) := by
  induction L with
  | nil =>
    intro b hb
    exact ⟨b, rfl, hb, by simp, by simp⟩
  | cons x L ih =>
    intro b hb
    obtain ⟨b1, h1, hg1, hm1, ho1⟩ := hstep x (List.mem_cons_self x L) b hb
    obtain ⟨b2, h2, hg2, hm2, ho2⟩ :=
      ih (fun y hy => hstep y (List.mem_cons_of_mem x hy)) b1 hg1
    refine ⟨b2, ?_, hg2, ?_, ?_⟩
    · rw [List.foldlM_cons, h1]
      exact h2
    · intro i
      rw [hm2, hm1]
      simp only [List.mem_cons, exists_eq_or_imp]
      exact or_assoc
    · intro i
      rw [ho2, ho1]
      simp only [List.mem_cons, exists_eq_or_imp, not_or]
      exact and_assoc

theorem to_size_t_eq {x : Int} (h0 : 0 ≤ x) (h1 : x < 2 ^ 64) : to_size_t x = x.toNat := by
  unfold to_size_t
  rw [Int.emod_eq_of_lt h0 h1]

theorem board_reverse_dir_spec {fuel s : Nat} {pl0 : disc_t} {nm : bitboard_t}
    (hpl : pl0 = disc_t.BLACK_DISC ∨ pl0 = disc_t.WHITE_DISC) (hfuel : 10 ≤ fuel)
    (hs : board_cheak_size s = true) {adv pl mr mc : Nat} (hadv : Confined s adv)
    (hr : mr < s) (hc : mc < s) (hm : adv.testBit (mr * s + mc) = false) (d : Fin 8)
    (b : board_t) (hb : Steady s pl0 nm b) :
    ∃ b2, board_reverse_dir fuel adv pl ⟨mr, mc⟩ b d = some b2 ∧ Steady s pl0 nm b2 ∧
      (∀ i, (mover_plane b2).testBit i = true ↔
        (mover_plane b).testBit i = true ∨ FlipDir s adv pl mr mc d i) ∧
      (∀ i, (other_plane b2).testBit i = true ↔
        (other_plane b).testBit i = true ∧ ¬FlipDir s adv pl mr mc d i) := by
  obtain ⟨hok, hsz, hplb, hnm⟩ := hb
  have hs10 := (valid_size_le hs).2
  obtain ⟨g1, g2, _, _, g5⟩ := gap_of_spec hs hadv hr hc hm d
  unfold board_reverse_dir
  simp only [board_size, hsz]
  rw [g5 fuel (by omega)]
  simp only [Option.some_bind, Option.bind_eq_bind]
  rw [to_int_end hs hr g2 _ (row_direction_cases d),
    to_int_end hs hc g2 _ (column_direction_cases d)]
  by_cases hcond : 2 ≤ gap_of s adv mr mc d ∧
      cellAt s pl (mr + (gap_of s adv mr mc d : Nat) * row_direction d)
        (mc + (gap_of s adv mr mc d : Nat) * column_direction d) = true
  · obtain ⟨hg, hE⟩ := hcond
    have hin := cellAt_in hE
    rw [cellAt_of_in pl hin] at hE
    rw [if_neg]
    swap
    · have hxn : ((mr : Int) + (gap_of s adv mr mc d : Nat) * row_direction d).toNat < s := by
        omega
      have hyn : ((mc : Int) + (gap_of s adv mr mc d : Nat) * column_direction d).toNat < s := by
        omega
      rw [and_set_bitboard_eq_zero hs hxn hyn, hE]
      simp only [Bool.true_eq_false, or_false, ge_iff_le]
      omega
    have key := fold_steps
      (fun board (t : Nat) => board_set fuel board (board_player board)
        (to_size_t (mr + t * row_direction d)) (to_size_t (mc + t * column_direction d)))
      (fun (t : Nat) (i : Nat) => i = ((mr : Int) + t * row_direction d).toNat * s +
        ((mc : Int) + t * column_direction d).toNat)
      (Steady s pl0 nm) (List.range' 1 (gap_of s adv mr mc d - 1))
      (by
        intro t ht b1 hb1
        obtain ⟨hok1, hsz1, hpl1, hnm1⟩ := hb1
        rw [List.mem_range'_1] at ht
        obtain ⟨⟨q1, q2, q3, q4⟩, _⟩ := ray_cells hr hc d _ t (by omega) hin
        beta_reduce
        rw [to_size_t_eq q1 (by omega), to_size_t_eq q3 (by omega), board_player]
        obtain ⟨b2, e1, e2, _, e4, e5, e6, e7, e8⟩ :=
          board_set_mover hok1 (by rw [hpl1]; exact hpl) hfuel
            (r := ((mr : Int) + t * row_direction d).toNat)
            (c := ((mc : Int) + t * column_direction d).toNat)
            (by rw [hsz1]; omega) (by rw [hsz1]; omega)
        refine ⟨b2, e1, ⟨e2, by rw [e4, hsz1], by rw [e5, hpl1], by rw [e6, hnm1]⟩, ?_, ?_⟩
        · intro i
          rw [e7, hsz1]
          simp
        · intro i
          rw [e8, hsz1]
          simp)
      b ⟨hok, hsz, hplb, hnm⟩
    obtain ⟨b2, k1, k2, k3, k4⟩ := key
    refine ⟨b2, k1, k2, ?_, ?_⟩
    · intro i
      rw [k3]
      unfold FlipDir
      rw [cellAt_of_in pl hin]
      simp only [List.mem_range'_1, hg, hE, true_and]
      constructor
      · rintro (h | ⟨t, ⟨h1, h2⟩, h3⟩)
        · exact Or.inl h
        · exact Or.inr ⟨t, h1, by omega, h3⟩
      · rintro (h | ⟨t, h1, h2, h3⟩)
        · exact Or.inl h
        · exact Or.inr ⟨t, ⟨h1, by omega⟩, h3⟩
    · intro i
      rw [k4]
      unfold FlipDir
      rw [cellAt_of_in pl hin]
      simp only [List.mem_range'_1, hg, hE, true_and]
      constructor
      · rintro ⟨h, hn⟩
        refine ⟨h, ?_⟩
        rintro ⟨t, h1, h2, h3⟩
        exact hn ⟨t, ⟨h1, by omega⟩, h3⟩
      · rintro ⟨h, hn⟩
        refine ⟨h, ?_⟩
        rintro ⟨t, ⟨h1, h2⟩, h3⟩
        exact hn ⟨t, h1, by omega, h3⟩
  · have hF : ∀ i, ¬FlipDir s adv pl mr mc d i := by
      intro i hf
      exact hcond ⟨hf.1, hf.2.1⟩
    rw [if_pos]
    swap
    · by_cases hg : 2 ≤ gap_of s adv mr mc d
      · have hE : cellAt s pl (mr + (gap_of s adv mr mc d : Nat) * row_direction d)
            (mc + (gap_of s adv mr mc d : Nat) * column_direction d) = false := by
          cases hh : cellAt s pl (mr + (gap_of s adv mr mc d : Nat) * row_direction d)
            (mc + (gap_of s adv mr mc d : Nat) * column_direction d)
          · rfl
          · exact absurd ⟨hg, hh⟩ hcond
        by_cases hin : 0 ≤ (mr : Int) + (gap_of s adv mr mc d : Nat) * row_direction d ∧
            (mr : Int) + (gap_of s adv mr mc d : Nat) * row_direction d < s ∧
            0 ≤ (mc : Int) + (gap_of s adv mr mc d : Nat) * column_direction d ∧
            (mc : Int) + (gap_of s adv mr mc d : Nat) * column_direction d < s
        · rw [cellAt_of_in pl hin] at hE
          have hxn : ((mr : Int) + (gap_of s adv mr mc d : Nat) * row_direction d).toNat < s := by
            omega
          have hyn : ((mc : Int) + (gap_of s adv mr mc d : Nat) * column_direction d).toNat < s := by
            omega
          right; right; right; right; right
          exact (and_set_bitboard_eq_zero hs hxn hyn pl).2 hE
        · omega
      · left; omega
    refine ⟨b, rfl, ⟨hok, hsz, hplb, hnm⟩, ?_, ?_⟩
    · intro i; simp [hF i]
    · intro i; simp [hF i]

/-! ## Counting moves and setting the player -/

theorem popcount_spec_eq_zero {b : Nat} (hb : b < 2 ^ 128) : popcount_spec b = 0 ↔ b = 0 := by
  unfold popcount_spec
  constructor
  · intro h
    apply Nat.eq_of_testBit_eq
    intro i
    rw [Nat.zero_testBit]
    by_cases hi : i < 128
    · rw [List.countP_eq_zero] at h
      have := h i (List.mem_range.2 hi)
      simpa using this
    · exact Nat.testBit_lt_two_pow (lt_of_lt_of_le hb (Nat.pow_le_pow_right (by norm_num) (by omega)))
  · intro h
    subst h
    rw [List.countP_eq_zero]
    intro i _
    simp

theorem confined_lt {s b : Nat} (hs : board_cheak_size s = true) (hb : Confined s b) :
    b < 2 ^ 128 := by
  have := valid_size_le hs
  have h100 : s * s ≤ 100 := by nlinarith
  exact lt_of_lt_of_le hb (Nat.pow_le_pow_right (by norm_num) (by omega))

theorem moves_of_confined {s p o : Nat} (hs : board_cheak_size s = true) (ho : Confined s o)
    (hdisj : p &&& o = 0) : Confined s (moves_of s p o) := by
  apply confined_of_testBit
  intro i hi
  by_contra h
  rw [Bool.not_eq_false, moves_of_testBit_iff hs ho hdisj] at h
  obtain ⟨r, c, hr, hc, e, _⟩ := h
  have := (cell_index_lt hs hr hc).1
  omega

theorem moves_of_ne_zero_iff {s p o : Nat} (hs : board_cheak_size s = true)
    (ho : Confined s o) (hdisj : p &&& o = 0) : moves_of s p o ≠ 0 ↔ HasMove s p o := by
  constructor
  · intro h
    have : ∃ i, (moves_of s p o).testBit i = true := by
      by_contra hne
      apply h
      apply Nat.eq_of_testBit_eq
      intro i
      rw [Nat.zero_testBit]
      by_contra hi
      exact hne ⟨i, by simpa using hi⟩
    obtain ⟨i, hi⟩ := this
    rw [moves_of_testBit_iff hs ho hdisj] at hi
    obtain ⟨r, c, hr, hc, _, hl⟩ := hi
    exact ⟨r, c, hr, hc, hl⟩
  · rintro ⟨r, c, hr, hc, hl⟩ h
    have := (moves_of_testBit_iff hs ho hdisj (r * s + c)).2 ⟨r, c, hr, hc, rfl, hl⟩
    rw [h] at this
    simp at this

theorem count_moves_eq_zero {b : board_t}
    (hpl : b.player = disc_t.BLACK_DISC ∨ b.player = disc_t.WHITE_DISC)
    (hm : b.moves < 2 ^ 128) : board_count_player_moves b = 0 ↔ b.moves = 0 := by
  unfold board_count_player_moves
  rw [if_neg (by rcases hpl with h | h <;> simp [h]), bitboard_popcount_eq _ hm]
  exact popcount_spec_eq_zero hm

theorem board_set_player_colour {fuel : Nat} {b : board_t} (hok : PlanesOK b)
    (hfuel : 10 ≤ fuel) (pl : disc_t)
    (hpl : pl = disc_t.BLACK_DISC ∨ pl = disc_t.WHITE_DISC) :
    board_set_player fuel b pl =
      some { b with player := pl,
                    moves := moves_of b.size (plane_of b pl) (plane_of b (opponent_of pl)) } := by
  obtain ⟨hs, hbk, hwh, hdj⟩ := hok
  have hs10 := (valid_size_le hs).2
  unfold board_set_player
  rcases hpl with h | h <;> subst h
  · simp only [reduceCtorEq, if_false, if_true]
    rw [compute_moves_eq hs hwh hdj (by omega)]
    rfl
  · simp only [reduceCtorEq, if_false, if_true]
    rw [compute_moves_eq hs hbk (land_comm_zero hdj) (by omega)]
    rfl

theorem board_set_player_empty (fuel : Nat) (b : board_t) :
    board_set_player fuel b disc_t.EMPTY_DISC = some { b with player := disc_t.EMPTY_DISC } := by
  unfold board_set_player
  simp

/-! ## board_play on a legal move -/

theorem direction_step_ne {mr mc g : Nat} (hg : 1 ≤ g) (d : Fin 8) :
    ¬((mr : Int) + (g : Nat) * row_direction d = mr ∧
      (mc : Int) + (g : Nat) * column_direction d = mc) := by
  rintro ⟨h1, h2⟩
  rcases direction_ne_zero d with h | h
  · rcases row_direction_cases d with e | e | e
    · rw [e] at h1; omega
    · exact h e
    · rw [e] at h1; omega
  · rcases column_direction_cases d with e | e | e
    · rw [e] at h2; omega
    · exact h e
    · rw [e] at h2; omega

/-- The cells one direction of `board_reverse_opponents` reverses are those the rule names. -/
theorem flipDir_iff {s p o mr mc : Nat} (hs : board_cheak_size s = true) (ho : Confined s o)
    (hdisj : p &&& o = 0) (hr : mr < s) (hc : mc < s)
    (hm : o.testBit (mr * s + mc) = false) (d : Fin 8) (i : Nat) :
    FlipDir s o (p ||| 2 ^ (mr * s + mc)) mr mc d i ↔
      ∃ k t : Nat, Flanks s p o mr mc d k ∧ 1 ≤ t ∧ t ≤ k ∧
        i = ((mr : Int) + t * row_direction d).toNat * s +
          ((mc : Int) + t * column_direction d).toNat := by
  constructor
  · rintro ⟨hg, hE, t, ht1, ht2, hi⟩
    have hin := cellAt_in hE
    obtain ⟨hrun, _⟩ := run_in_board hs ho hr hc hm d hin
    refine ⟨gap_of s o mr mc d - 1, t, ⟨by omega, fun j hj1 hj2 => hrun j hj1 (by omega), ?_⟩,
      ht1, by omega, hi⟩
    rw [show gap_of s o mr mc d - 1 + 1 = gap_of s o mr mc d by omega]
    rw [cellAt_of_in _ hin, testBit_set] at hE
    rw [cellAt_of_in _ hin]
    rcases Bool.or_eq_true _ _ ▸ hE with h | h
    · exact h
    · exfalso
      rw [decide_eq_true_eq] at h
      have := index_inj (by omega) hc h
      apply @direction_step_ne mr mc (gap_of s o mr mc d) (by omega) d
      omega
  · rintro ⟨k, t, ⟨hk, hrun, hend⟩, ht1, ht2, hi⟩
    have hin := cellAt_in hend
    have hpE := hend
    rw [cellAt_of_in _ hin] at hpE
    have hoE := disjoint_testBit hdisj hpE
    have hgap := run_unique hs ho hr hc hm d k hrun hin (by rw [cellAt_of_in _ hin]; exact hoE)
    refine ⟨by omega, ?_, t, ht1, by omega, hi⟩
    rw [hgap, cellAt_of_in _ hin, testBit_set, hpE]
    rfl

theorem other_plane_confined {b : board_t} (hok : PlanesOK b) :
    Confined b.size (other_plane b) := by
  unfold other_plane
  split_ifs
  · exact hok.white_in
  · exact hok.black_in

theorem all_directions_exists (P : Fin 8 → Prop) :
    (∃ d ∈ all_directions, P d) ↔ ∃ d, P d := by
  constructor
  · rintro ⟨d, _, h⟩; exact ⟨d, h⟩
  · rintro ⟨d, h⟩; exact ⟨d, mem_all_directions d, h⟩

/-- The loop of `board_reverse_opponents` returns and reverses, for every direction, the
cells of `FlipDir`. -/
theorem board_reverse_opponents_spec {fuel : Nat} {b : board_t} (hok : PlanesOK b)
    (hpl : b.player = disc_t.BLACK_DISC ∨ b.player = disc_t.WHITE_DISC) (hfuel : 10 ≤ fuel)
    {mr mc : Nat} (hr : mr < b.size) (hc : mc < b.size)
    (hm : (other_plane b).testBit (mr * b.size + mc) = false) :
    ∃ b2, board_reverse_opponents fuel b ⟨mr, mc⟩ = some b2 ∧
      Steady b.size b.player b.next_move b2 ∧
      (∀ i, (mover_plane b2).testBit i = true ↔ (mover_plane b).testBit i = true ∨
        ∃ d, FlipDir b.size (other_plane b) (mover_plane b) mr mc d i) ∧
      (∀ i, (other_plane b2).testBit i = true ↔ (other_plane b).testBit i = true ∧
        ¬∃ d, FlipDir b.size (other_plane b) (mover_plane b) mr mc d i) := by
  have key := fold_steps (board_reverse_dir fuel (other_plane b) (mover_plane b) ⟨mr, mc⟩)
    (fun d i => FlipDir b.size (other_plane b) (mover_plane b) mr mc d i)
    (Steady b.size b.player b.next_move) all_directions
    (fun d _ b1 hb1 =>
      board_reverse_dir_spec hpl hfuel hok.size_ok (other_plane_confined hok) hr hc hm d b1 hb1)
    b ⟨hok, rfl, rfl, rfl⟩
  obtain ⟨b2, k1, k2, k3, k4⟩ := key
  refine ⟨b2, ?_, k2, ?_, ?_⟩
  · unfold board_reverse_opponents
    exact k1
  · intro i
    rw [k3, all_directions_exists]
  · intro i
    rw [k4, all_directions_exists]

theorem flipped_iff {s p o mr mc : Nat} (hs : board_cheak_size s = true) (ho : Confined s o)
    (hdisj : p &&& o = 0) (hr : mr < s) (hc : mc < s)
    (hm : o.testBit (mr * s + mc) = false) (i : Nat) :
    (∃ d, FlipDir s o (p ||| 2 ^ (mr * s + mc)) mr mc d i) ↔ Flipped s p o mr mc i := by
  unfold Flipped
  constructor
  · rintro ⟨d, h⟩
    obtain ⟨k, t, h⟩ := (flipDir_iff hs ho hdisj hr hc hm d i).1 h
    exact ⟨d, k, t, h⟩
  · rintro ⟨d, k, t, h⟩
    exact ⟨d, (flipDir_iff hs ho hdisj hr hc hm d i).2 ⟨k, t, h⟩⟩

/-- The disc placement and reversal of `board_play` on an empty cell of the board: the call
returns, the hand passes to the opponent with a fresh mask, the mover gains the cell and the
reversed discs, the opponent loses the reversed discs. -/
theorem board_play_place_spec {fuel : Nat} {b : board_t} (hok : PlanesOK b)
    (hpl : b.player = disc_t.BLACK_DISC ∨ b.player = disc_t.WHITE_DISC) (hfuel : 10 ≤ fuel)
    {mr mc : Nat} (hr : mr < b.size) (hc : mc < b.size)
    (hm : (other_plane b).testBit (mr * b.size + mc) = false) :
    ∃ b2, board_play_place fuel b ⟨mr, mc⟩ = some (some b2) ∧ PlanesOK b2 ∧
      b2.size = b.size ∧ b2.next_move = b.next_move ∧ b2.player = opponent_of b.player ∧
      b2.moves = moves_of b.size (plane_of b2 (opponent_of b.player)) (plane_of b2 b.player) ∧
      (∀ i, (plane_of b2 b.player).testBit i = true ↔ (mover_plane b).testBit i = true ∨
        i = mr * b.size + mc ∨ Flipped b.size (mover_plane b) (other_plane b) mr mc i) ∧
      (∀ i, (plane_of b2 (opponent_of b.player)).testBit i = true ↔
        (other_plane b).testBit i = true ∧
          ¬Flipped b.size (mover_plane b) (other_plane b) mr mc i) := by
  obtain ⟨hs, hbk, hwh, hdj⟩ := hok
  have hidx := cell_index_lt hs hr hc
  have hs10 := (valid_size_le hs).2
  obtain ⟨s, pl, bk, wh, mv, nm⟩ := b
  simp only at hs hbk hwh hdj hpl hr hc hidx hs10 hm
  rcases hpl with h | h <;> subst h
  · simp only [other_plane, if_true] at hm
    have hok1 : PlanesOK ⟨s, disc_t.BLACK_DISC, bk ||| 2 ^ (mr * s + mc), wh, mv, nm⟩ := by
      refine ⟨hs, confined_set hbk hidx.1, hwh, ?_⟩
      apply Nat.eq_of_testBit_eq
      intro i
      rw [Nat.testBit_and, testBit_set, Nat.zero_testBit]
      have := congrArg (fun z => z.testBit i) hdj
      simp only [Nat.testBit_and, Nat.zero_testBit] at this
      by_cases hi : i = mr * s + mc
      · subst hi; simp [hm]
      · simp [hi, this]
    obtain ⟨b2, e1, ⟨e2, e3, e4, e5⟩, e6, e7⟩ :=
      board_reverse_opponents_spec hok1 (Or.inl rfl) hfuel
        hr hc (by simpa [other_plane] using hm)
    simp only at e3 e4 e5
    obtain ⟨s2, pl2, bk2, wh2, mv2, nm2⟩ := b2
    simp only at e3 e4 e5
    subst e3 e4 e5
    simp only [mover_plane, other_plane, reduceCtorEq, if_false, if_true] at e6 e7
    refine ⟨⟨s2, disc_t.WHITE_DISC, bk2, wh2, moves_of s2 wh2 bk2, nm2⟩, ?_,
      ⟨e2.size_ok, e2.black_in, e2.white_in, e2.disjoint⟩, rfl, rfl, rfl, rfl, ?_, ?_⟩
    · unfold board_play_place
      simp only [set_bitboard_eq hs hr hc]
      rw [e1]
      simp only [Option.some_bind, Option.bind_eq_bind]
      rw [board_set_player_colour e2 hfuel _ (Or.inr rfl)]
      simp only [Option.some_bind, plane_of, opponent_of]
      rw [compute_moves_eq e2.size_ok e2.black_in (land_comm_zero e2.disjoint)
        (by simp only; omega)]
      rfl
    · intro i
      simp only [plane_of, mover_plane, other_plane, reduceCtorEq, if_false, if_true]
      rw [e6, testBit_set, flipped_iff hs hwh hdj hr hc hm]
      simp only [Bool.or_eq_true, decide_eq_true_eq]
      exact or_assoc
    · intro i
      simp only [plane_of, opponent_of, mover_plane, other_plane, reduceCtorEq, if_false,
        if_true]
      rw [e7, flipped_iff hs hwh hdj hr hc hm]
  · simp only [other_plane, reduceCtorEq, if_false] at hm
    have hdj2 := land_comm_zero hdj
    have hok1 : PlanesOK ⟨s, disc_t.WHITE_DISC, bk, wh ||| 2 ^ (mr * s + mc), mv, nm⟩ := by
      refine ⟨hs, hbk, confined_set hwh hidx.1, ?_⟩
      apply Nat.eq_of_testBit_eq
      intro i
      rw [Nat.testBit_and, testBit_set, Nat.zero_testBit]
      have := congrArg (fun z => z.testBit i) hdj
      simp only [Nat.testBit_and, Nat.zero_testBit] at this
      by_cases hi : i = mr * s + mc
      · subst hi; simp [hm]
      · simp [hi, this]
    obtain ⟨b2, e1, ⟨e2, e3, e4, e5⟩, e6, e7⟩ :=
      board_reverse_opponents_spec hok1 (Or.inr rfl) hfuel
        hr hc (by simpa [other_plane] using hm)
    simp only at e3 e4 e5
    obtain ⟨s2, pl2, bk2, wh2, mv2, nm2⟩ := b2
    simp only at e3 e4 e5
    subst e3 e4 e5
    simp only [mover_plane, other_plane, reduceCtorEq, if_false, if_true] at e6 e7
    refine ⟨⟨s2, disc_t.BLACK_DISC, bk2, wh2, moves_of s2 bk2 wh2, nm2⟩, ?_,
      ⟨e2.size_ok, e2.black_in, e2.white_in, e2.disjoint⟩, rfl, rfl, rfl, rfl, ?_, ?_⟩
    · unfold board_play_place
      simp only [set_bitboard_eq hs hr hc]
      rw [e1]
      simp only [Option.some_bind, Option.bind_eq_bind]
      rw [board_set_player_colour e2 hfuel _ (Or.inl rfl)]
      simp only [Option.some_bind, plane_of, opponent_of]
      rw [compute_moves_eq e2.size_ok e2.white_in e2.disjoint (by simp only; omega)]
      rfl
    · intro i
      simp only [plane_of, mover_plane, other_plane, reduceCtorEq, if_false, if_true]
      rw [e6, testBit_set, flipped_iff hs hbk hdj2 hr hc hm]
      simp only [Bool.or_eq_true, decide_eq_true_eq]
      exact or_assoc
    · intro i
      simp only [plane_of, opponent_of, mover_plane, other_plane, reduceCtorEq, if_false,
        if_true]
      rw [e7, flipped_iff hs hbk hdj2 hr hc hm]

theorem board_play_refresh_fresh {fuel : Nat} {b : board_t} (hok : PlanesOK b)
    (hfresh : MaskFresh b)
    (hpl : b.player = disc_t.BLACK_DISC ∨ b.player = disc_t.WHITE_DISC) (hfuel : 10 ≤ fuel) :
    board_play_refresh fuel b = some (some b) := by
  obtain ⟨hs, hbk, hwh, hdj⟩ := hok
  have hs10 := (valid_size_le hs).2
  obtain ⟨s, pl, bk, wh, mv, nm⟩ := b
  simp only at hs hbk hwh hdj hpl hs10
  unfold board_play_refresh
  by_cases h0 : mv = 0
  · rw [if_pos h0]
    rcases hpl with h | h <;> subst h
    · have := hfresh.1 rfl
      simp only at this
      simp only
      rw [compute_moves_eq hs hwh hdj (by omega), ← this]
      rfl
    · have := hfresh.2 rfl
      simp only at this
      simp only
      rw [compute_moves_eq hs hbk (land_comm_zero hdj) (by omega), ← this]
      rfl
  · rw [if_neg h0]
    rfl

/-- The pass rule of `board_play`: the call returns, and the hand goes back to the colour `pl`
exactly when the stored mask of its opponent is empty. -/
theorem board_play_pass_spec {fuel : Nat} {b : board_t} (hok : PlanesOK b) (hfuel : 10 ≤ fuel)
    (pl : disc_t) (hpl : pl = disc_t.BLACK_DISC ∨ pl = disc_t.WHITE_DISC)
    (hb : b.player = opponent_of pl)
    (hmv : b.moves = moves_of b.size (plane_of b (opponent_of pl)) (plane_of b pl)) :
    board_play_pass fuel b =
      some (some (if b.moves = 0 then
        { b with player := pl,
                 moves := moves_of b.size (plane_of b pl) (plane_of b (opponent_of pl)) }
        else b)) := by
  have hs := hok.size_ok
  have hs10 := (valid_size_le hs).2
  have hlt : b.moves < 2 ^ 128 := by
    rw [hmv]
    rcases hpl with h | h <;> subst h
    · exact confined_lt hs (moves_of_confined hs hok.black_in (land_comm_zero hok.disjoint))
    · exact confined_lt hs (moves_of_confined hs hok.white_in hok.disjoint)
  have hplb : b.player = disc_t.BLACK_DISC ∨ b.player = disc_t.WHITE_DISC := by
    rcases hpl with h | h <;> subst h <;> simp [hb, opponent_of]
  unfold board_play_pass
  by_cases h0 : b.moves = 0
  · rw [if_pos ((count_moves_eq_zero hplb hlt).2 h0), if_pos h0]
    rcases hpl with h | h <;> subst h
    · simp only [opponent_of] at hb
      rw [hb]
      simp only
      rw [board_set_player_colour hok hfuel _ (Or.inl rfl)]
      simp only [Option.some_bind, Option.bind_eq_bind, plane_of, opponent_of]
      rw [compute_moves_eq hs hok.white_in hok.disjoint (by omega)]
      rfl
    · simp only [opponent_of] at hb
      rw [hb]
      simp only
      rw [board_set_player_colour hok hfuel _ (Or.inr rfl)]
      simp only [Option.some_bind, Option.bind_eq_bind, plane_of, opponent_of]
      rw [compute_moves_eq hs hok.black_in (land_comm_zero hok.disjoint) (by omega)]
      rfl
  · rw [if_neg (fun h => h0 ((count_moves_eq_zero hplb hlt).1 h)), if_neg h0]
    rfl

theorem move_valid_iff {b : board_t} (hs : board_cheak_size b.size = true)
    (hpl : b.player = disc_t.BLACK_DISC ∨ b.player = disc_t.WHITE_DISC) (m : move_t) :
    board_is_move_valid b m = true ↔
      m.row < b.size ∧ m.column < b.size ∧
        b.moves.testBit (m.row * b.size + m.column) = true := by
  unfold board_is_move_valid
  rw [if_neg (by rcases hpl with h | h <;> simp [h])]
  rw [decide_eq_true_eq, Nat.land_comm]
  by_cases hin : m.row < b.size ∧ m.column < b.size
  · rw [Ne, and_set_bitboard_eq_zero hs hin.1 hin.2]
    simp [hin]
  · rw [set_bitboard_out hin, land_zero_right]
    simp only [ne_eq, not_true_eq_false, false_iff]
    tauto

theorem mask_fresh_mover {b : board_t} (hfresh : MaskFresh b)
    (hpl : b.player = disc_t.BLACK_DISC ∨ b.player = disc_t.WHITE_DISC) :
    b.moves = moves_of b.size (mover_plane b) (other_plane b) := by
  rcases hpl with h | h
  · rw [hfresh.1 h]; simp [mover_plane, other_plane, h]
  · rw [hfresh.2 h]; simp [mover_plane, other_plane, h]

theorem mover_other_disjoint {b : board_t} (hok : PlanesOK b) :
    mover_plane b &&& other_plane b = 0 ∨ b.player = disc_t.EMPTY_DISC ∨
      b.player = disc_t.HINT_DISC := by
  unfold mover_plane other_plane
  rcases hp : b.player with _ | _ | _ | _ <;> simp [hok.disjoint, land_comm_zero hok.disjoint]

theorem plane_of_eq {b b2 : board_t} (h1 : b2.black = b.black) (h2 : b2.white = b.white)
    (d : disc_t) : plane_of b2 d = plane_of b d := by
  cases d <;> simp [plane_of, h1, h2]

/-- The end of `board_play` after the hand went to the opponent of `pl` with a fresh mask: the
call returns true, the planes stay, and the turn follows the pass rule. -/
theorem board_play_finish_spec {fuel : Nat} {b : board_t} (hok : PlanesOK b)
    (hfuel : 10 ≤ fuel) (pl : disc_t)
    (hpl : pl = disc_t.BLACK_DISC ∨ pl = disc_t.WHITE_DISC) (hb : b.player = opponent_of pl)
    (hmv : b.moves = moves_of b.size (plane_of b (opponent_of pl)) (plane_of b pl)) :
    ∃ b2, board_play_finish fuel b = some (true, b2) ∧ b2.size = b.size ∧
      b2.black = b.black ∧ b2.white = b.white ∧ b2.next_move = b.next_move ∧ MaskFresh b2 ∧
      (moves_of b.size (plane_of b (opponent_of pl)) (plane_of b pl) ≠ 0 →
        b2.player = opponent_of pl ∧
          b2.moves = moves_of b.size (plane_of b (opponent_of pl)) (plane_of b pl)) ∧
      (moves_of b.size (plane_of b (opponent_of pl)) (plane_of b pl) = 0 →
        moves_of b.size (plane_of b pl) (plane_of b (opponent_of pl)) ≠ 0 →
        b2.player = pl ∧
          b2.moves = moves_of b.size (plane_of b pl) (plane_of b (opponent_of pl))) ∧
      (moves_of b.size (plane_of b (opponent_of pl)) (plane_of b pl) = 0 →
        moves_of b.size (plane_of b pl) (plane_of b (opponent_of pl)) = 0 →
        b2.player = disc_t.EMPTY_DISC ∧ b2.moves = 0) := by
  have q := board_play_pass_spec hok hfuel pl hpl hb hmv
  rcases hpl with h | h <;> subst h
  · -- the mover was Black, the hand is with White
    obtain ⟨s, p0, bk, wh, mv, nm⟩ := b
    have hs := hok.size_ok
    have hlt1 : moves_of s wh bk < 2 ^ 128 := confined_lt hs (moves_of_confined hs hok.black_in (land_comm_zero hok.disjoint))
    have hlt2 : moves_of s bk wh < 2 ^ 128 := confined_lt hs (moves_of_confined hs hok.white_in hok.disjoint)
    simp only [plane_of, opponent_of] at hb hmv q ⊢
    subst hb hmv
    unfold board_play_finish
    rw [q]
    simp only [Option.some_bind, Option.bind_eq_bind]
    have hc3 := @count_moves_eq_zero ⟨s, disc_t.WHITE_DISC, bk, wh, moves_of s wh bk, nm⟩ (by simp) hlt1
    have hc4 := @count_moves_eq_zero ⟨s, disc_t.BLACK_DISC, bk, wh, moves_of s bk wh, nm⟩ (by simp) hlt2
    simp only at hc3 hc4
    by_cases h0 : moves_of s wh bk = 0
    · rw [if_pos h0]
      by_cases h1 : moves_of s bk wh = 0
      · rw [if_pos (hc4.2 h1), board_set_player_empty]
        refine ⟨_, rfl, rfl, rfl, rfl, rfl, ⟨fun h => (by cases h), fun h => (by cases h)⟩,
          ?_, ?_, ?_⟩
        · intro hne; exact absurd h0 hne
        · intro _ hne; exact absurd h1 hne
        · intro _ _; exact ⟨rfl, h1⟩
      · rw [if_neg (fun h => h1 (hc4.1 h))]
        refine ⟨_, rfl, rfl, rfl, rfl, rfl, ⟨fun _ => rfl, fun h => (by cases h)⟩, ?_, ?_, ?_⟩
        · intro hne; exact absurd h0 hne
        · intro _ _; exact ⟨rfl, rfl⟩
        · intro _ he; exact absurd he h1
    · rw [if_neg h0, if_neg (fun h => h0 (hc3.1 h))]
      refine ⟨_, rfl, rfl, rfl, rfl, rfl, ⟨fun h => (by cases h), fun _ => rfl⟩, ?_, ?_, ?_⟩
      · intro _; exact ⟨rfl, rfl⟩
      · intro he; exact absurd he h0
      · intro he; exact absurd he h0
  · -- the mover was White, the hand is with Black
    obtain ⟨s, p0, bk, wh, mv, nm⟩ := b
    have hs := hok.size_ok
    have hlt1 : moves_of s bk wh < 2 ^ 128 := confined_lt hs (moves_of_confined hs hok.white_in hok.disjoint)
    have hlt2 : moves_of s wh bk < 2 ^ 128 := confined_lt hs (moves_of_confined hs hok.black_in (land_comm_zero hok.disjoint))
    simp only [plane_of, opponent_of] at hb hmv q ⊢
    subst hb hmv
    unfold board_play_finish
    rw [q]
    simp only [Option.some_bind, Option.bind_eq_bind]
    have hc3 := @count_moves_eq_zero ⟨s, disc_t.BLACK_DISC, bk, wh, moves_of s bk wh, nm⟩ (by simp) hlt1
    have hc4 := @count_moves_eq_zero ⟨s, disc_t.WHITE_DISC, bk, wh, moves_of s wh bk, nm⟩ (by simp) hlt2
    simp only at hc3 hc4
    by_cases h0 : moves_of s bk wh = 0
    · rw [if_pos h0]
      by_cases h1 : moves_of s wh bk = 0
      · rw [if_pos (hc4.2 h1), board_set_player_empty]
        refine ⟨_, rfl, rfl, rfl, rfl, rfl, ⟨fun h => (by cases h), fun h => (by cases h)⟩,
          ?_, ?_, ?_⟩
        · intro hne; exact absurd h0 hne
        · intro _ hne; exact absurd h1 hne
        · intro _ _; exact ⟨rfl, h1⟩
      · rw [if_neg (fun h => h1 (hc4.1 h))]
        refine ⟨_, rfl, rfl, rfl, rfl, rfl, ⟨fun h => (by cases h), fun _ => rfl⟩, ?_, ?_, ?_⟩
        · intro hne; exact absurd h0 hne
        · intro _ _; exact ⟨rfl, rfl⟩
        · intro _ he; exact absurd he h1
    · rw [if_neg h0, if_neg (fun h => h0 (hc3.1 h))]
      refine ⟨_, rfl, rfl, rfl, rfl, rfl, ⟨fun _ => rfl, fun h => (by cases h)⟩, ?_, ?_, ?_⟩
      · intro _; exact ⟨rfl, rfl⟩
      · intro he; exact absurd he h0
      · intro he; exact absurd he h0

/-- A legal move on a well-formed board: `board_play` returns true, the planes change by the
placed disc and the reversed discs, and the turn follows the pass rule. -/
theorem board_play_valid {fuel : Nat} {b : board_t} (hok : PlanesOK b) (hfresh : MaskFresh b)
    (hpl : b.player = disc_t.BLACK_DISC ∨ b.player = disc_t.WHITE_DISC) (hfuel : 10 ≤ fuel)
    (m : move_t) (hvalid : board_is_move_valid b m = true) :
    ∃ b2, board_play fuel b m = some (true, b2) ∧ PlanesOK b2 ∧ MaskFresh b2 ∧
      b2.size = b.size ∧ b2.next_move = b.next_move ∧
      (m.row < b.size ∧ m.column < b.size ∧
        Legal b.size (mover_plane b) (other_plane b) m.row m.column) ∧
      (∀ i, (plane_of b2 b.player).testBit i = true ↔ (mover_plane b).testBit i = true ∨
        i = m.row * b.size + m.column ∨
        Flipped b.size (mover_plane b) (other_plane b) m.row m.column i) ∧
      (∀ i, (plane_of b2 (opponent_of b.player)).testBit i = true ↔
        (other_plane b).testBit i = true ∧
          ¬Flipped b.size (mover_plane b) (other_plane b) m.row m.column i) ∧
      (moves_of b.size (plane_of b2 (opponent_of b.player)) (plane_of b2 b.player) ≠ 0 →
        b2.player = opponent_of b.player ∧
        b2.moves = moves_of b.size (plane_of b2 (opponent_of b.player)) (plane_of b2 b.player)) ∧
      (moves_of b.size (plane_of b2 (opponent_of b.player)) (plane_of b2 b.player) = 0 →
        moves_of b.size (plane_of b2 b.player) (plane_of b2 (opponent_of b.player)) ≠ 0 →
        b2.player = b.player ∧
        b2.moves = moves_of b.size (plane_of b2 b.player) (plane_of b2 (opponent_of b.player))) ∧
      (moves_of b.size (plane_of b2 (opponent_of b.player)) (plane_of b2 b.player) = 0 →
        moves_of b.size (plane_of b2 b.player) (plane_of b2 (opponent_of b.player)) = 0 →
        b2.player = disc_t.EMPTY_DISC ∧ b2.moves = 0) := by
  have hs := hok.size_ok
  obtain ⟨hr, hc, hbit⟩ := (move_valid_iff hs hpl m).1 hvalid
  have hdisj : mover_plane b &&& other_plane b = 0 := by
    rcases mover_other_disjoint hok with h | h | h
    · exact h
    · rcases hpl with h2 | h2 <;> rw [h2] at h <;> cases h
    · rcases hpl with h2 | h2 <;> rw [h2] at h <;> cases h
  have hoc := other_plane_confined hok
  rw [mask_fresh_mover hfresh hpl, moves_of_testBit_iff hs hoc hdisj] at hbit
  obtain ⟨r, c, hr2, hc2, hidx, hlegal⟩ := hbit
  obtain ⟨e1, e2⟩ := index_inj hc hc2 hidx
  rw [← e1, ← e2] at hlegal
  have hm : (other_plane b).testBit (m.row * b.size + m.column) = false := by
    have := hlegal.2.1
    rwa [cellAt_nat _ hr hc] at this
  obtain ⟨b3, p1, p2, p3, p4, p5, p6, p7, p8⟩ :=
    board_play_place_spec hok hpl hfuel hr hc hm
  rw [← p3] at p6
  obtain ⟨b4, f1, f2, f3, f4, f5, f6, f7, f8, f9⟩ :=
    board_play_finish_spec p2 hfuel b.player hpl p5 p6
  have hpe := fun d => plane_of_eq f3 f4 d
  refine ⟨b4, ?_, ⟨by rw [f2]; exact p2.size_ok, by rw [f2, f3]; exact p2.black_in,
    by rw [f2, f4]; exact p2.white_in, by rw [f3, f4]; exact p2.disjoint⟩, f6,
    by rw [f2, p3], by rw [f5, p4], ⟨hr, hc, hlegal⟩, ?_, ?_, ?_, ?_, ?_⟩
  · unfold board_play
    rw [board_play_refresh_fresh hok hfresh hpl hfuel]
    simp only [Option.some_bind, Option.bind_eq_bind, hvalid, Bool.not_true, Bool.false_eq_true,
      if_false]
    have : (⟨m.row, m.column⟩ : move_t) = m := rfl
    rw [← this, p1]
    exact f1
  · intro i; rw [hpe]; exact p7 i
  · intro i; rw [hpe]; exact p8 i
  · rw [hpe, hpe, ← p3]; exact f7
  · rw [hpe, hpe, ← p3]; exact f8
  · rw [hpe, hpe, ← p3]; exact f9

/-! ## Reachable boards are well formed -/

theorem disjoint_sub {x y : Nat} (h : x &&& y = 0) (m n : Nat) :
    (x &&& m) &&& (y &&& n) = 0 := by
  apply Nat.eq_of_testBit_eq
  intro i
  have := congrArg (fun z => z.testBit i) h
  simp only [Nat.testBit_and, Nat.zero_testBit] at this ⊢
  cases hx : x.testBit i <;> cases hy : y.testBit i <;> simp_all

theorem moves_of_zero_left {s o : Nat} (hs : board_cheak_size s = true) : moves_of s 0 o = 0 := by
  apply Nat.eq_of_testBit_eq
  intro i
  rw [Nat.zero_testBit]
  by_contra h
  rw [Bool.not_eq_false, moves_of_testBit_raw hs] at h
  obtain ⟨r, c, _, _, h, _⟩ := h
  simp at h

theorem board_alloc_spec {size : Nat} {player : disc_t} {b : board_t}
    (h : board_alloc size player = some b) :
    b = ⟨size, player, 0, 0, 0, 0⟩ ∧ board_cheak_size size = true ∧
      (player = disc_t.BLACK_DISC ∨ player = disc_t.WHITE_DISC) := by
  unfold board_alloc at h
  split_ifs at h with hc
  simp only [Option.some.injEq] at h
  simp only [Bool.or_eq_true, Bool.not_eq_true', Bool.and_eq_true, decide_eq_true_eq,
    not_or, not_and] at hc
  refine ⟨h.symm, by simpa using hc.1, ?_⟩
  by_cases hb : player = disc_t.BLACK_DISC
  · exact Or.inl hb
  · exact Or.inr (by simpa using hc.2 hb)

theorem confined_zero (s : Nat) : Confined s 0 := by
  unfold Confined
  positivity

theorem board_alloc_ok {size : Nat} {player : disc_t} {b : board_t}
    (h : board_alloc size player = some b) : PlanesOK b ∧ MaskFresh b := by
  obtain ⟨rfl, hs, _⟩ := board_alloc_spec h
  refine ⟨⟨hs, confined_zero _, confined_zero _, by simp⟩, ?_, ?_⟩ <;>
    intro _ <;> exact (moves_of_zero_left hs).symm

/-- `board_set` on a well-formed board returns a well-formed board with the same size, mover
and cursor. -/
theorem board_set_ok {fuel : Nat} {b : board_t} (hok : PlanesOK b) (hfresh : MaskFresh b)
    (hfuel : 10 ≤ fuel) (disc : disc_t) (r c : Nat) :
    ∃ b2, board_set fuel b disc r c = some b2 ∧ PlanesOK b2 ∧ MaskFresh b2 ∧
      b2.size = b.size ∧ b2.player = b.player ∧ b2.next_move = b.next_move ∧
      (b.player = disc_t.EMPTY_DISC → b2.moves = b.moves) := by
  obtain ⟨hs, hbk, hwh, hdj⟩ := hok
  have hs10 := (valid_size_le hs).2
  unfold board_set
  by_cases hin : r ≥ b.size ∨ c ≥ b.size
  · rw [if_pos hin]
    exact ⟨b, rfl, ⟨hs, hbk, hwh, hdj⟩, hfresh, rfl, rfl, rfl, fun _ => rfl⟩
  · rw [if_neg hin]
    have hr : r < b.size := by omega
    have hc : c < b.size := by omega
    have hidx := cell_index_lt hs hr hc
    rw [set_bitboard_eq hs hr hc]
    have hok2 : PlanesOK (board_set_planes b disc (2 ^ (r * b.size + c))) ∧
        (board_set_planes b disc (2 ^ (r * b.size + c))).size = b.size ∧
        (board_set_planes b disc (2 ^ (r * b.size + c))).player = b.player ∧
        (board_set_planes b disc (2 ^ (r * b.size + c))).next_move = b.next_move ∧
        (board_set_planes b disc (2 ^ (r * b.size + c))).moves = b.moves := by
      cases disc
      · exact ⟨⟨hs, confined_set hbk hidx.1, confined_clear hwh _,
          disjoint_set_clear hidx.2 hwh hdj⟩, rfl, rfl, rfl, rfl⟩
      · exact ⟨⟨hs, confined_clear hbk _, confined_set hwh hidx.1,
          land_comm_zero (disjoint_set_clear hidx.2 hbk (land_comm_zero hdj))⟩, rfl, rfl, rfl,
          rfl⟩
      · exact ⟨⟨hs, confined_clear hbk _, confined_clear hwh _, disjoint_sub hdj _ _⟩, rfl, rfl,
          rfl, rfl⟩
      · exact ⟨⟨hs, hbk, hwh, hdj⟩, rfl, rfl, rfl, rfl⟩
    obtain ⟨ok2, e1, e2, e3, e4⟩ := hok2
    simp only
    generalize board_set_planes b disc (2 ^ (r * b.size + c)) = b1 at ok2 e1 e2 e3 e4 ⊢
    by_cases hE : b1.player = disc_t.EMPTY_DISC
    · rw [if_pos hE]
      refine ⟨b1, rfl, ok2, ⟨fun h => ?_, fun h => ?_⟩, e1, e2, e3, fun _ => e4⟩ <;>
        rw [hE] at h <;> cases h
    · rw [if_neg hE]
      by_cases hB : b1.player = disc_t.BLACK_DISC
      · rw [if_pos hB, compute_moves_eq ok2.size_ok ok2.white_in ok2.disjoint (by rw [e1]; omega)]
        refine ⟨_, rfl, ⟨ok2.size_ok, ok2.black_in, ok2.white_in, ok2.disjoint⟩,
          ⟨fun _ => rfl, fun h => ?_⟩, e1, e2, e3, fun h => ?_⟩
        · simp only at h; rw [hB] at h; cases h
        · rw [← e2] at h; exact absurd h hE
      · rw [if_neg hB, compute_moves_eq ok2.size_ok ok2.black_in (land_comm_zero ok2.disjoint)
          (by rw [e1]; omega)]
        refine ⟨_, rfl, ⟨ok2.size_ok, ok2.black_in, ok2.white_in, ok2.disjoint⟩,
          ⟨fun h => ?_, fun _ => rfl⟩, e1, e2, e3, fun h => ?_⟩
        · simp only at h; exact absurd h hB
        · rw [← e2] at h; exact absurd h hE

/-- `board_set_player` on a well-formed board returns a well-formed board with the same
planes and cursor. -/
theorem board_set_player_ok {fuel : Nat} {b : board_t} (hok : PlanesOK b)
    (hfresh : MaskFresh b) (hfuel : 10 ≤ fuel) (pl : disc_t) :
    ∃ b2, board_set_player fuel b pl = some b2 ∧ PlanesOK b2 ∧ MaskFresh b2 ∧
      b2.size = b.size ∧ b2.black = b.black ∧ b2.white = b.white ∧
      b2.next_move = b.next_move ∧
      (pl = disc_t.HINT_DISC → b2 = b) ∧
      (pl = disc_t.EMPTY_DISC → b2 = { b with player := disc_t.EMPTY_DISC }) := by
  cases pl
  · rw [board_set_player_colour hok hfuel _ (Or.inl rfl)]
    exact ⟨_, rfl, ⟨hok.size_ok, hok.black_in, hok.white_in, hok.disjoint⟩,
      ⟨fun _ => rfl, fun h => (by cases h)⟩, rfl, rfl, rfl, rfl, fun h => (by cases h),
      fun h => (by cases h)⟩
  · rw [board_set_player_colour hok hfuel _ (Or.inr rfl)]
    exact ⟨_, rfl, ⟨hok.size_ok, hok.black_in, hok.white_in, hok.disjoint⟩,
      ⟨fun h => (by cases h), fun _ => rfl⟩, rfl, rfl, rfl, rfl, fun h => (by cases h),
      fun h => (by cases h)⟩
  · rw [board_set_player_empty]
    exact ⟨_, rfl, ⟨hok.size_ok, hok.black_in, hok.white_in, hok.disjoint⟩,
      ⟨fun h => (by cases h), fun h => (by cases h)⟩, rfl, rfl, rfl, rfl, fun h => (by cases h),
      fun _ => rfl⟩
  · refine ⟨b, ?_, hok, hfresh, rfl, rfl, rfl, rfl, fun _ => rfl, fun h => (by cases h)⟩
    unfold board_set_player
    simp

theorem init_planes {size : Nat} (hs : board_cheak_size size = true) :
    Confined size (init_black size) ∧ Confined size (init_white size) ∧
      init_black size &&& init_white size = 0 := by
  rcases valid_size_cases hs with h | h | h | h | h <;> subst h <;>
    exact ⟨by unfold Confined; decide, by unfold Confined; decide, by decide⟩

theorem board_init_spec {fuel size : Nat} (hfuel : 10 ≤ fuel)
    (hs : board_cheak_size size = true) :
    board_init fuel size =
      some ⟨size, if size = 2 then disc_t.EMPTY_DISC else disc_t.BLACK_DISC, init_black size,
        init_white size, moves_of size (init_black size) (init_white size), 0⟩ := by
  obtain ⟨_, h2, h3⟩ := init_planes hs
  have hs10 := (valid_size_le hs).2
  unfold board_init board_alloc
  simp only [hs, Bool.not_true, Bool.false_or, ne_eq, not_true_eq_false, decide_False,
    Bool.false_and, Bool.false_eq_true, if_false, Option.some_bind, Option.bind_eq_bind,
    reduceCtorEq, not_false_eq_true, decide_True, Bool.and_true]
  have e := compute_moves_eq hs h2 h3 (show size ≤ fuel by omega)
  unfold init_black init_white at e
  rw [e]
  simp only [Option.some_bind]
  split_ifs <;> rfl

theorem board_init_valid {fuel size : Nat} {b : board_t} (h : board_init fuel size = some b) :
    board_cheak_size size = true := by
  unfold board_init at h
  cases ha : board_alloc size disc_t.BLACK_DISC with
  | none => rw [ha] at h; simp at h
  | some b0 => exact (board_alloc_spec ha).2.1

theorem board_init_ok {fuel size : Nat} {b : board_t} (hfuel : 10 ≤ fuel)
    (h : board_init fuel size = some b) : PlanesOK b ∧ MaskFresh b := by
  have hs := board_init_valid h
  rw [board_init_spec hfuel hs] at h
  simp only [Option.some.injEq] at h
  subst h
  obtain ⟨h1, h2, h3⟩ := init_planes hs
  refine ⟨⟨hs, h1, h2, h3⟩, fun _ => rfl, fun hw => ?_⟩
  simp only at hw
  split_ifs at hw

theorem board_copy_spec {b b2 : board_t} (h : board_copy b = some b2) : b2 = b := by
  unfold board_copy at h
  cases ha : board_alloc b.size b.player with
  | none => rw [ha] at h; simp at h
  | some b0 =>
    obtain ⟨rfl, _, _⟩ := board_alloc_spec ha
    rw [ha] at h
    simp only [Option.some_bind, Option.bind_eq_bind, Option.pure_def, Option.some.injEq] at h
    rw [← h]

theorem board_next_move_planes (b : board_t) :
    (board_next_move b).2.size = b.size ∧ (board_next_move b).2.player = b.player ∧
      (board_next_move b).2.black = b.black ∧ (board_next_move b).2.white = b.white ∧
      (board_next_move b).2.moves = b.moves := by
  unfold board_next_move
  simp only
  split_ifs <;> (try split) <;> simp

/-- `board_play` fails and leaves the board alone when the mover is not a colour. -/
theorem board_play_no_colour (fuel : Nat) (b : board_t) (m : move_t)
    (h1 : b.player ≠ disc_t.BLACK_DISC) (h2 : b.player ≠ disc_t.WHITE_DISC) :
    board_play fuel b m = some (false, b) := by
  have hv : board_is_move_valid b m = false := by
    unfold board_is_move_valid
    rw [if_pos ⟨h2, h1⟩]
  unfold board_play board_play_refresh
  by_cases h0 : b.moves = 0
  · rw [if_pos h0]
    rcases hp : b.player with _ | _ | _ | _
    · exact absurd hp h1
    · exact absurd hp h2
    · rfl
    · rfl
  · rw [if_neg h0]
    simp only [Option.pure_def, Option.some_bind, Option.bind_eq_bind, hv, Bool.not_false,
      if_true]

/-- `board_play` fails and leaves a well-formed board alone when the move is not in the
mask. -/
theorem board_play_invalid {fuel : Nat} {b : board_t} (hok : PlanesOK b)
    (hfresh : MaskFresh b)
    (hpl : b.player = disc_t.BLACK_DISC ∨ b.player = disc_t.WHITE_DISC) (hfuel : 10 ≤ fuel)
    (m : move_t) (hv : board_is_move_valid b m = false) :
    board_play fuel b m = some (false, b) := by
  unfold board_play
  rw [board_play_refresh_fresh hok hfresh hpl hfuel]
  simp only [Option.pure_def, Option.some_bind, Option.bind_eq_bind, hv, Bool.not_false,
    if_true]

/-- `board_play` on a well-formed board returns a well-formed board. -/
theorem board_play_ok {fuel : Nat} {b : board_t} (hok : PlanesOK b) (hfresh : MaskFresh b)
    (hfuel : 10 ≤ fuel) (m : move_t) :
    ∃ ok b2, board_play fuel b m = some (ok, b2) ∧ PlanesOK b2 ∧ MaskFresh b2 ∧
      b2.size = b.size := by
  by_cases hpl : b.player = disc_t.BLACK_DISC ∨ b.player = disc_t.WHITE_DISC
  · cases hv : board_is_move_valid b m
    · exact ⟨false, b, board_play_invalid hok hfresh hpl hfuel m hv, hok, hfresh, rfl⟩
    · obtain ⟨b2, h1, h2, h3, h4, _⟩ := board_play_valid hok hfresh hpl hfuel m hv
      exact ⟨true, b2, h1, h2, h3, h4⟩
  · rw [not_or] at hpl
    exact ⟨false, b, board_play_no_colour fuel b m hpl.1 hpl.2, hok, hfresh, rfl⟩

/-- Every reachable board is well formed and carries a fresh mask. -/
theorem reachable_ok {fuel : Nat} (hfuel : 10 ≤ fuel) {b : board_t} (h : Reachable fuel b) :
    PlanesOK b ∧ MaskFresh b := by
  induction h with
  | init size b h => exact board_init_ok hfuel h
  | alloc size player b h => exact board_alloc_ok h
  | set b disc row column b2 _ h ih =>
    obtain ⟨b3, e, h1, h2, _⟩ := board_set_ok ih.1 ih.2 hfuel disc row column
    rw [e] at h
    cases h
    exact ⟨h1, h2⟩
  | set_player b player b2 _ h ih =>
    obtain ⟨b3, e, h1, h2, _⟩ := board_set_player_ok ih.1 ih.2 hfuel player
    rw [e] at h
    cases h
    exact ⟨h1, h2⟩
  | play b move ok b2 _ h ih =>
    obtain ⟨ok3, b3, e, h1, h2, _⟩ := board_play_ok ih.1 ih.2 hfuel move
    rw [e] at h
    cases h
    exact ⟨h1, h2⟩
  | next_move b _ ih =>
    obtain ⟨e1, e2, e3, e4, e5⟩ := board_next_move_planes b
    refine ⟨⟨by rw [e1]; exact ih.1.size_ok, by rw [e1, e3]; exact ih.1.black_in,
      by rw [e1, e4]; exact ih.1.white_in, by rw [e3, e4]; exact ih.1.disjoint⟩, ?_, ?_⟩
    · intro h; rw [e5, e1, e3, e4]; exact ih.2.1 (by rw [← e2]; exact h)
    · intro h; rw [e5, e1, e3, e4]; exact ih.2.2 (by rw [← e2]; exact h)
  | copy b b2 _ h ih =>
    rw [board_copy_spec h]
    exact ih

/-! ## Counting discs -/

theorem countP_or_disjoint (l : List Nat) (p q : Nat → Bool)
    (h : ∀ i, ¬(p i = true ∧ q i = true)) :
    l.countP (fun i => p i || q i) = l.countP p + l.countP q := by
  induction l with
  | nil => simp
  | cons x l ih =>
    simp only [List.countP_cons, ih]
    have := h x
    cases hp : p x <;> cases hq : q x <;> simp_all <;> omega

theorem popcount_spec_or {x y : Nat} (h : x &&& y = 0) :
    popcount_spec (x ||| y) = popcount_spec x + popcount_spec y := by
  unfold popcount_spec
  rw [← countP_or_disjoint]
  · apply List.countP_congr
    intro i _
    simp [Nat.testBit_or]
  · intro i hi
    have := congrArg (fun z => z.testBit i) h
    simp [Nat.testBit_and, hi.1, hi.2] at this

theorem popcount_spec_two_pow {i : Nat} (hi : i < 128) : popcount_spec (2 ^ i) = 1 := by
  unfold popcount_spec
  have h1 : List.countP (fun j => (2 ^ i).testBit j) (List.range 128) =
      List.count i (List.range 128) := by
    unfold List.count
    apply List.countP_congr
    intro j _
    rw [Nat.testBit_two_pow]
    by_cases hj : i = j
    · subst hj; simp
    · have hj2 : ¬(j = i) := fun h => hj h.symm
      simp [hj, hj2]
  rw [h1]
  exact List.count_eq_one_of_mem (List.nodup_range 128) (List.mem_range.2 hi)

theorem popcount_spec_le {s x : Nat} (hs : board_cheak_size s = true) (hx : Confined s x) :
    popcount_spec x ≤ s * s := by
  have h100 : s * s ≤ 100 := by
    have := valid_size_le hs
    nlinarith
  have e : popcount_spec x = bits (s * s + (128 - s * s)) x := by
    rw [show s * s + (128 - s * s) = 128 by omega]
    rfl
  rw [e, bits_add, Nat.div_eq_of_lt hx]
  have h0 : bits (128 - s * s) 0 = 0 := by
    unfold bits
    rw [List.countP_eq_zero]
    intro i _
    simp
  rw [h0]
  exact bits_le _ _

/-! ## Claims C1 to C4 -/

theorem mover_plane_eq {b : board_t}
    (hpl : b.player = disc_t.BLACK_DISC ∨ b.player = disc_t.WHITE_DISC) :
    mover_plane b = plane_of b b.player ∧ other_plane b = plane_of b (opponent_of b.player) := by
  rcases hpl with h | h <;> simp [mover_plane, other_plane, plane_of, opponent_of, h]

theorem flipped_is_opponent {s p o mr mc i : Nat} (h : Flipped s p o mr mc i) :
    o.testBit i = true := by
  obtain ⟨d, k, t, ⟨_, hrun, _⟩, ht1, ht2, hi⟩ := h
  have := hrun t ht1 ht2
  have hin := cellAt_in this
  rw [cellAt_of_in _ hin] at this
  rw [hi]
  exact this

/-- A successful `board_play` was a legal move of a colour. -/
theorem board_play_true {fuel : Nat} {b b2 : board_t} {m : move_t} (hok : PlanesOK b)
    (hfresh : MaskFresh b) (hfuel : 10 ≤ fuel) (h : board_play fuel b m = some (true, b2)) :
    (b.player = disc_t.BLACK_DISC ∨ b.player = disc_t.WHITE_DISC) ∧
      board_is_move_valid b m = true := by
  by_cases hpl : b.player = disc_t.BLACK_DISC ∨ b.player = disc_t.WHITE_DISC
  · refine ⟨hpl, ?_⟩
    cases hv : board_is_move_valid b m
    · rw [board_play_invalid hok hfresh hpl hfuel m hv] at h
      cases h
    · rfl
  · rw [not_or] at hpl
    rw [board_play_no_colour fuel b m hpl.1 hpl.2] at h
    cases h

/-- C1: for every valid size and every pair of disjoint colour planes confined to the board,
`compute_moves` returns a mask, confined to the board, that contains the cell (r, c) if and
only if the cell is empty and, in at least one of the 8 directions, stepping from it inside
the board passes over one or more consecutive opponent discs and then reaches a mover disc. -/
theorem compute_moves_is_rule (fuel s : Nat) (p o : bitboard_t)
    (hs : board_cheak_size s = true) (_hp : Confined s p) (ho : Confined s o)
    (hdisj : p &&& o = 0) (hfuel : s ≤ fuel) :
    ∃ m, compute_moves fuel s p o = some m ∧ Confined s m ∧
      ∀ r c, r < s → c < s → (m.testBit (r * s + c) = true ↔ Legal s p o r c) := by
  refine ⟨moves_of s p o, compute_moves_eq hs ho hdisj hfuel, moves_of_confined hs ho hdisj, ?_⟩
  intro r c hr hc
  rw [moves_of_testBit_iff hs ho hdisj]
  constructor
  · rintro ⟨r2, c2, _, hc2, hi, hl⟩
    obtain ⟨e1, e2⟩ := index_inj hc hc2 hi
    rw [e1, e2]
    exact hl
  · intro hl
    exact ⟨r, c, hr, hc, rfl, hl⟩

theorem compute_moves_is_rule_witness :
    board_cheak_size 4 = true ∧ Confined 4 576 ∧ Confined 4 1056 ∧ 576 &&& 1056 = 0 ∧
      4 ≤ 4 ∧
      ∃ m, compute_moves 4 4 576 1056 = some m ∧ Confined 4 m ∧
        ∀ r c, r < 4 → c < 4 → (m.testBit (r * 4 + c) = true ↔ Legal 4 576 1056 r c) :=
  ⟨by decide, by unfold Confined; decide, by unfold Confined; decide, by decide, by decide,
    compute_moves_is_rule 4 4 576 1056 (by decide) (by unfold Confined; decide)
      (by unfold Confined; decide) (by decide) (by decide)⟩

/-- C2: after a successful `board_play` of the move m by the mover P on a reachable board, the
plane of P is its old plane plus m plus F and the plane of the opponent is its old plane minus
F, where F is the set of opponent discs on an unbroken run inside the board, in one of the 8
directions, strictly between m and a mover disc; every cell outside m and F keeps its
colour. -/
theorem board_play_planes (fuel : Nat) (hfuel : 10 ≤ fuel) (b : board_t)
    (hb : Reachable fuel b) (m : move_t) :
    ∃ ok b2, board_play fuel b m = some (ok, b2) ∧ (ok = true →
    (b.player = disc_t.BLACK_DISC ∨ b.player = disc_t.WHITE_DISC) ∧
      m.row < b.size ∧ m.column < b.size ∧
      (∀ i, (plane_of b2 b.player).testBit i = true ↔
        (plane_of b b.player).testBit i = true ∨ i = m.row * b.size + m.column ∨
          Flipped b.size (plane_of b b.player) (plane_of b (opponent_of b.player))
            m.row m.column i) ∧
      (∀ i, (plane_of b2 (opponent_of b.player)).testBit i = true ↔
        (plane_of b (opponent_of b.player)).testBit i = true ∧
          ¬Flipped b.size (plane_of b b.player) (plane_of b (opponent_of b.player))
            m.row m.column i) ∧
      (∀ i, Flipped b.size (plane_of b b.player) (plane_of b (opponent_of b.player))
          m.row m.column i → (plane_of b (opponent_of b.player)).testBit i = true) ∧
      (∀ i, i ≠ m.row * b.size + m.column →
        ¬Flipped b.size (plane_of b b.player) (plane_of b (opponent_of b.player))
          m.row m.column i →
        b2.black.testBit i = b.black.testBit i ∧ b2.white.testBit i = b.white.testBit i)) := by
  obtain ⟨hok, hfresh⟩ := reachable_ok hfuel hb
  obtain ⟨ok, b2, h, _⟩ := board_play_ok hok hfresh hfuel m
  refine ⟨ok, b2, h, fun ht => ?_⟩
  subst ht
  obtain ⟨hpl, hv⟩ := board_play_true hok hfresh hfuel h
  obtain ⟨b3, e, _, _, _, _, ⟨hr, hc, _⟩, h7, h8, _⟩ := board_play_valid hok hfresh hpl hfuel m hv
  rw [e] at h
  cases h
  obtain ⟨m1, m2⟩ := mover_plane_eq hpl
  rw [m1, m2] at h7 h8
  refine ⟨hpl, hr, hc, h7, h8, fun i hi => flipped_is_opponent hi, ?_⟩
  intro i hi hf
  have a := h7 i
  have c := h8 i
  simp only [hi, hf, false_or, or_false, not_false_eq_true, and_true] at a c
  rcases hpl with hp | hp <;> rw [hp] at a c <;> simp only [plane_of, opponent_of] at a c
  · exact ⟨Bool.eq_iff_iff.2 a, Bool.eq_iff_iff.2 c⟩
  · exact ⟨Bool.eq_iff_iff.2 c, Bool.eq_iff_iff.2 a⟩

theorem board_play_planes_witness :
    10 ≤ 10 ∧ Reachable 10 start4 ∧
    ∃ ok b2, board_play 10 start4 ⟨0, 1⟩ = some (ok, b2) ∧ (ok = true →
      (start4.player = disc_t.BLACK_DISC ∨ start4.player = disc_t.WHITE_DISC) ∧
      (⟨0, 1⟩ : move_t).row < start4.size ∧ (⟨0, 1⟩ : move_t).column < start4.size ∧
      (∀ i, (plane_of b2 start4.player).testBit i = true ↔
        (plane_of start4 start4.player).testBit i = true ∨
          i = (⟨0, 1⟩ : move_t).row * start4.size + (⟨0, 1⟩ : move_t).column ∨
          Flipped start4.size (plane_of start4 start4.player)
            (plane_of start4 (opponent_of start4.player))
            (⟨0, 1⟩ : move_t).row (⟨0, 1⟩ : move_t).column i) ∧
      (∀ i, (plane_of b2 (opponent_of start4.player)).testBit i = true ↔
        (plane_of start4 (opponent_of start4.player)).testBit i = true ∧
          ¬Flipped start4.size (plane_of start4 start4.player)
            (plane_of start4 (opponent_of start4.player))
            (⟨0, 1⟩ : move_t).row (⟨0, 1⟩ : move_t).column i) ∧
      (∀ i, Flipped start4.size (plane_of start4 start4.player)
          (plane_of start4 (opponent_of start4.player))
          (⟨0, 1⟩ : move_t).row (⟨0, 1⟩ : move_t).column i →
        (plane_of start4 (opponent_of start4.player)).testBit i = true) ∧
      (∀ i, i ≠ (⟨0, 1⟩ : move_t).row * start4.size + (⟨0, 1⟩ : move_t).column →
        ¬Flipped start4.size (plane_of start4 start4.player)
          (plane_of start4 (opponent_of start4.player))
          (⟨0, 1⟩ : move_t).row (⟨0, 1⟩ : move_t).column i →
        b2.black.testBit i = start4.black.testBit i ∧
          b2.white.testBit i = start4.white.testBit i)) :=
  ⟨by decide, Reachable.init 4 start4 (by decide),
    board_play_planes 10 (by decide) start4 (Reachable.init 4 start4 (by decide)) ⟨0, 1⟩⟩

/-- C3: on a reachable board whose mover is Black or White, for every move that is not in the
legal-move mask (out-of-range coordinates included), `board_play` returns false and leaves
the size, the mover, both planes, the mask and the cursor unchanged. -/
theorem board_play_rejects (fuel : Nat) (hfuel : 10 ≤ fuel) (b : board_t)
    (hb : Reachable fuel b)
    (hpl : b.player = disc_t.BLACK_DISC ∨ b.player = disc_t.WHITE_DISC) (m : move_t)
    (hm : ¬(m.row < b.size ∧ m.column < b.size ∧
      b.moves.testBit (m.row * b.size + m.column) = true)) :
    board_play fuel b m = some (false, b) := by
  obtain ⟨hok, hfresh⟩ := reachable_ok hfuel hb
  apply board_play_invalid hok hfresh hpl hfuel
  cases hv : board_is_move_valid b m
  · rfl
  · exact absurd ((move_valid_iff hok.size_ok hpl m).1 hv) hm

theorem board_play_rejects_witness :
    10 ≤ 10 ∧ Reachable 10 start4 ∧
      (start4.player = disc_t.BLACK_DISC ∨ start4.player = disc_t.WHITE_DISC) ∧
      ¬((⟨7, 0⟩ : move_t).row < start4.size ∧ (⟨7, 0⟩ : move_t).column < start4.size ∧
        start4.moves.testBit ((⟨7, 0⟩ : move_t).row * start4.size + (⟨7, 0⟩ : move_t).column)
          = true) ∧
      board_play 10 start4 ⟨7, 0⟩ = some (false, start4) :=
  ⟨by decide, Reachable.init 4 start4 (by decide), by decide, by decide,
    board_play_rejects 10 (by decide) start4 (Reachable.init 4 start4 (by decide))
      (by decide) ⟨7, 0⟩ (by decide)⟩

/-- C4: after a successful `board_play` by the mover P with opponent Q, the new mover is Q if
Q has a legal move in the resulting position, otherwise P if P has one (pass rule), otherwise
`EMPTY_DISC`; and the stored mask is the one `compute_moves` gives for the new mover (empty
when the game is over). -/
theorem board_play_turn (fuel : Nat) (hfuel : 10 ≤ fuel) (b : board_t)
    (hb : Reachable fuel b) (m : move_t) :
    ∃ ok b2, board_play fuel b m = some (ok, b2) ∧ (ok = true →
    (HasMove b2.size (plane_of b2 (opponent_of b.player)) (plane_of b2 b.player) →
      b2.player = opponent_of b.player) ∧
    (¬HasMove b2.size (plane_of b2 (opponent_of b.player)) (plane_of b2 b.player) →
      HasMove b2.size (plane_of b2 b.player) (plane_of b2 (opponent_of b.player)) →
      b2.player = b.player) ∧
    (¬HasMove b2.size (plane_of b2 (opponent_of b.player)) (plane_of b2 b.player) →
      ¬HasMove b2.size (plane_of b2 b.player) (plane_of b2 (opponent_of b.player)) →
      b2.player = disc_t.EMPTY_DISC ∧ b2.moves = 0) ∧
    (b2.player = disc_t.BLACK_DISC →
      compute_moves fuel b2.size b2.black b2.white = some b2.moves) ∧
    (b2.player = disc_t.WHITE_DISC →
      compute_moves fuel b2.size b2.white b2.black = some b2.moves)) := by
  obtain ⟨hok, hfresh⟩ := reachable_ok hfuel hb
  obtain ⟨ok, b2, h, _⟩ := board_play_ok hok hfresh hfuel m
  refine ⟨ok, b2, h, fun ht => ?_⟩
  subst ht
  obtain ⟨hpl, hv⟩ := board_play_true hok hfresh hfuel h
  obtain ⟨b3, e, ok3, fr3, sz3, _, _, _, _, t1, t2, t3⟩ :=
    board_play_valid hok hfresh hpl hfuel m hv
  rw [e] at h
  cases h
  have hs := ok3.size_ok
  have hs10 := (valid_size_le hs).2
  rw [← sz3] at t1 t2 t3
  have hq : moves_of b2.size (plane_of b2 (opponent_of b.player)) (plane_of b2 b.player) ≠ 0 ↔
      HasMove b2.size (plane_of b2 (opponent_of b.player)) (plane_of b2 b.player) := by
    rcases hpl with hp | hp <;> rw [hp] <;> simp only [plane_of, opponent_of]
    · exact moves_of_ne_zero_iff hs ok3.black_in (land_comm_zero ok3.disjoint)
    · exact moves_of_ne_zero_iff hs ok3.white_in ok3.disjoint
  have hp : moves_of b2.size (plane_of b2 b.player) (plane_of b2 (opponent_of b.player)) ≠ 0 ↔
      HasMove b2.size (plane_of b2 b.player) (plane_of b2 (opponent_of b.player)) := by
    rcases hpl with hp | hp <;> rw [hp] <;> simp only [plane_of, opponent_of]
    · exact moves_of_ne_zero_iff hs ok3.white_in ok3.disjoint
    · exact moves_of_ne_zero_iff hs ok3.black_in (land_comm_zero ok3.disjoint)
  refine ⟨fun hm => (t1 (hq.2 hm)).1, fun hn hm => (t2 ?_ (hp.2 hm)).1, fun hn hn2 => t3 ?_ ?_,
    fun hB => ?_, fun hW => ?_⟩
  · by_contra hc; exact hn (hq.1 hc)
  · by_contra hc; exact hn (hq.1 hc)
  · by_contra hc; exact hn2 (hp.1 hc)
  · rw [compute_moves_eq hs ok3.white_in ok3.disjoint (by omega), fr3.1 hB]
  · rw [compute_moves_eq hs ok3.black_in (land_comm_zero ok3.disjoint) (by omega), fr3.2 hW]

theorem board_play_turn_witness :
    10 ≤ 10 ∧ Reachable 10 start4 ∧
    ∃ ok b2, board_play 10 start4 ⟨0, 1⟩ = some (ok, b2) ∧ (ok = true →
    (HasMove b2.size (plane_of b2 (opponent_of start4.player)) (plane_of b2 start4.player) →
      b2.player = opponent_of start4.player) ∧
    (¬HasMove b2.size (plane_of b2 (opponent_of start4.player)) (plane_of b2 start4.player) →
      HasMove b2.size (plane_of b2 start4.player) (plane_of b2 (opponent_of start4.player)) →
      b2.player = start4.player) ∧
    (¬HasMove b2.size (plane_of b2 (opponent_of start4.player)) (plane_of b2 start4.player) →
      ¬HasMove b2.size (plane_of b2 start4.player) (plane_of b2 (opponent_of start4.player)) →
      b2.player = disc_t.EMPTY_DISC ∧ b2.moves = 0) ∧
    (b2.player = disc_t.BLACK_DISC →
      compute_moves 10 b2.size b2.black b2.white = some b2.moves) ∧
    (b2.player = disc_t.WHITE_DISC →
      compute_moves 10 b2.size b2.white b2.black = some b2.moves)) :=
  ⟨by decide, Reachable.init 4 start4 (by decide),
    board_play_turn 10 (by decide) start4 (Reachable.init 4 start4 (by decide)) ⟨0, 1⟩⟩

/-! ## Claims C5 to C8 -/

theorem reachable_of_basic {fuel : Nat} {b : board_t} (h : ReachableBasic fuel b) :
    Reachable fuel b := by
  induction h with
  | init size b h => exact Reachable.init size b h
  | alloc size player b h => exact Reachable.alloc size player b h
  | set b disc row column b2 _ h ih => exact Reachable.set b disc row column b2 ih h
  | set_player b player b2 _ h ih => exact Reachable.set_player b player b2 ih h
  | play b move ok b2 _ h ih => exact Reachable.play b move ok b2 ih h

theorem basic_of_kept {fuel : Nat} {b : board_t} (h : ReachableKept fuel b) :
    ReachableBasic fuel b := by
  induction h with
  | init size b h => exact ReachableBasic.init size b h
  | alloc size player b h => exact ReachableBasic.alloc size player b h
  | set b disc row column b2 _ h ih => exact ReachableBasic.set b disc row column b2 ih h
  | set_player b player b2 _ _ h ih => exact ReachableBasic.set_player b player b2 ih h
  | play b move ok b2 _ h ih => exact ReachableBasic.play b move ok b2 ih h

/-- C5: the terminal state is absorbing: on every board whose mover is `EMPTY_DISC`,
`board_play` returns false for every move and leaves the board unchanged, so no sequence of
`board_play` calls leaves the terminal state. -/
theorem terminal_absorbing (fuel : Nat) (b : board_t) (hb : b.player = disc_t.EMPTY_DISC) :
    (∀ m : move_t, board_play fuel b m = some (false, b)) ∧
      ∀ ms : List move_t,
        ms.foldlM (fun acc m => (board_play fuel acc m).map Prod.snd) b = some b := by
  have h1 : ∀ m : move_t, board_play fuel b m = some (false, b) := fun m =>
    board_play_no_colour fuel b m (by rw [hb]; simp) (by rw [hb]; simp)
  refine ⟨h1, ?_⟩
  intro ms
  induction ms with
  | nil => rfl
  | cons m ms ih =>
    rw [List.foldlM_cons, h1 m]
    exact ih

theorem terminal_absorbing_witness :
    start2.player = disc_t.EMPTY_DISC ∧
      ((∀ m : move_t, board_play 10 start2 m = some (false, start2)) ∧
        ∀ ms : List move_t,
          ms.foldlM (fun acc m => (board_play 10 acc m).map Prod.snd) start2 = some start2) :=
  ⟨rfl, terminal_absorbing 10 start2 rfl⟩

/-- C6: on every reachable board the two colour planes are disjoint and have no bit at index
size² or above. -/
theorem reachable_planes (fuel : Nat) (hfuel : 10 ≤ fuel) (b : board_t)
    (hb : Reachable fuel b) :
    b.black &&& b.white = 0 ∧
      ∀ i, b.size * b.size ≤ i → b.black.testBit i = false ∧ b.white.testBit i = false := by
  obtain ⟨hok, _⟩ := reachable_ok hfuel hb
  exact ⟨hok.disjoint, fun i hi => ⟨hok.black_in.testBit_false hi, hok.white_in.testBit_false hi⟩⟩

theorem reachable_planes_witness :
    10 ≤ 10 ∧ Reachable 10 second4 ∧
      (second4.black &&& second4.white = 0 ∧
        ∀ i, second4.size * second4.size ≤ i →
          second4.black.testBit i = false ∧ second4.white.testBit i = false) :=
  ⟨by decide,
    Reachable.play start4 ⟨0, 1⟩ true second4 (Reachable.init 4 start4 (by decide)) (by decide),
    reachable_planes 10 (by decide) second4
      (Reachable.play start4 ⟨0, 1⟩ true second4 (Reachable.init 4 start4 (by decide))
        (by decide))⟩

/-- C7: the legal-move mask is never stale: on every reachable board whose mover is Black or
White the stored mask is what `compute_moves` returns on the current planes with the mover as
player. -/
theorem reachable_mask (fuel : Nat) (hfuel : 10 ≤ fuel) (b : board_t)
    (hb : Reachable fuel b) :
    (b.player = disc_t.BLACK_DISC →
      compute_moves fuel b.size b.black b.white = some b.moves) ∧
    (b.player = disc_t.WHITE_DISC →
      compute_moves fuel b.size b.white b.black = some b.moves) := by
  obtain ⟨hok, hfresh⟩ := reachable_ok hfuel hb
  have hs10 := (valid_size_le hok.size_ok).2
  constructor
  · intro h
    rw [compute_moves_eq hok.size_ok hok.white_in hok.disjoint (by omega), hfresh.1 h]
  · intro h
    rw [compute_moves_eq hok.size_ok hok.black_in (land_comm_zero hok.disjoint) (by omega),
      hfresh.2 h]

theorem reachable_mask_witness :
    10 ≤ 10 ∧ Reachable 10 second4 ∧
      ((second4.player = disc_t.BLACK_DISC →
        compute_moves 10 second4.size second4.black second4.white = some second4.moves) ∧
      (second4.player = disc_t.WHITE_DISC →
        compute_moves 10 second4.size second4.white second4.black = some second4.moves)) :=
  ⟨by decide,
    Reachable.play start4 ⟨0, 1⟩ true second4 (Reachable.init 4 start4 (by decide)) (by decide),
    reachable_mask 10 (by decide) second4
      (Reachable.play start4 ⟨0, 1⟩ true second4 (Reachable.init 4 start4 (by decide))
        (by decide))⟩

/-- C8, as stated, fails: `board_set_player` with `EMPTY_DISC` on the 4 × 4 starting position
gives a reachable board whose mover is `EMPTY_DISC`, whose stored mask is not 0 and on which
`board_get` reports `HINT_DISC`. -/
theorem empty_mover_mask_counterexample :
    ReachableBasic 10 ended4 ∧ ended4.player = disc_t.EMPTY_DISC ∧ ended4.moves ≠ 0 ∧
      board_get ended4 0 1 = disc_t.HINT_DISC :=
  ⟨ReachableBasic.set_player start4 disc_t.EMPTY_DISC ended4
      (ReachableBasic.init 4 start4 (by decide)) (by decide),
    rfl, by decide, by decide⟩

theorem board_get_no_hint {b : board_t} (h : b.moves = 0) (r c : Nat) :
    board_get b r c ≠ disc_t.HINT_DISC := by
  unfold board_get
  simp only [h, Nat.zero_and, ne_eq, not_true_eq_false, if_false]
  split_ifs <;> simp

/-- C8, amended: on every board reachable from `board_init` or `board_alloc` by `board_set`,
`board_set_player` (with `EMPTY_DISC` only on a board whose stored mask is 0) and
`board_play`, if the mover is `EMPTY_DISC` then the stored mask is 0, so `board_get` never
reports `HINT_DISC` there. -/
theorem empty_mover_mask (fuel : Nat) (hfuel : 10 ≤ fuel) (b : board_t)
    (hb : ReachableKept fuel b) (he : b.player = disc_t.EMPTY_DISC) :
    b.moves = 0 ∧ ∀ r c, board_get b r c ≠ disc_t.HINT_DISC := by
  have key : b.player = disc_t.EMPTY_DISC → b.moves = 0 := by
    clear he
    induction hb with
    | init size b h =>
      have hs := board_init_valid h
      rw [board_init_spec hfuel hs] at h
      simp only [Option.some.injEq] at h
      subst h
      intro hp
      simp only at hp ⊢
      split_ifs at hp with h2
      subst h2
      decide
    | alloc size player b h =>
      obtain ⟨rfl, _, hpl⟩ := board_alloc_spec h
      intro hp
      rcases hpl with h2 | h2 <;> rw [h2] at hp
    | set b disc row column b2 hr h ih =>
      obtain ⟨hok, hfresh⟩ := reachable_ok hfuel (reachable_of_basic (basic_of_kept hr))
      obtain ⟨b3, e, _, _, _, e5, _, e7⟩ := board_set_ok hok hfresh hfuel disc row column
      rw [e] at h
      cases h
      intro hp
      rw [e5] at hp
      rw [e7 hp]
      exact ih hp
    | set_player b player b2 hr hne h ih =>
      obtain ⟨hok, hfresh⟩ := reachable_ok hfuel (reachable_of_basic (basic_of_kept hr))
      intro hp
      cases player
      · rw [board_set_player_colour hok hfuel _ (Or.inl rfl)] at h
        cases h
        cases hp
      · rw [board_set_player_colour hok hfuel _ (Or.inr rfl)] at h
        cases h
        cases hp
      · rw [board_set_player_empty] at h
        cases h
        exact hne rfl
      · obtain ⟨b3, e, _, _, _, _, _, _, e8, _⟩ :=
          board_set_player_ok hok hfresh hfuel disc_t.HINT_DISC
        rw [e] at h
        cases h
        rw [e8 rfl] at hp ⊢
        exact ih hp
    | play b move ok b2 hr h ih =>
      obtain ⟨hok, hfresh⟩ := reachable_ok hfuel (reachable_of_basic (basic_of_kept hr))
      intro hp
      by_cases hpl : b.player = disc_t.BLACK_DISC ∨ b.player = disc_t.WHITE_DISC
      · cases hv : board_is_move_valid b move
        · rw [board_play_invalid hok hfresh hpl hfuel move hv] at h
          cases h
          exact ih hp
        · obtain ⟨b3, e, _, _, _, _, _, _, _, t1, t2, t3⟩ :=
            board_play_valid hok hfresh hpl hfuel move hv
          rw [e] at h
          cases h
          by_cases hq : moves_of b.size (plane_of b2 (opponent_of b.player))
              (plane_of b2 b.player) = 0
          · by_cases hp2 : moves_of b.size (plane_of b2 b.player)
                (plane_of b2 (opponent_of b.player)) = 0
            · exact (t3 hq hp2).2
            · have := (t2 hq hp2).1
              rw [this] at hp
              rcases hpl with h2 | h2 <;> rw [h2] at hp <;> cases hp
          · have := (t1 hq).1
            rw [this] at hp
            rcases hpl with h2 | h2 <;> rw [h2] at hp <;> simp [opponent_of] at hp
      · rw [not_or] at hpl
        rw [board_play_no_colour fuel b move hpl.1 hpl.2] at h
        cases h
        exact ih hp
  exact ⟨key he, board_get_no_hint (key he)⟩

theorem empty_mover_mask_witness :
    10 ≤ 10 ∧ ReachableKept 10 start2 ∧ start2.player = disc_t.EMPTY_DISC ∧
      (start2.moves = 0 ∧ ∀ r c, board_get start2 r c ≠ disc_t.HINT_DISC) :=
  ⟨by decide, ReachableKept.init 2 start2 (by decide), rfl,
    empty_mover_mask 10 (by decide) start2 (ReachableKept.init 2 start2 (by decide)) rfl⟩

/-! ## Claims C9 and C10 -/

theorem confined_or {s x y : Nat} (hx : Confined s x) (hy : Confined s y) :
    Confined s (x ||| y) :=
  Nat.or_lt_two_pow hx hy

theorem popcount_planes {b : board_t} (hok : PlanesOK b) :
    bitboard_popcount b.black + bitboard_popcount b.white = popcount_spec (b.black ||| b.white) := by
  rw [bitboard_popcount_eq _ (confined_lt hok.size_ok hok.black_in),
    bitboard_popcount_eq _ (confined_lt hok.size_ok hok.white_in), popcount_spec_or hok.disjoint]

theorem union_prop {P2 Q2 P Q M F : Prop} (a : P2 ↔ P ∨ M ∨ F) (c : Q2 ↔ Q ∧ ¬F)
    (f : F → Q) : (P2 ∨ Q2) ↔ ((P ∨ Q) ∨ M) := by
  rw [a, c]
  by_cases hF : F
  · have hQ := f hF
    simp [hF, hQ]
  · simp only [hF, or_false, not_false_eq_true, and_true]
    constructor
    · rintro ((h | h) | h)
      · exact Or.inl (Or.inl h)
      · exact Or.inr h
      · exact Or.inl (Or.inr h)
    · rintro ((h | h) | h)
      · exact Or.inl (Or.inl h)
      · exact Or.inr h
      · exact Or.inl (Or.inr h)

/-- A successful `board_play` adds exactly the played cell to the set of occupied cells. -/
theorem board_play_union {fuel : Nat} {b b2 : board_t} {m : move_t} (hok : PlanesOK b)
    (hfresh : MaskFresh b) (hfuel : 10 ≤ fuel) (h : board_play fuel b m = some (true, b2)) :
    PlanesOK b2 ∧ m.row * b.size + m.column < 128 ∧
      (b.black ||| b.white).testBit (m.row * b.size + m.column) = false ∧
      b2.black ||| b2.white = (b.black ||| b.white) ||| 2 ^ (m.row * b.size + m.column) := by
  obtain ⟨hpl, hv⟩ := board_play_true hok hfresh hfuel h
  obtain ⟨b3, e, ok3, _, _, _, ⟨hr, hc, hl⟩, h7, h8, _⟩ :=
    board_play_valid hok hfresh hpl hfuel m hv
  rw [e] at h
  cases h
  have hidx := cell_index_lt hok.size_ok hr hc
  have hpm := hl.1
  have hom := hl.2.1
  rw [cellAt_nat _ hr hc] at hpm hom
  refine ⟨ok3, by omega, ?_, ?_⟩
  · rw [Nat.testBit_or]
    rcases hpl with hp | hp <;>
      simp only [mover_plane, other_plane, hp, reduceCtorEq, if_true, if_false] at hpm hom <;>
      simp [hpm, hom]
  · apply Nat.eq_of_testBit_eq
    intro i
    have a := h7 i
    have c := h8 i
    have f := @flipped_is_opponent b.size (mover_plane b) (other_plane b) m.row m.column i
    rw [Bool.eq_iff_iff]
    simp only [Nat.testBit_or, Nat.testBit_two_pow, Bool.or_eq_true, decide_eq_true_eq]
    rw [eq_comm (a := m.row * b.size + m.column)]
    rcases hpl with hp | hp <;>
      simp only [mover_plane, other_plane, plane_of, opponent_of, hp, reduceCtorEq, if_true,
        if_false] at a c f
    · exact union_prop a c f
    · rw [or_comm, or_comm (a := b.black.testBit i = true)]
      exact union_prop a c f

/-- C9, as stated, fails: the opening move (0, 1) on the 4 × 4 starting position succeeds and
the number of discs goes from 4 to 5, which is not larger by at least 2. -/
theorem board_play_count_counterexample :
    Reachable 10 start4 ∧ board_play 10 start4 ⟨0, 1⟩ = some (true, second4) ∧
      ¬(bitboard_popcount second4.black + bitboard_popcount second4.white ≥
        bitboard_popcount start4.black + bitboard_popcount start4.white + 2) :=
  ⟨Reachable.init 4 start4 (by decide), by decide, by decide⟩

/-- C9, amended: on every reachable board, every successful `board_play` makes
popcount(black) + popcount(white) larger by exactly 1 (the placed disc; the reversed discs
change colour and leave the total alone). -/
theorem board_play_count (fuel : Nat) (hfuel : 10 ≤ fuel) (b : board_t)
    (hb : Reachable fuel b) (m : move_t) :
    ∃ ok b2, board_play fuel b m = some (ok, b2) ∧ (ok = true →
      bitboard_popcount b2.black + bitboard_popcount b2.white =
        bitboard_popcount b.black + bitboard_popcount b.white + 1) := by
  obtain ⟨hok, hfresh⟩ := reachable_ok hfuel hb
  obtain ⟨ok, b2, h, _⟩ := board_play_ok hok hfresh hfuel m
  refine ⟨ok, b2, h, fun ht => ?_⟩
  subst ht
  obtain ⟨ok2, hlt, hfree, hun⟩ := board_play_union hok hfresh hfuel h
  rw [popcount_planes ok2, popcount_planes hok, hun,
    popcount_spec_or ((and_two_pow_eq_zero _ _).2 hfree), popcount_spec_two_pow hlt]

theorem board_play_count_witness :
    10 ≤ 10 ∧ Reachable 10 start4 ∧
      ∃ ok b2, board_play 10 start4 ⟨0, 1⟩ = some (ok, b2) ∧ (ok = true →
        bitboard_popcount b2.black + bitboard_popcount b2.white =
          bitboard_popcount start4.black + bitboard_popcount start4.white + 1) :=
  ⟨by decide, Reachable.init 4 start4 (by decide),
    board_play_count 10 (by decide) start4 (Reachable.init 4 start4 (by decide)) ⟨0, 1⟩⟩

/-- C10: on every board reachable from `board_init` or `board_alloc` by `board_set`,
`board_set_player` and `board_play`, the two counts of `board_score` add up to at most
size². -/
theorem board_score_bound (fuel : Nat) (hfuel : 10 ≤ fuel) (b : board_t)
    (hb : ReachableBasic fuel b) :
    (board_score b).black + (board_score b).white ≤ b.size * b.size := by
  obtain ⟨hok, _⟩ := reachable_ok hfuel (reachable_of_basic hb)
  have h1 := popcount_planes hok
  have h2 := popcount_spec_le hok.size_ok (confined_or hok.black_in hok.white_in)
  have h100 := (cell_index_lt hok.size_ok (valid_size_pos hok.size_ok)
    (valid_size_pos hok.size_ok)).2
  unfold board_score
  simp only
  omega

theorem board_score_bound_witness :
    10 ≤ 10 ∧ ReachableBasic 10 start4 ∧
      (board_score start4).black + (board_score start4).white ≤ start4.size * start4.size :=
  ⟨by decide, ReachableBasic.init 4 start4 (by decide),
    board_score_bound 10 (by decide) start4 (ReachableBasic.init 4 start4 (by decide))⟩

/-! ## Claims on the evaluation -/

/-- C11: the evaluator is zero-sum: for every board, terminal or not, the value for Black is
the opposite of the value for White. -/
theorem score_heuristic_zero_sum (b : board_t) :
    score_heuristic b disc_t.BLACK_DISC = -score_heuristic b disc_t.WHITE_DISC := by
  unfold score_heuristic
  simp only
  split_ifs <;> simp_all

theorem to_int_square {s : Nat} (hs : board_cheak_size s = true) :
    to_int ((s : Int) * (s : Int)) = (s : Int) * (s : Int) := by
  have := valid_size_le hs
  apply to_int_eq <;> nlinarith

/-- C12: for every board of a valid size s and every perspective p among Black and White,
with the counts of `board_score`: on a terminal board the value is 0 on equal counts,
s² + |diff| when p holds strictly more discs and −(s² + |diff|) otherwise; on a board that is
not terminal it is |diff| when p holds strictly more discs, −|diff| when it holds strictly
fewer and 0 on equal counts, whoever is to move. -/
theorem score_heuristic_value (b : board_t) (p : disc_t)
    (hs : board_cheak_size b.size = true)
    (hp : p = disc_t.BLACK_DISC ∨ p = disc_t.WHITE_DISC) :
    (b.player = disc_t.EMPTY_DISC →
      ((board_score b).black = (board_score b).white → score_heuristic b p = 0) ∧
      ((disc_count b p : Int) > disc_count b (opponent_of p) →
        score_heuristic b p =
          (b.size : Int) * b.size + |((board_score b).black : Int) - (board_score b).white|) ∧
      ((disc_count b p : Int) < disc_count b (opponent_of p) →
        score_heuristic b p =
          -((b.size : Int) * b.size +
            |((board_score b).black : Int) - (board_score b).white|))) ∧
    (b.player ≠ disc_t.EMPTY_DISC →
      ((board_score b).black = (board_score b).white → score_heuristic b p = 0) ∧
      ((disc_count b p : Int) > disc_count b (opponent_of p) →
        score_heuristic b p = |((board_score b).black : Int) - (board_score b).white|) ∧
      ((disc_count b p : Int) < disc_count b (opponent_of p) →
        score_heuristic b p = -|((board_score b).black : Int) - (board_score b).white|)) := by
  have hm := to_int_square hs
  unfold score_heuristic
  simp only [board_size, board_player, hm]
  rcases hp with h | h <;> subst h <;> simp only [disc_count, opponent_of] <;>
    generalize (board_score b).black = bk <;>
    generalize (board_score b).white = wh <;>
    by_cases hgt : bk > wh <;>
    simp only [hgt, if_true, if_false, reduceCtorEq] <;>
    first
    | rw [abs_of_nonneg (by omega)]
    | rw [abs_of_nonpos (by omega)]
  all_goals
    refine ⟨fun he => ⟨fun h1 => ?_, fun h1 => ?_, fun h1 => ?_⟩,
      fun he => ⟨fun h1 => ?_, fun h1 => ?_, fun h1 => ?_⟩⟩ <;>
    simp only [he, if_true, if_false, reduceCtorEq] <;>
    omega

theorem score_heuristic_value_witness :
    board_cheak_size second4.size = true ∧
    (disc_t.BLACK_DISC = disc_t.BLACK_DISC ∨ disc_t.BLACK_DISC = disc_t.WHITE_DISC) ∧
    (disc_count second4 disc_t.BLACK_DISC : Int) >
      disc_count second4 (opponent_of disc_t.BLACK_DISC) ∧
    second4.player ≠ disc_t.EMPTY_DISC ∧
    score_heuristic second4 disc_t.BLACK_DISC =
      |((board_score second4).black : Int) - (board_score second4).white| :=
  ⟨by decide, Or.inl rfl, by decide, by decide,
    ((score_heuristic_value second4 disc_t.BLACK_DISC (by decide) (Or.inl rfl)).2
      (by decide)).2.1 (by decide)⟩

/-! ## Claims on construction and copy -/

theorem board_get_black {b : board_t} (hok : PlanesOK b) (r c : Nat) :
    board_get b r c = disc_t.BLACK_DISC ↔
      r < b.size ∧ c < b.size ∧ b.black.testBit (r * b.size + c) = true := by
  unfold board_get
  by_cases hin : r < b.size ∧ c < b.size
  · rw [if_neg (by omega)]
    simp only [ne_eq, and_set_bitboard_eq_zero hok.size_ok hin.1 hin.2, Bool.not_eq_false]
    split_ifs with h1 h2 h3 <;> simp [hin, h1]
  · rw [if_pos (by omega)]
    simp only [reduceCtorEq, false_iff]
    tauto

theorem board_get_white {b : board_t} (hok : PlanesOK b) (r c : Nat) :
    board_get b r c = disc_t.WHITE_DISC ↔
      r < b.size ∧ c < b.size ∧ b.white.testBit (r * b.size + c) = true := by
  unfold board_get
  by_cases hin : r < b.size ∧ c < b.size
  · rw [if_neg (by omega)]
    simp only [ne_eq, and_set_bitboard_eq_zero hok.size_ok hin.1 hin.2, Bool.not_eq_false]
    split_ifs with h1 h2 h3
    · have := disjoint_testBit hok.disjoint h1
      simp [this]
    · simp [hin, h2]
    · simp [h2]
    · simp [h2]
  · rw [if_pos (by omega)]
    simp only [reduceCtorEq, false_iff]
    tauto

theorem two_cells_testBit {s r1 c1 r2 c2 : Nat} (hs : board_cheak_size s = true)
    (hr1 : r1 < s) (hc1 : c1 < s) (hr2 : r2 < s) (hc2 : c2 < s) (r c : Nat) (hc : c < s) :
    (set_bitboard s r1 c1 ||| set_bitboard s r2 c2).testBit (r * s + c) = true ↔
      (r = r1 ∧ c = c1) ∨ (r = r2 ∧ c = c2) := by
  rw [set_bitboard_eq hs hr1 hc1, set_bitboard_eq hs hr2 hc2, testBit_set, Nat.testBit_two_pow]
  simp only [Bool.or_eq_true, decide_eq_true_eq]
  constructor
  · rintro (h | h)
    · exact Or.inl (index_inj hc hc1 h.symm)
    · exact Or.inr (index_inj hc hc2 h)
  · rintro (⟨rfl, rfl⟩ | ⟨rfl, rfl⟩)
    · exact Or.inl rfl
    · exact Or.inr rfl

theorem init_popcount {s : Nat} (hs : board_cheak_size s = true) :
    bitboard_popcount (init_black s) = 2 ∧ bitboard_popcount (init_white s) = 2 ∧
      (s = 2 → moves_of s (init_black s) (init_white s) = 0) := by
  rcases valid_size_cases hs with h | h | h | h | h <;> subst h <;>
    exact ⟨by decide, by decide, by decide⟩

/-- C13: for every valid size s, `board_init` returns a board of size s that holds exactly
four discs, White on (s/2−1, s/2−1) and (s/2, s/2) and Black on (s/2−1, s/2) and
(s/2, s/2−1); the mover is Black when s ≥ 4, and for s = 2 the board is terminal at once:
the mover is `EMPTY_DISC` and the legal-move mask is 0. -/
theorem board_init_layout (fuel s : Nat) (hfuel : 10 ≤ fuel)
    (hs : board_cheak_size s = true) :
    ∃ b, board_init fuel s = some b ∧ b.size = s ∧
      (∀ r c, board_get b r c = disc_t.WHITE_DISC ↔
        (r = s / 2 - 1 ∧ c = s / 2 - 1) ∨ (r = s / 2 ∧ c = s / 2)) ∧
      (∀ r c, board_get b r c = disc_t.BLACK_DISC ↔
        (r = s / 2 - 1 ∧ c = s / 2) ∨ (r = s / 2 ∧ c = s / 2 - 1)) ∧
      (board_score b).black = 2 ∧ (board_score b).white = 2 ∧
      (4 ≤ s → b.player = disc_t.BLACK_DISC) ∧
      (s = 2 → b.player = disc_t.EMPTY_DISC ∧ b.moves = 0) := by
  have h := board_init_spec hfuel hs
  obtain ⟨hok, _⟩ := board_init_ok hfuel h
  obtain ⟨p1, p2, p3⟩ := init_popcount hs
  have hle := valid_size_le hs
  have h1 : s / 2 - 1 < s := by omega
  have h2 : s / 2 < s := by omega
  refine ⟨_, h, rfl, fun r c => ?_, fun r c => ?_, ?_, ?_, fun h4 => ?_, fun e2 => ⟨?_, p3 e2⟩⟩
  · rw [board_get_white hok]
    simp only [init_white]
    by_cases hc : c < s
    · rw [two_cells_testBit hs h1 h1 h2 h2 r c hc]
      constructor
      · exact fun a => a.2.2
      · intro a
        exact ⟨by omega, hc, a⟩
    · constructor
      · exact fun a => absurd a.2.1 hc
      · intro a
        omega
  · rw [board_get_black hok]
    simp only [init_black]
    by_cases hc : c < s
    · rw [two_cells_testBit hs h1 h2 h2 h1 r c hc]
      constructor
      · exact fun a => a.2.2
      · intro a
        exact ⟨by omega, hc, a⟩
    · constructor
      · exact fun a => absurd a.2.1 hc
      · intro a
        omega
  · simp only [board_score, p1]
    rfl
  · simp only [board_score, p2]
    rfl
  · simp only
    rw [if_neg (by omega)]
  · simp only
    rw [if_pos e2]

theorem board_init_layout_witness :
    10 ≤ 10 ∧ board_cheak_size 4 = true ∧
    ∃ b, board_init 10 4 = some b ∧ b.size = 4 ∧
      (∀ r c, board_get b r c = disc_t.WHITE_DISC ↔
        (r = 4 / 2 - 1 ∧ c = 4 / 2 - 1) ∨ (r = 4 / 2 ∧ c = 4 / 2)) ∧
      (∀ r c, board_get b r c = disc_t.BLACK_DISC ↔
        (r = 4 / 2 - 1 ∧ c = 4 / 2) ∨ (r = 4 / 2 ∧ c = 4 / 2 - 1)) ∧
      (board_score b).black = 2 ∧ (board_score b).white = 2 ∧
      (4 ≤ 4 → b.player = disc_t.BLACK_DISC) ∧
      (4 = 2 → b.player = disc_t.EMPTY_DISC ∧ b.moves = 0) :=
  ⟨by decide, by decide, board_init_layout 10 4 (by decide) (by decide)⟩

theorem board_init_four {fuel : Nat} (hfuel : 10 ≤ fuel) : board_init fuel 4 = some start4 := by
  rw [board_init_spec hfuel (by decide)]
  decide

theorem start4_valid (m : move_t) :
    board_is_move_valid start4 m = true ↔
      m = ⟨0, 1⟩ ∨ m = ⟨1, 0⟩ ∨ m = ⟨2, 3⟩ ∨ m = ⟨3, 2⟩ := by
  rw [move_valid_iff (by decide) (Or.inl rfl)]
  obtain ⟨r, c⟩ := m
  simp only [move_t.mk.injEq]
  show r < 4 ∧ c < 4 ∧ (18450 : Nat).testBit (r * 4 + c) = true ↔ _
  constructor
  · rintro ⟨hr, hc, h⟩
    interval_cases r <;> interval_cases c <;> first | omega | (exact absurd h (by decide))
  · rintro (⟨rfl, rfl⟩ | ⟨rfl, rfl⟩ | ⟨rfl, rfl⟩ | ⟨rfl, rfl⟩) <;> decide

/-- C14, as stated, fails: on the starting position of the 4 × 4 board, which `board_init`
returns, none of the four corners (0,0), (0,3), (3,0), (3,3) is a valid move. -/
theorem board_init_four_counterexample :
    board_init 10 4 = some start4 ∧
      board_is_move_valid start4 ⟨0, 0⟩ = false ∧ board_is_move_valid start4 ⟨0, 3⟩ = false ∧
      board_is_move_valid start4 ⟨3, 0⟩ = false ∧ board_is_move_valid start4 ⟨3, 3⟩ = false :=
  ⟨by decide, by decide, by decide, by decide, by decide⟩

/-- C14, amended: on the board `board_init` returns for size 4, Black is to move,
`board_count_player_moves` is exactly 4, and the valid moves are exactly (0,1), (1,0),
(2,3) and (3,2): the four cells that touch a white disc of the central block by an edge and
have a black disc behind it. -/
theorem board_init_four_moves (fuel : Nat) (hfuel : 10 ≤ fuel) :
    ∃ b, board_init fuel 4 = some b ∧ b.player = disc_t.BLACK_DISC ∧
      board_count_player_moves b = 4 ∧
      ∀ m, board_is_move_valid b m = true ↔
        m = ⟨0, 1⟩ ∨ m = ⟨1, 0⟩ ∨ m = ⟨2, 3⟩ ∨ m = ⟨3, 2⟩ :=
  ⟨start4, board_init_four hfuel, rfl, by decide, start4_valid⟩

theorem board_init_four_moves_witness :
    10 ≤ 10 ∧ ∃ b, board_init 10 4 = some b ∧ b.player = disc_t.BLACK_DISC ∧
      board_count_player_moves b = 4 ∧
      ∀ m, board_is_move_valid b m = true ↔
        m = ⟨0, 1⟩ ∨ m = ⟨1, 0⟩ ∨ m = ⟨2, 3⟩ ∨ m = ⟨3, 2⟩ :=
  ⟨by decide, board_init_four_moves 10 (by decide)⟩

theorem valid_size_iff (s : Nat) :
    board_cheak_size s = true ↔ s = 2 ∨ s = 4 ∨ s = 6 ∨ s = 8 ∨ s = 10 := by
  constructor
  · exact valid_size_cases
  · rintro (h | h | h | h | h) <;> subst h <;> decide

theorem board_alloc_none_iff (size : Nat) (player : disc_t) :
    board_alloc size player = none ↔
      board_cheak_size size = false ∨
        (player ≠ disc_t.BLACK_DISC ∧ player ≠ disc_t.WHITE_DISC) := by
  unfold board_alloc
  cases hc : board_cheak_size size <;> cases player <;> simp

/-- C15: allocation failure aside, `board_alloc` returns no board exactly when the size is not
one of 2, 4, 6, 8, 10 or the player is neither `BLACK_DISC` nor `WHITE_DISC`, and otherwise
returns the board of that size and mover whose planes, legal-move mask and cursor are all
empty; `board_init` returns a board exactly when the size is one of 2, 4, 6, 8, 10. -/
theorem board_alloc_result (fuel size : Nat) (player : disc_t) (hfuel : 10 ≤ fuel) :
    (board_alloc size player = none ↔
      ¬(size = 2 ∨ size = 4 ∨ size = 6 ∨ size = 8 ∨ size = 10) ∨
        (player ≠ disc_t.BLACK_DISC ∧ player ≠ disc_t.WHITE_DISC)) ∧
    (board_alloc size player ≠ none →
      board_alloc size player = some ⟨size, player, 0, 0, 0, 0⟩) ∧
    ((∃ b, board_init fuel size = some b) ↔
      (size = 2 ∨ size = 4 ∨ size = 6 ∨ size = 8 ∨ size = 10)) := by
  refine ⟨?_, fun hne => ?_, ?_, ?_⟩
  · rw [board_alloc_none_iff, ← valid_size_iff, Bool.not_eq_true]
  · cases ha : board_alloc size player with
    | none => exact absurd ha hne
    | some b => rw [(board_alloc_spec ha).1]
  · rintro ⟨b, hb⟩
    exact (valid_size_iff size).1 (board_init_valid hb)
  · intro h
    exact ⟨_, board_init_spec hfuel ((valid_size_iff size).2 h)⟩

theorem board_alloc_result_witness :
    10 ≤ 10 ∧
    (board_alloc 4 disc_t.WHITE_DISC = none ↔
      ¬(4 = 2 ∨ 4 = 4 ∨ 4 = 6 ∨ 4 = 8 ∨ 4 = 10) ∨
        (disc_t.WHITE_DISC ≠ disc_t.BLACK_DISC ∧ disc_t.WHITE_DISC ≠ disc_t.WHITE_DISC)) ∧
    (board_alloc 4 disc_t.WHITE_DISC ≠ none →
      board_alloc 4 disc_t.WHITE_DISC = some ⟨4, disc_t.WHITE_DISC, 0, 0, 0, 0⟩) ∧
    ((∃ b, board_init 10 4 = some b) ↔ (4 = 2 ∨ 4 = 4 ∨ 4 = 6 ∨ 4 = 8 ∨ 4 = 10)) :=
  ⟨by decide, board_alloc_result 10 4 disc_t.WHITE_DISC (by decide)⟩

/-- C16 at its failing input: the copy of the finished 2 × 2 board that `board_init` returns
is the absent value, because `board_copy` allocates through `board_alloc`, which refuses the
mover `EMPTY_DISC`. -/
theorem board_copy_terminal :
    board_init 10 2 = some start2 ∧ start2.player = disc_t.EMPTY_DISC ∧
      board_copy start2 = none :=
  ⟨by decide, rfl, by decide⟩

/-! ## The move enumeration -/

theorem range_findSome {α : Type} (f : Nat → Option α) (a : α) (n : Nat) :
    (List.range n).findSome? f = some a ↔ ∃ i, i < n ∧ f i = some a ∧ ∀ j, j < i → f j = none := by
  induction n generalizing a with
  | zero => simp
  | succ n ih =>
    rw [List.range_succ, List.findSome?_append]
    cases h : (List.range n).findSome? f with
    | none =>
      rw [List.findSome?_eq_none_iff] at h
      have hn : ∀ j, j < n → f j = none := fun j hj => h j (List.mem_range.2 hj)
      simp only [Option.or, List.findSome?_cons, List.findSome?_nil]
      constructor
      · intro e
        refine ⟨n, by omega, ?_, hn⟩
        cases hf : f n with
        | none => rw [hf] at e; cases e
        | some v => rw [hf] at e; exact e
      · rintro ⟨i, hi, e, _⟩
        have : i = n := by
          by_contra hne
          rw [hn i (by omega)] at e
          cases e
        subst this
        rw [e]
    | some v =>
      obtain ⟨i0, hi0, e0, m0⟩ := (ih v).1 h
      simp only [Option.or]
      constructor
      · intro e
        cases e
        exact ⟨i0, by omega, e0, m0⟩
      · rintro ⟨i, hi, e, m⟩
        rcases Nat.lt_trichotomy i i0 with hlt | heq | hgt
        · rw [m0 i hlt] at e; cases e
        · subst heq
          rw [e0] at e
          exact e
        · rw [m i0 hgt] at e0; cases e0

theorem index_lt_iff {s i j i2 j2 : Nat} (hj : j < s) (hj2 : j2 < s) :
    i2 * s + j2 < i * s + j ↔ i2 < i ∨ (i2 = i ∧ j2 < j) := by
  constructor
  · intro h
    rcases Nat.lt_trichotomy i2 i with hlt | heq | hgt
    · exact Or.inl hlt
    · subst heq
      exact Or.inr ⟨rfl, by omega⟩
    · have := Nat.mul_le_mul_right s (show i + 1 ≤ i2 by omega)
      rw [Nat.succ_mul] at this
      omega
  · rintro (h | ⟨rfl, h⟩)
    · have := Nat.mul_le_mul_right s (show i2 + 1 ≤ i by omega)
      rw [Nat.succ_mul] at this
      omega
    · omega

/-- The scan of `board_next_move` returns the first cell of the cursor in row-major order. -/
theorem next_move_scan_iff {s : Nat} (hs : board_cheak_size s = true) (x i j : Nat) :
    next_move_scan s x = some (i, j) ↔
      i < s ∧ j < s ∧ x.testBit (i * s + j) = true ∧
        ∀ i2 j2, i2 < s → j2 < s → i2 * s + j2 < i * s + j → x.testBit (i2 * s + j2) = false := by
  have cell : ∀ a c, a < s → c < s →
      ((if set_bitboard s a c &&& x ≠ 0 then some (a, c) else none) = none ↔
        x.testBit (a * s + c) = false) := by
    intro a c ha hc
    have e := and_set_bitboard_eq_zero hs ha hc x
    rw [Nat.land_comm]
    by_cases hb : x.testBit (a * s + c) = false
    · rw [if_neg (not_not.2 (e.2 hb))]
      simp [hb]
    · rw [if_pos (fun h0 => hb (e.1 h0))]
      simp [hb]
  unfold next_move_scan
  rw [range_findSome]
  constructor
  · rintro ⟨i1, hi1, e, m⟩
    rw [range_findSome] at e
    obtain ⟨j1, hj1, e1, m1⟩ := e
    split_ifs at e1 with hbit
    simp only [Option.some.injEq, Prod.mk.injEq] at e1
    obtain ⟨rfl, rfl⟩ := e1
    rw [Nat.land_comm, ne_eq, and_set_bitboard_eq_zero hs hi1 hj1, Bool.not_eq_false] at hbit
    refine ⟨hi1, hj1, hbit, fun i2 j2 hi2 hj2 hlt => ?_⟩
    rcases (index_lt_iff hj1 hj2).1 hlt with h | ⟨rfl, h⟩
    · have := m i2 h
      rw [List.findSome?_eq_none_iff] at this
      exact (cell i2 j2 hi2 hj2).1 (this j2 (List.mem_range.2 hj2))
    · exact (cell i2 j2 hi2 hj2).1 (m1 j2 h)
  · rintro ⟨hi, hj, hbit, m⟩
    refine ⟨i, hi, ?_, fun i2 hi2 => ?_⟩
    · rw [range_findSome]
      refine ⟨j, hj, ?_, fun j2 hj2 => ?_⟩
      · rw [if_pos]
        rw [Nat.land_comm, ne_eq, and_set_bitboard_eq_zero hs hi hj, hbit]
        simp
      · exact (cell i j2 hi (by omega)).2
          (m i j2 hi (by omega) ((index_lt_iff hj (by omega)).2 (Or.inr ⟨rfl, hj2⟩)))
    · rw [List.findSome?_eq_none_iff]
      intro j2 hj2
      have hj2 := List.mem_range.1 hj2
      exact (cell i2 j2 (by omega) hj2).2
        (m i2 j2 (by omega) hj2 ((index_lt_iff hj hj2).2 (Or.inl hi2)))

theorem next_move_scan_none {s : Nat} (hs : board_cheak_size s = true) (x : Nat)
    (h : next_move_scan s x = none) (i j : Nat) (hi : i < s) (hj : j < s) :
    x.testBit (i * s + j) = false := by
  unfold next_move_scan at h
  rw [List.findSome?_eq_none_iff] at h
  have := h i (List.mem_range.2 hi)
  rw [List.findSome?_eq_none_iff] at this
  have := this j (List.mem_range.2 hj)
  rw [Nat.land_comm] at this
  split_ifs at this with hb
  rw [ne_eq, and_set_bitboard_eq_zero hs hi hj, not_not] at hb
  exact hb

theorem cells_of_pairwise (s x : Nat) : List.Pairwise (fun a c => a < c) (cells_of s x) :=
  (List.pairwise_lt_range _).filter _

theorem mem_cells_of {s x i : Nat} : i ∈ cells_of s x ↔ i < s * s ∧ x.testBit i = true := by
  unfold cells_of
  rw [List.mem_filter, List.mem_range]

theorem cells_of_head {s x i0 : Nat} {l : List Nat} (h : cells_of s x = i0 :: l) :
    i0 < s * s ∧ x.testBit i0 = true ∧ (∀ i, i < i0 → x.testBit i = false) ∧
      ∀ i ∈ l, i0 < i := by
  have hp := cells_of_pairwise s x
  rw [h, List.pairwise_cons] at hp
  have hm : i0 ∈ cells_of s x := by rw [h]; exact List.mem_cons_self _ _
  rw [mem_cells_of] at hm
  refine ⟨hm.1, hm.2, fun i hi => ?_, hp.1⟩
  by_contra hb
  rw [Bool.not_eq_false] at hb
  have hi2 : i ∈ cells_of s x := mem_cells_of.2 ⟨by omega, hb⟩
  rw [h, List.mem_cons] at hi2
  rcases hi2 with e | e
  · omega
  · have := hp.1 i e
    omega

theorem div_mod_index {s i : Nat} (hs : 0 < s) (hi : i < s * s) :
    i / s < s ∧ i % s < s ∧ i / s * s + i % s = i :=
  ⟨(Nat.div_lt_iff_lt_mul hs).2 hi, Nat.mod_lt _ hs, Nat.div_add_mod' i s⟩

theorem next_move_scan_head {s x i0 : Nat} {l : List Nat} (hs : board_cheak_size s = true)
    (h : cells_of s x = i0 :: l) : next_move_scan s x = some (i0 / s, i0 % s) := by
  obtain ⟨h1, h2, h3, _⟩ := cells_of_head h
  obtain ⟨d1, d2, d3⟩ := div_mod_index (valid_size_pos hs) h1
  rw [next_move_scan_iff hs, d3]
  exact ⟨d1, d2, h2, fun i2 j2 _ _ hlt => h3 _ hlt⟩

theorem cells_of_clear {s x i0 : Nat} {l : List Nat} (hs : board_cheak_size s = true)
    (hx : Confined s x) (h : cells_of s x = i0 :: l) :
    cells_of s (x &&& not128 (set_bitboard s (i0 / s) (i0 % s))) = l := by
  obtain ⟨h1, h2, h3, h4⟩ := cells_of_head h
  obtain ⟨d1, d2, d3⟩ := div_mod_index (valid_size_pos hs) h1
  have h100 := (cell_index_lt hs d1 d2).2
  rw [set_bitboard_eq hs d1 d2, d3]
  have e : cells_of s (x &&& not128 (2 ^ i0)) =
      List.filter (fun i => !decide (i = i0)) (cells_of s x) := by
    unfold cells_of
    rw [List.filter_filter]
    apply List.filter_congr
    intro i _
    rw [testBit_clear h100 hx, Bool.and_comm]
  rw [e, h, List.filter_cons_of_neg (by simp), List.filter_eq_self]
  intro i hi
  have := h4 i hi
  simp only [Bool.not_eq_true', decide_eq_false_iff_not]
  omega

theorem cells_of_nil {s x : Nat} (hx : Confined s x) (h : cells_of s x = []) : x = 0 := by
  apply Nat.eq_of_testBit_eq
  intro i
  rw [Nat.zero_testBit]
  by_cases hi : i < s * s
  · by_contra hb
    rw [Bool.not_eq_false] at hb
    have : i ∈ cells_of s x := mem_cells_of.2 ⟨hi, hb⟩
    rw [h] at this
    cases this
  · exact hx.testBit_false (by omega)

theorem confined_and_left {s x : Nat} (hx : Confined s x) (y : Nat) : Confined s (x &&& y) :=
  lt_of_le_of_lt Nat.and_le_left hx

/-- Draining a cursor: as many `board_next_move` calls as the cursor has cells return these
cells in increasing order and leave the cursor empty. -/
theorem next_moves_drain (n : Nat) : ∀ c : board_t, board_cheak_size c.size = true →
    c.moves ≠ 0 → Confined c.size c.next_move → (cells_of c.size c.next_move).length = n →
    next_moves n c =
      ((cells_of c.size c.next_move).map (cell_of_index c.size), { c with next_move := 0 }) := by
  induction n with
  | zero =>
    intro c hs hm hx hl
    have h0 := List.length_eq_zero.1 hl
    have hz := cells_of_nil hx h0
    rw [h0]
    obtain ⟨s, pl, bk, wh, mv, nm⟩ := c
    simp only at hz
    subst hz
    rfl
  | succ n ih =>
    intro c hs hm hx hl
    obtain ⟨i0, l, hc⟩ := List.exists_cons_of_length_eq_add_one hl
    have hne : c.next_move ≠ 0 := by
      intro h0
      have := (cells_of_head hc).2.1
      rw [h0, Nat.zero_testBit] at this
      cases this
    have step : board_next_move c = (cell_of_index c.size i0,
        { c with next_move := c.next_move &&& not128 (set_bitboard c.size (i0 / c.size)
          (i0 % c.size)) }) := by
      unfold board_next_move
      simp only [if_neg hm, if_neg hne, next_move_scan_head hs hc]
      rfl
    have hl2 : l.length = n := by
      rw [hc] at hl
      simpa using hl
    have hc2 := cells_of_clear hs hx hc
    have := ih { c with next_move := c.next_move &&& not128 (set_bitboard c.size (i0 / c.size)
      (i0 % c.size)) } hs hm (confined_and_left hx _) (by rw [hc2]; exact hl2)
    simp only [next_moves, step, this, hc2, hc, List.map_cons]

theorem popcount_cells {s x : Nat} (hs : board_cheak_size s = true) (hx : Confined s x) :
    popcount_spec x = (cells_of s x).length := by
  have h100 := (cell_index_lt hs (valid_size_pos hs) (valid_size_pos hs)).2
  have e : popcount_spec x = bits (s * s + (128 - s * s)) x := by
    rw [show s * s + (128 - s * s) = 128 by omega]
    rfl
  rw [e, bits_add, Nat.div_eq_of_lt hx]
  have h0 : bits (128 - s * s) 0 = 0 := by
    unfold bits
    rw [List.countP_eq_zero]
    intro i _
    simp
  rw [h0, Nat.add_zero]
  unfold bits cells_of
  rw [List.countP_eq_length_filter]

theorem cell_of_index_eq {s : Nat} (hs : 0 < s) (m : move_t) (hc : m.column < s) :
    cell_of_index s (m.row * s + m.column) = m := by
  obtain ⟨r, c⟩ := m
  unfold cell_of_index
  simp only at hc ⊢
  rw [move_t.mk.injEq, Nat.add_comm, Nat.add_mul_div_right _ _ hs, Nat.div_eq_of_lt hc,
    Nat.add_mul_mod_self_right, Nat.mod_eq_of_lt hc]
  omega

/-- A board with an empty cursor whose mask has cells: as many `board_next_move` calls as the
mask has cells return these cells in increasing order and leave the board as it was. -/
theorem next_moves_mask {b : board_t} (hs : board_cheak_size b.size = true)
    (hm : Confined b.size b.moves) (h0 : b.moves ≠ 0) (hc : b.next_move = 0) :
    next_moves (cells_of b.size b.moves).length b =
      ((cells_of b.size b.moves).map (cell_of_index b.size), b) := by
  have key := next_moves_drain _ { b with next_move := b.moves } hs h0 hm rfl
  have hb : ({ b with next_move := 0 } : board_t) = b := by
    obtain ⟨s, pl, bk, wh, mv, nm⟩ := b
    simp only at hc
    subst hc
    rfl
  have hstep : board_next_move b = board_next_move { b with next_move := b.moves } := by
    unfold board_next_move
    simp only [if_neg h0, if_pos hc]
  simp only [hb] at key
  rw [← key]
  cases hl : (cells_of b.size b.moves).length with
  | zero =>
    exact absurd (cells_of_nil hm (List.length_eq_zero.1 hl)) h0
  | succ n =>
    simp only [next_moves, hstep]

/-- C17: on every board the interface can produce, with k ≥ 1 legal moves and an empty
cursor, k successive `board_next_move` calls return k cells in strictly increasing row-major
index (row · size + column), a cell is returned if and only if it is a valid move (a cell of
the legal-move mask), so each one exactly once, the board after the k calls is the board
before them (the cursor is empty again and nothing else has changed), and the (k+1)-th call
returns the first cell again. -/
theorem board_next_move_enumerates (fuel : Nat) (hfuel : 10 ≤ fuel) (b : board_t)
    (hb : Reachable fuel b) (hc : b.next_move = 0) (hk : 1 ≤ board_count_player_moves b) :
    (next_moves (board_count_player_moves b) b).1.length = board_count_player_moves b ∧
    List.Pairwise
      (fun m n => m.row * b.size + m.column < n.row * b.size + n.column)
      (next_moves (board_count_player_moves b) b).1 ∧
    (∀ m, m ∈ (next_moves (board_count_player_moves b) b).1 ↔
      board_is_move_valid b m = true) ∧
    (next_moves (board_count_player_moves b) b).2 = b ∧
    some (board_next_move (next_moves (board_count_player_moves b) b).2).1 =
      (next_moves (board_count_player_moves b) b).1.head? := by
  obtain ⟨hok, hfresh⟩ := reachable_ok hfuel hb
  have hs := hok.size_ok
  have hpos := valid_size_pos hs
  have hpl : b.player = disc_t.BLACK_DISC ∨ b.player = disc_t.WHITE_DISC := by
    by_contra hn
    rw [not_or] at hn
    unfold board_count_player_moves at hk
    rw [if_pos ⟨hn.2, hn.1⟩] at hk
    omega
  have hdisj : mover_plane b &&& other_plane b = 0 := by
    rcases mover_other_disjoint hok with h | h | h
    · exact h
    · rcases hpl with h2 | h2 <;> rw [h2] at h <;> cases h
    · rcases hpl with h2 | h2 <;> rw [h2] at h <;> cases h
  have hm : Confined b.size b.moves := by
    rw [mask_fresh_mover hfresh hpl]
    exact moves_of_confined hs (other_plane_confined hok) hdisj
  have hcount : board_count_player_moves b = (cells_of b.size b.moves).length := by
    unfold board_count_player_moves
    rw [if_neg (by rcases hpl with h | h <;> simp [h]),
      bitboard_popcount_eq _ (confined_lt hs hm), popcount_cells hs hm]
  have h0 : b.moves ≠ 0 := by
    intro hz
    rw [hcount, hz] at hk
    have : cells_of b.size 0 = [] := by
      unfold cells_of
      rw [List.filter_eq_nil_iff]
      intro i _
      simp
    rw [this] at hk
    simp at hk
  have key := next_moves_mask hs hm h0 hc
  rw [hcount, key]
  refine ⟨by rw [List.length_map], ?_, fun m => ?_, rfl, ?_⟩
  · rw [List.pairwise_map]
    refine (cells_of_pairwise b.size b.moves).imp_of_mem ?_
    intro i j hi hj hlt
    obtain ⟨_, _, ei⟩ := div_mod_index hpos (mem_cells_of.1 hi).1
    obtain ⟨_, _, ej⟩ := div_mod_index hpos (mem_cells_of.1 hj).1
    simp only [cell_of_index]
    omega
  · rw [move_valid_iff hs hpl, List.mem_map]
    constructor
    · rintro ⟨i, hi, rfl⟩
      obtain ⟨d1, d2, d3⟩ := div_mod_index hpos (mem_cells_of.1 hi).1
      simp only [cell_of_index]
      rw [d3]
      exact ⟨d1, d2, (mem_cells_of.1 hi).2⟩
    · rintro ⟨hr, hcl, hbit⟩
      exact ⟨m.row * b.size + m.column,
        mem_cells_of.2 ⟨(cell_index_lt hs hr hcl).1, hbit⟩, cell_of_index_eq hpos m hcl⟩
  · simp only
    cases hl : cells_of b.size b.moves with
    | nil => exact absurd (cells_of_nil hm hl) h0
    | cons i0 l =>
      have hstep : board_next_move b = board_next_move { b with next_move := b.moves } := by
        unfold board_next_move
        simp only [if_neg h0, if_pos hc]
      rw [hstep]
      unfold board_next_move
      simp only [if_neg h0, next_move_scan_head hs hl, List.map_cons, List.head?_cons]
      rfl

theorem board_next_move_enumerates_witness :
    10 ≤ 10 ∧ Reachable 10 start4 ∧ start4.next_move = 0 ∧
    1 ≤ board_count_player_moves start4 ∧
    (next_moves 4 start4).1 = [⟨0, 1⟩, ⟨1, 0⟩, ⟨2, 3⟩, ⟨3, 2⟩] ∧
    ((next_moves (board_count_player_moves start4) start4).1.length =
      board_count_player_moves start4 ∧
    List.Pairwise
      (fun m n => m.row * start4.size + m.column < n.row * start4.size + n.column)
      (next_moves (board_count_player_moves start4) start4).1 ∧
    (∀ m, m ∈ (next_moves (board_count_player_moves start4) start4).1 ↔
      board_is_move_valid start4 m = true) ∧
    (next_moves (board_count_player_moves start4) start4).2 = start4 ∧
    some (board_next_move (next_moves (board_count_player_moves start4) start4).2).1 =
      (next_moves (board_count_player_moves start4) start4).1.head?) :=
  ⟨by decide, Reachable.init 4 start4 (by decide), rfl, by decide, by decide,
    board_next_move_enumerates 10 (by decide) start4 (Reachable.init 4 start4 (by decide)) rfl
      (by decide)⟩

/-! ## Claims on the cursor -/

theorem reachable_of_drained {fuel : Nat} {b : board_t} (h : ReachableDrained fuel b) :
    Reachable fuel b := by
  induction h with
  | init size b h => exact Reachable.init size b h
  | next_move b _ ih => exact Reachable.next_move b ih
  | copy b b2 _ h ih => exact Reachable.copy b b2 ih h
  | play b move ok b2 _ _ h ih => exact Reachable.play b move ok b2 ih h

theorem board_next_move_cursor (b : board_t) (h : CursorInMask b) :
    CursorInMask (board_next_move b).2 := by
  have hE : ∀ i, (if b.next_move = 0 then b.moves else b.next_move).testBit i = true →
      b.moves.testBit i = true := by
    intro i hi
    split_ifs at hi
    · exact hi
    · exact h i hi
  unfold board_next_move
  simp only
  split_ifs with h0 hc
  · exact h
  · cases hsc : next_move_scan b.size b.moves with
    | none =>
      simp only
      intro i hi
      exact hi
    | some p =>
      obtain ⟨i, j⟩ := p
      simp only
      intro k hk
      simp only [Nat.testBit_and, Bool.and_eq_true] at hk
      exact hk.1
  · cases hsc : next_move_scan b.size b.next_move with
    | none =>
      simp only
      exact h
    | some p =>
      obtain ⟨i, j⟩ := p
      simp only
      intro k hk
      simp only [Nat.testBit_and, Bool.and_eq_true] at hk
      exact h k hk.1

theorem board_next_move_valid {b : board_t} (hs : board_cheak_size b.size = true)
    (hpl : (b.player = disc_t.BLACK_DISC ∨ b.player = disc_t.WHITE_DISC) ∨ b.moves = 0)
    (h : CursorInMask b)
    (hne : (board_next_move b).1 ≠ ⟨MAX_BOARD_SIZE, MAX_BOARD_SIZE⟩) :
    board_is_move_valid b (board_next_move b).1 = true := by
  by_cases h0 : b.moves = 0
  · exfalso
    apply hne
    unfold board_next_move
    rw [if_pos h0]
  · have hcol := hpl.resolve_right h0
    have key : ∀ x, (∀ i, x.testBit i = true → b.moves.testBit i = true) →
        ∀ p, next_move_scan b.size x = some p → board_is_move_valid b ⟨p.1, p.2⟩ = true := by
      intro x hx p hp
      obtain ⟨i, j⟩ := p
      obtain ⟨hi, hj, hbit, _⟩ := (next_move_scan_iff hs x i j).1 hp
      exact (move_valid_iff hs hcol _).2 ⟨hi, hj, hx _ hbit⟩
    unfold board_next_move at hne ⊢
    simp only [if_neg h0] at hne ⊢
    split_ifs at hne ⊢ with hc
    · cases hsc : next_move_scan b.size b.moves with
      | none => rw [hsc] at hne; exact absurd rfl hne
      | some p => exact key _ (fun i hi => hi) p hsc
    · cases hsc : next_move_scan b.size b.next_move with
      | none => rw [hsc] at hne; exact absurd rfl hne
      | some p => exact key _ h p hsc

/-- After `board_play` the mover is a colour or the mask is empty, as soon as this held
before. -/
theorem board_play_colour_or_empty {fuel : Nat} {b b2 : board_t} {m : move_t} {ok : Bool}
    (hok : PlanesOK b) (hfresh : MaskFresh b) (hfuel : 10 ≤ fuel)
    (h : board_play fuel b m = some (ok, b2))
    (hpl : (b.player = disc_t.BLACK_DISC ∨ b.player = disc_t.WHITE_DISC) ∨ b.moves = 0) :
    ((b2.player = disc_t.BLACK_DISC ∨ b2.player = disc_t.WHITE_DISC) ∨ b2.moves = 0) ∧
      (ok = false → b2 = b) ∧ b2.next_move = b.next_move := by
  by_cases hcol : b.player = disc_t.BLACK_DISC ∨ b.player = disc_t.WHITE_DISC
  · cases hv : board_is_move_valid b m
    · rw [board_play_invalid hok hfresh hcol hfuel m hv] at h
      cases h
      exact ⟨hpl, fun _ => rfl, rfl⟩
    · obtain ⟨b3, e, _, _, _, e5, _, _, _, t1, t2, t3⟩ :=
        board_play_valid hok hfresh hcol hfuel m hv
      rw [e] at h
      cases h
      refine ⟨?_, fun hf => (by cases hf), e5⟩
      by_cases hq : moves_of b.size (plane_of b2 (opponent_of b.player))
          (plane_of b2 b.player) = 0
      · by_cases hp2 : moves_of b.size (plane_of b2 b.player)
            (plane_of b2 (opponent_of b.player)) = 0
        · exact Or.inr (t3 hq hp2).2
        · rw [(t2 hq hp2).1]
          exact Or.inl hcol
      · rw [(t1 hq).1]
        rcases hcol with h2 | h2 <;> rw [h2] <;> simp [opponent_of]
  · rw [not_or] at hcol
    rw [board_play_no_colour fuel b m hcol.1 hcol.2] at h
    cases h
    exact ⟨hpl, fun _ => rfl, rfl⟩

theorem drained_inv {fuel : Nat} (hfuel : 10 ≤ fuel) {b : board_t}
    (h : ReachableDrained fuel b) :
    ((b.player = disc_t.BLACK_DISC ∨ b.player = disc_t.WHITE_DISC) ∨ b.moves = 0) ∧
      CursorInMask b := by
  induction h with
  | init size b h =>
    have hs := board_init_valid h
    rw [board_init_spec hfuel hs] at h
    simp only [Option.some.injEq] at h
    subst h
    refine ⟨?_, fun i hi => ?_⟩
    · simp only
      by_cases h2 : size = 2
      · exact Or.inr ((init_popcount hs).2.2 h2)
      · rw [if_neg h2]
        exact Or.inl (Or.inl rfl)
    · simp only [Nat.zero_testBit] at hi
      cases hi
  | next_move b _ ih =>
    obtain ⟨_, e2, _, _, e5⟩ := board_next_move_planes b
    rw [e2, e5]
    exact ⟨ih.1, board_next_move_cursor b ih.2⟩
  | copy b b2 _ h ih =>
    rw [board_copy_spec h]
    exact ih
  | play b move ok b2 hr hc h ih =>
    obtain ⟨hok, hfresh⟩ := reachable_ok hfuel (reachable_of_drained hr)
    obtain ⟨p1, p2, p3⟩ := board_play_colour_or_empty hok hfresh hfuel h ih.1
    refine ⟨p1, ?_⟩
    cases ok
    · rw [p2 rfl]
      exact ih.2
    · intro i hi
      rw [p3, hc rfl, Nat.zero_testBit] at hi
      cases hi

/-- C18, as stated, fails: after `board_init` for size 4, one `board_next_move`, a
`board_copy` and `board_play` of the returned move on the copy (the step of the search in
`player.c`), the cursor holds the cell of index 4, which is not in the new mask, and the next
`board_next_move` returns (1, 0), which is not a valid move. -/
theorem cursor_in_mask_counterexample :
    ReachableMoves 10 stale4 ∧
      stale4.next_move.testBit 4 = true ∧ stale4.moves.testBit 4 = false ∧
      (board_next_move stale4).1 = ⟨1, 0⟩ ∧
      board_is_move_valid stale4 (board_next_move stale4).1 = false :=
  ⟨ReachableMoves.play (board_next_move start4).2 (board_next_move start4).1 true stale4
      (ReachableMoves.copy (board_next_move start4).2 (board_next_move start4).2
        (ReachableMoves.next_move start4 (ReachableMoves.init 4 start4 (by decide)))
        (by decide))
      (by decide),
    by decide, by decide, by decide, by decide⟩

/-- C18, amended: for every board reachable from `board_init` by any sequence of
`board_next_move`, `board_copy` and `board_play` in which `board_play` succeeds only on a
board whose cursor is empty, the cursor is a subset of the legal-move mask, and every move
that `board_next_move` returns, the sentinel (`MAX_BOARD_SIZE`, `MAX_BOARD_SIZE`) apart,
satisfies `board_is_move_valid` on that board. -/
theorem cursor_in_mask (fuel : Nat) (hfuel : 10 ≤ fuel) (b : board_t)
    (hb : ReachableDrained fuel b) :
    (∀ i, b.next_move.testBit i = true → b.moves.testBit i = true) ∧
    ((board_next_move b).1 ≠ ⟨MAX_BOARD_SIZE, MAX_BOARD_SIZE⟩ →
      board_is_move_valid b (board_next_move b).1 = true ∧
      board_is_move_valid (board_next_move b).2 (board_next_move b).1 = true) := by
  obtain ⟨hok, _⟩ := reachable_ok hfuel (reachable_of_drained hb)
  obtain ⟨h1, h2⟩ := drained_inv hfuel hb
  refine ⟨h2, fun hne => ?_⟩
  have hv := board_next_move_valid hok.size_ok h1 h2 hne
  refine ⟨hv, ?_⟩
  obtain ⟨e1, e2, _, _, e5⟩ := board_next_move_planes b
  unfold board_is_move_valid at hv ⊢
  rw [e1, e2, e5]
  exact hv

theorem cursor_in_mask_witness :
    10 ≤ 10 ∧ ReachableDrained 10 (board_next_move start4).2 ∧
    ((∀ i, (board_next_move start4).2.next_move.testBit i = true →
      (board_next_move start4).2.moves.testBit i = true) ∧
    ((board_next_move (board_next_move start4).2).1 ≠ ⟨MAX_BOARD_SIZE, MAX_BOARD_SIZE⟩ →
      board_is_move_valid (board_next_move start4).2
        (board_next_move (board_next_move start4).2).1 = true ∧
      board_is_move_valid (board_next_move (board_next_move start4).2).2
        (board_next_move (board_next_move start4).2).1 = true)) :=
  ⟨by decide,
    ReachableDrained.next_move start4 (ReachableDrained.init 4 start4 (by decide)),
    cursor_in_mask 10 (by decide) (board_next_move start4).2
      (ReachableDrained.next_move start4 (ReachableDrained.init 4 start4 (by decide)))⟩

/-! ## Claims on the popcount and the shifts -/

/-- C19: for every 128-bit bitboard value b, `bitboard_popcount` returns the number of set
bits of b; in particular for every mask of width up to 100 bits. -/
theorem bitboard_popcount_exact (b : bitboard_t) (hb : b < 2 ^ 128) :
    bitboard_popcount b = popcount_spec b ∧
      bitboard_popcount b = ((List.range 128).filter (fun i => b.testBit i)).length := by
  rw [bitboard_popcount_eq b hb]
  refine ⟨rfl, ?_⟩
  unfold popcount_spec
  exact List.countP_eq_length_filter _ _

theorem bitboard_popcount_exact_witness :
    (2 ^ 99 + 18450 : Nat) < 2 ^ 128 ∧
      (bitboard_popcount (2 ^ 99 + 18450) = popcount_spec (2 ^ 99 + 18450) ∧
      bitboard_popcount (2 ^ 99 + 18450) =
        ((List.range 128).filter (fun i => (2 ^ 99 + 18450 : Nat).testBit i)).length) :=
  ⟨by decide, bitboard_popcount_exact (2 ^ 99 + 18450) (by decide)⟩

theorem index_div_mod {s r c : Nat} (hc : c < s) : (r * s + c) / s = r ∧ (r * s + c) % s = c := by
  have hs : 0 < s := by omega
  constructor
  · rw [Nat.add_comm, Nat.add_mul_div_right _ _ hs, Nat.div_eq_of_lt hc, Nat.zero_add]
  · rw [Nat.add_comm, Nat.add_mul_mod_self_right, Nat.mod_eq_of_lt hc]

theorem wrap_nat {s r : Nat} (h : r < s) : wrap s (r : Int) = r := by
  have := wrap_of_lt h
  rwa [Int.add_zero] at this

theorem moved_lt {s : Nat} (hs : board_cheak_size s = true) (d : Fin 8) (i : Nat) :
    moved s d i < s * s :=
  (cell_index_lt hs (wrap_lt (valid_size_pos hs) _) (wrap_lt (valid_size_pos hs) _)).1

theorem opposite_opposite (d : Fin 8) : opposite (opposite d) = d := by
  fin_cases d <;> rfl

theorem moved_moved {s : Nat} (hs : board_cheak_size s = true) (d : Fin 8) {i : Nat}
    (hi : i < s * s) : moved s (opposite d) (moved s d i) = i := by
  have hp := valid_size_pos hs
  obtain ⟨d1, d2, d3⟩ := div_mod_index hp hi
  obtain ⟨e1, e2⟩ := @index_div_mod s (wrap s (((i / s : Nat) : Int) + row_direction d))
    (wrap s (((i % s : Nat) : Int) + column_direction d)) (wrap_lt hp _)
  simp only [moved]
  rw [e1, e2, wrap_wrap_add s hp, wrap_wrap_add s hp, row_direction_opposite,
    column_direction_opposite, add_neg_cancel_right, add_neg_cancel_right, wrap_nat d1,
    wrap_nat d2, d3]

theorem shifts_testBit {s b : Nat} (hs : board_cheak_size s = true) (hb : Confined s b)
    (d : Fin 8) {i : Nat} (hi : i < s * s) :
    (shifts d s b).testBit i = b.testBit (moved s d i) := by
  obtain ⟨d1, d2, d3⟩ := div_mod_index (valid_size_pos hs) hi
  have := shifts_cell hs hb d d1 d2
  rw [d3] at this
  exact this

theorem shifts_opposite {s b : Nat} (hs : board_cheak_size s = true) (hb : Confined s b)
    (d : Fin 8) : shifts (opposite d) s (shifts d s b) = b := by
  have hc := shifts_confined hs hb d
  apply Nat.eq_of_testBit_eq
  intro i
  by_cases hi : i < s * s
  · rw [shifts_testBit hs hc _ hi, shifts_testBit hs hb _ (moved_lt hs _ _)]
    have := moved_moved hs (opposite d) hi
    rw [opposite_opposite] at this
    rw [this]
  · rw [(shifts_confined hs hc _).testBit_false (by omega), hb.testBit_false (by omega)]

theorem moved_perm {s : Nat} (hs : board_cheak_size s = true) (d : Fin 8) :
    List.Perm ((List.range (s * s)).map (moved s d)) (List.range (s * s)) := by
  have hnd : ((List.range (s * s)).map (moved s d)).Nodup := by
    apply List.Nodup.map_on _ (List.nodup_range _)
    intro i hi j hj e
    have h1 := moved_moved hs d (List.mem_range.1 hi)
    have h2 := moved_moved hs d (List.mem_range.1 hj)
    rw [e] at h1
    omega
  rw [List.perm_ext_iff_of_nodup hnd (List.nodup_range _)]
  intro a
  rw [List.mem_map, List.mem_range]
  constructor
  · rintro ⟨i, _, rfl⟩
    exact moved_lt hs d i
  · intro ha
    refine ⟨moved s (opposite d) a, List.mem_range.2 (moved_lt hs _ _), ?_⟩
    have := moved_moved hs (opposite d) ha
    rw [opposite_opposite] at this
    exact this

theorem shifts_popcount {s b : Nat} (hs : board_cheak_size s = true) (hb : Confined s b)
    (d : Fin 8) : popcount_spec (shifts d s b) = popcount_spec b := by
  have hc := shifts_confined hs hb d
  rw [popcount_cells hs hc, popcount_cells hs hb]
  unfold cells_of
  rw [← List.countP_eq_length_filter, ← List.countP_eq_length_filter,
    ← (moved_perm hs d).countP_eq (fun i => b.testBit i), List.countP_map]
  apply List.countP_congr
  intro i hi
  rw [Function.comp, shifts_testBit hs hb d (List.mem_range.1 hi)]

/-- C20: for every valid size s, every mask b confined to the s × s cells and every direction
index d in 0..7, `shifts d` of b is confined to the s × s cells and its bit (r, c) is set if
and only if the bit ((r + row_direction d) mod s, (c + column_direction d) mod s) of b is
set; the shift keeps the popcount, and the shift of the opposite direction undoes it, on
either side. -/
theorem shifts_translation (s : Nat) (b : bitboard_t) (d : Fin 8)
    (hs : board_cheak_size s = true) (hb : Confined s b) :
    Confined s (shifts d s b) ∧
    (∀ r c, r < s → c < s →
      ((shifts d s b).testBit (r * s + c) = true ↔
        b.testBit (wrap s (r + row_direction d) * s + wrap s (c + column_direction d)) =
          true)) ∧
    bitboard_popcount (shifts d s b) = bitboard_popcount b ∧
    shifts (opposite d) s (shifts d s b) = b ∧
    shifts d s (shifts (opposite d) s b) = b := by
  have hc := shifts_confined hs hb d
  refine ⟨hc, fun r c hr hcl => ?_, ?_, shifts_opposite hs hb d, ?_⟩
  · rw [shifts_cell hs hb d hr hcl]
  · rw [bitboard_popcount_eq _ (confined_lt hs hc), bitboard_popcount_eq _ (confined_lt hs hb),
      shifts_popcount hs hb d]
  · have := shifts_opposite hs hb (opposite d)
    rw [opposite_opposite] at this
    exact this

theorem shifts_translation_witness :
    board_cheak_size 4 = true ∧ Confined 4 261 ∧
    shifts 1 4 261 = 40992 ∧
    (Confined 4 (shifts 1 4 261) ∧
    (∀ r c, r < 4 → c < 4 →
      ((shifts 1 4 261).testBit (r * 4 + c) = true ↔
        (261 : Nat).testBit
          (wrap 4 (r + row_direction 1) * 4 + wrap 4 (c + column_direction 1)) = true)) ∧
    bitboard_popcount (shifts 1 4 261) = bitboard_popcount 261 ∧
    shifts (opposite 1) 4 (shifts 1 4 261) = 261 ∧
    shifts 1 4 (shifts (opposite 1) 4 261) = 261) :=
  ⟨by decide, by unfold Confined; decide, by decide,
    shifts_translation 4 261 1 (by decide) (by unfold Confined; decide)⟩

/-! ## The searches and the strategies at their failing inputs -/

/-- C21 at its failing inputs: on the 4 × 4 board after the moves (0, 1) and (0, 2), Black to
move with a fresh cursor, `min` at depth 1 for the root player White returns 3, so that
−min is −3, while the minimax value is −5; and on the starting position `max` at depth 2 for
Black returns 3 while the minimax value is 0. -/
theorem minimax_search_value :
    board_init 10 4 = some start4 ∧ board_play 10 start4 ⟨0, 1⟩ = some (true, second4) ∧
    board_play 10 second4 ⟨0, 2⟩ = some (true, third4) ∧
    min 10 2 third4 1 disc_t.WHITE_DISC = Except.ok 3 ∧
    minimax_value 10 2 third4 1 disc_t.WHITE_DISC = some (-5) ∧
    max 10 3 start4 2 disc_t.BLACK_DISC = Except.ok 3 ∧
    minimax_value 10 3 start4 2 disc_t.BLACK_DISC = some 0 :=
  ⟨by decide, by decide, by decide, by decide, by decide, by decide, by decide⟩

/-- C23 at its failing input: on the 4 × 4 board after Black opened on (0, 1), White to move
with a fresh cursor, at depth 2 the alpha of `ab_max` on the full window is −3 while `max`
returns 0. -/
theorem ab_max_differs :
    board_init 10 4 = some start4 ∧ board_play 10 start4 ⟨0, 1⟩ = some (true, second4) ∧
    second4.player = disc_t.WHITE_DISC ∧ second4.next_move = 0 ∧
    ab_max 10 3 second4 2 ⟨-infinity, infinity⟩ disc_t.WHITE_DISC = Except.ok ⟨-3, 300⟩ ∧
    max 10 3 second4 2 disc_t.WHITE_DISC = Except.ok 0 :=
  ⟨by decide, by decide, rfl, rfl, by decide, by decide⟩

/-- C27 at its failing input: in a game on the 4 × 4 board, `random_player` draws (0, 1) on
the starting position and leaves the rest of the mask in the cursor, `board_play` plays the
move, and on the board then reached, which has three legal moves, `random_player` returns
for every random draw a move that is not valid. -/
theorem random_player_stale :
    board_init 10 4 = some start4 ∧ random_player start4 0 = Except.ok (⟨0, 1⟩, drawn4) ∧
    board_play 10 drawn4 ⟨0, 1⟩ = some (true, stale4) ∧
    board_count_player_moves stale4 = 3 ∧
    ∀ rnd, ∃ r, random_player stale4 rnd = Except.ok r ∧
      board_is_move_valid stale4 r.1 = false := by
  refine ⟨by decide, by decide, by decide, by decide, fun rnd => ?_⟩
  have h3 : rnd % 3 < 3 := Nat.mod_lt _ (by decide)
  have hc : board_count_player_moves stale4 = 3 := by decide
  unfold random_player rand_mod
  rw [hc]
  simp only [show (3 : Nat) ≠ 0 by decide, if_false]
  generalize rnd % 3 = k at h3
  interval_cases k
  · exact ⟨_, rfl, by decide⟩
  · exact ⟨_, rfl, by decide⟩
  · exact ⟨_, rfl, by decide⟩

/-- C28 at its failing input: on the finished 2 × 2 board that `board_init` returns, which
has no legal move, the divisor of `rand () % n` is 0 in `random_player` and in
`minimax_player`, for every random draw. -/
theorem strategy_division_by_zero (fuel gas rnd : Nat) :
    board_init 10 2 = some start2 ∧ board_count_player_moves start2 = 0 ∧
    random_player start2 rnd = Except.error fault_t.division_by_zero ∧
    minimax_player fuel gas start2 rnd = Except.error fault_t.division_by_zero :=
  ⟨by decide, by decide, rfl, rfl⟩

/-! ## One iteration of a search loop -/

theorem board_copy_some {b : board_t} (hs : board_cheak_size b.size = true)
    (hpl : IsColour b.player) : board_copy b = some b := by
  obtain ⟨s, pl, bk, wh, mv, nm⟩ := b
  simp only at hs
  unfold board_copy board_alloc
  rcases hpl with h | h <;> simp only at h <;> subst h <;> simp [hs]

theorem count_pos_colour {b : board_t} (h : board_count_player_moves b ≠ 0) :
    IsColour b.player := by
  unfold IsColour
  by_contra hn
  rw [not_or] at hn
  apply h
  unfold board_count_player_moves
  rw [if_pos ⟨hn.2, hn.1⟩]

theorem count_next_move (b : board_t) :
    board_count_player_moves (board_next_move b).2 = board_count_player_moves b := by
  obtain ⟨_, e2, _, _, e5⟩ := board_next_move_planes b
  unfold board_count_player_moves
  rw [e2, e5]

/-- One iteration of a search loop on a board the interface can produce whose mover is a
colour: the copy is not `NULL`, `board_play` returns, and the boards stay reachable. -/
theorem search_step {fuel : Nat} (hfuel : 10 ≤ fuel) {b : board_t} (hb : Reachable fuel b)
    (hpl : IsColour b.player) :
    board_copy (board_next_move b).2 = some (board_next_move b).2 ∧
      Reachable fuel (board_next_move b).2 ∧ IsColour (board_next_move b).2.player ∧
      ∃ child, play_on_copy fuel (board_next_move b).2 (board_next_move b).1 = Except.ok child ∧
        Reachable fuel child := by
  have hr := Reachable.next_move b hb
  obtain ⟨hok, hfresh⟩ := reachable_ok hfuel hr
  have hpl2 : IsColour (board_next_move b).2.player := by
    rw [(board_next_move_planes b).2.1]
    exact hpl
  refine ⟨board_copy_some hok.size_ok hpl2, hr, hpl2, ?_⟩
  obtain ⟨ok, b2, e, _⟩ := board_play_ok hok hfresh hfuel (board_next_move b).1
  refine ⟨b2, ?_, Reachable.play _ _ ok b2 hr e⟩
  unfold play_on_copy
  rw [e]

/-- The loop of `ab_max` and `ab_min` returns as soon as its body does. -/
theorem ab_loop_total {fuel : Nat} (hfuel : 10 ≤ fuel)
    (child : board_t → alpha_beta_t → Except fault_t alpha_beta_t)
    (hchild : ∀ c r, Reachable fuel c → ∃ w, child c r = Except.ok w) (todo : Nat) :
    ∀ (b : board_t) (r : alpha_beta_t), Reachable fuel b → (todo ≠ 0 → IsColour b.player) →
      ∃ w, ab_loop fuel child todo b r = Except.ok w := by
  induction todo with
  | zero => exact fun b r _ _ => ⟨r, rfl⟩
  | succ n ih =>
    intro b r hb hpl
    obtain ⟨e1, hr, hpl2, c, e2, hc⟩ := search_step hfuel hb (hpl (Nat.succ_ne_zero n))
    obtain ⟨w, e3⟩ := hchild c r hc
    unfold ab_loop
    simp only [e1, e2, e3]
    split_ifs
    · exact ⟨w, rfl⟩
    · exact ih _ w hr (fun _ => hpl2)

/-- What the loop returns satisfies every relation to the input window that the body keeps,
for input windows with alpha < beta. -/
theorem ab_loop_keeps {fuel : Nat} (hfuel : 10 ≤ fuel)
    (child : board_t → alpha_beta_t → Except fault_t alpha_beta_t)
    (P : alpha_beta_t → alpha_beta_t → Prop) (hrefl : ∀ r, P r r)
    (htrans : ∀ r s t, P r s → P s t → P r t)
    (hchild : ∀ c r w, Reachable fuel c → r.alpha < r.beta → child c r = Except.ok w → P r w)
    (todo : Nat) :
    ∀ (b : board_t) (r w : alpha_beta_t), Reachable fuel b → (todo ≠ 0 → IsColour b.player) →
      r.alpha < r.beta → ab_loop fuel child todo b r = Except.ok w → P r w := by
  induction todo with
  | zero =>
    intro b r w _ _ _ h
    unfold ab_loop at h
    cases h
    exact hrefl r
  | succ n ih =>
    intro b r w hb hpl hr h
    obtain ⟨e1, hb2, hpl2, c, e2, hc⟩ := search_step hfuel hb (hpl (Nat.succ_ne_zero n))
    unfold ab_loop at h
    simp only [e1, e2] at h
    cases e3 : child c r with
    | error e => rw [e3] at h; cases h
    | ok s =>
      rw [e3] at h
      simp only at h
      have hs := hchild c r s hc hr e3
      split_ifs at h with hbreak
      · cases h
        exact hs
      · exact htrans r s w hs (ih _ s w hb2 (fun _ => hpl2) (by omega) h)

/-! ## The window of the alpha-beta searches -/

theorem ab_max_child_total {fuel : Nat}
    (child_max child_min : board_t → alpha_beta_t → Except fault_t alpha_beta_t)
    (h1 : ∀ c r, Reachable fuel c → ∃ w, child_max c r = Except.ok w)
    (h2 : ∀ c r, Reachable fuel c → ∃ w, child_min c r = Except.ok w)
    (player player_init : disc_t) (c : board_t) (r : alpha_beta_t) (hc : Reachable fuel c) :
    ∃ w, ab_max_child child_max child_min player player_init c r = Except.ok w := by
  unfold ab_max_child
  split_ifs
  · exact ⟨_, rfl⟩
  · obtain ⟨w, e⟩ := h1 c r hc
    rw [e]
    exact ⟨_, rfl⟩
  · obtain ⟨w, e⟩ := h2 c r hc
    rw [e]
    exact ⟨_, rfl⟩

theorem ab_min_child_total {fuel : Nat}
    (child_min child_max : board_t → alpha_beta_t → Except fault_t alpha_beta_t)
    (h1 : ∀ c r, Reachable fuel c → ∃ w, child_min c r = Except.ok w)
    (h2 : ∀ c r, Reachable fuel c → ∃ w, child_max c r = Except.ok w)
    (opponent player_init : disc_t) (c : board_t) (r : alpha_beta_t) (hc : Reachable fuel c) :
    ∃ w, ab_min_child child_min child_max opponent player_init c r = Except.ok w := by
  unfold ab_min_child
  split_ifs
  · exact ⟨_, rfl⟩
  · obtain ⟨w, e⟩ := h1 c r hc
    rw [e]
    exact ⟨_, rfl⟩
  · obtain ⟨w, e⟩ := h2 c r hc
    rw [e]
    exact ⟨_, rfl⟩

/-- With more gas than depth, `ab_max` and `ab_min` return a window on every board the
interface can produce. -/
theorem ab_total {fuel : Nat} (hfuel : 10 ≤ fuel) (gas : Nat) :
    ∀ (b : board_t) (depth : Nat) (a_b : alpha_beta_t) (p : disc_t), depth < gas →
      Reachable fuel b →
      (∃ w, ab_max fuel gas b depth a_b p = Except.ok w) ∧
        (∃ w, ab_min fuel gas b depth a_b p = Except.ok w) := by
  induction gas with
  | zero => intro b depth a_b p h; omega
  | succ gas ih =>
    intro b depth a_b p hd hb
    by_cases h0 : depth = 0
    · subst h0
      simp only [ab_max, ab_min, if_true]
      exact ⟨⟨_, rfl⟩, ⟨_, rfl⟩⟩
    · have hd1 : depth - 1 < gas := by omega
      have hd2 : (if depth ≤ 2 then 0 else depth - 2) < gas := by split_ifs <;> omega
      simp only [ab_max, ab_min, if_neg h0]
      constructor
      · apply ab_loop_total hfuel _ _ _ _ _ hb (fun h => count_pos_colour h)
        intro c r hc
        exact ab_max_child_total _ _ (fun c r hc => (ih c _ r p hd2 hc).1)
          (fun c r hc => (ih c _ r p hd1 hc).2) _ _ c r hc
      · apply ab_loop_total hfuel _ _ _ _ _ hb (fun h => count_pos_colour h)
        intro c r hc
        exact ab_min_child_total _ _ (fun c r hc => (ih c _ r p hd2 hc).2)
          (fun c r hc => (ih c _ r p hd1 hc).1) _ _ c r hc

theorem ab_max_child_raises
    (child_max child_min : board_t → alpha_beta_t → Except fault_t alpha_beta_t)
    (player player_init : disc_t) (c : board_t) (r w : alpha_beta_t)
    (h : ab_max_child child_max child_min player player_init c r = Except.ok w) :
    RaisesAlpha r w := by
  unfold ab_max_child at h
  unfold RaisesAlpha
  split_ifs at h with h1 h2
  · simp only [Except.ok.injEq] at h
    subst h
    split_ifs <;> constructor <;> (try simp only) <;> (try omega)
  · cases e : child_max c r with
    | error x => rw [e] at h; cases h
    | ok t =>
      rw [e] at h
      simp only [Except.ok.injEq] at h
      subst h
      split_ifs <;> constructor <;> (try simp only) <;> (try omega)
  · cases e : child_min c r with
    | error x => rw [e] at h; cases h
    | ok t =>
      rw [e] at h
      simp only [Except.ok.injEq] at h
      subst h
      split_ifs <;> constructor <;> (try simp only) <;> (try omega)

theorem ab_min_child_lowers
    (child_min child_max : board_t → alpha_beta_t → Except fault_t alpha_beta_t)
    (opponent player_init : disc_t) (c : board_t) (r w : alpha_beta_t)
    (hr : r.alpha < r.beta)
    (h : ab_min_child child_min child_max opponent player_init c r = Except.ok w) :
    LowersBeta r w := by
  unfold ab_min_child at h
  unfold LowersBeta
  split_ifs at h with h1 h2
  · simp only [Except.ok.injEq] at h
    subst h
    split_ifs <;> constructor <;> (try simp only) <;> (try omega)
  · cases e : child_min c r with
    | error x => rw [e] at h; cases h
    | ok t =>
      rw [e] at h
      simp only [Except.ok.injEq] at h
      subst h
      split_ifs <;> constructor <;> (try simp only) <;> (try omega)
  · cases e : child_max c r with
    | error x => rw [e] at h; cases h
    | ok t =>
      rw [e] at h
      simp only [Except.ok.injEq] at h
      subst h
      split_ifs <;> constructor <;> (try simp only) <;> (try omega)

/-- C24: for every board the interface can produce, every depth and every input window with
alpha < beta, `ab_max` returns a window with the same beta and an alpha greater than or equal
to the input alpha, and `ab_min` returns a window with the same alpha and a beta less than or
equal to the input beta. -/
theorem ab_window (fuel gas : Nat) (hfuel : 10 ≤ fuel) (b : board_t)
    (hb : Reachable fuel b) (depth : Nat) (hgas : depth < gas) (a_b : alpha_beta_t)
    (hab : a_b.alpha < a_b.beta) (p : disc_t) :
    (∃ w, ab_max fuel gas b depth a_b p = Except.ok w ∧
      w.beta = a_b.beta ∧ a_b.alpha ≤ w.alpha) ∧
    (∃ w, ab_min fuel gas b depth a_b p = Except.ok w ∧
      w.alpha = a_b.alpha ∧ w.beta ≤ a_b.beta) := by
  obtain ⟨⟨w1, e1⟩, ⟨w2, e2⟩⟩ := ab_total hfuel gas b depth a_b p hgas hb
  refine ⟨⟨w1, e1, ?_⟩, ⟨w2, e2, ?_⟩⟩
  · cases gas with
    | zero => omega
    | succ gas =>
      by_cases h0 : depth = 0
      · subst h0
        simp only [ab_max, if_true, Except.ok.injEq] at e1
        subst e1
        split_ifs <;> constructor <;> (try simp only) <;> (try omega)
      · simp only [ab_max, if_neg h0] at e1
        exact ab_loop_keeps hfuel _ RaisesAlpha (fun r => ⟨rfl, le_refl _⟩)
          (fun r s t h1 h2 => ⟨h2.1.trans h1.1, h1.2.trans h2.2⟩)
          (fun c r w _ _ h => ab_max_child_raises _ _ _ _ c r w h) _ b a_b w1 hb
          (fun h => count_pos_colour h) hab e1
  · cases gas with
    | zero => omega
    | succ gas =>
      by_cases h0 : depth = 0
      · subst h0
        simp only [ab_min, if_true, Except.ok.injEq] at e2
        subst e2
        split_ifs <;> constructor <;> (try simp only) <;> (try omega)
      · simp only [ab_min, if_neg h0] at e2
        exact ab_loop_keeps hfuel _ LowersBeta (fun r => ⟨rfl, le_refl _⟩)
          (fun r s t h1 h2 => ⟨h2.1.trans h1.1, h2.2.trans h1.2⟩)
          (fun c r w _ hr h => ab_min_child_lowers _ _ _ _ c r w hr h) _ b a_b w2 hb
          (fun h => count_pos_colour h) hab e2

theorem ab_window_witness :
    10 ≤ 10 ∧ Reachable 10 second4 ∧ 2 < 3 ∧ (-3 : Int) < 5 ∧
    ab_max 10 3 second4 2 ⟨-3, 5⟩ disc_t.WHITE_DISC = Except.ok ⟨-3, 5⟩ ∧
    ((∃ w, ab_max 10 3 second4 2 ⟨-3, 5⟩ disc_t.WHITE_DISC = Except.ok w ∧
      w.beta = (⟨-3, 5⟩ : alpha_beta_t).beta ∧ (⟨-3, 5⟩ : alpha_beta_t).alpha ≤ w.alpha) ∧
    (∃ w, ab_min 10 3 second4 2 ⟨-3, 5⟩ disc_t.WHITE_DISC = Except.ok w ∧
      w.alpha = (⟨-3, 5⟩ : alpha_beta_t).alpha ∧ w.beta ≤ (⟨-3, 5⟩ : alpha_beta_t).beta)) :=
  ⟨by decide,
    Reachable.play start4 ⟨0, 1⟩ true second4 (Reachable.init 4 start4 (by decide)) (by decide),
    by decide, by decide, by decide,
    ab_window 10 3 (by decide) second4
      (Reachable.play start4 ⟨0, 1⟩ true second4 (Reachable.init 4 start4 (by decide))
        (by decide)) 2 (by decide) ⟨-3, 5⟩ (by decide) disc_t.WHITE_DISC⟩

/-! ## The play of a move does not read the cursor -/

theorem foldlM_with_cursor {α : Type} (x : bitboard_t) (f : board_t → α → Option board_t)
    (hf : ∀ b a, f (with_cursor x b) a = (f b a).map (with_cursor x)) (l : List α) :
    ∀ b, l.foldlM f (with_cursor x b) = (l.foldlM f b).map (with_cursor x) := by
  induction l with
  | nil => intro b; rfl
  | cons a l ih =>
    intro b
    simp only [List.foldlM_cons, Option.bind_eq_bind, hf]
    cases f b a with
    | none => rfl
    | some b2 => exact ih b2

theorem board_set_with_cursor (fuel : Nat) (x : bitboard_t) (b : board_t) (disc : disc_t)
    (row column : Nat) :
    board_set fuel (with_cursor x b) disc row column =
      (board_set fuel b disc row column).map (with_cursor x) := by
  unfold board_set
  by_cases h : row ≥ b.size ∨ column ≥ b.size
  · simp only [with_cursor, h, if_true, Option.map_some']
  · simp only [with_cursor, h, if_false]
    cases disc <;> simp only [board_set_planes] <;> split_ifs <;>
      simp only [Option.map_some', Option.pure_def, Option.bind_eq_bind] <;>
      first
      | rfl
      | (cases compute_moves fuel b.size _ _ <;> rfl)

theorem board_set_player_with_cursor (fuel : Nat) (x : bitboard_t) (b : board_t)
    (player : disc_t) :
    board_set_player fuel (with_cursor x b) player =
      (board_set_player fuel b player).map (with_cursor x) := by
  unfold board_set_player
  cases player <;> simp only [with_cursor, reduceCtorEq, if_true, if_false, Option.map_some',
    Option.pure_def, Option.bind_eq_bind] <;>
    first
    | rfl
    | (cases compute_moves fuel b.size _ _ <;> rfl)

theorem board_reverse_dir_with_cursor (fuel : Nat) (x : bitboard_t) (adversary player : Nat)
    (move : move_t) (b : board_t) (d : Fin 8) :
    board_reverse_dir fuel adversary player move (with_cursor x b) d =
      (board_reverse_dir fuel adversary player move b d).map (with_cursor x) := by
  unfold board_reverse_dir
  simp only [board_size, show (with_cursor x b).size = b.size from rfl, Option.bind_eq_bind,
    Option.pure_def]
  cases board_distance_between_no_opponents fuel b.size adversary move d with
  | none => rfl
  | some gap =>
    simp only [Option.some_bind]
    split_ifs
    · rfl
    · apply foldlM_with_cursor
      intro b2 t
      exact board_set_with_cursor fuel x b2 _ _ _

theorem board_reverse_opponents_with_cursor (fuel : Nat) (x : bitboard_t) (b : board_t)
    (move : move_t) :
    board_reverse_opponents fuel (with_cursor x b) move =
      (board_reverse_opponents fuel b move).map (with_cursor x) := by
  unfold board_reverse_opponents
  simp only [board_player, show (with_cursor x b).player = b.player from rfl,
    show (with_cursor x b).white = b.white from rfl,
    show (with_cursor x b).black = b.black from rfl]
  apply foldlM_with_cursor
  intro b2 d
  exact board_reverse_dir_with_cursor fuel x _ _ move b2 d

theorem board_play_refresh_with_cursor (fuel : Nat) (x : bitboard_t) (b : board_t) :
    board_play_refresh fuel (with_cursor x b) =
      (board_play_refresh fuel b).map (Option.map (with_cursor x)) := by
  unfold board_play_refresh
  simp only [show (with_cursor x b).moves = b.moves from rfl,
    show (with_cursor x b).player = b.player from rfl,
    show (with_cursor x b).size = b.size from rfl,
    show (with_cursor x b).white = b.white from rfl,
    show (with_cursor x b).black = b.black from rfl]
  split_ifs
  · cases b.player <;> simp only [Option.pure_def, Option.bind_eq_bind, Option.map_some'] <;>
      first
      | rfl
      | (cases compute_moves fuel b.size _ _ <;> rfl)
  · rfl

theorem board_play_place_with_cursor (fuel : Nat) (x : bitboard_t) (b : board_t)
    (move : move_t) :
    board_play_place fuel (with_cursor x b) move =
      (board_play_place fuel b move).map (Option.map (with_cursor x)) := by
  obtain ⟨s, pl, bk, wh, mv, nm⟩ := b
  unfold board_play_place
  cases pl with
  | BLACK_DISC =>
    simp only [Option.pure_def, Option.bind_eq_bind, with_cursor]
    have e := board_reverse_opponents_with_cursor fuel x
      ⟨s, disc_t.BLACK_DISC, bk ||| set_bitboard s move.row move.column, wh, mv, nm⟩ move
    simp only [with_cursor] at e
    rw [e]
    cases board_reverse_opponents fuel
        ⟨s, disc_t.BLACK_DISC, bk ||| set_bitboard s move.row move.column, wh, mv, nm⟩
        move with
    | none => rfl
    | some b2 =>
      simp only [Option.map_some', Option.some_bind]
      rw [board_set_player_with_cursor fuel x b2 disc_t.WHITE_DISC]
      cases board_set_player fuel b2 disc_t.WHITE_DISC with
      | none => rfl
      | some b3 =>
        simp only [Option.map_some', Option.some_bind, with_cursor]
        cases compute_moves fuel b3.size b3.white b3.black <;> rfl
  | WHITE_DISC =>
    simp only [Option.pure_def, Option.bind_eq_bind, with_cursor]
    have e := board_reverse_opponents_with_cursor fuel x
      ⟨s, disc_t.WHITE_DISC, bk, wh ||| set_bitboard s move.row move.column, mv, nm⟩ move
    simp only [with_cursor] at e
    rw [e]
    cases board_reverse_opponents fuel
        ⟨s, disc_t.WHITE_DISC, bk, wh ||| set_bitboard s move.row move.column, mv, nm⟩
        move with
    | none => rfl
    | some b2 =>
      simp only [Option.map_some', Option.some_bind]
      rw [board_set_player_with_cursor fuel x b2 disc_t.BLACK_DISC]
      cases board_set_player fuel b2 disc_t.BLACK_DISC with
      | none => rfl
      | some b3 =>
        simp only [Option.map_some', Option.some_bind, with_cursor]
        cases compute_moves fuel b3.size b3.black b3.white <;> rfl
  | EMPTY_DISC => rfl
  | HINT_DISC => rfl

theorem count_with_cursor (x : bitboard_t) (b : board_t) :
    board_count_player_moves (with_cursor x b) = board_count_player_moves b := rfl

theorem board_play_pass_with_cursor (fuel : Nat) (x : bitboard_t) (b : board_t) :
    board_play_pass fuel (with_cursor x b) =
      (board_play_pass fuel b).map (Option.map (with_cursor x)) := by
  unfold board_play_pass
  rw [count_with_cursor]
  split_ifs
  · have e1 := board_set_player_with_cursor fuel x b disc_t.WHITE_DISC
    have e2 := board_set_player_with_cursor fuel x b disc_t.BLACK_DISC
    obtain ⟨s, pl, bk, wh, mv, nm⟩ := b
    cases pl with
    | BLACK_DISC =>
      simp only [Option.pure_def, Option.bind_eq_bind, with_cursor] at e1 ⊢
      rw [e1]
      cases board_set_player fuel ⟨s, disc_t.BLACK_DISC, bk, wh, mv, nm⟩ disc_t.WHITE_DISC with
      | none => rfl
      | some b3 =>
        simp only [Option.map_some', Option.some_bind, with_cursor]
        cases compute_moves fuel b3.size b3.white b3.black <;> rfl
    | WHITE_DISC =>
      simp only [Option.pure_def, Option.bind_eq_bind, with_cursor] at e2 ⊢
      rw [e2]
      cases board_set_player fuel ⟨s, disc_t.WHITE_DISC, bk, wh, mv, nm⟩ disc_t.BLACK_DISC with
      | none => rfl
      | some b3 =>
        simp only [Option.map_some', Option.some_bind, with_cursor]
        cases compute_moves fuel b3.size b3.black b3.white <;> rfl
    | EMPTY_DISC => rfl
    | HINT_DISC => rfl
  · rfl

theorem board_play_finish_with_cursor (fuel : Nat) (x : bitboard_t) (b : board_t) :
    board_play_finish fuel (with_cursor x b) =
      (board_play_finish fuel b).map (fun r => (r.1, with_cursor x r.2)) := by
  unfold board_play_finish
  simp only [Option.pure_def, Option.bind_eq_bind]
  rw [board_play_pass_with_cursor]
  cases board_play_pass fuel b with
  | none => rfl
  | some o =>
    cases o with
    | none => rfl
    | some b2 =>
      simp only [Option.map_some', Option.some_bind, count_with_cursor]
      split_ifs
      · rw [board_set_player_with_cursor]
        cases board_set_player fuel b2 disc_t.EMPTY_DISC <;> rfl
      · rfl

/-- The cursor plays no part in `board_play`: on a board with another cursor the call
returns the same boolean and the same board with that other cursor. -/
theorem board_play_with_cursor (fuel : Nat) (x : bitboard_t) (b : board_t) (move : move_t) :
    board_play fuel (with_cursor x b) move =
      (board_play fuel b move).map (fun r => (r.1, with_cursor x r.2)) := by
  unfold board_play
  simp only [Option.pure_def, Option.bind_eq_bind]
  rw [board_play_refresh_with_cursor]
  cases board_play_refresh fuel b with
  | none => rfl
  | some o =>
    cases o with
    | none => rfl
    | some b2 =>
      simp only [Option.map_some', Option.some_bind]
      have hv : board_is_move_valid (with_cursor x b2) move = board_is_move_valid b2 move := rfl
      rw [hv]
      split_ifs
      · rfl
      · rw [board_play_place_with_cursor]
        cases board_play_place fuel b2 move with
        | none => rfl
        | some o2 =>
          cases o2 with
          | none => rfl
          | some b3 =>
            simp only [Option.map_some', Option.some_bind]
            exact board_play_finish_with_cursor fuel x b3

/-! ## The enumeration from any state of the cursor -/

theorem cells_of_zero (s : Nat) : cells_of s 0 = [] := by
  unfold cells_of
  rw [List.filter_eq_nil_iff]
  intro i _
  simp

theorem cursor_at_fresh {b : board_t}
    (hm : Confined b.size b.moves) (h0 : b.moves ≠ 0) (hc : b.next_move = 0) :
    CursorAt b 0 := by
  refine ⟨by rw [hc]; exact confined_zero _, ?_, Or.inr ⟨rfl, hc⟩⟩
  rw [List.length_pos]
  intro h
  exact h0 (cells_of_nil hm h)

/-- One call of `board_next_move` during an enumeration: it returns the legal move of rank k
and the cursor moves on to the rank k + 1, or back to 0 after the last one. -/
theorem board_next_move_at {b : board_t} (hs : board_cheak_size b.size = true)
    (hm : Confined b.size b.moves) {k : Nat} (h : CursorAt b k) :
    (board_next_move b).1 = move_at b k ∧
      CursorAt (board_next_move b).2 ((k + 1) % (cells_of b.size b.moves).length) := by
  obtain ⟨hx, hk, hcur⟩ := h
  have hL := List.drop_eq_getElem_cons hk
  have hget : (cells_of b.size b.moves).getD k 0 = (cells_of b.size b.moves)[k] :=
    List.getD_eq_getElem _ _ hk
  have h0 : b.moves ≠ 0 := by
    intro hz
    rw [hz, cells_of_zero] at hk
    simp at hk
  -- the cursor the scan reads
  have key : ∀ E, Confined b.size E → E ≠ 0 →
      cells_of b.size E = (cells_of b.size b.moves).drop k →
      (if b.next_move = 0 then { b with next_move := b.moves } else b).next_move = E →
      (board_next_move b).1 = move_at b k ∧
        CursorAt (board_next_move b).2 ((k + 1) % (cells_of b.size b.moves).length) := by
    intro E hE hE0 hcells hEq
    rw [hL] at hcells
    have hscan := next_move_scan_head hs hcells
    have hclear := cells_of_clear hs hE hcells
    have hstep : board_next_move b = (move_at b k,
        { b with next_move := E &&& not128 (set_bitboard b.size
          ((cells_of b.size b.moves)[k] / b.size) ((cells_of b.size b.moves)[k] % b.size)) }) := by
      unfold board_next_move
      simp only [if_neg h0]
      by_cases hc : b.next_move = 0
      · simp only [if_pos hc] at hEq ⊢
        subst hEq
        simp only [hscan]
        unfold move_at cell_of_index
        rw [hget]
      · simp only [if_neg hc] at hEq ⊢
        subst hEq
        simp only [hscan]
        unfold move_at cell_of_index
        rw [hget]
    rw [hstep]
    refine ⟨rfl, confined_and_left hE _, Nat.mod_lt _ (by omega), ?_⟩
    simp only
    by_cases hlast : k + 1 = (cells_of b.size b.moves).length
    · right
      rw [hlast, Nat.mod_self]
      refine ⟨rfl, cells_of_nil (confined_and_left hE _) ?_⟩
      rw [hclear, hlast, List.drop_length]
    · left
      rw [Nat.mod_eq_of_lt (show k + 1 < (cells_of b.size b.moves).length by omega)]
      exact hclear
  rcases hcur with hc | ⟨hk0, hc⟩
  · have hne : b.next_move ≠ 0 := by
      intro hz
      rw [hz, cells_of_zero, hL] at hc
      cases hc
    exact key b.next_move hx hne hc (by rw [if_neg hne])
  · subst hk0
    exact key b.moves hm h0 (by rw [List.drop_zero]) (by rw [if_pos hc])

theorem cells_next_move (b : board_t) :
    cells_of (board_next_move b).2.size (board_next_move b).2.moves =
      cells_of b.size b.moves := by
  obtain ⟨e1, _, _, _, e5⟩ := board_next_move_planes b
  rw [e1, e5]

theorem move_at_next_move (b : board_t) (k : Nat) :
    move_at (board_next_move b).2 k = move_at b k := by
  unfold move_at
  rw [cells_next_move, (board_next_move_planes b).1]

/-- The moves of an enumeration from any state of the cursor: the call of rank j returns the
legal move of rank (k + j) mod n. -/
theorem next_moves_at (j : Nat) : ∀ {b : board_t} {k : Nat},
    board_cheak_size b.size = true → Confined b.size b.moves → CursorAt b k →
    (next_moves j b).1 =
      (List.range j).map (fun i => move_at b ((k + i) % (cells_of b.size b.moves).length)) ∧
    (next_moves j b).2.size = b.size ∧ (next_moves j b).2.player = b.player ∧
    (next_moves j b).2.black = b.black ∧ (next_moves j b).2.white = b.white ∧
    (next_moves j b).2.moves = b.moves ∧
    CursorAt (next_moves j b).2 ((k + j) % (cells_of b.size b.moves).length) := by
  induction j with
  | zero =>
    intro b k hs hm h
    refine ⟨rfl, rfl, rfl, rfl, rfl, rfl, ?_⟩
    rw [Nat.add_zero, Nat.mod_eq_of_lt h.2.1]
    exact h
  | succ j ih =>
    intro b k hs hm h
    obtain ⟨e1, e2, e3, e4, e5⟩ := board_next_move_planes b
    obtain ⟨hmv, hat⟩ := board_next_move_at hs hm h
    have hs2 : board_cheak_size (board_next_move b).2.size = true := by rw [e1]; exact hs
    have hm2 : Confined (board_next_move b).2.size (board_next_move b).2.moves := by
      rw [e1, e5]; exact hm
    obtain ⟨i1, i2, i3, i4, i5, i6, i7⟩ := ih hs2 hm2 hat
    rw [cells_next_move] at i1 i7
    simp only [next_moves]
    refine ⟨?_, i2.trans e1, i3.trans e2, i4.trans e3, i5.trans e4, i6.trans e5, ?_⟩
    · rw [List.range_succ_eq_map, List.map_cons, List.map_map, i1, hmv]
      congr 1
      · rw [Nat.add_zero, Nat.mod_eq_of_lt h.2.1]
      · apply List.map_congr_left
        intro i _
        simp only [Function.comp, move_at_next_move]
        congr 1
        rw [Nat.mod_add_mod]
        congr 1
        omega
    · have : ((k + 1) % (cells_of b.size b.moves).length + j) %
          (cells_of b.size b.moves).length = (k + (j + 1)) % (cells_of b.size b.moves).length := by
        rw [Nat.mod_add_mod]
        congr 1
        omega
      rw [this] at i7
      exact i7

/-! ## Positions and direct wins -/

theorem same_position_eq {b c : board_t} (h : SamePosition b c) :
    c = with_cursor c.next_move b := by
  obtain ⟨s, pl, bk, wh, mv, nm⟩ := b
  obtain ⟨s2, pl2, bk2, wh2, mv2, nm2⟩ := c
  obtain ⟨h1, h2, h3, h4, h5⟩ := h
  simp only at h1 h2 h3 h4 h5
  subst h1 h2 h3 h4 h5
  rfl

theorem same_position_next_move {b c : board_t} (h : SamePosition b c) :
    SamePosition b (board_next_move c).2 := by
  obtain ⟨e1, e2, e3, e4, e5⟩ := board_next_move_planes c
  obtain ⟨h1, h2, h3, h4, h5⟩ := h
  exact ⟨e1.trans h1, e2.trans h2, e3.trans h3, e4.trans h4, e5.trans h5⟩

/-- A board the interface can produce that has a legal move: the facts the enumeration
needs. -/
theorem reachable_enum {fuel : Nat} (hfuel : 10 ≤ fuel) {b : board_t} (hb : Reachable fuel b)
    (hk : board_count_player_moves b ≠ 0) :
    board_cheak_size b.size = true ∧ IsColour b.player ∧ Confined b.size b.moves ∧
      b.moves ≠ 0 ∧ board_count_player_moves b = (cells_of b.size b.moves).length := by
  obtain ⟨hok, hfresh⟩ := reachable_ok hfuel hb
  have hs := hok.size_ok
  have hpl := count_pos_colour hk
  have hdisj : mover_plane b &&& other_plane b = 0 := by
    rcases mover_other_disjoint hok with h | h | h
    · exact h
    · rcases hpl with h2 | h2 <;> rw [h2] at h <;> cases h
    · rcases hpl with h2 | h2 <;> rw [h2] at h <;> cases h
  have hm : Confined b.size b.moves := by
    rw [mask_fresh_mover hfresh hpl]
    exact moves_of_confined hs (other_plane_confined hok) hdisj
  have hcount : board_count_player_moves b = (cells_of b.size b.moves).length := by
    unfold board_count_player_moves
    rw [if_neg (by rcases hpl with h | h <;> simp [h]),
      bitboard_popcount_eq _ (confined_lt hs hm), popcount_cells hs hm]
  refine ⟨hs, hpl, hm, ?_, hcount⟩
  intro hz
  rw [hcount, hz, cells_of_zero] at hk
  exact hk rfl

/-- Every valid move is the legal move of some rank, and conversely. -/
theorem valid_iff_move_at {b : board_t} (hs : board_cheak_size b.size = true)
    (hpl : IsColour b.player) (m : move_t) :
    board_is_move_valid b m = true ↔
      ∃ k, k < (cells_of b.size b.moves).length ∧ move_at b k = m := by
  have hpos := valid_size_pos hs
  rw [move_valid_iff hs hpl]
  constructor
  · rintro ⟨hr, hc, hbit⟩
    have hmem : m.row * b.size + m.column ∈ cells_of b.size b.moves :=
      mem_cells_of.2 ⟨(cell_index_lt hs hr hc).1, hbit⟩
    obtain ⟨k, hk, e⟩ := List.getElem_of_mem hmem
    refine ⟨k, hk, ?_⟩
    unfold move_at
    rw [List.getD_eq_getElem _ _ hk, e]
    exact cell_of_index_eq hpos m hc
  · rintro ⟨k, hk, rfl⟩
    unfold move_at
    rw [List.getD_eq_getElem _ _ hk]
    have hmem := mem_cells_of.1 (List.getElem_mem hk)
    obtain ⟨d1, d2, d3⟩ := div_mod_index hpos hmem.1
    simp only [cell_of_index]
    rw [d3]
    exact ⟨d1, d2, hmem.2⟩

theorem score_with_cursor (x : bitboard_t) (b : board_t) (p : disc_t) :
    score_heuristic (with_cursor x b) p = score_heuristic b p := rfl

/-- The copy a search loop plays the move on: it is the position after the move with the
cursor of the enumeration. -/
theorem play_on_copy_same {fuel : Nat} {b c : board_t} (h : SamePosition b c) (m : move_t)
    {ok : Bool} {b2 : board_t} (hp : board_play fuel b m = some (ok, b2)) :
    play_on_copy fuel c m = Except.ok (with_cursor c.next_move b2) := by
  unfold play_on_copy
  rw [same_position_eq h, board_play_with_cursor, hp]
  rfl

theorem score_pos_iff {c : board_t} (hs : board_cheak_size c.size = true)
    (he : c.player = disc_t.EMPTY_DISC) {p : disc_t} (hp : IsColour p) :
    (score_heuristic c p > 0 ↔ disc_count c p > disc_count c (opponent_of p)) ∧
      (score_heuristic c p < 0 ↔ disc_count c p < disc_count c (opponent_of p)) := by
  have hm := to_int_square hs
  have hpos := valid_size_pos hs
  have hsq : (0 : Int) < (c.size : Int) * c.size := by positivity
  unfold score_heuristic
  simp only [board_size, board_player, hm, he, if_true]
  rcases hp with h | h <;> subst h <;> simp only [disc_count, opponent_of] <;>
    generalize (board_score c).black = bk <;>
    generalize (board_score c).white = wh <;>
    generalize (c.size : Int) * c.size = q at hsq <;>
    by_cases hgt : bk > wh <;> by_cases heq : bk = wh <;>
    simp only [hgt, heq, if_true, if_false, reduceCtorEq] <;>
    constructor <;> constructor <;> intro <;> first | omega | exact True.intro | (exfalso; assumption)

/-! ## One iteration of the root of the alpha-beta player -/

/-- One iteration of the loop of `ab_main_loop`: either the move wins at once and is
returned, or the loop goes on with a state whose best move is the former one or the move of
this iteration, and with the same state when the move loses at once. -/
theorem ab_main_for_step {fuel : Nat} (hfuel : 10 ≤ fuel)
    (search_min search_max : board_t → alpha_beta_t → Except fault_t alpha_beta_t)
    (h1 : ∀ c r, Reachable fuel c → ∃ w, search_min c r = Except.ok w)
    (h2 : ∀ c r, Reachable fuel c → ∃ w, search_max c r = Except.ok w)
    (p : disc_t) (todo : Nat) (c : board_t) (st : ab_main_state) (hc : Reachable fuel c)
    (hpl : IsColour c.player) :
    ∃ child, play_on_copy fuel (board_next_move c).2 (board_next_move c).1 = Except.ok child ∧
      ((child.player = disc_t.EMPTY_DISC ∧ score_heuristic child p > 0 ∧
          ab_main_for fuel search_min search_max p (todo + 1) c st =
            Except.ok ((board_next_move c).1, (board_next_move c).2)) ∨
        (¬(child.player = disc_t.EMPTY_DISC ∧ score_heuristic child p > 0) ∧
          ∃ st2, ab_main_for fuel search_min search_max p (todo + 1) c st =
              ab_main_for fuel search_min search_max p todo (board_next_move c).2 st2 ∧
            (st2.best_move = st.best_move ∨ st2.best_move = (board_next_move c).1) ∧
            (child.player = disc_t.EMPTY_DISC → score_heuristic child p < 0 → st2 = st))) := by
  obtain ⟨e1, _, _, child, e2, hchild⟩ := search_step hfuel hc hpl
  refine ⟨child, e2, ?_⟩
  have fin : ∀ t : alpha_beta_t, ∃ st2,
      (if t.alpha ≥ t.beta then
        ab_main_for fuel search_min search_max p todo (board_next_move c).2
          { st with tampon_ab := t }
      else if t.beta > st.result_ab.alpha then
        ab_main_for fuel search_min search_max p todo (board_next_move c).2
          { result_ab := { st.result_ab with alpha := t.beta },
            tampon_ab := t, best_move := (board_next_move c).1 }
      else
        ab_main_for fuel search_min search_max p todo (board_next_move c).2
          { st with tampon_ab := t }) =
        ab_main_for fuel search_min search_max p todo (board_next_move c).2 st2 ∧
      (st2.best_move = st.best_move ∨ st2.best_move = (board_next_move c).1) := by
    intro t
    split_ifs
    · exact ⟨_, rfl, Or.inl rfl⟩
    · exact ⟨_, rfl, Or.inr rfl⟩
    · exact ⟨_, rfl, Or.inl rfl⟩
  rw [ab_main_for]
  simp only [e1, e2, board_player]
  by_cases hE : child.player = disc_t.EMPTY_DISC
  · simp only [hE, if_true]
    by_cases hpos : score_heuristic child p > 0
    · left
      exact ⟨trivial, hpos, by rw [if_pos hpos]⟩
    · right
      refine ⟨fun h => hpos h.2, ?_⟩
      rw [if_neg hpos]
      by_cases hneg : score_heuristic child p < 0
      · rw [if_pos hneg]
        exact ⟨st, rfl, Or.inl rfl, fun _ _ => rfl⟩
      · rw [if_neg hneg]
        obtain ⟨st2, e, hbm⟩ := fin { st.tampon_ab with beta := score_heuristic child p }
        exact ⟨st2, e, hbm, fun _ h => absurd h hneg⟩
  · right
    refine ⟨fun h => hE h.1, ?_⟩
    simp only [hE, if_false]
    by_cases hp : child.player ≠ p
    · simp only [hp, ne_eq, not_false_eq_true, if_true]
      obtain ⟨w, ew⟩ := h1 child st.result_ab hchild
      rw [ew]
      obtain ⟨st2, e, hbm⟩ := fin w
      exact ⟨st2, e, hbm, fun h => h.elim⟩
    · simp only [hp, if_false]
      obtain ⟨w, ew⟩ := h2 child st.result_ab hchild
      rw [ew]
      obtain ⟨st2, e, hbm⟩ := fin w
      exact ⟨st2, e, hbm, fun h => h.elim⟩

/-! ## Enumerations on a position -/

theorem scan_fresh {fuel : Nat} (hfuel : 10 ≤ fuel) {b : board_t} (hb : Reachable fuel b)
    (hk : board_count_player_moves b ≠ 0) (hc : b.next_move = 0) : Scan fuel b b 0 := by
  obtain ⟨_, _, hm, h0, _⟩ := reachable_enum hfuel hb hk
  exact ⟨hb, ⟨rfl, rfl, rfl, rfl, rfl⟩, cursor_at_fresh hm h0 hc⟩

theorem scan_cells {fuel : Nat} {b c : board_t} {k : Nat} (h : Scan fuel b c k) :
    cells_of c.size c.moves = cells_of b.size b.moves := by
  rw [h.same.1, h.same.2.2.2.2]

theorem scan_move_at {fuel : Nat} {b c : board_t} {k : Nat} (h : Scan fuel b c k) (i : Nat) :
    move_at c i = move_at b i := by
  unfold move_at
  rw [scan_cells h, h.same.1]

/-- One call of `board_next_move` in an enumeration. -/
theorem scan_next {fuel : Nat} (hfuel : 10 ≤ fuel) {b c : board_t} {k : Nat}
    (hb : Reachable fuel b) (hk : board_count_player_moves b ≠ 0) (h : Scan fuel b c k) :
    (board_next_move c).1 = move_at b k ∧
      Scan fuel b (board_next_move c).2 ((k + 1) % (cells_of b.size b.moves).length) := by
  obtain ⟨hs, _, hm, _, _⟩ := reachable_enum hfuel hb hk
  have hs2 : board_cheak_size c.size = true := by rw [h.same.1]; exact hs
  have hm2 : Confined c.size c.moves := by rw [h.same.1, h.same.2.2.2.2]; exact hm
  obtain ⟨e, hat⟩ := board_next_move_at hs2 hm2 h.cursor
  rw [scan_cells h] at hat
  rw [scan_move_at h] at e
  exact ⟨e, Reachable.next_move c h.reach, same_position_next_move h.same, hat⟩

theorem scan_colour {fuel : Nat} (hfuel : 10 ≤ fuel) {b c : board_t} {k : Nat}
    (hb : Reachable fuel b) (hk : board_count_player_moves b ≠ 0) (h : Scan fuel b c k) :
    IsColour c.player := by
  rw [h.same.2.1]
  exact (reachable_enum hfuel hb hk).2.1

/-- The move of an iteration is valid on the position, and the copy the loop plays it on is
the position after the move, with another cursor. -/
theorem scan_child {fuel : Nat} (hfuel : 10 ≤ fuel) {b c : board_t} {k : Nat}
    (hb : Reachable fuel b) (hk : board_count_player_moves b ≠ 0) (h : Scan fuel b c k) :
    board_is_move_valid b (move_at b k) = true ∧
      ∃ b2, board_play fuel b (move_at b k) = some (true, b2) ∧
        board_cheak_size b2.size = true ∧
        play_on_copy fuel (board_next_move c).2 (board_next_move c).1 =
          Except.ok (with_cursor (board_next_move c).2.next_move b2) := by
  obtain ⟨hs, hpl, _, _, _⟩ := reachable_enum hfuel hb hk
  obtain ⟨hok, hfresh⟩ := reachable_ok hfuel hb
  have hv : board_is_move_valid b (move_at b k) = true :=
    (valid_iff_move_at hs hpl _).2 ⟨k, h.cursor.2.1.trans_eq (congrArg _ (scan_cells h)), rfl⟩
  obtain ⟨b2, e, hok2, _⟩ := board_play_valid hok hfresh hpl hfuel _ hv
  obtain ⟨e1, hsc⟩ := scan_next hfuel hb hk h
  refine ⟨hv, b2, e, hok2.size_ok, ?_⟩
  rw [e1]
  exact play_on_copy_same hsc.same _ e

/-! ## The loop of the root of the alpha-beta player -/

theorem mod_succ_add (k i n : Nat) : ((k + 1) % n + i) % n = (k + (i + 1)) % n := by
  rw [Nat.mod_add_mod]
  congr 1
  omega

/-- The loop of `ab_main_loop` returns a move that wins at once as soon as one of the moves
it enumerates does. -/
theorem ab_main_for_wins {fuel : Nat} (hfuel : 10 ≤ fuel)
    (search_min search_max : board_t → alpha_beta_t → Except fault_t alpha_beta_t)
    (h1 : ∀ c r, Reachable fuel c → ∃ w, search_min c r = Except.ok w)
    (h2 : ∀ c r, Reachable fuel c → ∃ w, search_max c r = Except.ok w)
    {b : board_t} (hb : Reachable fuel b) (hk : board_count_player_moves b ≠ 0) (todo : Nat) :
    ∀ (c : board_t) (k : Nat) (st : ab_main_state), Scan fuel b c k →
      (∃ i, i < todo ∧
        WinsAtOnce fuel b (move_at b ((k + i) % (cells_of b.size b.moves).length))) →
      ∃ r, ab_main_for fuel search_min search_max b.player todo c st = Except.ok r ∧
        WinsAtOnce fuel b r.1 := by
  obtain ⟨hs, hpl, _, _, _⟩ := reachable_enum hfuel hb hk
  induction todo with
  | zero =>
    rintro c k st _ ⟨i, hi, _⟩
    omega
  | succ n ih =>
    rintro c k st hsc ⟨i, hi, hw⟩
    obtain ⟨hv, b2, e, hs2, ecopy⟩ := scan_child hfuel hb hk hsc
    obtain ⟨emv, hsc2⟩ := scan_next hfuel hb hk hsc
    obtain ⟨child, e2, hcase⟩ := ab_main_for_step hfuel search_min search_max h1 h2 b.player n c
      st hsc.reach (scan_colour hfuel hb hk hsc)
    rw [ecopy] at e2
    simp only [Except.ok.injEq] at e2
    subst e2
    have hsp := fun he => @score_pos_iff b2 hs2 he b.player hpl
    rcases hcase with ⟨hE, hpos, hret⟩ | ⟨hnot, st2, hgo, _, _⟩
    · refine ⟨_, hret, ?_⟩
      rw [emv]
      exact ⟨b2, e, hE, (hsp hE).1.1 hpos⟩
    · rw [hgo]
      apply ih _ _ st2 hsc2
      cases i with
      | zero =>
        exfalso
        rw [Nat.add_zero, Nat.mod_eq_of_lt (hsc.cursor.2.1.trans_eq (congrArg _ (scan_cells hsc)))]
          at hw
        obtain ⟨c2, ec, hE, hgt⟩ := hw
        rw [e] at ec
        simp only [Option.some.injEq, Prod.mk.injEq, true_and] at ec
        subst ec
        exact hnot ⟨hE, (hsp hE).1.2 hgt⟩
      | succ i =>
        refine ⟨i, by omega, ?_⟩
        rw [mod_succ_add]
        exact hw

/-- When every move it enumerates loses at once, the loop of `ab_main_loop` keeps the best
move it was given. -/
theorem ab_main_for_loses {fuel : Nat} (hfuel : 10 ≤ fuel)
    (search_min search_max : board_t → alpha_beta_t → Except fault_t alpha_beta_t)
    (h1 : ∀ c r, Reachable fuel c → ∃ w, search_min c r = Except.ok w)
    (h2 : ∀ c r, Reachable fuel c → ∃ w, search_max c r = Except.ok w)
    {b : board_t} (hb : Reachable fuel b) (hk : board_count_player_moves b ≠ 0) (todo : Nat) :
    ∀ (c : board_t) (k : Nat) (st : ab_main_state), Scan fuel b c k →
      (∀ i, i < todo →
        LosesAtOnce fuel b (move_at b ((k + i) % (cells_of b.size b.moves).length))) →
      ∃ r, ab_main_for fuel search_min search_max b.player todo c st = Except.ok r ∧
        r.1 = st.best_move := by
  obtain ⟨hs, hpl, _, _, _⟩ := reachable_enum hfuel hb hk
  induction todo with
  | zero =>
    intro c k st _ _
    exact ⟨_, rfl, rfl⟩
  | succ n ih =>
    intro c k st hsc hl
    obtain ⟨hv, b2, e, hs2, ecopy⟩ := scan_child hfuel hb hk hsc
    obtain ⟨emv, hsc2⟩ := scan_next hfuel hb hk hsc
    obtain ⟨child, e2, hcase⟩ := ab_main_for_step hfuel search_min search_max h1 h2 b.player n c
      st hsc.reach (scan_colour hfuel hb hk hsc)
    rw [ecopy] at e2
    simp only [Except.ok.injEq] at e2
    subst e2
    have hsp := fun he => @score_pos_iff b2 hs2 he b.player hpl
    have h0 := hl 0 (Nat.succ_pos n)
    rw [Nat.add_zero, Nat.mod_eq_of_lt (hsc.cursor.2.1.trans_eq (congrArg _ (scan_cells hsc)))]
      at h0
    obtain ⟨c2, ec, hE, hlt⟩ := h0
    rw [e] at ec
    simp only [Option.some.injEq, Prod.mk.injEq, true_and] at ec
    subst ec
    have hneg : score_heuristic (with_cursor (board_next_move c).2.next_move b2) b.player < 0 :=
      (hsp hE).2.2 hlt
    rcases hcase with ⟨_, hpos, _⟩ | ⟨_, st2, hgo, _, hsame⟩
    · omega
    · rw [hgo, hsame hE hneg]
      apply ih _ _ st hsc2
      intro i hi
      rw [mod_succ_add]
      exact hl (i + 1) (by omega)

/-- The move `random_player` draws during an enumeration and the cursor it leaves. -/
theorem random_player_loop_at {fuel : Nat} (hfuel : 10 ≤ fuel) {b : board_t}
    (hb : Reachable fuel b) (hk : board_count_player_moves b ≠ 0) (j : Nat) :
    ∀ (c : board_t) (k : Nat), Scan fuel b c k →
      (random_player_loop j (board_next_move c)).1 =
          move_at b ((k + j) % (cells_of b.size b.moves).length) ∧
        Scan fuel b (random_player_loop j (board_next_move c)).2
          ((k + (j + 1)) % (cells_of b.size b.moves).length) := by
  induction j with
  | zero =>
    intro c k h
    obtain ⟨e, hsc⟩ := scan_next hfuel hb hk h
    have hlt := h.cursor.2.1.trans_eq (congrArg _ (scan_cells h))
    simp only [random_player_loop, Nat.add_zero, Nat.mod_eq_of_lt hlt]
    exact ⟨e, hsc⟩
  | succ j ih =>
    intro c k h
    obtain ⟨_, hsc⟩ := scan_next hfuel hb hk h
    obtain ⟨i1, i2⟩ := ih _ _ hsc
    rw [mod_succ_add] at i1 i2
    simp only [random_player_loop]
    exact ⟨i1, i2⟩

/-! ## Well-formed positions are reachable -/

theorem confined_mod {s x : Nat} (hx : Confined s x) (j : Nat) : Confined s (x % 2 ^ j) :=
  lt_of_le_of_lt (Nat.mod_le _ _) hx

theorem disjoint_mod {x y : Nat} (h : x &&& y = 0) (j : Nat) :
    (x % 2 ^ j) &&& (y % 2 ^ j) = 0 := by
  apply Nat.eq_of_testBit_eq
  intro i
  have := congrArg (fun z => z.testBit i) h
  simp only [Nat.testBit_and, Nat.zero_testBit] at this
  simp only [Nat.testBit_and, Nat.testBit_mod_two_pow, Nat.zero_testBit]
  cases hx : x.testBit i <;> cases hy : y.testBit i <;> simp_all

theorem mod_succ_set {x j : Nat} (h : x.testBit j = true) :
    x % 2 ^ (j + 1) = x % 2 ^ j ||| 2 ^ j := by
  apply Nat.eq_of_testBit_eq
  intro i
  rw [testBit_set, Nat.testBit_mod_two_pow, Nat.testBit_mod_two_pow]
  by_cases hi : i = j
  · subst hi
    simp [h]
  · by_cases hlt : i < j
    · simp [hi, hlt, show i < j + 1 by omega]
    · simp [hi, hlt, show ¬(i < j + 1) by omega]

theorem mod_succ_clear {s y j : Nat} (hs100 : s * s ≤ 100) (hy : Confined s y)
    (h : y.testBit j = false) : y % 2 ^ (j + 1) = y % 2 ^ j &&& not128 (2 ^ j) := by
  apply Nat.eq_of_testBit_eq
  intro i
  rw [testBit_clear hs100 (confined_mod hy j), Nat.testBit_mod_two_pow,
    Nat.testBit_mod_two_pow]
  by_cases hi : i = j
  · subst hi
    simp [h]
  · by_cases hlt : i < j
    · simp [hi, hlt, show i < j + 1 by omega]
    · simp [hi, hlt, show ¬(i < j + 1) by omega]

theorem mod_succ_same {y j : Nat} (h : y.testBit j = false) : y % 2 ^ (j + 1) = y % 2 ^ j := by
  apply Nat.eq_of_testBit_eq
  intro i
  rw [Nat.testBit_mod_two_pow, Nat.testBit_mod_two_pow]
  by_cases hi : i = j
  · subst hi
    simp [h]
  · by_cases hlt : i < j
    · simp [hi, hlt, show i < j + 1 by omega]
    · simp [hi, hlt, show ¬(i < j + 1) by omega]

/-- Writing a colour on a cell of a board whose mover is a colour. -/
theorem board_set_colour {fuel : Nat} (hfuel : 10 ≤ fuel) {s : Nat} {pl : disc_t}
    {bk wh mv nm : Nat} (hs : board_cheak_size s = true) (hbk : Confined s bk)
    (hwh : Confined s wh) (hdj : bk &&& wh = 0) (hpl : IsColour pl) {r c : Nat} (hr : r < s)
    (hc : c < s) :
    board_set fuel ⟨s, pl, bk, wh, mv, nm⟩ disc_t.BLACK_DISC r c =
        some ⟨s, pl, bk ||| 2 ^ (r * s + c), wh &&& not128 (2 ^ (r * s + c)),
          mask_for s pl (bk ||| 2 ^ (r * s + c)) (wh &&& not128 (2 ^ (r * s + c))), nm⟩ ∧
      board_set fuel ⟨s, pl, bk, wh, mv, nm⟩ disc_t.WHITE_DISC r c =
        some ⟨s, pl, bk &&& not128 (2 ^ (r * s + c)), wh ||| 2 ^ (r * s + c),
          mask_for s pl (bk &&& not128 (2 ^ (r * s + c))) (wh ||| 2 ^ (r * s + c)), nm⟩ := by
  have hidx := cell_index_lt hs hr hc
  have hs10 := (valid_size_le hs).2
  have d1 := @disjoint_set_clear s bk wh (r * s + c) hidx.2 hwh hdj
  have d2 := @disjoint_set_clear s wh bk (r * s + c) hidx.2 hbk (land_comm_zero hdj)
  have c1 := confined_set hbk hidx.1
  have c2 := confined_clear hwh (not128 (2 ^ (r * s + c)))
  have c3 := confined_set hwh hidx.1
  have c4 := confined_clear hbk (not128 (2 ^ (r * s + c)))
  unfold board_set mask_for
  simp only [if_neg (show ¬(r ≥ s ∨ c ≥ s) by omega), board_set_planes,
    set_bitboard_eq hs hr hc]
  rcases hpl with h | h <;> subst h <;>
    simp only [reduceCtorEq, if_true, if_false, Option.pure_def, Option.bind_eq_bind]
  · rw [compute_moves_eq hs c2 d1 (by omega), compute_moves_eq hs c3 (land_comm_zero d2)
      (by omega)]
    exact ⟨rfl, rfl⟩
  · rw [compute_moves_eq hs c1 (land_comm_zero d1) (by omega), compute_moves_eq hs c4 d2
      (by omega)]
    exact ⟨rfl, rfl⟩

/-- Every well-formed position with a colour to move and an empty cursor can be produced by
`board_alloc` and `board_set`. -/
theorem wellformed_reachable {fuel : Nat} (hfuel : 10 ≤ fuel) {b : board_t} (hok : PlanesOK b)
    (hfresh : MaskFresh b) (hpl : IsColour b.player) (hc : b.next_move = 0) :
    Reachable fuel b := by
  obtain ⟨hs, hbk, hwh, hdj⟩ := hok
  have hpos := valid_size_pos hs
  have h100 := (cell_index_lt hs hpos hpos).2
  have key : ∀ j, j ≤ b.size * b.size → Reachable fuel (board_upto b j) := by
    intro j
    induction j with
    | zero =>
      intro _
      apply Reachable.alloc b.size b.player
      unfold board_alloc board_upto mask_for
      rcases hpl with h | h <;> simp [hs, h, Nat.mod_one, moves_of_zero_left hs]
    | succ j ih =>
      intro hj
      have hr := ih (by omega)
      obtain ⟨d1, d2, d3⟩ := div_mod_index hpos (show j < b.size * b.size by omega)
      obtain ⟨e1, e2⟩ := @board_set_colour fuel hfuel b.size b.player (b.black % 2 ^ j)
        (b.white % 2 ^ j) (mask_for b.size b.player (b.black % 2 ^ j) (b.white % 2 ^ j)) 0 hs
        (confined_mod hbk j) (confined_mod hwh j) (disjoint_mod hdj j) hpl (j / b.size)
        (j % b.size) d1 d2
      rw [d3] at e1 e2
      by_cases hb : b.black.testBit j = true
      · have hw : b.white.testBit j = false := disjoint_testBit hdj hb
        refine Reachable.set _ disc_t.BLACK_DISC (j / b.size) (j % b.size) _ hr ?_
        unfold board_upto
        rw [e1, mod_succ_set hb, mod_succ_clear h100 hwh hw]
      · rw [Bool.not_eq_true] at hb
        by_cases hw : b.white.testBit j = true
        · refine Reachable.set _ disc_t.WHITE_DISC (j / b.size) (j % b.size) _ hr ?_
          unfold board_upto
          rw [e2, mod_succ_set hw, mod_succ_clear h100 hbk hb]
        · rw [Bool.not_eq_true] at hw
          unfold board_upto at hr ⊢
          rw [mod_succ_same hb, mod_succ_same hw]
          exact hr
  have hfin := key (b.size * b.size) (le_refl _)
  have e : board_upto b (b.size * b.size) = b := by
    obtain ⟨s, pl, bk, wh, mv, nm⟩ := b
    simp only at hbk hwh hc hpl hfresh
    unfold board_upto mask_for
    simp only
    rw [Nat.mod_eq_of_lt hbk, Nat.mod_eq_of_lt hwh, hc]
    rcases hpl with h | h <;> subst h
    · have := hfresh.1 rfl
      simp only at this
      rw [this]
      rfl
    · have := hfresh.2 rfl
      simp only at this
      rw [this]
      rfl
  rw [e] at hfin
  exact hfin

/-! ## The alpha-beta player -/

theorem rotation_hits {n k i0 : Nat} (hk : k < n) (hi : i0 < n) :
    ∃ i, i < n ∧ (k + i) % n = i0 := by
  by_cases h : k ≤ i0
  · refine ⟨i0 - k, by omega, ?_⟩
    rw [show k + (i0 - k) = i0 by omega, Nat.mod_eq_of_lt hi]
  · refine ⟨i0 + n - k, by omega, ?_⟩
    rw [show k + (i0 + n - k) = i0 + n by omega, Nat.add_mod_right, Nat.mod_eq_of_lt hi]

theorem count_same {b c : board_t} (h : SamePosition b c) :
    board_count_player_moves c = board_count_player_moves b := by
  unfold board_count_player_moves
  rw [h.2.1, h.2.2.2.2]

theorem count_ne_zero_of_valid {fuel : Nat} (hfuel : 10 ≤ fuel) {b : board_t}
    (hb : Reachable fuel b) {m : move_t} (hv : board_is_move_valid b m = true) :
    board_count_player_moves b ≠ 0 := by
  obtain ⟨hok, hfresh⟩ := reachable_ok hfuel hb
  have hs := hok.size_ok
  have hpl : IsColour b.player := by
    unfold IsColour
    by_contra hn
    rw [not_or] at hn
    unfold board_is_move_valid at hv
    rw [if_pos ⟨hn.2, hn.1⟩] at hv
    cases hv
  have hdisj : mover_plane b &&& other_plane b = 0 := by
    rcases mover_other_disjoint hok with h | h | h
    · exact h
    · rcases hpl with h2 | h2 <;> rw [h2] at h <;> cases h
    · rcases hpl with h2 | h2 <;> rw [h2] at h <;> cases h
  have hm : Confined b.size b.moves := by
    rw [mask_fresh_mover hfresh hpl]
    exact moves_of_confined hs (other_plane_confined hok) hdisj
  rw [Ne, count_moves_eq_zero hpl (confined_lt hs hm)]
  intro hz
  have := ((move_valid_iff hs hpl m).1 hv).2.2
  rw [hz, Nat.zero_testBit] at this
  cases this

/-- The searches of `minimax_ab_player` return on every board the interface can produce. -/
theorem ab_searches_total {fuel gas depth : Nat} (hfuel : 10 ≤ fuel) (hgas : depth < gas)
    (p : disc_t) :
    (∀ c r, Reachable fuel c → ∃ w, ab_min fuel gas c depth r p = Except.ok w) ∧
      (∀ c r, Reachable fuel c → ∃ w, ab_max fuel gas c depth r p = Except.ok w) :=
  ⟨fun c r hc => (ab_total hfuel gas c depth r p hgas hc).2,
    fun c r hc => (ab_total hfuel gas c depth r p hgas hc).1⟩

/-- What `minimax_ab_player` computes on a board with a fresh cursor and a legal move: the
move `random_player` draws, then the only move or the result of the main loop from the
cursor that the draw left. -/
theorem minimax_ab_player_eq {fuel gas : Nat} (hfuel : 10 ≤ fuel) {b : board_t}
    (hb : Reachable fuel b) (hk : board_count_player_moves b ≠ 0) (hc : b.next_move = 0)
    (rnd : Nat) :
    ∃ c k, Scan fuel b c k ∧
      random_player b rnd = Except.ok (move_at b (rnd % board_count_player_moves b), c) ∧
      minimax_ab_player fuel gas b rnd =
        (if board_count_player_moves b = 1 then Except.ok (board_next_move c)
        else
          ab_main_for fuel
            (fun copy a_b => ab_min fuel gas copy (minimax_ab_depth b.size) a_b b.player)
            (fun copy a_b => ab_max fuel gas copy (minimax_ab_depth b.size) a_b b.player)
            b.player (board_count_player_moves b) c
            { result_ab := { alpha := -infinity, beta := infinity },
              tampon_ab := { alpha := -infinity, beta := infinity },
              best_move := move_at b (rnd % board_count_player_moves b) }) := by
  obtain ⟨_, _, _, _, hcount⟩ := reachable_enum hfuel hb hk
  obtain ⟨e1, hsc⟩ := random_player_loop_at hfuel hb hk (rnd % board_count_player_moves b) b 0
    (scan_fresh hfuel hb hk hc)
  have hlt : rnd % board_count_player_moves b < (cells_of b.size b.moves).length := by
    rw [← hcount]
    exact Nat.mod_lt _ (Nat.pos_of_ne_zero hk)
  rw [Nat.zero_add, Nat.mod_eq_of_lt hlt] at e1
  have er : random_player b rnd = Except.ok (move_at b (rnd % board_count_player_moves b),
      (random_player_loop (rnd % board_count_player_moves b) (board_next_move b)).2) := by
    unfold random_player rand_mod
    simp only [if_neg hk]
    rw [← e1]
  refine ⟨_, _, hsc, er, ?_⟩
  unfold minimax_ab_player ab_main_loop
  simp only [er, count_same hsc.same, board_size, board_player, hsc.same.2.1]

/-! ## Claims on the alpha-beta player -/

theorem win4_reachable : Reachable 10 win4 :=
  wellformed_reachable (by decide)
    ⟨by decide, by unfold Confined; decide, by unfold Confined; decide, by decide⟩
    ⟨fun _ => by decide, fun h => by cases h⟩ (Or.inl rfl) rfl

theorem loseall4_reachable : Reachable 10 loseall4 :=
  wellformed_reachable (by decide)
    ⟨by decide, by unfold Confined; decide, by unfold Confined; decide, by decide⟩
    ⟨fun _ => by decide, fun h => by cases h⟩ (Or.inl rfl) rfl

/-- C25: for every board the interface can produce, with a fresh cursor, on which at least
one legal move leads directly to a terminal position where the mover holds strictly more
discs, `minimax_ab_player` returns, for every random draw, a move that leads directly to
such a won terminal position. -/
theorem minimax_ab_takes_win (fuel gas : Nat) (hfuel : 10 ≤ fuel) (b : board_t)
    (hb : Reachable fuel b) (hgas : minimax_ab_depth b.size < gas) (hc : b.next_move = 0)
    (m : move_t) (hw : WinsAtOnce fuel b m) (rnd : Nat) :
    ∃ r, minimax_ab_player fuel gas b rnd = Except.ok r ∧ WinsAtOnce fuel b r.1 := by
  obtain ⟨hok, hfresh⟩ := reachable_ok hfuel hb
  obtain ⟨c0, hplay, _⟩ := id hw
  obtain ⟨hpl, hv⟩ := board_play_true hok hfresh hfuel hplay
  have hk := count_ne_zero_of_valid hfuel hb hv
  obtain ⟨hs, _, hm, _, hcount⟩ := reachable_enum hfuel hb hk
  obtain ⟨i0, hi0, em⟩ := (valid_iff_move_at hs hpl m).1 hv
  obtain ⟨c, k, hsc, _, eq⟩ := @minimax_ab_player_eq fuel gas hfuel b hb hk hc rnd
  rw [eq]
  have hklt : k < (cells_of b.size b.moves).length :=
    hsc.cursor.2.1.trans_eq (congrArg _ (scan_cells hsc))
  by_cases h1 : board_count_player_moves b = 1
  · rw [if_pos h1]
    refine ⟨_, rfl, ?_⟩
    rw [(scan_next hfuel hb hk hsc).1]
    have : k = i0 := by omega
    rw [this, em]
    exact hw
  · rw [if_neg h1]
    obtain ⟨t1, t2⟩ := @ab_searches_total fuel gas (minimax_ab_depth b.size) hfuel hgas b.player
    obtain ⟨i, hi, ei⟩ := rotation_hits hklt hi0
    exact ab_main_for_wins hfuel _ _ t1 t2 hb hk _ c k _ hsc
      ⟨i, by omega, by rw [ei, em]; exact hw⟩

theorem minimax_ab_takes_win_witness :
    10 ≤ 10 ∧ Reachable 10 win4 ∧ minimax_ab_depth win4.size < 13 ∧ win4.next_move = 0 ∧
    WinsAtOnce 10 win4 ⟨3, 3⟩ ∧
    ∃ r, minimax_ab_player 10 13 win4 1 = Except.ok r ∧ WinsAtOnce 10 win4 r.1 :=
  ⟨by decide, win4_reachable, by decide, rfl,
    ⟨⟨4, disc_t.EMPTY_DISC, 34670, 1, 0, 0⟩, by decide, rfl, by decide⟩,
    minimax_ab_takes_win 10 13 (by decide) win4 win4_reachable (by decide) rfl ⟨3, 3⟩
      ⟨⟨4, disc_t.EMPTY_DISC, 34670, 1, 0, 0⟩, by decide, rfl, by decide⟩ 1⟩

/-- C26, as stated, fails: on a 4 × 4 position with a fresh cursor and the two legal moves
(1, 2) and (2, 0), `minimax_ab_player` returns (1, 2) for the random draw 0 and (2, 0) for
the random draw 1. -/
theorem minimax_ab_sampling_counterexample :
    Reachable 10 loseall4 ∧ loseall4.next_move = 0 ∧ board_count_player_moves loseall4 = 2 ∧
    minimax_ab_player 10 13 loseall4 0 = Except.ok (⟨1, 2⟩, { loseall4 with next_move := 256 }) ∧
    minimax_ab_player 10 13 loseall4 1 = Except.ok (⟨2, 0⟩, loseall4) :=
  ⟨loseall4_reachable, rfl, by decide, by decide, by decide⟩

/-- C26, amended: `minimax_ab_player` first draws a default move with `random_player` and
returns it when the scan of the root keeps no candidate: for every board the interface can
produce, with a fresh cursor and at least two legal moves, whose every legal move leads
directly to a terminal position where the mover holds strictly fewer discs, it returns for
the random draw r the move `random_player` returns for r, which is the legal move of rank
r mod n in row-major order, n being the number of legal moves. -/
theorem minimax_ab_default (fuel gas : Nat) (hfuel : 10 ≤ fuel) (b : board_t)
    (hb : Reachable fuel b) (hgas : minimax_ab_depth b.size < gas) (hc : b.next_move = 0)
    (hn : 2 ≤ board_count_player_moves b)
    (hall : ∀ m, board_is_move_valid b m = true → LosesAtOnce fuel b m) (rnd : Nat) :
    ∃ r0 r, random_player b rnd = Except.ok r0 ∧
      minimax_ab_player fuel gas b rnd = Except.ok r ∧ r.1 = r0.1 ∧
      r.1 = move_at b (rnd % board_count_player_moves b) := by
  have hk : board_count_player_moves b ≠ 0 := by omega
  obtain ⟨hs, hpl, hm, _, hcount⟩ := reachable_enum hfuel hb hk
  obtain ⟨c, k, hsc, er, eq⟩ := @minimax_ab_player_eq fuel gas hfuel b hb hk hc rnd
  obtain ⟨t1, t2⟩ := @ab_searches_total fuel gas (minimax_ab_depth b.size) hfuel hgas b.player
  rw [eq, if_neg (by omega)]
  obtain ⟨r, e, hr⟩ := ab_main_for_loses hfuel _ _ t1 t2 hb hk (board_count_player_moves b) c k
    { result_ab := { alpha := -infinity, beta := infinity },
      tampon_ab := { alpha := -infinity, beta := infinity },
      best_move := move_at b (rnd % board_count_player_moves b) } hsc
    (fun i _ => hall _ ((valid_iff_move_at hs hpl _).2
      ⟨_, Nat.mod_lt _ (by omega), rfl⟩))
  exact ⟨_, r, er, e, hr, hr⟩

theorem minimax_ab_default_witness :
    10 ≤ 10 ∧ Reachable 10 loseall4 ∧ minimax_ab_depth loseall4.size < 13 ∧
    loseall4.next_move = 0 ∧ 2 ≤ board_count_player_moves loseall4 ∧
    (∀ m, board_is_move_valid loseall4 m = true → LosesAtOnce 10 loseall4 m) ∧
    ∃ r0 r, random_player loseall4 1 = Except.ok r0 ∧
      minimax_ab_player 10 13 loseall4 1 = Except.ok r ∧ r.1 = r0.1 ∧
      r.1 = move_at loseall4 (1 % board_count_player_moves loseall4) := by
  have hall : ∀ m, board_is_move_valid loseall4 m = true → LosesAtOnce 10 loseall4 m := by
    intro m hv
    obtain ⟨k, hk, e⟩ := (valid_iff_move_at (by decide) (Or.inl rfl) m).1 hv
    have h2 : (cells_of loseall4.size loseall4.moves).length = 2 := by decide
    rw [h2] at hk
    subst e
    interval_cases k
    · exact ⟨⟨4, disc_t.EMPTY_DISC, 117, 65162, 0, 0⟩, by decide, rfl, by decide⟩
    · exact ⟨⟨4, disc_t.EMPTY_DISC, 309, 65162, 0, 0⟩, by decide, rfl, by decide⟩
  exact ⟨by decide, loseall4_reachable, by decide, rfl, by decide, hall,
    minimax_ab_default 10 13 (by decide) loseall4 loseall4_reachable (by decide) rfl (by decide)
      hall 1⟩

/-! ## The plain searches return -/

theorem plane_count_le {b : board_t} (hok : PlanesOK b) :
    (board_score b).black ≤ b.size * b.size ∧ (board_score b).white ≤ b.size * b.size := by
  have h1 := bitboard_popcount_eq _ (confined_lt hok.size_ok hok.black_in)
  have h2 := bitboard_popcount_eq _ (confined_lt hok.size_ok hok.white_in)
  have h3 := popcount_spec_le hok.size_ok hok.black_in
  have h4 := popcount_spec_le hok.size_ok hok.white_in
  have h100 := (cell_index_lt hok.size_ok (valid_size_pos hok.size_ok)
    (valid_size_pos hok.size_ok)).2
  unfold board_score
  simp only
  omega

theorem square_bound {b : board_t} (hs : board_cheak_size b.size = true) :
    to_int (-((board_size b * board_size b : Nat) : Int)) = -((b.size : Int) * b.size) ∧
      to_int ((board_size b * board_size b : Nat) : Int) = (b.size : Int) * b.size ∧
      (b.size : Int) * b.size ≤ 100 ∧ (0 : Int) ≤ (b.size : Int) * b.size := by
  have h100 := (cell_index_lt hs (valid_size_pos hs) (valid_size_pos hs)).2
  have hq : ((b.size : Int) * b.size) ≤ 100 := by exact_mod_cast h100
  have hq0 : (0 : Int) ≤ (b.size : Int) * b.size := by positivity
  unfold board_size
  push_cast
  refine ⟨?_, to_int_square hs, hq, hq0⟩
  apply to_int_eq <;> omega

/-- The evaluation of a well-formed board is between −200 and 200. -/
theorem score_bound {b : board_t} (hok : PlanesOK b) (p : disc_t) :
    -200 ≤ score_heuristic b p ∧ score_heuristic b p ≤ 200 := by
  obtain ⟨h1, h2⟩ := plane_count_le hok
  obtain ⟨_, q2, q3, q4⟩ := square_bound hok.size_ok
  have h100 := (cell_index_lt hok.size_ok (valid_size_pos hok.size_ok)
    (valid_size_pos hok.size_ok)).2
  have h1i : ((board_score b).black : Int) ≤ 100 := by
    have : (board_score b).black ≤ 100 := by omega
    exact_mod_cast this
  have h2i : ((board_score b).white : Int) ≤ 100 := by
    have : (board_score b).white ≤ 100 := by omega
    exact_mod_cast this
  have hm := to_int_square hok.size_ok
  unfold score_heuristic
  simp only [board_size, hm]
  clear h1 h2 q2 hm
  generalize (board_score b).black = bk at h1i ⊢
  generalize (board_score b).white = wh at h2i ⊢
  generalize (b.size : Int) * b.size = q at q3 q4 ⊢
  by_cases hgt : bk > wh
  · have hne : bk ≠ wh := by omega
    simp only [hgt, if_true, hne, if_false]
    split_ifs <;> constructor <;> omega
  · simp only [hgt, if_false]
    split_ifs <;> constructor <;> omega

theorem infinity_eq : infinity = 300 := by decide

/-- The loops of `max` and `min` return a value between −300 and 300 as soon as their body
does. -/
theorem max_loop_total {fuel : Nat} (hfuel : 10 ≤ fuel) (child : board_t → Except fault_t Int)
    (hchild : ∀ c, Reachable fuel c → ∃ v, child c = Except.ok v ∧ -300 ≤ v ∧ v ≤ 300)
    (todo : Nat) :
    ∀ (b : board_t) (x : Int), Reachable fuel b → (todo ≠ 0 → IsColour b.player) →
      -300 ≤ x → x ≤ 300 →
      ∃ v, max_loop fuel child todo b x = Except.ok v ∧ -300 ≤ v ∧ v ≤ 300 := by
  induction todo with
  | zero => exact fun b x _ _ h1 h2 => ⟨x, rfl, h1, h2⟩
  | succ n ih =>
    intro b x hb hpl h1 h2
    obtain ⟨e1, hr, hpl2, c, e2, hc⟩ := search_step hfuel hb (hpl (Nat.succ_ne_zero n))
    obtain ⟨v, e3, hv1, hv2⟩ := hchild c hc
    unfold max_loop
    simp only [e1, e2, e3]
    apply ih _ _ hr (fun _ => hpl2) <;> split_ifs <;> omega

theorem min_loop_total {fuel : Nat} (hfuel : 10 ≤ fuel) (child : board_t → Except fault_t Int)
    (hchild : ∀ c, Reachable fuel c → ∃ v, child c = Except.ok v ∧ -300 ≤ v ∧ v ≤ 300)
    (todo : Nat) :
    ∀ (b : board_t) (x : Int), Reachable fuel b → (todo ≠ 0 → IsColour b.player) →
      -300 ≤ x → x ≤ 300 →
      ∃ v, min_loop fuel child todo b x = Except.ok v ∧ -300 ≤ v ∧ v ≤ 300 := by
  induction todo with
  | zero => exact fun b x _ _ h1 h2 => ⟨x, rfl, h1, h2⟩
  | succ n ih =>
    intro b x hb hpl h1 h2
    obtain ⟨e1, hr, hpl2, c, e2, hc⟩ := search_step hfuel hb (hpl (Nat.succ_ne_zero n))
    obtain ⟨v, e3, hv1, hv2⟩ := hchild c hc
    unfold min_loop
    simp only [e1, e2, e3]
    apply ih _ _ hr (fun _ => hpl2) <;> split_ifs <;> omega

/-- With more gas than depth, `max` and `min` return a value between −300 and 300 on every
board the interface can produce. -/
theorem minimax_total {fuel : Nat} (hfuel : 10 ≤ fuel) (gas : Nat) :
    ∀ (b : board_t) (depth : Nat) (p : disc_t), depth < gas → Reachable fuel b →
      (∃ v, max fuel gas b depth p = Except.ok v ∧ -300 ≤ v ∧ v ≤ 300) ∧
        (∃ v, min fuel gas b depth p = Except.ok v ∧ -300 ≤ v ∧ v ≤ 300) := by
  induction gas with
  | zero => intro b depth p h; omega
  | succ gas ih =>
    intro b depth p hd hb
    obtain ⟨hok, _⟩ := reachable_ok hfuel hb
    obtain ⟨sb1, sb2⟩ := score_bound hok p
    obtain ⟨q1, q2, q3, q4⟩ := square_bound hok.size_ok
    by_cases h0 : depth = 0 ∨ board_player b = disc_t.EMPTY_DISC
    · simp only [max, min, if_pos h0]
      exact ⟨⟨_, rfl, by omega, by omega⟩, ⟨_, rfl, by omega, by omega⟩⟩
    · have hd0 : depth ≠ 0 := fun h => h0 (Or.inl h)
      have hd1 : depth - 1 < gas := by omega
      have hd2 : (if depth ≤ 2 then 0 else depth - 2) < gas := by split_ifs <;> omega
      simp only [max, min, if_neg h0]
      constructor
      · apply max_loop_total hfuel _ _ _ _ _ hb (fun h => count_pos_colour h)
          (by rw [q1]; omega) (by rw [q1]; omega)
        intro c hc
        obtain ⟨hokc, _⟩ := reachable_ok hfuel hc
        obtain ⟨s1, s2⟩ := score_bound hokc p
        generalize (if depth ≤ 2 then 0 else depth - 2) = d2 at hd2 ⊢
        by_cases he : board_player c = disc_t.EMPTY_DISC
        · rw [if_pos he]
          exact ⟨_, rfl, by omega, by omega⟩
        · rw [if_neg he]
          by_cases hs : board_player c = board_player b
          · rw [if_pos hs]
            exact (ih c _ p hd2 hc).1
          · rw [if_neg hs]
            obtain ⟨v, e, v1, v2⟩ := (ih c _ p hd1 hc).2
            rw [e]
            exact ⟨_, rfl, by omega, by omega⟩
      · apply min_loop_total hfuel _ _ _ _ _ hb (fun h => count_pos_colour h)
          (by rw [q2]; omega) (by rw [q2]; omega)
        intro c hc
        obtain ⟨hokc, _⟩ := reachable_ok hfuel hc
        obtain ⟨s1, s2⟩ := score_bound hokc p
        generalize (if depth ≤ 2 then 0 else depth - 2) = d2 at hd2 ⊢
        by_cases he : board_player c = disc_t.EMPTY_DISC
        · rw [if_pos he]
          exact ⟨_, rfl, by omega, by omega⟩
        · rw [if_neg he]
          by_cases hs : board_player c = board_player b
          · rw [if_pos hs]
            exact (ih c _ p hd2 hc).2
          · rw [if_neg hs]
            obtain ⟨v, e, v1, v2⟩ := (ih c _ p hd1 hc).1
            rw [e]
            exact ⟨_, rfl, by omega, by omega⟩

/-! ## The selection of the minimax player -/

theorem next_moves_succ (k : Nat) : ∀ b : board_t,
    (next_moves (k + 1) b).2 = (board_next_move (next_moves k b).2).2 := by
  induction k with
  | zero => intro b; rfl
  | succ k ih =>
    intro b
    have := ih (board_next_move b).2
    simp only [next_moves] at this ⊢
    exact this

theorem next_moves_reachable {fuel : Nat} {b : board_t} (hb : Reachable fuel b) (k : Nat) :
    Reachable fuel (next_moves k b).2 := by
  induction k with
  | zero => exact hb
  | succ k ihk =>
    rw [next_moves_succ]
    exact Reachable.next_move _ ihk

/-- One step of the selection. -/
theorem selected_step {b : board_t} {val : Nat → Int} {j : Nat} {st : minimax_state}
    (h : Selected b val j st) (hv : -300 ≤ val j) :
    Selected b val (j + 1)
      (if val j > st.best_value then
        { best_value := val j, possible_moves := [move_at b j] }
      else if val j = st.best_value then
        { st with possible_moves := st.possible_moves ++ [move_at b j] }
      else st) := by
  right
  refine ⟨Nat.succ_pos j, ?_⟩
  rcases h with ⟨rfl, rfl⟩ | ⟨hj, hle, hpm, i0, hi0, ei0⟩
  · rw [infinity_eq]
    by_cases h1 : val 0 > -300
    · rw [if_pos h1]
      refine ⟨fun i hi => ?_, ?_, 0, Nat.succ_pos 0, rfl⟩
      · have : i = 0 := by omega
        rw [this]
      · simp [List.range_succ]
    · have h2 : val 0 = -300 := by omega
      rw [if_neg h1, if_pos h2]
      refine ⟨fun i hi => ?_, ?_, 0, Nat.succ_pos 0, h2⟩
      · have : i = 0 := by omega
        rw [this, h2]
      · simp [List.range_succ, h2]
  · by_cases h1 : val j > st.best_value
    · rw [if_pos h1]
      refine ⟨fun i hi => ?_, ?_, j, Nat.lt_succ_self j, rfl⟩
      · rcases Nat.lt_succ_iff_lt_or_eq.1 hi with h | h
        · have := hle i h
          simp only
          omega
        · rw [h]
      · simp only [List.range_succ, List.filter_append, List.map_append]
        have hnil : (List.range j).filter (fun i => decide (val i = val j)) = [] := by
          rw [List.filter_eq_nil_iff]
          intro i hi
          have := hle i (List.mem_range.1 hi)
          simp only [decide_eq_true_eq]
          omega
        rw [hnil]
        simp
    · rw [if_neg h1]
      by_cases h2 : val j = st.best_value
      · rw [if_pos h2]
        refine ⟨fun i hi => ?_, ?_, j, Nat.lt_succ_self j, h2⟩
        · rcases Nat.lt_succ_iff_lt_or_eq.1 hi with h | h
          · exact hle i h
          · rw [h, h2]
        · simp only [List.range_succ, List.filter_append, List.map_append, hpm]
          simp [h2]
      · rw [if_neg h2]
        refine ⟨fun i hi => ?_, ?_, i0, Nat.lt_succ_of_lt hi0, ei0⟩
        · rcases Nat.lt_succ_iff_lt_or_eq.1 hi with h | h
          · exact hle i h
          · rw [h]
            omega
        · simp only [List.range_succ, List.filter_append, List.map_append, hpm]
          simp [h2]

/-- The copy of every iteration of the loop of `minimax_player`, and its value. -/
theorem root_value_total {fuel gas : Nat} (hfuel : 10 ≤ fuel) {b : board_t}
    (hb : Reachable fuel b) (hgas : minimax_depth b.size < gas)
    (hk : board_count_player_moves b ≠ 0) {c : board_t} {k : Nat} (h : Scan fuel b c k)
    (hc : c = (next_moves k b).2) :
    (board_next_move c).1 = move_at b k ∧
    (board_next_move c).2 = (next_moves (k + 1) b).2 ∧
    board_copy (board_next_move c).2 = some (board_next_move c).2 ∧
    board_is_move_valid b (move_at b k) = true ∧
    (∃ b2, board_play fuel b (move_at b k) = some (true, b2) ∧
      root_child fuel b k = Except.ok (with_cursor (next_moves (k + 1) b).2.next_move b2)) ∧
    ∃ child v, root_child fuel b k = Except.ok child ∧
      min fuel gas child (minimax_depth (board_size b)) (board_player b) = Except.ok v ∧
      root_value fuel gas b k = Except.ok (-v) ∧ -300 ≤ -v ∧ -v ≤ 300 := by
  obtain ⟨e1, _⟩ := scan_next hfuel hb hk h
  have e2 : (board_next_move c).2 = (next_moves (k + 1) b).2 := by
    rw [next_moves_succ, hc]
  obtain ⟨e3, _, _, child, e4, hr⟩ := search_step hfuel h.reach (scan_colour hfuel hb hk h)
  obtain ⟨hv, b2, e5, _, e6⟩ := scan_child hfuel hb hk h
  rw [e1, e2] at e4 e6
  obtain ⟨v, e7, v1, v2⟩ := (minimax_total hfuel gas child (minimax_depth (board_size b))
    (board_player b) hgas hr).2
  refine ⟨e1, e2, e3, hv, ⟨b2, e5, e6⟩, child, v, e4, e7, ?_, by omega, by omega⟩
  unfold root_value
  rw [show root_child fuel b k = Except.ok child from e4]
  simp only [e7]

/-- The loop of `minimax_player` from its iteration of rank `k`. -/
theorem minimax_loop_selects {fuel gas : Nat} (hfuel : 10 ≤ fuel) {b : board_t}
    (hb : Reachable fuel b) (hgas : minimax_depth b.size < gas)
    (hk : board_count_player_moves b ≠ 0) (hc0 : b.next_move = 0) (val : Nat → Int)
    (hval : ∀ k, k < board_count_player_moves b →
      root_value fuel gas b k = Except.ok (val k) ∧ -300 ≤ val k)
    (todo : Nat) :
    ∀ (k : Nat) (st : minimax_state), k + todo = board_count_player_moves b →
      Selected b val k st →
      ∃ st2, minimax_loop fuel gas (minimax_depth (board_size b)) (board_player b) todo
          (next_moves k b).2 st =
          Except.ok (some st2, (next_moves (board_count_player_moves b) b).2) ∧
        Selected b val (board_count_player_moves b) st2 := by
  obtain ⟨hs, _, hm, _, hcount⟩ := reachable_enum hfuel hb hk
  induction todo with
  | zero =>
    intro k st hkn hsel
    rw [Nat.add_zero] at hkn
    subst hkn
    exact ⟨st, rfl, hsel⟩
  | succ todo ih =>
    intro k st hkn hsel
    have hlt : k < board_count_player_moves b := by omega
    have hscan : Scan fuel b (next_moves k b).2 k := by
      obtain ⟨_, q1, q2, q3, q4, q5, q6⟩ :=
        @next_moves_at k b 0 hs hm (scan_fresh hfuel hb hk hc0).cursor
      rw [Nat.zero_add, Nat.mod_eq_of_lt (by rw [← hcount]; exact hlt)] at q6
      exact ⟨next_moves_reachable hb k, ⟨q1, q2, q3, q4, q5⟩, q6⟩
    obtain ⟨e1, e2, e3, _, _, child, v, e4, e5, e6, _⟩ :=
      root_value_total hfuel hb hgas hk hscan rfl
    obtain ⟨e7, hv⟩ := hval k hlt
    have ev : -v = val k := by
      rw [e6] at e7
      exact Except.ok.inj e7
    unfold root_child at e4
    unfold minimax_loop
    rw [e3]
    simp only [e1, e2, e4, e5, ev]
    exact ih (k + 1) _ (by omega) (selected_step hsel hv)

/-! ## Claims on the minimax player -/

theorem getD_map {α β : Type} (f : α → β) (l : List α) (d : β) (t : Nat)
    (ht : t < l.length) : (l.map f).getD t d = f (l.get ⟨t, ht⟩) := by
  rw [List.getD_eq_getElem _ _ (by rw [List.length_map]; exact ht)]
  simp

/-- What `minimax_player` returns on a board with two legal moves or more, from the state
the selection has reached. -/
theorem minimax_player_eq {fuel gas : Nat} (hfuel : 10 ≤ fuel) {b : board_t}
    (hb : Reachable fuel b) (hgas : minimax_depth b.size < gas) (hc : b.next_move = 0)
    (hn : 2 ≤ board_count_player_moves b) :
    (∀ k, k < board_count_player_moves b →
      root_value fuel gas b k = Except.ok (root_value_of fuel gas b k) ∧
        -300 ≤ root_value_of fuel gas b k) ∧
    ∃ st, Selected b (root_value_of fuel gas b) (board_count_player_moves b) st ∧
      st.possible_moves ≠ [] ∧
      ∀ rnd, minimax_player fuel gas b rnd =
        Except.ok (st.possible_moves.getD (rnd % st.possible_moves.length)
          { row := MAX_BOARD_SIZE, column := MAX_BOARD_SIZE },
          (next_moves (board_count_player_moves b) b).2) := by
  have hk : board_count_player_moves b ≠ 0 := by omega
  obtain ⟨hs, _, hm, _, hcount⟩ := reachable_enum hfuel hb hk
  have hval : ∀ k, k < board_count_player_moves b →
      root_value fuel gas b k = Except.ok (root_value_of fuel gas b k) ∧
        -300 ≤ root_value_of fuel gas b k := by
    intro k hlt
    have hscan : Scan fuel b (next_moves k b).2 k := by
      obtain ⟨_, q1, q2, q3, q4, q5, q6⟩ :=
        @next_moves_at k b 0 hs hm (scan_fresh hfuel hb hk hc).cursor
      rw [Nat.zero_add, Nat.mod_eq_of_lt (by rw [← hcount]; exact hlt)] at q6
      exact ⟨next_moves_reachable hb k, ⟨q1, q2, q3, q4, q5⟩, q6⟩
    obtain ⟨_, _, _, _, _, child, v, _, _, e6, v1, _⟩ :=
      root_value_total hfuel hb hgas hk hscan rfl
    unfold root_value_of
    rw [e6]
    exact ⟨rfl, v1⟩
  refine ⟨hval, ?_⟩
  obtain ⟨st, eloop, hsel⟩ := minimax_loop_selects hfuel hb hgas hk hc
    (root_value_of fuel gas b) hval (board_count_player_moves b) 0
    { best_value := -infinity, possible_moves := [] } (by omega) (Or.inl ⟨rfl, rfl⟩)
  have hne : st.possible_moves ≠ [] := by
    rcases hsel with ⟨h0, _⟩ | ⟨_, _, hpm, i, hi, ei⟩
    · omega
    · rw [hpm]
      intro hnil
      have hmem : i ∈ (List.range (board_count_player_moves b)).filter
          (fun i => decide (root_value_of fuel gas b i = st.best_value)) :=
        List.mem_filter.2 ⟨List.mem_range.2 hi, by simp [ei]⟩
      rw [List.map_eq_nil_iff] at hnil
      rw [hnil] at hmem
      cases hmem
  refine ⟨st, hsel, hne, fun rnd => ?_⟩
  have hlen : st.possible_moves.length ≠ 0 := fun h => hne (List.length_eq_zero.1 h)
  have h1 : ¬ board_count_player_moves b = 1 := by omega
  unfold minimax_player
  simp only [if_neg h1]
  have eloop2 : minimax_loop fuel gas (minimax_depth (board_size b)) (board_player b)
      (board_count_player_moves b) b { best_value := -infinity, possible_moves := [] } =
      Except.ok (some st, (next_moves (board_count_player_moves b) b).2) := eloop
  rw [eloop2]
  simp only [rand_mod, if_neg hlen]

/-- The selection of `minimax_player` on the values it computes: for every board the
interface can produce with at least two legal moves and a fresh cursor, the legal moves are
the moves `move_at b k` of rank k below their number; the loop gives the move of rank k the
opposite of what `min` returns, at the depth `depth_ini` and for the mover, on the copy it
plays the move on, which is the board after the move carrying the cursor that the enumeration
of the root has reached, not the position after the move with its own enumeration; the move
`minimax_player` returns is, for every random draw, a legal move whose value so computed is
the greatest, and every legal move attaining it is returned for some random draw. -/
theorem minimax_player_selects (fuel gas : Nat) (hfuel : 10 ≤ fuel) (b : board_t)
    (hb : Reachable fuel b) (hgas : minimax_depth b.size < gas) (hc : b.next_move = 0)
    (hn : 2 ≤ board_count_player_moves b) :
    ∃ val : Nat → Int,
      (∀ m, board_is_move_valid b m = true ↔
        ∃ k, k < board_count_player_moves b ∧ move_at b k = m) ∧
      (∀ k, k < board_count_player_moves b →
        (∃ c, board_play fuel b (move_at b k) = some (true, c) ∧
          root_child fuel b k =
            Except.ok (with_cursor (next_moves (k + 1) b).2.next_move c)) ∧
        root_value fuel gas b k = Except.ok (val k)) ∧
      (∀ rnd, ∃ r k, minimax_player fuel gas b rnd = Except.ok r ∧
        k < board_count_player_moves b ∧ r.1 = move_at b k ∧
        board_is_move_valid b r.1 = true ∧
        ∀ j, j < board_count_player_moves b → val j ≤ val k) ∧
      (∀ k, k < board_count_player_moves b →
        (∀ j, j < board_count_player_moves b → val j ≤ val k) →
        ∃ rnd r, minimax_player fuel gas b rnd = Except.ok r ∧ r.1 = move_at b k) := by
  have hk : board_count_player_moves b ≠ 0 := by omega
  obtain ⟨hs, hpl, hm, _, hcount⟩ := reachable_enum hfuel hb hk
  obtain ⟨hval, st, hsel, hne, hplay⟩ := minimax_player_eq hfuel hb hgas hc hn
  have hscan : ∀ k, k < board_count_player_moves b → Scan fuel b (next_moves k b).2 k := by
    intro k hlt
    obtain ⟨_, q1, q2, q3, q4, q5, q6⟩ :=
      @next_moves_at k b 0 hs hm (scan_fresh hfuel hb hk hc).cursor
    rw [Nat.zero_add, Nat.mod_eq_of_lt (by rw [← hcount]; exact hlt)] at q6
    exact ⟨next_moves_reachable hb k, ⟨q1, q2, q3, q4, q5⟩, q6⟩
  have hvalid : ∀ m, board_is_move_valid b m = true ↔
      ∃ k, k < board_count_player_moves b ∧ move_at b k = m := by
    intro m
    rw [hcount]
    exact valid_iff_move_at hs hpl m
  have hlen : st.possible_moves.length ≠ 0 := fun h => hne (List.length_eq_zero.1 h)
  obtain ⟨hpos, hle, hpm, i0, hi0, ei0⟩ : 0 < board_count_player_moves b ∧
      (∀ i, i < board_count_player_moves b → root_value_of fuel gas b i ≤ st.best_value) ∧
      st.possible_moves = ((List.range (board_count_player_moves b)).filter
        (fun i => decide (root_value_of fuel gas b i = st.best_value))).map (move_at b) ∧
      ∃ i, i < board_count_player_moves b ∧ root_value_of fuel gas b i = st.best_value := by
    rcases hsel with ⟨h0, _⟩ | h
    · omega
    · exact h
  generalize hidx : (List.range (board_count_player_moves b)).filter
    (fun i => decide (root_value_of fuel gas b i = st.best_value)) = idxs at hpm
  have hin : ∀ i, i ∈ idxs ↔
      i < board_count_player_moves b ∧ root_value_of fuel gas b i = st.best_value := by
    intro i
    rw [← hidx, List.mem_filter, List.mem_range, decide_eq_true_eq]
  rw [hpm] at hplay hlen
  rw [List.length_map] at hlen
  simp only [List.length_map] at hplay
  refine ⟨root_value_of fuel gas b, hvalid, fun k hlt => ⟨?_, (hval k hlt).1⟩, ?_, ?_⟩
  · exact (root_value_total hfuel hb hgas hk (hscan k hlt) rfl).2.2.2.2.1
  · intro rnd
    have hlt : rnd % idxs.length < idxs.length := Nat.mod_lt _ (Nat.pos_of_ne_zero hlen)
    obtain ⟨hr, hd⟩ := (hin _).1 (List.get_mem idxs _ hlt)
    have e := getD_map (move_at b) idxs { row := MAX_BOARD_SIZE, column := MAX_BOARD_SIZE }
      _ hlt
    have hp := hplay rnd
    rw [e] at hp
    exact ⟨_, _, hp, hr, rfl, (hvalid _).2 ⟨_, hr, rfl⟩, fun j hj => by
      rw [hd]; exact hle j hj⟩
  · intro k hlt hmax
    have ek : root_value_of fuel gas b k = st.best_value := by
      have h1 := hle k hlt
      have h2 := hmax i0 hi0
      omega
    obtain ⟨⟨t, ht⟩, et⟩ := List.get_of_mem ((hin k).2 ⟨hlt, ek⟩)
    have e := getD_map (move_at b) idxs { row := MAX_BOARD_SIZE, column := MAX_BOARD_SIZE }
      (t % idxs.length) (Nat.mod_lt _ (Nat.pos_of_ne_zero hlen))
    refine ⟨t, _, hplay t, ?_⟩
    simp only
    rw [e]
    congr 1
    rw [← et]
    congr 1
    exact Fin.ext (Nat.mod_eq_of_lt ht)

theorem minimax_player_selects_witness :
    10 ≤ 10 ∧ Reachable 10 start4 ∧ minimax_depth start4.size < 9 ∧ start4.next_move = 0 ∧
    2 ≤ board_count_player_moves start4 ∧
    ∃ val : Nat → Int,
      (∀ m, board_is_move_valid start4 m = true ↔
        ∃ k, k < board_count_player_moves start4 ∧ move_at start4 k = m) ∧
      (∀ k, k < board_count_player_moves start4 →
        (∃ c, board_play 10 start4 (move_at start4 k) = some (true, c) ∧
          root_child 10 start4 k =
            Except.ok (with_cursor (next_moves (k + 1) start4).2.next_move c)) ∧
        root_value 10 9 start4 k = Except.ok (val k)) ∧
      (∀ rnd, ∃ r k, minimax_player 10 9 start4 rnd = Except.ok r ∧
        k < board_count_player_moves start4 ∧ r.1 = move_at start4 k ∧
        board_is_move_valid start4 r.1 = true ∧
        ∀ j, j < board_count_player_moves start4 → val j ≤ val k) ∧
      (∀ k, k < board_count_player_moves start4 →
        (∀ j, j < board_count_player_moves start4 → val j ≤ val k) →
        ∃ rnd r, minimax_player 10 9 start4 rnd = Except.ok r ∧ r.1 = move_at start4 k) :=
  ⟨by decide, Reachable.init 4 start4 (by decide), by decide, rfl, by decide,
    minimax_player_selects 10 9 (by decide) start4 (Reachable.init 4 start4 (by decide))
      (by decide) rfl (by decide)⟩

/-! ## The corners to examine -/

theorem and_two_pow_eq_self (x k : Nat) : 2 ^ k &&& x = 2 ^ k ↔ x.testBit k = true := by
  constructor
  · intro h
    have := congrArg (fun y => y.testBit k) h
    simpa [Nat.testBit_and, Nat.testBit_two_pow] using this
  · intro h
    apply Nat.eq_of_testBit_eq
    intro j
    rw [Nat.testBit_and, Nat.testBit_two_pow]
    by_cases hj : k = j
    · subst hj
      simp [h]
    · simp [hj]

/-- The four entries of the array `corners` are the bits of the four corner cells. -/
theorem corners_array {s : Nat} (hs : board_cheak_size s = true) (i : Nat) (hi : i < 4) :
    [1, shl128 1 (s - 1), shl128 1 (s * s - 1) >>> (s - 1), shl128 1 (s * s - 1)].getD i 0 =
      2 ^ corner_cell s i ∧
    (get_corner_as_move s i).row < s ∧ (get_corner_as_move s i).column < s := by
  rcases valid_size_cases hs with h | h | h | h | h <;> subst h <;>
    interval_cases i <;> decide

theorem get_corners_testBit {s : Nat} (hs : board_cheak_size s = true) (n : Nat) :
    (get_corners s).testBit n = true ↔ ∃ i, i < 4 ∧ n = corner_cell s i := by
  have e : get_corners s = 2 ^ corner_cell s 0 ||| 2 ^ corner_cell s 1 |||
      2 ^ corner_cell s 2 ||| 2 ^ corner_cell s 3 := by
    rcases valid_size_cases hs with h | h | h | h | h <;> subst h <;> decide
  rw [e]
  simp only [Nat.testBit_or, Nat.testBit_two_pow, Bool.or_eq_true, decide_eq_true_eq]
  constructor
  · rintro (((h | h) | h) | h)
    · exact ⟨0, by omega, h.symm⟩
    · exact ⟨1, by omega, h.symm⟩
    · exact ⟨2, by omega, h.symm⟩
    · exact ⟨3, by omega, h.symm⟩
  · rintro ⟨i, hi, rfl⟩
    interval_cases i
    · exact Or.inl (Or.inl (Or.inl rfl))
    · exact Or.inl (Or.inl (Or.inr rfl))
    · exact Or.inl (Or.inr rfl)
    · exact Or.inr rfl

theorem playable_corners_testBit {b : board_t} (hs : board_cheak_size b.size = true) (n : Nat) :
    (get_playable_corners b).testBit n = true ↔
      b.moves.testBit n = true ∧ ∃ i, i < 4 ∧ n = corner_cell b.size i := by
  unfold get_playable_corners board_size
  rw [Nat.testBit_and, Bool.and_eq_true, get_corners_testBit hs]

theorem playable_corners_confined {b : board_t} (hs : board_cheak_size b.size = true) :
    Confined b.size (get_playable_corners b) := by
  apply confined_of_testBit
  intro n hn
  cases h : (get_playable_corners b).testBit n
  · rfl
  · obtain ⟨_, i, hi, rfl⟩ := (playable_corners_testBit hs n).1 h
    have := corners_array hs i hi
    have := cell_index_lt hs this.2.1 this.2.2
    unfold corner_cell at hn
    omega

theorem opponent_of_other {p q : disc_t} (hp : IsColour p) (hq : IsColour q) (h : q ≠ p) :
    q = opponent_of p := by
  rcases hp with rfl | rfl <;> rcases hq with rfl | rfl <;> first | rfl | exact absurd rfl h

theorem opponent_of_ne {p : disc_t} (hp : IsColour p) : opponent_of p ≠ p := by
  rcases hp with rfl | rfl <;> decide

theorem board_copy_no_colour {b : board_t} (h : ¬IsColour b.player) : board_copy b = none := by
  have : board_alloc b.size b.player = none := by
    rw [board_alloc_none_iff]
    right
    exact ⟨fun h1 => h (Or.inl h1), fun h2 => h (Or.inr h2)⟩
  unfold board_copy
  rw [this]
  rfl

/-- One iteration of the loop of `get_corners_to_exam`: the cells the play of the i-th corner
exposes are added. -/
theorem corners_step_spec {fuel : Nat} (hfuel : 10 ≤ fuel) {b : board_t}
    (hb : Reachable fuel b) (i : Nat) (hi : i < 4) (d : bitboard_t) :
    ∃ d2, corners_step fuel b (get_playable_corners b)
        [1, shl128 1 (board_size b - 1),
          shl128 1 (board_size b * board_size b - 1) >>> (board_size b - 1),
          shl128 1 (board_size b * board_size b - 1)] d i = some d2 ∧
      ∀ n, d2.testBit n = true ↔ d.testBit n = true ∨ Exposes fuel b i n := by
  obtain ⟨hok, hfresh⟩ := reachable_ok hfuel hb
  have hs := hok.size_ok
  obtain ⟨ea, hr, hc⟩ := corners_array hs i hi
  unfold corners_step board_size
  rw [ea]
  by_cases hbit : (get_playable_corners b).testBit (corner_cell b.size i) = true
  · rw [if_pos ((and_two_pow_eq_self _ _).2 hbit)]
    by_cases hpl : IsColour b.player
    · have hv : board_is_move_valid b (get_corner_as_move b.size i) = true := by
        rw [move_valid_iff hs hpl]
        exact ⟨hr, hc, ((playable_corners_testBit hs _).1 hbit).1⟩
      obtain ⟨b2, e, _⟩ := board_play_valid hok hfresh hpl hfuel _ hv
      obtain ⟨hcol, _⟩ := board_play_colour_or_empty hok hfresh hfuel e (Or.inl hpl)
      rw [board_copy_some hs hpl]
      simp only [e]
      refine ⟨_, rfl, fun n => ?_⟩
      rw [Nat.testBit_or, Bool.or_eq_true, Nat.testBit_and, Bool.and_eq_true]
      apply or_congr Iff.rfl
      unfold joint_movement board_player
      constructor
      · rintro ⟨hn, hj⟩
        by_cases hp : b.player = b2.player
        · rw [if_pos hp, Nat.zero_testBit] at hj
          cases hj
        · rw [if_neg hp, Nat.testBit_and, Bool.and_eq_true] at hj
          have hcol2 : IsColour b2.player := by
            rcases hcol with h | h
            · exact h
            · rw [h, Nat.zero_testBit] at hj
              cases hj.2
          exact ⟨hbit, hn, b2, e, opponent_of_other hpl hcol2 (fun h => hp h.symm), hj.2⟩
      · rintro ⟨_, hn, c, ec, hp, hm⟩
        rw [e] at ec
        cases ec
        have hne : ¬b.player = b2.player := by
          rw [hp]
          exact fun h => opponent_of_ne hpl h.symm
        rw [if_neg hne, Nat.testBit_and, Bool.and_eq_true]
        exact ⟨hn, ((playable_corners_testBit hs _).1 hn).1, hm⟩
    · rw [board_copy_no_colour hpl]
      refine ⟨_, rfl, fun n => ?_⟩
      rw [Nat.and_zero, Nat.or_zero]
      constructor
      · exact Or.inl
      · rintro (h | ⟨_, _, c, ec, _⟩)
        · exact h
        · rw [board_play_no_colour fuel b _ (fun h => hpl (Or.inl h))
            (fun h => hpl (Or.inr h))] at ec
          cases ec
  · rw [if_neg (fun h => hbit ((and_two_pow_eq_self _ _).1 h))]
    refine ⟨d, rfl, fun n => ?_⟩
    constructor
    · exact Or.inl
    · rintro (h | ⟨h, _⟩)
      · exact h
      · exact absurd h hbit

/-- What `get_corners_to_exam` returns on a board with two playable corners or more: the
cells the loop has collected when there is one, all playable corners otherwise. -/
theorem corners_to_exam_eq {fuel : Nat} (hfuel : 10 ≤ fuel) {b : board_t}
    (hb : Reachable fuel b) (h2 : 2 ≤ (cells_of b.size (get_playable_corners b)).length) :
    ∃ d, get_corners_to_exam fuel b =
        some (if d = 0 then get_playable_corners b else d) ∧
      ∀ n, d.testBit n = true ↔ Exposed fuel b n := by
  obtain ⟨hok, hfresh⟩ := reachable_ok hfuel hb
  have hs := hok.size_ok
  have hconf := playable_corners_confined (b := b) hs
  have hpop : bitboard_popcount (get_playable_corners b) =
      (cells_of b.size (get_playable_corners b)).length := by
    rw [bitboard_popcount_eq _ (confined_lt hs hconf), popcount_cells hs hconf]
  have hcond : ¬(get_playable_corners b = 0 ∨
      bitboard_popcount (get_playable_corners b) = 1) := by
    rintro (h | h)
    · rw [h, cells_of_zero] at h2
      simp at h2
    · omega
  obtain ⟨d0, e0, h0⟩ := corners_step_spec hfuel hb 0 (by omega) 0
  obtain ⟨d1, e1, h1⟩ := corners_step_spec hfuel hb 1 (by omega) d0
  obtain ⟨d2, e2, h2⟩ := corners_step_spec hfuel hb 2 (by omega) d1
  obtain ⟨d3, e3, h3⟩ := corners_step_spec hfuel hb 3 (by omega) d2
  refine ⟨d3, ?_, fun n => ?_⟩
  · unfold get_corners_to_exam
    simp only [if_neg hcond, List.foldlM_cons, List.foldlM_nil, Option.bind_eq_bind, e0,
      Option.some_bind, e1, e2, e3, Option.pure_def]
    split_ifs <;> rfl
  · rw [h3, h2, h1, h0, Nat.zero_testBit]
    constructor
    · rintro ((((h | h) | h) | h) | h)
      · cases h
      · exact ⟨0, by omega, h⟩
      · exact ⟨1, by omega, h⟩
      · exact ⟨2, by omega, h⟩
      · exact ⟨3, by omega, h⟩
    · rintro ⟨i, hi, h⟩
      interval_cases i
      · exact Or.inl (Or.inl (Or.inl (Or.inr h)))
      · exact Or.inl (Or.inl (Or.inr h))
      · exact Or.inl (Or.inr h)
      · exact Or.inr h

/-! ## Claims on the corners -/

/-- After a move is played its cell is not in the mask of the board. -/
theorem played_cell_not_legal {fuel : Nat} {b c : board_t} {m : move_t} (hok : PlanesOK b)
    (hfresh : MaskFresh b) (hfuel : 10 ≤ fuel) (h : board_play fuel b m = some (true, c)) :
    c.moves.testBit (m.row * b.size + m.column) = false := by
  obtain ⟨hok2, _, _, hunion⟩ := board_play_union hok hfresh hfuel h
  obtain ⟨hpl, hv⟩ := board_play_true hok hfresh hfuel h
  obtain ⟨b3, e, _, fresh3, hsize, _, ⟨hr, hc, _⟩, _⟩ :=
    board_play_valid hok hfresh hpl hfuel m hv
  rw [e] at h
  cases h
  obtain ⟨hcol, _⟩ := board_play_colour_or_empty hok hfresh hfuel e (Or.inl hpl)
  rcases hcol with hcol | h0
  · cases hbit : c.moves.testBit (m.row * b.size + m.column)
    · rfl
    · exfalso
      have hdisj : mover_plane c &&& other_plane c = 0 := by
        rcases mover_other_disjoint hok2 with h | h | h
        · exact h
        · rcases hcol with h2 | h2 <;> rw [h2] at h <;> cases h
        · rcases hcol with h2 | h2 <;> rw [h2] at h <;> cases h
      rw [mask_fresh_mover fresh3 hcol] at hbit
      obtain ⟨r, k, hr2, hk2, hidx, hp, ho, _⟩ :=
        (moves_of_testBit_iff hok2.size_ok (other_plane_confined hok2) hdisj _).1 hbit
      rw [cellAt_nat _ hr2 hk2, ← hidx] at hp ho
      have hu : (c.black ||| c.white).testBit (m.row * b.size + m.column) = true := by
        rw [hunion, Nat.testBit_or, Nat.testBit_two_pow]
        simp
      rw [Nat.testBit_or] at hu
      unfold mover_plane at hp
      unfold other_plane at ho
      rcases hcol with h2 | h2 <;> rw [h2] at hp ho <;> simp at hp ho <;>
        rw [hp, ho] at hu <;> cases hu
  · rw [h0, Nat.zero_testBit]

theorem testBit_iff_mem_cells {s x : Nat} (hx : Confined s x) (j : Nat) :
    x.testBit j = true ↔ j ∈ cells_of s x := by
  rw [mem_cells_of]
  constructor
  · intro h
    refine ⟨?_, h⟩
    by_contra hlt
    rw [hx.testBit_false (by omega)] at h
    cases h
  · exact fun h => h.2

theorem corner_move_eq {s : Nat} (hs : board_cheak_size s = true) {i j : Nat} (hi : i < 4)
    (hj : j < 4) (h : corner_cell s i = corner_cell s j) :
    get_corner_as_move s i = get_corner_as_move s j := by
  obtain ⟨_, _, c1⟩ := corners_array hs i hi
  obtain ⟨_, _, c2⟩ := corners_array hs j hj
  obtain ⟨e1, e2⟩ := index_inj c1 c2 h
  cases hm : get_corner_as_move s i
  cases hm2 : get_corner_as_move s j
  rw [hm, hm2] at e1 e2
  simp only at e1 e2
  rw [e1, e2]

/-- The 4 × 4 boards of the game that leads to `corners4`. -/
theorem corners4_game :
    board_init 10 4 = some start4 ∧
    board_play 10 start4 ⟨0, 1⟩ = some (true, second4) ∧
    board_play 10 second4 ⟨2, 0⟩ =
      some (true, ⟨4, disc_t.BLACK_DISC, 98, 1792, 61440, 0⟩) ∧
    board_play 10 ⟨4, disc_t.BLACK_DISC, 98, 1792, 61440, 0⟩ ⟨3, 2⟩ =
      some (true, ⟨4, disc_t.WHITE_DISC, 17506, 768, 2060, 0⟩) ∧
    board_play 10 ⟨4, disc_t.WHITE_DISC, 17506, 768, 2060, 0⟩ ⟨0, 2⟩ =
      some (true, corners4) := by
  decide

theorem corners4_reachable : Reachable 10 corners4 :=
  Reachable.play _ _ _ _ (Reachable.play _ _ _ _ (Reachable.play _ _ _ _
    (Reachable.play _ _ _ _ (Reachable.init 4 start4 corners4_game.1) corners4_game.2.1)
    corners4_game.2.2.1) corners4_game.2.2.2.1) corners4_game.2.2.2.2

/-- The 4 × 4 boards of the game that leads to `twin4`. -/
theorem twin4_game :
    board_init 10 4 = some start4 ∧
    board_play 10 start4 ⟨0, 1⟩ = some (true, second4) ∧
    board_play 10 second4 ⟨0, 0⟩ =
      some (true, ⟨4, disc_t.BLACK_DISC, 578, 1057, 18448, 0⟩) ∧
    board_play 10 ⟨4, disc_t.BLACK_DISC, 578, 1057, 18448, 0⟩ ⟨3, 2⟩ =
      some (true, ⟨4, disc_t.WHITE_DISC, 17986, 33, 41092, 0⟩) ∧
    board_play 10 ⟨4, disc_t.WHITE_DISC, 17986, 33, 41092, 0⟩ ⟨3, 1⟩ =
      some (true, ⟨4, disc_t.BLACK_DISC, 17474, 8737, 4368, 0⟩) ∧
    board_play 10 ⟨4, disc_t.BLACK_DISC, 17474, 8737, 4368, 0⟩ ⟨1, 0⟩ =
      some (true, ⟨4, disc_t.WHITE_DISC, 18034, 8193, 33156, 0⟩) ∧
    board_play 10 ⟨4, disc_t.WHITE_DISC, 18034, 8193, 33156, 0⟩ ⟨1, 3⟩ =
      some (true, twin4) := by
  decide

theorem twin4_reachable : Reachable 10 twin4 :=
  Reachable.play _ _ _ _ (Reachable.play _ _ _ _ (Reachable.play _ _ _ _
    (Reachable.play _ _ _ _ (Reachable.play _ _ _ _ (Reachable.play _ _ _ _
      (Reachable.init 4 start4 twin4_game.1) twin4_game.2.1) twin4_game.2.2.1)
      twin4_game.2.2.2.1) twin4_game.2.2.2.2.1) twin4_game.2.2.2.2.2.1)
    twin4_game.2.2.2.2.2.2

theorem second4_reachable : Reachable 10 second4 :=
  Reachable.play _ _ _ _ (Reachable.init 4 start4 corners4_game.1) corners4_game.2.1

/-- C29, counterexample: on the 4 × 4 board after the moves (0, 1), (2, 0), (3, 2) and
(0, 2), Black has the three playable corners (0, 0), (0, 3) and (3, 0), of cells 0, 3 and
12; the set D of the corners whose simulated play leaves a joint movement on the playable
corners is (0, 0) and (3, 0), of mask 4097, and `get_corners_to_exam` returns the mask 9 of
(0, 0) and (0, 3). -/
theorem corners_to_exam_counterexample :
    board_play 10 ⟨4, disc_t.WHITE_DISC, 17506, 768, 2060, 0⟩ ⟨0, 2⟩ = some (true, corners4) ∧
    cells_of 4 (get_playable_corners corners4) = [0, 3, 12] ∧
    claimed_corners 10 corners4 = some 4097 ∧
    get_corners_to_exam 10 corners4 = some 9 := by
  decide

/-- C29, amended: for every board the interface can produce with at least two playable
corners, let E be the set of the playable corners that are in the opponent's legal-move mask
after the simulated play of some playable corner that hands the move to the opponent;
`get_corners_to_exam` returns E when E is not empty and all playable corners when E is
empty. -/
theorem corners_to_exam_exposed (fuel : Nat) (hfuel : 10 ≤ fuel) (b : board_t)
    (hb : Reachable fuel b) (h2 : 2 ≤ (cells_of b.size (get_playable_corners b)).length) :
    ∃ res, get_corners_to_exam fuel b = some res ∧
      ((∃ n, Exposed fuel b n) → ∀ n, res.testBit n = true ↔ Exposed fuel b n) ∧
      ((¬∃ n, Exposed fuel b n) → res = get_playable_corners b) := by
  obtain ⟨d, e, hd⟩ := corners_to_exam_eq hfuel hb h2
  refine ⟨_, e, ?_, ?_⟩
  · rintro ⟨n, hn⟩ k
    have hne : d ≠ 0 := by
      intro h0
      have := (hd n).2 hn
      rw [h0, Nat.zero_testBit] at this
      cases this
    rw [if_neg hne]
    exact hd k
  · intro hnone
    have h0 : d = 0 := by
      apply Nat.eq_of_testBit_eq
      intro k
      rw [Nat.zero_testBit]
      cases hk : d.testBit k
      · rfl
      · exact absurd ⟨k, (hd k).1 hk⟩ hnone
    rw [if_pos h0]

theorem corners_to_exam_exposed_witness :
    10 ≤ 10 ∧ Reachable 10 corners4 ∧
    2 ≤ (cells_of corners4.size (get_playable_corners corners4)).length ∧
    get_corners_to_exam 10 corners4 = some 9 ∧
    ∃ res, get_corners_to_exam 10 corners4 = some res ∧
      ((∃ n, Exposed 10 corners4 n) → ∀ n, res.testBit n = true ↔ Exposed 10 corners4 n) ∧
      ((¬∃ n, Exposed 10 corners4 n) → res = get_playable_corners corners4) :=
  ⟨by decide, corners4_reachable, by decide, by decide,
    corners_to_exam_exposed 10 (by decide) corners4 corners4_reachable (by decide)⟩

/-- C30: for every board the interface can produce with exactly two playable corners, of
indices i1 and i2, such that playing either one hands the move to the opponent with the
same legal-move mask, `get_corners_to_exam` returns both corners; and for every board with
exactly one playable corner, of cell n, it returns exactly that corner. -/
theorem corners_to_exam_cases (fuel : Nat) (hfuel : 10 ≤ fuel) (b : board_t)
    (hb : Reachable fuel b) :
    (∀ i1 i2 c1 c2, i1 < 4 → i2 < 4 →
      cells_of b.size (get_playable_corners b) =
        [corner_cell b.size i1, corner_cell b.size i2] →
      board_play fuel b (get_corner_as_move b.size i1) = some (true, c1) →
      board_play fuel b (get_corner_as_move b.size i2) = some (true, c2) →
      c1.player = opponent_of b.player → c2.player = opponent_of b.player →
      c1.moves = c2.moves →
      get_corners_to_exam fuel b = some (get_playable_corners b) ∧
        get_playable_corners b = 2 ^ corner_cell b.size i1 ||| 2 ^ corner_cell b.size i2) ∧
    (∀ n, cells_of b.size (get_playable_corners b) = [n] →
      get_corners_to_exam fuel b = some (get_playable_corners b) ∧
        get_playable_corners b = 2 ^ n) := by
  obtain ⟨hok, hfresh⟩ := reachable_ok hfuel hb
  have hs := hok.size_ok
  have hconf := playable_corners_confined (b := b) hs
  constructor
  · intro i1 i2 c1 c2 hi1 hi2 hcells p1 p2 _ _ hsame
    have hmem := testBit_iff_mem_cells hconf
    rw [hcells] at hmem
    simp only [List.mem_cons, List.mem_singleton, List.not_mem_nil, or_false] at hmem
    obtain ⟨d, e, hd⟩ := corners_to_exam_eq hfuel hb (by rw [hcells]; simp)
    have q1 := played_cell_not_legal hok hfresh hfuel p1
    have q2 := played_cell_not_legal hok hfresh hfuel p2
    have h0 : d = 0 := by
      apply Nat.eq_of_testBit_eq
      intro k
      rw [Nat.zero_testBit]
      cases hk : d.testBit k
      · rfl
      · exfalso
        obtain ⟨i, hi, hbi, hbk, c, pc, _, hm⟩ := (hd k).1 hk
        have hc : c.moves = c1.moves := by
          rcases (hmem _).1 hbi with h | h
          · rw [corner_move_eq hs hi hi1 h, p1] at pc
            cases pc
            rfl
          · rw [corner_move_eq hs hi hi2 h, p2] at pc
            cases pc
            exact hsame.symm
        rw [hc] at hm
        rcases (hmem _).1 hbk with h | h
        · rw [h] at hm
          unfold corner_cell at hm
          rw [q1] at hm
          cases hm
        · rw [h, hsame] at hm
          unfold corner_cell at hm
          rw [q2] at hm
          cases hm
    rw [if_pos h0] at e
    refine ⟨e, ?_⟩
    apply Nat.eq_of_testBit_eq
    intro k
    rw [Bool.eq_iff_iff, hmem, Nat.testBit_or, Bool.or_eq_true, Nat.testBit_two_pow,
      Nat.testBit_two_pow, decide_eq_true_eq, decide_eq_true_eq]
    constructor <;> rintro (h | h) <;> simp [h]
  · intro n hcells
    have hmem := testBit_iff_mem_cells hconf
    rw [hcells] at hmem
    simp only [List.mem_singleton] at hmem
    have hpop : bitboard_popcount (get_playable_corners b) = 1 := by
      rw [bitboard_popcount_eq _ (confined_lt hs hconf), popcount_cells hs hconf, hcells]
      rfl
    constructor
    · unfold get_corners_to_exam
      simp only [hpop, or_true, if_true]
    · apply Nat.eq_of_testBit_eq
      intro k
      rw [Bool.eq_iff_iff, hmem, Nat.testBit_two_pow, decide_eq_true_eq]
      exact eq_comm

theorem corners_to_exam_cases_witness :
    10 ≤ 10 ∧ Reachable 10 twin4 ∧ Reachable 10 second4 ∧
    (get_corners_to_exam 10 twin4 = some (get_playable_corners twin4) ∧
      get_playable_corners twin4 = 2 ^ corner_cell twin4.size 2 ||| 2 ^ corner_cell twin4.size 3) ∧
    (get_corners_to_exam 10 second4 = some (get_playable_corners second4) ∧
      get_playable_corners second4 = 2 ^ 0) :=
  ⟨by decide, twin4_reachable, second4_reachable,
    (corners_to_exam_cases 10 (by decide) twin4 twin4_reachable).1 2 3
      ⟨4, disc_t.WHITE_DISC, 29298, 1153, 260, 0⟩ ⟨4, disc_t.WHITE_DISC, 50802, 8321, 260, 0⟩
      (by decide) (by decide) (by decide) (by decide) (by decide) (by decide) (by decide)
      (by decide),
    (corners_to_exam_cases 10 (by decide) second4 second4_reachable).2 0 (by decide)⟩

/-! ## The gap of the distance loop -/

/-- C38: for every valid size s, every opponent mask confined to the s × s cells, every
in-board cell (r, c) that is not in the opponent mask and every direction d, the loop of
`board_distance_between_no_opponents` stops as soon as the fuel is at least s, and the gap it
returns is between 1 and s and is the least k ≥ 1 such that the cell k cyclic steps away
from (r, c) in direction d is not an opponent disc. -/
theorem distance_terminates (s o r c : Nat) (hs : board_cheak_size s = true)
    (ho : Confined s o) (hr : r < s) (hc : c < s) (hcell : o.testBit (r * s + c) = false)
    (d : Fin 8) :
    ∃ gap, (∀ fuel, s ≤ fuel →
        board_distance_between_no_opponents fuel s o ⟨r, c⟩ d = some gap) ∧
      1 ≤ gap ∧ gap ≤ s ∧
      o.testBit (wrap s (r + gap * row_direction d) * s +
        wrap s (c + gap * column_direction d)) = false ∧
      ∀ k : Nat, 1 ≤ k →
        o.testBit (wrap s (r + k * row_direction d) * s +
          wrap s (c + k * column_direction d)) = false → gap ≤ k := by
  obtain ⟨g, h1, h2, h3, h4, h5⟩ := distance_exists hs ho hr hc hcell d
  refine ⟨g, h5, h1, h2, h4, fun k hk1 hk => ?_⟩
  by_contra hlt
  have := h3 k hk1 (by omega)
  unfold cyc at this
  rw [this] at hk
  cases hk

theorem distance_terminates_witness :
    board_cheak_size 4 = true ∧ Confined 4 1056 ∧ 1 < 4 ∧ 2 < 4 ∧
    (1056 : Nat).testBit (1 * 4 + 2) = false ∧
    ∃ gap, (∀ fuel, 4 ≤ fuel →
        board_distance_between_no_opponents fuel 4 1056 ⟨1, 2⟩ 6 = some gap) ∧
      1 ≤ gap ∧ gap ≤ 4 ∧
      (1056 : Nat).testBit (wrap 4 (1 + gap * row_direction 6) * 4 +
        wrap 4 (2 + gap * column_direction 6)) = false ∧
      ∀ k : Nat, 1 ≤ k →
        (1056 : Nat).testBit (wrap 4 (1 + k * row_direction 6) * 4 +
          wrap 4 (2 + k * column_direction 6)) = false → gap ≤ k :=
  ⟨by decide, by unfold Confined; decide, by decide, by decide, by decide,
    distance_terminates 4 1056 1 2 (by decide) (by unfold Confined; decide) (by decide)
      (by decide) (by decide) 6⟩

theorem four_cells_testBit {s r1 c1 r2 c2 r3 c3 r4 c4 : Nat} (hs : board_cheak_size s = true)
    (hr1 : r1 < s) (hc1 : c1 < s) (hr2 : r2 < s) (hc2 : c2 < s) (hr3 : r3 < s) (hc3 : c3 < s)
    (hr4 : r4 < s) (hc4 : c4 < s) (r c : Nat) (hc : c < s) :
    (set_bitboard s r1 c1 ||| set_bitboard s r2 c2 ||| set_bitboard s r3 c3 |||
      set_bitboard s r4 c4).testBit (r * s + c) = true ↔
      (r = r1 ∧ c = c1) ∨ (r = r2 ∧ c = c2) ∨ (r = r3 ∧ c = c3) ∨ (r = r4 ∧ c = c4) := by
  rw [set_bitboard_eq hs hr1 hc1, set_bitboard_eq hs hr2 hc2, set_bitboard_eq hs hr3 hc3,
    set_bitboard_eq hs hr4 hc4]
  simp only [Nat.testBit_or, Nat.testBit_two_pow, Bool.or_eq_true, decide_eq_true_eq]
  constructor
  · rintro (((h | h) | h) | h)
    · exact Or.inl (index_inj hc hc1 h.symm)
    · exact Or.inr (Or.inl (index_inj hc hc2 h.symm))
    · exact Or.inr (Or.inr (Or.inl (index_inj hc hc3 h.symm)))
    · exact Or.inr (Or.inr (Or.inr (index_inj hc hc4 h.symm)))
  · rintro (⟨rfl, rfl⟩ | ⟨rfl, rfl⟩ | ⟨rfl, rfl⟩ | ⟨rfl, rfl⟩)
    · exact Or.inl (Or.inl (Or.inl rfl))
    · exact Or.inl (Or.inl (Or.inr rfl))
    · exact Or.inl (Or.inr rfl)
    · exact Or.inr rfl

/-- The mask of the starting position of every size from 4 to 10. -/
theorem init_moves {s : Nat} (hs : board_cheak_size s = true) (h4 : 4 ≤ s) :
    moves_of s (init_black s) (init_white s) =
      set_bitboard s (s / 2 - 2) (s / 2 - 1) ||| set_bitboard s (s / 2 - 1) (s / 2 - 2) |||
        set_bitboard s (s / 2) (s / 2 + 1) ||| set_bitboard s (s / 2 + 1) (s / 2) ∧
    bitboard_popcount (moves_of s (init_black s) (init_white s)) = 4 := by
  rcases valid_size_cases hs with h | h | h | h | h <;> subst h
  · omega
  · exact ⟨by decide, by decide⟩
  · exact ⟨by decide, by decide⟩
  · exact ⟨by decide, by decide⟩
  · exact ⟨by decide, by decide⟩

/-! ## The opening moves -/

/-- C37: for every valid size s ≥ 4, with h = s/2, the board `board_init` returns has Black
to move and its legal-move mask is exactly the four cells (h−2, h−1), (h−1, h−2), (h, h+1)
and (h+1, h): these are the valid moves, and their number is 4. -/
theorem board_init_moves (fuel s : Nat) (hfuel : 10 ≤ fuel) (hs : board_cheak_size s = true)
    (h4 : 4 ≤ s) :
    ∃ b, board_init fuel s = some b ∧ b.player = disc_t.BLACK_DISC ∧
      b.moves = set_bitboard s (s / 2 - 2) (s / 2 - 1) |||
        set_bitboard s (s / 2 - 1) (s / 2 - 2) ||| set_bitboard s (s / 2) (s / 2 + 1) |||
        set_bitboard s (s / 2 + 1) (s / 2) ∧
      board_count_player_moves b = 4 ∧
      ∀ m, board_is_move_valid b m = true ↔
        m = ⟨s / 2 - 2, s / 2 - 1⟩ ∨ m = ⟨s / 2 - 1, s / 2 - 2⟩ ∨ m = ⟨s / 2, s / 2 + 1⟩ ∨
          m = ⟨s / 2 + 1, s / 2⟩ := by
  have hle := valid_size_le hs
  have hne : ¬s = 2 := by omega
  obtain ⟨e1, e2⟩ := init_moves hs h4
  refine ⟨_, board_init_spec hfuel hs, by rw [if_neg hne], e1, ?_, fun m => ?_⟩
  · unfold board_count_player_moves
    simp only [if_neg hne, ne_eq, reduceCtorEq, not_false_eq_true, not_true_eq_false,
      and_false, if_false]
    exact e2
  · rw [move_valid_iff hs (Or.inl (if_neg hne))]
    simp only
    obtain ⟨r, c⟩ := m
    simp only [move_t.mk.injEq]
    rw [e1]
    constructor
    · rintro ⟨_, hc, h⟩
      exact (four_cells_testBit hs (by omega) (by omega) (by omega) (by omega) (by omega)
        (by omega) (by omega) (by omega) r c hc).1 h
    · intro h
      have hrc : r < s ∧ c < s := by
        rcases h with ⟨rfl, rfl⟩ | ⟨rfl, rfl⟩ | ⟨rfl, rfl⟩ | ⟨rfl, rfl⟩ <;> constructor <;> omega
      exact ⟨hrc.1, hrc.2, (four_cells_testBit hs (by omega) (by omega) (by omega) (by omega)
        (by omega) (by omega) (by omega) (by omega) r c hrc.2).2 h⟩

theorem board_init_moves_witness :
    10 ≤ 10 ∧ board_cheak_size 8 = true ∧ 4 ≤ 8 ∧
    ∃ b, board_init 10 8 = some b ∧ b.player = disc_t.BLACK_DISC ∧
      b.moves = set_bitboard 8 (8 / 2 - 2) (8 / 2 - 1) |||
        set_bitboard 8 (8 / 2 - 1) (8 / 2 - 2) ||| set_bitboard 8 (8 / 2) (8 / 2 + 1) |||
        set_bitboard 8 (8 / 2 + 1) (8 / 2) ∧
      board_count_player_moves b = 4 ∧
      ∀ m, board_is_move_valid b m = true ↔
        m = ⟨8 / 2 - 2, 8 / 2 - 1⟩ ∨ m = ⟨8 / 2 - 1, 8 / 2 - 2⟩ ∨ m = ⟨8 / 2, 8 / 2 + 1⟩ ∨
          m = ⟨8 / 2 + 1, 8 / 2⟩ :=
  ⟨by decide, by decide, by decide, board_init_moves 10 8 (by decide) (by decide) (by decide)⟩

/-! ## Disc counts along a game -/

theorem popcount_spec_mono {x y : Nat} (h : ∀ i, x.testBit i = true → y.testBit i = true) :
    popcount_spec x ≤ popcount_spec y :=
  List.countP_mono_left fun i _ hi => h i hi

theorem plane_of_confined {b : board_t} (hok : PlanesOK b) (p : disc_t) :
    Confined b.size (plane_of b p) := by
  cases p
  · exact hok.black_in
  · exact hok.white_in
  · exact confined_zero _
  · exact confined_zero _

theorem plane_total (b : board_t) {p : disc_t} (hp : IsColour p) :
    bitboard_popcount (plane_of b p) + bitboard_popcount (plane_of b (opponent_of p)) =
      bitboard_popcount b.black + bitboard_popcount b.white := by
  rcases hp with rfl | rfl
  · rfl
  · exact Nat.add_comm _ _

/-- A successful `board_play` reverses at least one disc: the counts of the two colours. -/
theorem board_play_colours {fuel : Nat} (hfuel : 10 ≤ fuel) {b b2 : board_t} {m : move_t}
    (hok : PlanesOK b) (hfresh : MaskFresh b) (h : board_play fuel b m = some (true, b2)) :
    bitboard_popcount b2.black + bitboard_popcount b2.white =
      bitboard_popcount b.black + bitboard_popcount b.white + 1 ∧
    bitboard_popcount (plane_of b2 b.player) ≥ bitboard_popcount (plane_of b b.player) + 2 ∧
    bitboard_popcount (plane_of b2 (opponent_of b.player)) + 1 ≤
      bitboard_popcount (plane_of b (opponent_of b.player)) := by
  obtain ⟨hpl, hv⟩ := board_play_true hok hfresh hfuel h
  obtain ⟨ok2, hlt, hfree, hun⟩ := board_play_union hok hfresh hfuel h
  obtain ⟨b3, e, _, _, _, _, ⟨hr, hc, hleg⟩, _, h8, _⟩ :=
    board_play_valid hok hfresh hpl hfuel m hv
  rw [e] at h
  cases h
  have htot : bitboard_popcount b2.black + bitboard_popcount b2.white =
      bitboard_popcount b.black + bitboard_popcount b.white + 1 := by
    rw [popcount_planes ok2, popcount_planes hok, hun,
      popcount_spec_or ((and_two_pow_eq_zero _ _).2 hfree), popcount_spec_two_pow hlt]
  obtain ⟨_, _, d, k, hfl⟩ := hleg
  have hflip : Flipped b.size (mover_plane b) (other_plane b) m.row m.column
      (((m.row : Int) + (1 : Nat) * row_direction d).toNat * b.size +
        ((m.column : Int) + (1 : Nat) * column_direction d).toNat) :=
    ⟨d, k, 1, hfl, le_refl 1, hfl.1, rfl⟩
  generalize ((m.row : Int) + (1 : Nat) * row_direction d).toNat * b.size +
    ((m.column : Int) + (1 : Nat) * column_direction d).toNat = f at hflip
  have hfo := flipped_is_opponent hflip
  have hoc := other_plane_confined hok
  have hf128 : f < 128 := by
    by_contra hge
    have h100 := (cell_index_lt hok.size_ok (valid_size_pos hok.size_ok)
      (valid_size_pos hok.size_ok)).2
    rw [hoc.testBit_false (by omega)] at hfo
    cases hfo
  have e2 := (mover_plane_eq hpl).2
  have hnew : (plane_of b2 (opponent_of b.player)).testBit f = false := by
    cases hb : (plane_of b2 (opponent_of b.player)).testBit f
    · rfl
    · exact absurd hflip ((h8 f).1 hb).2
  have hsub : popcount_spec (plane_of b2 (opponent_of b.player) ||| 2 ^ f) ≤
      popcount_spec (other_plane b) := by
    apply popcount_spec_mono
    intro i hi
    rw [Nat.testBit_or, Bool.or_eq_true, Nat.testBit_two_pow, decide_eq_true_eq] at hi
    rcases hi with hi | hi
    · exact ((h8 i).1 hi).1
    · rw [← hi]
      exact hfo
  rw [popcount_spec_or ((and_two_pow_eq_zero _ _).2 hnew), popcount_spec_two_pow hf128,
    e2] at hsub
  have q1 := bitboard_popcount_eq _ (confined_lt ok2.size_ok (plane_of_confined ok2
    (opponent_of b.player)))
  have q2 := bitboard_popcount_eq _ (confined_lt hok.size_ok (plane_of_confined hok
    (opponent_of b.player)))
  have t1 := plane_total b2 hpl
  have t2 := plane_total b hpl
  refine ⟨htot, ?_, ?_⟩ <;> omega

theorem board_play_false {fuel : Nat} (hfuel : 10 ≤ fuel) {b b2 : board_t} {m : move_t}
    (hok : PlanesOK b) (hfresh : MaskFresh b) (h : board_play fuel b m = some (false, b2)) :
    b2 = b := by
  by_cases hpl : b.player = disc_t.BLACK_DISC ∨ b.player = disc_t.WHITE_DISC
  · cases hv : board_is_move_valid b m
    · rw [board_play_invalid hok hfresh hpl hfuel m hv] at h
      cases h
      rfl
    · obtain ⟨b3, e, _⟩ := board_play_valid hok hfresh hpl hfuel m hv
      rw [e] at h
      cases h
  · rw [not_or] at hpl
    rw [board_play_no_colour fuel b m hpl.1 hpl.2] at h
    cases h
    rfl

theorem played_from_reachable {fuel size n : Nat} {b : board_t}
    (h : PlayedFrom fuel size n b) : Reachable fuel b := by
  induction h with
  | init b h => exact Reachable.init size b h
  | play n b move b2 _ h ih => exact Reachable.play b move true b2 ih h
  | fail n b move b2 _ h ih => exact Reachable.play b move false b2 ih h
  | next_move n b _ ih => exact Reachable.next_move b ih

theorem played_from_total {fuel : Nat} (hfuel : 10 ≤ fuel) {size n : Nat} {b : board_t}
    (h : PlayedFrom fuel size n b) :
    b.size = size ∧ bitboard_popcount b.black + bitboard_popcount b.white = n + 4 := by
  induction h with
  | init b h =>
    have hs : board_cheak_size size = true := by
      cases hc : board_cheak_size size
      · unfold board_init board_alloc at h
        simp [hc] at h
      · rfl
    rw [board_init_spec hfuel hs] at h
    cases h
    obtain ⟨p1, p2, _⟩ := init_popcount hs
    exact ⟨rfl, by simp only [p1, p2]⟩
  | play n b move b2 hp h ih =>
    obtain ⟨hok, hfresh⟩ := reachable_ok hfuel (played_from_reachable hp)
    obtain ⟨t, _, _⟩ := board_play_colours hfuel hok hfresh h
    obtain ⟨hpl, hv⟩ := board_play_true hok hfresh hfuel h
    obtain ⟨b3, e, _, _, hsz, _⟩ := board_play_valid hok hfresh hpl hfuel move hv
    rw [e] at h
    cases h
    exact ⟨by rw [hsz]; exact ih.1, by omega⟩
  | fail n b move b2 hp h ih =>
    obtain ⟨hok, hfresh⟩ := reachable_ok hfuel (played_from_reachable hp)
    rw [board_play_false hfuel hok hfresh h]
    exact ih
  | next_move n b _ ih =>
    obtain ⟨e1, _, e3, e4, _⟩ := board_next_move_planes b
    rw [e1, e3, e4]
    exact ih

/-- C39: for every reachable board, a successful `board_play` raises the total disc count
popcount(black) + popcount(white) by exactly 1, raises the disc count of the mover by at
least 2 and lowers the disc count of the opponent by at least 1; consequently, in every game
from `board_init` for a size, the number n of successful `board_play` calls satisfies
n + 4 ≤ size², the board holding n + 4 discs. -/
theorem board_play_counts (fuel : Nat) (hfuel : 10 ≤ fuel) :
    (∀ b, Reachable fuel b → ∀ m, ∃ ok b2, board_play fuel b m = some (ok, b2) ∧
      (ok = true →
        bitboard_popcount b2.black + bitboard_popcount b2.white =
          bitboard_popcount b.black + bitboard_popcount b.white + 1 ∧
        bitboard_popcount (plane_of b2 b.player) ≥
          bitboard_popcount (plane_of b b.player) + 2 ∧
        bitboard_popcount (plane_of b2 (opponent_of b.player)) + 1 ≤
          bitboard_popcount (plane_of b (opponent_of b.player)))) ∧
    (∀ size n b, PlayedFrom fuel size n b →
      bitboard_popcount b.black + bitboard_popcount b.white = n + 4 ∧
        n ≤ size * size - 4) := by
  constructor
  · intro b hb m
    obtain ⟨hok, hfresh⟩ := reachable_ok hfuel hb
    obtain ⟨ok, b2, h, _⟩ := board_play_ok hok hfresh hfuel m
    refine ⟨ok, b2, h, fun ht => ?_⟩
    subst ht
    exact board_play_colours hfuel hok hfresh h
  · intro size n b h
    obtain ⟨hsz, ht⟩ := played_from_total hfuel h
    obtain ⟨hok, _⟩ := reachable_ok hfuel (played_from_reachable h)
    have h1 := popcount_planes hok
    have h2 := popcount_spec_le hok.size_ok (confined_or hok.black_in hok.white_in)
    rw [hsz] at h2
    exact ⟨ht, by omega⟩

theorem board_play_counts_witness :
    10 ≤ 10 ∧
    (∃ ok b2, board_play 10 start4 ⟨0, 1⟩ = some (ok, b2) ∧
      (ok = true →
        bitboard_popcount b2.black + bitboard_popcount b2.white =
          bitboard_popcount start4.black + bitboard_popcount start4.white + 1 ∧
        bitboard_popcount (plane_of b2 start4.player) ≥
          bitboard_popcount (plane_of start4 start4.player) + 2 ∧
        bitboard_popcount (plane_of b2 (opponent_of start4.player)) + 1 ≤
          bitboard_popcount (plane_of start4 (opponent_of start4.player)))) ∧
    (bitboard_popcount second4.black + bitboard_popcount second4.white = 1 + 4 ∧
      1 ≤ 4 * 4 - 4) :=
  ⟨by decide,
    (board_play_counts 10 (by decide)).1 start4 (Reachable.init 4 start4 (by decide)) ⟨0, 1⟩,
    (board_play_counts 10 (by decide)).2 4 1 second4
      (PlayedFrom.play 0 start4 ⟨0, 1⟩ second4 (PlayedFrom.init start4 (by decide))
        (by decide))⟩

/-! ## Terminal children of a search node -/

/-- The boards of the game that leads to `endgame4`. -/
theorem endgame4_game :
    board_init 10 4 = some start4 ∧
    board_play 10 start4 ⟨0, 1⟩ = some (true, second4) ∧
    board_play 10 second4 ⟨0, 2⟩ = some (true, third4) ∧
    board_play 10 third4 ⟨0, 3⟩ = some (true, ⟨4, disc_t.WHITE_DISC, 622, 1024, 257, 0⟩) ∧
    board_play 10 ⟨4, disc_t.WHITE_DISC, 622, 1024, 257, 0⟩ ⟨0, 0⟩ =
      some (true, ⟨4, disc_t.BLACK_DISC, 590, 1057, 18704, 0⟩) ∧
    board_play 10 ⟨4, disc_t.BLACK_DISC, 590, 1057, 18704, 0⟩ ⟨1, 0⟩ =
      some (true, ⟨4, disc_t.WHITE_DISC, 638, 1025, 256, 0⟩) ∧
    board_play 10 ⟨4, disc_t.WHITE_DISC, 638, 1025, 256, 0⟩ ⟨2, 0⟩ =
      some (true, ⟨4, disc_t.BLACK_DISC, 110, 1809, 61440, 0⟩) ∧
    board_play 10 ⟨4, disc_t.BLACK_DISC, 110, 1809, 61440, 0⟩ ⟨3, 3⟩ =
      some (true, ⟨4, disc_t.WHITE_DISC, 33902, 785, 2176, 0⟩) ∧
    board_play 10 ⟨4, disc_t.WHITE_DISC, 33902, 785, 2176, 0⟩ ⟨2, 3⟩ =
      some (true, ⟨4, disc_t.BLACK_DISC, 32878, 3857, 28800, 0⟩) ∧
    board_play 10 ⟨4, disc_t.BLACK_DISC, 32878, 3857, 28800, 0⟩ ⟨1, 3⟩ =
      some (true, ⟨4, disc_t.BLACK_DISC, 35054, 1809, 28672, 0⟩) ∧
    board_play 10 ⟨4, disc_t.BLACK_DISC, 35054, 1809, 28672, 0⟩ ⟨3, 2⟩ =
      some (true, endgame4) := by
  decide

/-- C35 at its failing input: on the 4 × 4 board `endgame4`, with a fresh cursor, both legal
moves of Black lead directly to a terminal position whose evaluation for White is −25; at
depth 1 for the root player White, `ab_max` returns the alpha −25, the maximum of these
scores, while `ab_min` returns the beta +infinity instead of their minimum −25. -/
theorem ab_min_terminal_children :
    endgame4.next_move = 0 ∧ board_count_player_moves endgame4 = 2 ∧
    board_play 10 endgame4 ⟨3, 0⟩ = some (true, ⟨4, disc_t.EMPTY_DISC, 57070, 273, 0, 0⟩) ∧
    board_play 10 endgame4 ⟨3, 1⟩ = some (true, ⟨4, disc_t.EMPTY_DISC, 61166, 273, 0, 0⟩) ∧
    score_heuristic ⟨4, disc_t.EMPTY_DISC, 57070, 273, 0, 0⟩ disc_t.WHITE_DISC = -25 ∧
    score_heuristic ⟨4, disc_t.EMPTY_DISC, 61166, 273, 0, 0⟩ disc_t.WHITE_DISC = -25 ∧
    ab_max 10 2 endgame4 1 ⟨-infinity, infinity⟩ disc_t.WHITE_DISC = Except.ok ⟨-25, 300⟩ ∧
    ab_min 10 2 endgame4 1 ⟨-infinity, infinity⟩ disc_t.WHITE_DISC = Except.ok ⟨-300, 300⟩ :=
  ⟨rfl, by decide, by decide, by decide, by decide, by decide, by decide, by decide⟩

/-! ## The cells of the borders -/

theorem shl128_two_pow {a n : Nat} (h : a + n < 128) : shl128 (2 ^ a) n = 2 ^ (a + n) := by
  unfold shl128
  rw [Nat.shiftLeft_eq, ← Nat.pow_add]
  exact Nat.mod_eq_of_lt (Nat.pow_lt_pow_right (by norm_num) h)

theorem edge_move_lt {s : Nat} (hs : board_cheak_size s = true) {i k : Nat} (hk : k < s) :
    (edge_move s i k).row < s ∧ (edge_move s i k).column < s := by
  have hp := valid_size_pos hs
  unfold edge_move
  split_ifs <;> constructor <;> simp only <;> omega

theorem edge_cell_lt {s : Nat} (hs : board_cheak_size s = true) {i k : Nat} (hk : k < s) :
    edge_cell s i k < s * s ∧ s * s ≤ 100 := by
  obtain ⟨h1, h2⟩ := edge_move_lt (i := i) hs hk
  exact cell_index_lt hs h1 h2

theorem edge_cell_succ {s : Nat} (i k : Nat) :
    edge_cell s i (k + 1) = edge_cell s i k + edge_step s i := by
  unfold edge_cell edge_move edge_step
  by_cases h0 : i = 0
  · simp only [h0, if_true, true_or]
    omega
  · by_cases h1 : i = 1
    · simp only [h1, if_true, or_true, show ¬(1 = 0) by omega, if_false]
      omega
    · by_cases h2 : i = 2
      · simp only [h2, if_true, show ¬(2 = 0) by omega, show ¬(2 = 1) by omega, if_false,
          or_self]
        ring
      · simp only [h0, h1, h2, if_false, or_self]
        ring

theorem edge_cell_add {s : Nat} (i k : Nat) :
    edge_cell s i k = edge_cell s i 0 + k * edge_step s i := by
  induction k with
  | zero => simp
  | succ k ih => rw [edge_cell_succ, ih]; ring

theorem edge_cell_inj {s : Nat} (hs : board_cheak_size s = true) {i k t : Nat}
    (h : edge_cell s i k = edge_cell s i t) : k = t := by
  have hp := valid_size_pos hs
  rw [edge_cell_add i k, edge_cell_add i t] at h
  have h2 : k * edge_step s i = t * edge_step s i := by omega
  have h3 : 0 < edge_step s i := by
    unfold edge_step
    split_ifs <;> omega
  exact Nat.eq_of_mul_eq_mul_right h3 h2

/-- The entries of `get_boarders_init` and of `get_borders_increment`. -/
theorem borders_init_eq {s : Nat} (hs : board_cheak_size s = true) {i : Nat} (hi : i < 4) :
    (get_boarders_init s).getD i 0 = 2 ^ edge_cell s i 0 ∧
      get_borders_increment s = some [1, 1, s, s] ∧
      ([1, 1, s, s] : List Nat).getD i 0 = edge_step s i := by
  have hle := valid_size_le hs
  have h1 : s * (s - 1) < 128 := by
    have := (cell_index_lt hs (valid_size_pos hs) (valid_size_pos hs)).2
    have : s * (s - 1) ≤ s * s := Nat.mul_le_mul_left s (Nat.sub_le s 1)
    omega
  refine ⟨?_, ?_, ?_⟩
  · unfold get_boarders_init
    simp only [hs, Bool.not_true, Bool.false_eq_true, if_false]
    rw [shl128_one h1, shl128_one (show s - 1 < 128 by omega)]
    interval_cases i <;> simp [edge_cell, edge_move, Nat.mul_comm]
  · unfold get_borders_increment
    simp only [hs, Bool.not_true, Bool.false_eq_true, if_false]
  · interval_cases i <;> simp [edge_step]

/-- The bit the loops build for the position `k` of the border `i`. -/
theorem edge_bit {s : Nat} (hs : board_cheak_size s = true) {i k : Nat} (hi : i < 4)
    (hk : k < s) :
    shl128 ((get_boarders_init s).getD i 0) (k * ([1, 1, s, s] : List Nat).getD i 0) =
      2 ^ edge_cell s i k := by
  obtain ⟨e1, _, e3⟩ := borders_init_eq hs hi
  obtain ⟨h1, h2⟩ := edge_cell_lt (i := i) hs hk
  rw [e1, e3, shl128_two_pow (by rw [← edge_cell_add]; omega), ← edge_cell_add]

/-- The bitboard of a border holds the cells of its s positions. -/
theorem borders_testBit {s : Nat} (hs : board_cheak_size s = true) {i : Nat} (hi : i < 4)
    (n : Nat) :
    ((get_borders s).getD i 0).testBit n = true ↔ ∃ k, k < s ∧ n = edge_cell s i k := by
  have e : (get_borders s).getD i 0 = orAll (fun k => 2 ^ edge_cell s i k) (List.range s) := by
    rcases valid_size_cases hs with h | h | h | h | h <;> subst h <;> interval_cases i <;>
      decide
  rw [e, testBit_orAll]
  simp only [List.mem_range, Nat.testBit_two_pow, decide_eq_true_eq]
  constructor
  · rintro ⟨k, hk, h⟩
    exact ⟨k, hk, h.symm⟩
  · rintro ⟨k, hk, h⟩
    exact ⟨k, hk, h.symm⟩

/-! ## The move of a border cell -/

theorem two_pow_and_two_pow (a b : Nat) : 2 ^ a &&& 2 ^ b = 2 ^ b ↔ a = b := by
  constructor
  · intro h
    have := congrArg (fun y => y.testBit b) h
    simp only [Nat.testBit_and, Nat.testBit_two_pow, decide_True, Bool.and_true,
      decide_eq_true_eq] at this
    exact this
  · rintro rfl
    exact Nat.and_self _

/-- The `while` loop of `get_border_as_move` finds the position of the bit. -/
theorem border_scan_found {s : Nat} (hs : board_cheak_size s = true) (i j : Nat) (hj : j < s)
    (d : Nat) : ∀ (t fuel : Nat), t + d = j → d < fuel →
      border_scan (2 ^ edge_cell s i j) (edge_step s i) fuel (2 ^ edge_cell s i t) t =
        some j := by
  induction d with
  | zero =>
    intro t fuel ht hf
    rw [Nat.add_zero] at ht
    subst ht
    cases fuel with
    | zero => omega
    | succ fuel =>
      unfold border_scan
      rw [if_neg (by rw [Nat.and_self]; exact fun h => h rfl)]
  | succ d ih =>
    intro t fuel ht hf
    cases fuel with
    | zero => omega
    | succ fuel =>
      have hne : ¬t = j := by omega
      have h1 := (edge_cell_lt (i := i) hs (show t + 1 < s by omega))
      unfold border_scan
      rw [if_pos (fun h => hne (edge_cell_inj hs ((two_pow_and_two_pow _ _).1 h))),
        shl128_two_pow (by rw [← edge_cell_succ]; omega), ← edge_cell_succ]
      exact ih (t + 1) fuel (by omega) (by omega)

theorem popcount_two_pow {n : Nat} (h : n < 128) : bitboard_popcount (2 ^ n) = 1 := by
  rw [bitboard_popcount_eq _ (Nat.pow_lt_pow_right (by norm_num) h), popcount_spec_two_pow h]

/-- The move `get_border_as_move` returns for the bit of a position of a border. -/
theorem border_as_move_eq {fuel s : Nat} (hfuel : 10 ≤ fuel) (hs : board_cheak_size s = true)
    {i j : Nat} (hi : i < 4) (hj : j < s) :
    get_border_as_move fuel (2 ^ edge_cell s i j) s i = some (edge_move s i j) := by
  obtain ⟨h1, h2⟩ := edge_cell_lt (i := i) hs hj
  have hle := valid_size_le hs
  have htest : (get_borders s).getD i 0 &&& 2 ^ edge_cell s i j = 2 ^ edge_cell s i j := by
    rw [Nat.land_comm, and_two_pow_eq_self]
    exact (borders_testBit hs hi _).2 ⟨j, hj, rfl⟩
  have hscan := border_scan_found hs i j hj j 0 fuel (by omega) (by omega)
  have h128 : s * (s - 1) < 128 := by
    have : s * (s - 1) ≤ s * s := Nat.mul_le_mul_left s (Nat.sub_le s 1)
    omega
  unfold get_border_as_move
  simp only [Int.toNat_ofNat, htest, decide_True, popcount_two_pow (show edge_cell s i j < 128
    by omega), ne_eq, not_true_eq_false, hs, Bool.true_eq_false, false_or,
    Bool.false_eq_true, or_false]
  have e00 : 2 ^ edge_cell s 0 0 = (1 : Nat) := by simp [edge_cell, edge_move]
  have e01 : 2 ^ edge_cell s 1 0 = shl128 1 (s * (s - 1)) := by
    rw [shl128_one h128]
    simp [edge_cell, edge_move, Nat.mul_comm]
  have e02 : 2 ^ edge_cell s 2 0 = shl128 1 (s - 1) := by
    rw [shl128_one (by omega)]
    simp [edge_cell, edge_move]
  have e03 : 2 ^ edge_cell s 3 0 = (1 : Nat) := by simp [edge_cell, edge_move]
  interval_cases i
  · have e1 : edge_step s 0 = 1 := by simp [edge_step]
    rw [e1, e00] at hscan
    norm_num [hscan, edge_move]
  · have e1 : edge_step s 1 = 1 := by simp [edge_step]
    rw [e1, e01] at hscan
    norm_num [hscan, edge_move]
  · have e1 : edge_step s 2 = s := by simp [edge_step]
    rw [e1, e02] at hscan
    norm_num [hscan, edge_move]
  · have e1 : edge_step s 3 = s := by simp [edge_step]
    rw [e1, e03] at hscan
    norm_num [hscan, edge_move]

/-! ## Runs along a border -/

theorem run_through_unique {s i mine j lo hi lo2 hi2 : Nat} (h1 : RunThrough s i mine j lo hi)
    (h2 : RunThrough s i mine j lo2 hi2) : lo = lo2 ∧ hi = hi2 := by
  obtain ⟨a1, a2, a3, a4, a5, a6⟩ := h1
  obtain ⟨b1, b2, b3, b4, b5, b6⟩ := h2
  constructor
  · by_contra hne
    rcases Nat.lt_or_gt_of_ne hne with h | h
    · rcases b5 with h0 | h0
      · omega
      · rw [a4 (lo2 - 1) (by omega) (by omega) (by omega)] at h0
        cases h0
    · rcases a5 with h0 | h0
      · omega
      · rw [b4 (lo - 1) (by omega) (by omega) (by omega)] at h0
        cases h0
  · by_contra hne
    rcases Nat.lt_or_gt_of_ne hne with h | h
    · rcases a6 with h0 | h0
      · omega
      · rw [b4 (hi + 1) (by omega) (by omega) (by omega)] at h0
        cases h0
    · rcases b6 with h0 | h0
      · omega
      · rw [a4 (hi2 + 1) (by omega) (by omega) (by omega)] at h0
        cases h0

/-- The loop that looks for the first ally stops on the lowest position, not below 1, from
which the discs of `mine` reach the position `k + 1`. -/
theorem first_ally_spec {s : Nat} (hs : board_cheak_size s = true) {i : Nat} (hi : i < 4)
    (mine : bitboard_t) (k : Nat) : k + 1 < s →
    ∃ q, 1 ≤ q ∧ q ≤ k + 1 ∧
      first_ally_loop ((get_boarders_init s).getD i 0) (([1, 1, s, s] : List Nat).getD i 0)
        mine k (2 ^ edge_cell s i (k + 1)) = 2 ^ edge_cell s i q ∧
      (∀ t, q ≤ t → t ≤ k → mine.testBit (edge_cell s i t) = true) ∧
      (q = 1 ∨ mine.testBit (edge_cell s i (q - 1)) = false) := by
  induction k with
  | zero => exact fun _ => ⟨1, le_refl 1, le_refl 1, rfl, fun t h1 h2 => by omega, Or.inl rfl⟩
  | succ k ih =>
    intro hk
    unfold first_ally_loop
    simp only
    rw [edge_bit hs hi (show k + 1 < s by omega), Nat.land_comm]
    cases hm : mine.testBit (edge_cell s i (k + 1))
    · rw [if_pos ((and_two_pow_eq_zero _ _).2 hm)]
      exact ⟨k + 2, by omega, le_refl _, rfl, fun t h1 h2 => by omega, Or.inr hm⟩
    · rw [if_neg (fun h => by rw [(and_two_pow_eq_zero _ _).1 h] at hm; cases hm)]
      obtain ⟨q, q1, q2, e, hrun, hend⟩ := ih (by omega)
      refine ⟨q, q1, by omega, e, fun t h1 h2 => ?_, hend⟩
      rcases Nat.lt_or_ge t (k + 1) with h | h
      · exact hrun t h1 (by omega)
      · have : t = k + 1 := by omega
        rw [this]
        exact hm

/-- The loop that looks for the last ally stops on the highest position up to which the
discs of `mine` go on from the position `k - 1`. -/
theorem last_ally_spec {s : Nat} (hs : board_cheak_size s = true) {i : Nat} (hi : i < 4)
    (mine : bitboard_t) (todo : Nat) : ∀ k, 1 ≤ k → k + todo = s →
    ∃ h, k ≤ h + 1 ∧ h < s ∧
      last_ally_loop ((get_boarders_init s).getD i 0) (([1, 1, s, s] : List Nat).getD i 0)
        mine todo k (2 ^ edge_cell s i (k - 1)) = 2 ^ edge_cell s i h ∧
      (∀ t, k ≤ t → t ≤ h → mine.testBit (edge_cell s i t) = true) ∧
      (h = s - 1 ∨ mine.testBit (edge_cell s i (h + 1)) = false) := by
  induction todo with
  | zero =>
    intro k hk1 hk
    exact ⟨k - 1, by omega, by omega, rfl, fun t h1 h2 => by omega, Or.inl (by omega)⟩
  | succ todo ih =>
    intro k hk1 hk
    unfold last_ally_loop
    simp only
    rw [edge_bit hs hi (show k < s by omega), Nat.land_comm]
    cases hm : mine.testBit (edge_cell s i k)
    · rw [if_pos ((and_two_pow_eq_zero _ _).2 hm)]
      refine ⟨k - 1, by omega, by omega, rfl, fun t h1 h2 => by omega, Or.inr ?_⟩
      rw [show k - 1 + 1 = k by omega]
      exact hm
    · rw [if_neg (fun h => by rw [(and_two_pow_eq_zero _ _).1 h] at hm; cases hm)]
      obtain ⟨h, q1, q2, e, hrun, hend⟩ := ih (k + 1) (by omega) (by omega)
      rw [Nat.add_sub_cancel] at e
      refine ⟨h, by omega, q2, e, fun t h1 h2 => ?_, hend⟩
      rcases Nat.lt_or_ge k t with hlt | hge
      · exact hrun t hlt h2
      · have : t = k := by omega
        rw [this]
        exact hm

/-- A cell of the mask of a board whose mover is a colour holds no disc. -/
theorem mask_free {c : board_t} (hok : PlanesOK c) (hfresh : MaskFresh c)
    (hpl : IsColour c.player) {n : Nat} (h : c.moves.testBit n = true) :
    c.black.testBit n = false ∧ c.white.testBit n = false := by
  have hdisj : mover_plane c &&& other_plane c = 0 := by
    rcases mover_other_disjoint hok with h | h | h
    · exact h
    · rcases hpl with h2 | h2 <;> rw [h2] at h <;> cases h
    · rcases hpl with h2 | h2 <;> rw [h2] at h <;> cases h
  rw [mask_fresh_mover hfresh hpl] at h
  obtain ⟨r, k, hr, hk, hidx, hp, ho, _⟩ :=
    (moves_of_testBit_iff hok.size_ok (other_plane_confined hok) hdisj _).1 h
  rw [cellAt_nat _ hr hk, ← hidx] at hp ho
  unfold mover_plane at hp
  unfold other_plane at ho
  rcases hpl with h2 | h2 <;> rw [h2] at hp ho <;> simp at hp ho
  · exact ⟨hp, ho⟩
  · exact ⟨ho, hp⟩

/-! ## Bit tests on a border -/

theorem two_pow_and_ne_zero (a x : Nat) : 2 ^ a &&& x ≠ 0 ↔ x.testBit a = true := by
  rw [Nat.land_comm, Ne, and_two_pow_eq_zero]
  simp

theorem two_pow_shiftRight {a n : Nat} (h : n ≤ a) : 2 ^ a >>> n = 2 ^ (a - n) := by
  rw [Nat.shiftRight_eq_div_pow, Nat.pow_div h (by norm_num)]

theorem and_border_zero {s : Nat} (hs : board_cheak_size s = true) {i : Nat} (hi : i < 4)
    (x : Nat) :
    x &&& (get_borders s).getD i 0 = 0 ↔ ∀ k, k < s → x.testBit (edge_cell s i k) = false := by
  constructor
  · intro h k hk
    have := congrArg (fun y => y.testBit (edge_cell s i k)) h
    simp only [Nat.testBit_and, Nat.zero_testBit, (borders_testBit hs hi _).2 ⟨k, hk, rfl⟩,
      Bool.and_true] at this
    exact this
  · intro h
    apply Nat.eq_of_testBit_eq
    intro n
    rw [Nat.testBit_and, Nat.zero_testBit]
    cases hb : ((get_borders s).getD i 0).testBit n
    · simp
    · obtain ⟨k, hk, rfl⟩ := (borders_testBit hs hi n).1 hb
      rw [h k hk]
      rfl

theorem opponent_moves_code {b c : board_t} (hpl : IsColour b.player)
    (hc : IsColour c.player ∨ c.moves = 0) :
    (if board_player b = board_player c then 0 else c.moves) = opponent_moves b c := by
  unfold opponent_moves board_player
  by_cases h : b.player = c.player
  · rw [if_pos h, if_neg]
    rw [← h]
    exact fun h2 => opponent_of_ne hpl h2.symm
  · rw [if_neg h]
    rcases hc with hc | hc
    · rw [if_pos (opponent_of_other hpl hc (fun h2 => h h2.symm))]
    · rw [hc]
      split_ifs <;> rfl

theorem planes_code {b : board_t} (c : board_t) (hpl : IsColour b.player) :
    (if board_player b = disc_t.BLACK_DISC then c.white else c.black) =
        plane_of c (opponent_of b.player) ∧
      (if board_player b = disc_t.BLACK_DISC then c.black else c.white) =
        plane_of c b.player := by
  unfold board_player
  rcases hpl with h | h <;> rw [h] <;> exact ⟨rfl, rfl⟩

/-! ## The tests of the interesting borders -/

/-- The tests of `get_interesting_borders` on the board `c` after the move, in terms of the
position. -/
theorem borders_test_iff {b c : board_t} (hpl : IsColour b.player) (hok : PlanesOK c)
    (hfresh : MaskFresh c) (hsz : c.size = b.size) (hc : IsColour c.player ∨ c.moves = 0)
    {i j : Nat} (hi : i < 4) (hj1 : 1 ≤ j) (hj2 : j + 1 < b.size)
    (hmine : (plane_of c b.player).testBit (edge_cell b.size i j) = true) :
    borders_test b c (get_borders b.size) (get_boarders_init b.size) [1, 1, b.size, b.size] i j
        (2 ^ edge_cell b.size i j) = true ↔ FlagAfter b c i j := by
  have hs : board_cheak_size b.size = true := by rw [← hsz]; exact hok.size_ok
  obtain ⟨pl1, pl2⟩ := planes_code c hpl
  have hom := opponent_moves_code hpl hc
  have hdis : ∀ n, (plane_of c b.player).testBit n = true →
      (plane_of c (opponent_of b.player)).testBit n = false := by
    intro n hn
    rcases hpl with h | h <;> rw [h] at hn ⊢
    · exact disjoint_testBit hok.disjoint hn
    · exact disjoint_testBit (land_comm_zero hok.disjoint) hn
  have hfree : ∀ n, (plane_of c b.player).testBit n = true →
      (opponent_moves b c).testBit n = false := by
    intro n hn
    cases hm : (opponent_moves b c).testBit n
    · rfl
    · exfalso
      unfold opponent_moves at hm
      split_ifs at hm with hp
      · have hcol : IsColour c.player := by
          rcases hc with h | h
          · exact h
          · rw [h, Nat.zero_testBit] at hm
            cases hm
        obtain ⟨f1, f2⟩ := mask_free hok hfresh hcol hm
        rcases hpl with h | h <;> rw [h] at hn <;> simp only [plane_of] at hn
        · rw [f1] at hn
          cases hn
        · rw [f2] at hn
          cases hn
      · rw [Nat.zero_testBit] at hm
        cases hm
  unfold borders_test FlagAfter
  simp only [board_size]
  by_cases hterm : c.player = disc_t.EMPTY_DISC
  · -- the game is over
    have hp1 := popcount_spec_le hok.size_ok hok.black_in
    have hp2 := popcount_spec_le hok.size_ok hok.white_in
    have hq1 := bitboard_popcount_eq _ (confined_lt hok.size_ok hok.black_in)
    have hq2 := bitboard_popcount_eq _ (confined_lt hok.size_ok hok.white_in)
    have h100 := (cell_index_lt hok.size_ok (valid_size_pos hok.size_ok)
      (valid_size_pos hok.size_ok)).2
    have hb1 : ((bitboard_popcount c.black : Nat) : Int) ≤ 100 := by
      have : bitboard_popcount c.black ≤ 100 := by omega
      exact_mod_cast this
    have hb2 : ((bitboard_popcount c.white : Nat) : Int) ≤ 100 := by
      have : bitboard_popcount c.white ≤ 100 := by omega
      exact_mod_cast this
    have hsc : to_int ((bitboard_popcount c.black : Int) - bitboard_popcount c.white) =
        (bitboard_popcount c.black : Int) - bitboard_popcount c.white := by
      apply to_int_eq <;> omega
    simp only [board_player, hterm, if_true, hsc, decide_eq_true_eq, ne_eq, not_true_eq_false,
      false_and, or_false, GameOverNotBehind, true_and]
    rcases hpl with h | h <;> rw [h] <;> simp only [plane_of, opponent_of, reduceCtorEq,
      if_true, if_false] <;> omega
  · -- the game goes on
    simp only [board_player] at pl1 pl2 hom ⊢
    rw [if_neg hterm]
    simp only [pl1, pl2, hom]
    simp only [GameOverNotBehind, hterm, false_and, false_or, ne_eq, not_false_eq_true,
      true_and]
    have hfree2 : ((plane_of c (opponent_of b.player) ||| opponent_moves b c) &&&
        (get_borders b.size).getD i 0 = 0) ↔ EdgeFree b c i := by
      rw [and_border_zero hs hi]
      unfold EdgeFree
      simp only [Nat.testBit_or, Bool.or_eq_false_iff]
    by_cases hcond : opponent_moves b c = 0 ∨
        (plane_of c (opponent_of b.player) ||| opponent_moves b c) &&&
          (get_borders b.size).getD i 0 = 0
    · rw [if_pos hcond]
      simp only [true_iff]
      rcases hcond with h | h
      · exact Or.inl h
      · exact Or.inr (Or.inl (hfree2.1 h))
    · rw [if_neg hcond]
      rw [not_or] at hcond
      obtain ⟨q, q1, q2, e1, qrun, qend⟩ := first_ally_spec hs hi (plane_of c b.player) (j - 1)
        (by omega)
      obtain ⟨h, h1, h2, e2, hrun, hend⟩ := last_ally_spec hs hi (plane_of c b.player)
        (b.size - (j + 1)) (j + 1) (by omega) (by omega)
      rw [show j - 1 + 1 = j by omega] at e1 q2
      rw [Nat.add_sub_cancel] at e2
      rw [e1, e2]
      obtain ⟨i0, _, i3⟩ := borders_init_eq hs hi
      have hcq := edge_cell_lt (i := i) hs (show q < b.size by omega)
      have hch := edge_cell_lt (i := i) hs h2
      have hstep : edge_step b.size i ≤ 10 := by
        have := valid_size_le hs
        unfold edge_step
        split_ifs <;> omega
      have eq1 : edge_cell b.size i q = edge_cell b.size i (q - 1) + edge_step b.size i := by
        rw [← edge_cell_succ, show q - 1 + 1 = q by omega]
      have t1 : decide (2 ^ edge_cell b.size i q = (get_boarders_init b.size).getD i 0) =
          false := by
        rw [decide_eq_false_iff_not, i0]
        intro hpow
        have := edge_cell_inj hs (Nat.pow_right_injective (le_refl 2) hpow)
        omega
      have t2 : decide (2 ^ edge_cell b.size i h = shl128 ((get_boarders_init b.size).getD i 0)
          ((b.size - 1) * ([1, 1, b.size, b.size] : List Nat).getD i 0)) =
          decide (h = b.size - 1) := by
        rw [edge_bit hs hi (show b.size - 1 < b.size by omega)]
        apply decide_eq_decide.2
        constructor
        · intro hpow
          exact edge_cell_inj hs (Nat.pow_right_injective (le_refl 2) hpow)
        · intro hh
          rw [hh]
      have t3 : ∀ x : Nat, (2 ^ edge_cell b.size i q >>>
          ([1, 1, b.size, b.size] : List Nat).getD i 0) &&& x ≠ 0 ↔
          x.testBit (edge_cell b.size i (q - 1)) = true := by
        intro x
        rw [i3, two_pow_shiftRight (by omega), two_pow_and_ne_zero, eq1, Nat.add_sub_cancel]
      have t4 : ∀ x : Nat, shl128 (2 ^ edge_cell b.size i h)
          (([1, 1, b.size, b.size] : List Nat).getD i 0) &&& x ≠ 0 ↔
          x.testBit (edge_cell b.size i (h + 1)) = true := by
        intro x
        rw [i3, shl128_two_pow (by omega), two_pow_and_ne_zero, ← edge_cell_succ]
      rw [t1, t2]
      simp only [Bool.false_or, Bool.or_eq_true, Bool.and_eq_true, decide_eq_true_eq, t3, t4]
      -- the run of the position
      by_cases hlow : (plane_of c b.player).testBit (edge_cell b.size i (q - 1)) = true
      · -- the run reaches the low corner, which the loop does not visit
        have hq : q = 1 := by
          rcases qend with h0 | h0
          · exact h0
          · rw [h0] at hlow
            cases hlow
        subst hq
        have hr : RunThrough b.size i (plane_of c b.player) j 0 h := by
          refine ⟨Nat.zero_le _, by omega, h2, fun t _ _ ht2 => ?_, Or.inl rfl, hend⟩
          rcases Nat.eq_zero_or_pos t with h0 | h0
          · rw [h0]
            exact hlow
          · rcases Nat.lt_or_ge t j with hlt | hge
            · exact qrun t h0 (by omega)
            · rcases Nat.eq_or_lt_of_le hge with heq | hgt
              · rw [← heq]
                exact hmine
              · exact hrun t hgt ht2
        have n1 := hdis _ hlow
        have n2 := hfree _ hlow
        simp only [Nat.sub_self] at n1 n2 ⊢
        rw [n1, n2]
        simp only [Bool.false_eq_true, false_and, or_false]
        constructor
        · intro hh
          exact Or.inr (Or.inr ⟨0, h, hr, Or.inl hh⟩)
        · rintro (h0 | h0 | ⟨lo, hi2, hr2, hx⟩)
          · exact absurd h0 hcond.1
          · exact absurd (hfree2.2 h0) hcond.2
          · obtain ⟨u1, u2⟩ := run_through_unique hr hr2
            subst u1 u2
            rcases hx with hx | hx | hx
            · exact hx
            · omega
            · omega
      · have hlow2 : (plane_of c b.player).testBit (edge_cell b.size i (q - 1)) = false := by
          cases hx : (plane_of c b.player).testBit (edge_cell b.size i (q - 1))
          · rfl
          · exact absurd hx hlow
        have hr : RunThrough b.size i (plane_of c b.player) j q h := by
          refine ⟨q2, by omega, h2, fun t _ ht1 ht2 => ?_, Or.inr hlow2, hend⟩
          rcases Nat.lt_or_ge t j with hlt | hge
          · exact qrun t ht1 (by omega)
          · rcases Nat.eq_or_lt_of_le hge with heq | hgt
            · rw [← heq]
              exact hmine
            · exact hrun t hgt ht2
        constructor
        · intro hh
          refine Or.inr (Or.inr ⟨q, h, hr, ?_⟩)
          rcases hh with (hh | hh) | hh
          · exact Or.inl hh
          · exact Or.inr (Or.inl ⟨q1, hh.1, hh.2⟩)
          · exact Or.inr (Or.inr ⟨q1, hh.1, hh.2⟩)
        · rintro (h0 | h0 | ⟨lo, hi2, hr2, hx⟩)
          · exact absurd h0 hcond.1
          · exact absurd (hfree2.2 h0) hcond.2
          · obtain ⟨u1, u2⟩ := run_through_unique hr hr2
            subst u1 u2
            rcases hx with hx | hx | hx
            · exact Or.inl (Or.inl hx)
            · exact Or.inl (Or.inr ⟨hx.2.1, hx.2.2⟩)
            · exact Or.inr ⟨hx.2.1, hx.2.2⟩

/-! ## The loops of the interesting borders -/

theorem and_two_pow_zero (x k : Nat) : 2 ^ k &&& x = 0 ↔ x.testBit k = false := by
  constructor
  · intro h
    cases hx : x.testBit k
    · rfl
    · exact absurd h ((two_pow_and_ne_zero k x).2 hx)
  · intro h
    by_contra hne
    rw [(two_pow_and_ne_zero k x).1 hne] at h
    cases h

/-- One iteration of the inner loop of `get_interesting_borders`. -/
theorem borders_cell_spec {fuel : Nat} (hfuel : 10 ≤ fuel) {b : board_t}
    (hb : Reachable fuel b) (hpl : IsColour b.player) {i j : Nat} (hi : i < 4) (hj1 : 1 ≤ j)
    (hj2 : j + 1 < b.size) (acc : bitboard_t) :
    ∃ acc2, borders_cell fuel b (get_borders (board_size b)) (get_boarders_init (board_size b))
        [1, 1, board_size b, board_size b] i
        ((get_borders (board_size b)).getD i 0 &&& b.moves) acc j = some acc2 ∧
      ∀ n, acc2.testBit n = true ↔
        acc.testBit n = true ∨ (n = edge_cell b.size i j ∧ Flagged fuel b i j) := by
  obtain ⟨hok, hfresh⟩ := reachable_ok hfuel hb
  have hs := hok.size_ok
  have hjs : j < b.size := by omega
  unfold borders_cell
  simp only [board_size]
  rw [edge_bit hs hi hjs]
  have hedge : ((get_borders b.size).getD i 0).testBit (edge_cell b.size i j) = true :=
    (borders_testBit hs hi _).2 ⟨j, hjs, rfl⟩
  by_cases hm : b.moves.testBit (edge_cell b.size i j) = true
  · have hne : ¬(2 ^ edge_cell b.size i j &&& ((get_borders b.size).getD i 0 &&& b.moves) = 0) := by
      rw [and_two_pow_zero, Nat.testBit_and, hedge, hm]
      simp
    rw [if_neg hne, border_as_move_eq hfuel hs hi hjs, board_copy_some hs hpl]
    have hv : board_is_move_valid b (edge_move b.size i j) = true := by
      rw [move_valid_iff hs hpl]
      exact ⟨(edge_move_lt hs hjs).1, (edge_move_lt hs hjs).2, hm⟩
    obtain ⟨c, e, cok, cfresh, csz, _, _, cmine, _⟩ := board_play_valid hok hfresh hpl hfuel _ hv
    obtain ⟨ccol, _⟩ := board_play_colour_or_empty hok hfresh hfuel e (Or.inl hpl)
    have hmine : (plane_of c b.player).testBit (edge_cell b.size i j) = true :=
      (cmine _).2 (Or.inr (Or.inl rfl))
    have hiff := borders_test_iff hpl cok cfresh csz ccol hi hj1 hj2 hmine
    simp only [e]
    by_cases ht : borders_test b c (get_borders b.size) (get_boarders_init b.size)
        [1, 1, b.size, b.size] i j (2 ^ edge_cell b.size i j) = true
    · rw [if_pos ht]
      refine ⟨_, rfl, fun n => ?_⟩
      rw [Nat.testBit_or, Bool.or_eq_true, Nat.testBit_two_pow, decide_eq_true_eq]
      apply or_congr Iff.rfl
      constructor
      · intro h
        exact ⟨h.symm, hm, c, e, hiff.1 ht⟩
      · intro h
        exact h.1.symm
    · rw [if_neg ht]
      refine ⟨_, rfl, fun n => ?_⟩
      constructor
      · exact Or.inl
      · rintro (h | ⟨_, _, c2, e2, hf⟩)
        · exact h
        · rw [e] at e2
          cases e2
          exact absurd (hiff.2 hf) ht
  · have hz : 2 ^ edge_cell b.size i j &&& ((get_borders b.size).getD i 0 &&& b.moves) = 0 := by
      rw [and_two_pow_zero, Nat.testBit_and, hedge]
      simpa using hm
    rw [if_pos hz]
    refine ⟨_, rfl, fun n => ?_⟩
    constructor
    · exact Or.inl
    · rintro (h | ⟨_, h, _⟩)
      · exact h
      · exact absurd h hm

/-- The inner loop of `get_interesting_borders` over a list of positions. -/
theorem borders_cells_spec {fuel : Nat} (hfuel : 10 ≤ fuel) {b : board_t}
    (hb : Reachable fuel b) (hpl : IsColour b.player) {i : Nat} (hi : i < 4) :
    ∀ (l : List Nat), (∀ j, j ∈ l → 1 ≤ j ∧ j + 1 < b.size) → ∀ acc : bitboard_t,
    ∃ acc2, l.foldlM (borders_cell fuel b (get_borders (board_size b))
        (get_boarders_init (board_size b)) [1, 1, board_size b, board_size b] i
        ((get_borders (board_size b)).getD i 0 &&& b.moves)) acc = some acc2 ∧
      ∀ n, acc2.testBit n = true ↔
        acc.testBit n = true ∨ ∃ j, j ∈ l ∧ n = edge_cell b.size i j ∧ Flagged fuel b i j := by
  intro l
  induction l with
  | nil =>
    intro _ acc
    refine ⟨acc, rfl, fun n => ?_⟩
    simp
  | cons j l ih =>
    intro hl acc
    obtain ⟨a1, e1, h1⟩ := borders_cell_spec hfuel hb hpl hi (hl j (List.mem_cons_self _ _)).1
      (hl j (List.mem_cons_self _ _)).2 acc
    obtain ⟨a2, e2, h2⟩ := ih (fun t ht => hl t (List.mem_cons_of_mem _ ht)) a1
    refine ⟨a2, ?_, fun n => ?_⟩
    · rw [List.foldlM_cons, e1]
      exact e2
    · rw [h2, h1]
      simp only [List.mem_cons, exists_eq_or_imp, or_assoc]

/-- One iteration of the outer loop of `get_interesting_borders`. -/
theorem borders_line_spec {fuel : Nat} (hfuel : 10 ≤ fuel) {b : board_t}
    (hb : Reachable fuel b) (hpl : IsColour b.player) {i : Nat} (hi : i < 4)
    (acc : bitboard_t) :
    ∃ acc2, borders_line fuel b (get_borders (board_size b))
        (get_boarders_init (board_size b)) [1, 1, board_size b, board_size b] acc i =
          some acc2 ∧
      ∀ n, acc2.testBit n = true ↔ acc.testBit n = true ∨
        ∃ j, 1 ≤ j ∧ j + 1 < b.size ∧ n = edge_cell b.size i j ∧ Flagged fuel b i j := by
  obtain ⟨hok, hfresh⟩ := reachable_ok hfuel hb
  have hs := hok.size_ok
  unfold borders_line
  by_cases h0 : (get_borders (board_size b)).getD i 0 &&& b.moves = 0
  · simp only [h0, if_true]
    refine ⟨acc, rfl, fun n => ?_⟩
    constructor
    · exact Or.inl
    · rintro (h | ⟨j, _, hj, _, hm, _⟩)
      · exact h
      · exfalso
        rw [Nat.land_comm] at h0
        have := (and_border_zero hs hi _).1 h0 j (by omega)
        rw [this] at hm
        cases hm
  · simp only [h0, if_false]
    obtain ⟨a2, e2, h2⟩ := borders_cells_spec hfuel hb hpl hi (List.range' 1 (b.size - 2))
      (fun j hj => by
        rw [List.mem_range'_1] at hj
        omega) acc
    refine ⟨a2, e2, fun n => ?_⟩
    rw [h2]
    apply or_congr Iff.rfl
    constructor
    · rintro ⟨j, hj, h⟩
      rw [List.mem_range'_1] at hj
      exact ⟨j, by omega, by omega, h⟩
    · rintro ⟨j, hj1, hj2, h⟩
      exact ⟨j, by rw [List.mem_range'_1]; omega, h⟩

/-- What `get_interesting_borders` returns on a board with a player to move: the positions
of the borders, corners apart, that are legal moves and pass the tests. -/
theorem interesting_borders_spec {fuel : Nat} (hfuel : 10 ≤ fuel) {b : board_t}
    (hb : Reachable fuel b) (hpl : IsColour b.player) :
    ∃ res, get_interesting_borders fuel b = some res ∧
      ∀ n, res.testBit n = true ↔ FlaggedCell fuel b n := by
  obtain ⟨hok, hfresh⟩ := reachable_ok hfuel hb
  have hs := hok.size_ok
  have hne : ¬board_player b = disc_t.EMPTY_DISC := by
    unfold board_player
    rcases hpl with h | h <;> rw [h] <;> decide
  obtain ⟨d0, e0, h0⟩ := borders_line_spec hfuel hb hpl (show 0 < 4 by omega) 0
  obtain ⟨d1, e1, h1⟩ := borders_line_spec hfuel hb hpl (show 1 < 4 by omega) d0
  obtain ⟨d2, e2, h2⟩ := borders_line_spec hfuel hb hpl (show 2 < 4 by omega) d1
  obtain ⟨d3, e3, h3⟩ := borders_line_spec hfuel hb hpl (show 3 < 4 by omega) d2
  refine ⟨d3, ?_, fun n => ?_⟩
  · unfold get_interesting_borders
    have hinc : get_borders_increment (board_size b) =
        some [1, 1, board_size b, board_size b] :=
      (borders_init_eq (i := 0) hs (by omega)).2.1
    rw [if_neg hne, hinc]
    simp only [List.foldlM_cons, List.foldlM_nil, Option.bind_eq_bind, e0,
      Option.some_bind, e1, e2, e3, Option.pure_def]
  · rw [h3, h2, h1, h0, Nat.zero_testBit]
    unfold FlaggedCell
    constructor
    · rintro ((((h | ⟨j, h⟩) | ⟨j, h⟩) | ⟨j, h⟩) | ⟨j, h⟩)
      · cases h
      · exact ⟨0, j, by omega, h⟩
      · exact ⟨1, j, by omega, h⟩
      · exact ⟨2, j, by omega, h⟩
      · exact ⟨3, j, by omega, h⟩
    · rintro ⟨i, j, hi, h⟩
      interval_cases i
      · exact Or.inl (Or.inl (Or.inl (Or.inr ⟨j, h⟩)))
      · exact Or.inl (Or.inl (Or.inr ⟨j, h⟩))
      · exact Or.inl (Or.inr ⟨j, h⟩)
      · exact Or.inr ⟨j, h⟩

/-! ## The results of the two analyzers -/

/-- A position of a border between its two corners is no corner cell. -/
theorem edge_cell_not_corner {s : Nat} (hs : board_cheak_size s = true) {i j : Nat}
    (hi : i < 4) (hj1 : 1 ≤ j) (hj2 : j + 1 < s) :
    (get_corners s).testBit (edge_cell s i j) = false := by
  cases h : (get_corners s).testBit (edge_cell s i j)
  · rfl
  · exfalso
    obtain ⟨k, hk, e⟩ := (get_corners_testBit hs _).1 h
    rcases valid_size_cases hs with h | h | h | h | h <;> subst h <;>
      interval_cases i <;> interval_cases k <;>
      simp [edge_cell, edge_move, corner_cell, get_corner_as_move, board_cheak_size,
        MIN_BOARD_SIZE, MAX_BOARD_SIZE] at e <;> omega

/-- A cell between the corners of a border lies on that border only, at one position. -/
theorem edge_cell_unique {s : Nat} (hs : board_cheak_size s = true) {i j i2 j2 : Nat}
    (hi : i < 4) (hj1 : 1 ≤ j) (hj2 : j + 1 < s) (hi2 : i2 < 4) (hk1 : 1 ≤ j2)
    (hk2 : j2 + 1 < s) (e : edge_cell s i j = edge_cell s i2 j2) : i = i2 ∧ j = j2 := by
  rcases valid_size_cases hs with h | h | h | h | h <;> subst h <;>
    interval_cases i <;> interval_cases i2 <;>
    simp [edge_cell, edge_move] at e <;> omega

/-- On a board without a player to move, no position of a border is kept. -/
theorem borders_cells_no_colour {fuel : Nat} (hfuel : 10 ≤ fuel) {b : board_t}
    (hs : board_cheak_size b.size = true) (hpl : ¬IsColour b.player) {i : Nat} (hi : i < 4)
    (x : bitboard_t) :
    ∀ (l : List Nat), (∀ j, j ∈ l → j < b.size) → ∀ acc : bitboard_t,
      l.foldlM (borders_cell fuel b (get_borders (board_size b))
        (get_boarders_init (board_size b)) [1, 1, board_size b, board_size b] i x) acc =
          some acc := by
  intro l
  induction l with
  | nil =>
    intro _ acc
    rfl
  | cons j l ih =>
    intro hl acc
    have hj := hl j (List.mem_cons_self _ _)
    have e1 : borders_cell fuel b (get_borders (board_size b))
        (get_boarders_init (board_size b)) [1, 1, board_size b, board_size b] i x acc j =
          some acc := by
      unfold borders_cell
      simp only [board_size]
      rw [edge_bit hs hi hj, border_as_move_eq hfuel hs hi hj, board_copy_no_colour hpl]
      simp only [ite_self]
    rw [List.foldlM_cons, e1]
    exact ih (fun t ht => hl t (List.mem_cons_of_mem _ ht)) acc

theorem interesting_borders_no_colour {fuel : Nat} (hfuel : 10 ≤ fuel) {b : board_t}
    (hs : board_cheak_size b.size = true) (hpl : ¬IsColour b.player) :
    get_interesting_borders fuel b = some 0 := by
  have hline : ∀ i, i < 4 → ∀ acc, borders_line fuel b (get_borders (board_size b))
      (get_boarders_init (board_size b)) [1, 1, board_size b, board_size b] acc i =
        some acc := by
    intro i hi acc
    unfold borders_line
    simp only []
    split_ifs
    · rfl
    · exact borders_cells_no_colour hfuel hs hpl hi _ _ (fun j hj => by
        rw [List.mem_range'_1] at hj
        simp only [board_size] at hj
        omega) acc
  have hinc : get_borders_increment (board_size b) =
      some [1, 1, board_size b, board_size b] :=
    (borders_init_eq (i := 0) hs (by omega)).2.1
  unfold get_interesting_borders
  split_ifs
  · rfl
  · rw [hinc]
    simp only [List.foldlM_cons, List.foldlM_nil, Option.bind_eq_bind,
      hline 0 (by omega), hline 1 (by omega), hline 2 (by omega), hline 3 (by omega),
      Option.some_bind, Option.pure_def]

/-- The result of `get_interesting_borders` position by position. -/
theorem interesting_borders_iff {fuel : Nat} (hfuel : 10 ≤ fuel) {b : board_t}
    (hb : Reachable fuel b) (hpl : IsColour b.player) :
    ∃ res, get_interesting_borders fuel b = some res ∧
      (∀ n, res.testBit n = true → FlaggedCell fuel b n) ∧
      ∀ i j, i < 4 → 1 ≤ j → j + 1 < b.size →
        (res.testBit (edge_cell b.size i j) = true ↔ Flagged fuel b i j) := by
  obtain ⟨hok, _⟩ := reachable_ok hfuel hb
  obtain ⟨res, e, h⟩ := interesting_borders_spec hfuel hb hpl
  refine ⟨res, e, fun n hn => (h n).1 hn, fun i j hi hj1 hj2 => ?_⟩
  rw [h]
  constructor
  · rintro ⟨i2, j2, hi2, hk1, hk2, he, hf⟩
    obtain ⟨rfl, rfl⟩ := edge_cell_unique hok.size_ok hi hj1 hj2 hi2 hk1 hk2 he
    exact hf
  · intro hf
    exact ⟨i, j, hi, hj1, hj2, rfl, hf⟩

/-- The result of `get_corners_to_exam` lies within the playable corners and is empty only
when no corner is playable. -/
theorem corners_to_exam_sub {fuel : Nat} (hfuel : 10 ≤ fuel) {b : board_t}
    (hb : Reachable fuel b) :
    ∃ res, get_corners_to_exam fuel b = some res ∧
      (∀ n, res.testBit n = true → (get_playable_corners b).testBit n = true) ∧
      (get_playable_corners b ≠ 0 → res ≠ 0) := by
  obtain ⟨hok, _⟩ := reachable_ok hfuel hb
  have hs := hok.size_ok
  have hconf := playable_corners_confined (b := b) hs
  by_cases hcond : get_playable_corners b = 0 ∨ bitboard_popcount (get_playable_corners b) = 1
  · refine ⟨get_playable_corners b, ?_, fun n hn => hn, fun h => h⟩
    unfold get_corners_to_exam
    simp only [hcond, if_true]
  · rw [not_or] at hcond
    have hpop : bitboard_popcount (get_playable_corners b) =
        (cells_of b.size (get_playable_corners b)).length := by
      rw [bitboard_popcount_eq _ (confined_lt hs hconf), popcount_cells hs hconf]
    have h2 : 2 ≤ (cells_of b.size (get_playable_corners b)).length := by
      rcases Nat.lt_or_ge (cells_of b.size (get_playable_corners b)).length 2 with hlt | hge
      · exfalso
        have h0 : (cells_of b.size (get_playable_corners b)).length ≠ 0 := by
          intro h0
          apply hcond.1
          apply Nat.eq_of_testBit_eq
          intro n
          rw [Nat.zero_testBit]
          cases hn : (get_playable_corners b).testBit n
          · rfl
          · have := (testBit_iff_mem_cells hconf n).1 hn
            rw [List.length_eq_zero.1 h0] at this
            cases this
        omega
      · exact hge
    obtain ⟨d, e, hd⟩ := corners_to_exam_eq hfuel hb h2
    refine ⟨_, e, fun n hn => ?_, fun hne => ?_⟩
    · split_ifs at hn with h0
      · exact hn
      · obtain ⟨_, _, _, hp, _⟩ := (hd n).1 hn
        exact hp
    · split_ifs with h0
      · exact hne
      · exact h0

/-! ## Claims on the interesting borders -/

theorem reachable_play {fuel : Nat} {b c : board_t} {m : move_t} (h : Reachable fuel b)
    (e : board_play fuel b m = some (true, c)) : Reachable fuel c :=
  Reachable.play b m true c h e

theorem border_games_start :
    board_init 10 4 = some start4 ∧
    board_play 10 start4 ⟨0, 1⟩ = some (true, second4) ∧
    board_play 10 ⟨4, disc_t.WHITE_DISC, 610, 1024, 261, 0⟩ ⟨0, 0⟩ =
      some (true, ⟨4, disc_t.BLACK_DISC, 578, 1057, 18448, 0⟩) ∧
    board_play 10 ⟨4, disc_t.BLACK_DISC, 578, 1057, 18448, 0⟩ ⟨1, 0⟩ =
      some (true, ⟨4, disc_t.WHITE_DISC, 626, 1025, 260, 0⟩) ∧
    board_play 10 ⟨4, disc_t.WHITE_DISC, 626, 1025, 260, 0⟩ ⟨0, 2⟩ =
      some (true, ⟨4, disc_t.BLACK_DISC, 560, 1095, 34952, 0⟩) := by
  decide

theorem border_games_reachable :
    Reachable 10 ⟨4, disc_t.BLACK_DISC, 560, 1095, 34952, 0⟩ :=
  reachable_play (reachable_play (reachable_play (reachable_play
    (Reachable.init 4 start4 border_games_start.1) border_games_start.2.1)
    border_games_start.2.2.1) border_games_start.2.2.2.1) border_games_start.2.2.2.2

theorem border_games_middle :
    board_play 10 ⟨4, disc_t.BLACK_DISC, 560, 1095, 34952, 0⟩ ⟨0, 3⟩ =
      some (true, ⟨4, disc_t.WHITE_DISC, 632, 1031, 10496, 0⟩) ∧
    board_play 10 ⟨4, disc_t.WHITE_DISC, 632, 1031, 10496, 0⟩ ⟨2, 0⟩ =
      some (true, ⟨4, disc_t.BLACK_DISC, 72, 1847, 20480, 0⟩) := by
  decide

theorem lowcorner4_game :
    board_play 10 ⟨4, disc_t.BLACK_DISC, 72, 1847, 20480, 0⟩ ⟨3, 0⟩ =
      some (true, ⟨4, disc_t.WHITE_DISC, 4680, 1335, 26752, 0⟩) ∧
    board_play 10 ⟨4, disc_t.WHITE_DISC, 4680, 1335, 26752, 0⟩ ⟨1, 3⟩ =
      some (true, ⟨4, disc_t.BLACK_DISC, 4616, 1527, 2048, 0⟩) ∧
    board_play 10 ⟨4, disc_t.BLACK_DISC, 4616, 1527, 2048, 0⟩ ⟨2, 3⟩ =
      some (true, ⟨4, disc_t.WHITE_DISC, 7816, 375, 57344, 0⟩) ∧
    board_play 10 ⟨4, disc_t.WHITE_DISC, 7816, 375, 57344, 0⟩ ⟨3, 1⟩ =
      some (true, lowcorner4) := by
  decide

theorem lowcorner4_reachable : Reachable 10 lowcorner4 :=
  reachable_play (reachable_play (reachable_play (reachable_play (reachable_play
    (reachable_play border_games_reachable border_games_middle.1) border_games_middle.2)
    lowcorner4_game.1) lowcorner4_game.2.1) lowcorner4_game.2.2.1) lowcorner4_game.2.2.2

theorem mixed4_game :
    board_play 10 ⟨4, disc_t.BLACK_DISC, 72, 1847, 20480, 0⟩ ⟨3, 2⟩ =
      some (true, ⟨4, disc_t.WHITE_DISC, 17480, 823, 34944, 0⟩) ∧
    board_play 10 ⟨4, disc_t.WHITE_DISC, 17480, 823, 34944, 0⟩ ⟨1, 3⟩ =
      some (true, ⟨4, disc_t.BLACK_DISC, 17416, 1015, 6144, 0⟩) ∧
    board_play 10 ⟨4, disc_t.BLACK_DISC, 17416, 1015, 6144, 0⟩ ⟨2, 3⟩ =
      some (true, ⟨4, disc_t.WHITE_DISC, 19592, 887, 32768, 0⟩) ∧
    board_play 10 ⟨4, disc_t.WHITE_DISC, 19592, 887, 32768, 0⟩ ⟨3, 3⟩ =
      some (true, mixed4) := by
  decide

theorem mixed4_reachable : Reachable 10 mixed4 :=
  reachable_play (reachable_play (reachable_play (reachable_play (reachable_play
    (reachable_play border_games_reachable border_games_middle.1) border_games_middle.2)
    mixed4_game.1) mixed4_game.2.1) mixed4_game.2.2.1) mixed4_game.2.2.2

theorem highcorner4_game :
    board_play 10 ⟨4, disc_t.BLACK_DISC, 560, 1095, 34952, 0⟩ ⟨2, 3⟩ =
      some (true, ⟨4, disc_t.WHITE_DISC, 3632, 71, 61696, 0⟩) ∧
    board_play 10 ⟨4, disc_t.WHITE_DISC, 3632, 71, 61696, 0⟩ ⟨2, 0⟩ =
      some (true, ⟨4, disc_t.BLACK_DISC, 3584, 375, 8, 0⟩) ∧
    board_play 10 ⟨4, disc_t.BLACK_DISC, 3584, 375, 8, 0⟩ ⟨0, 3⟩ =
      some (true, ⟨4, disc_t.WHITE_DISC, 3656, 311, 57472, 0⟩) ∧
    board_play 10 ⟨4, disc_t.WHITE_DISC, 3656, 311, 57472, 0⟩ ⟨1, 3⟩ =
      some (true, ⟨4, disc_t.WHITE_DISC, 3592, 503, 61440, 0⟩) ∧
    board_play 10 ⟨4, disc_t.WHITE_DISC, 3592, 503, 61440, 0⟩ ⟨3, 3⟩ =
      some (true, highcorner4) := by
  decide

theorem highcorner4_reachable : Reachable 10 highcorner4 :=
  reachable_play (reachable_play (reachable_play (reachable_play (reachable_play
    border_games_reachable highcorner4_game.1) highcorner4_game.2.1) highcorner4_game.2.2.1)
    highcorner4_game.2.2.2.1) highcorner4_game.2.2.2.2

/-- C40: for every board the interface can produce, whether its game is over or not,
`get_corners_to_exam` returns a mask within the legal moves on the four corners, not empty
when a corner is a legal move, and `get_interesting_borders` returns a mask within the
legal moves on the cells of the four borders that are no corners. -/
theorem analyzers_propose_legal (fuel : Nat) (hfuel : 10 ≤ fuel) (b : board_t)
    (hb : Reachable fuel b) :
    (∃ res, get_corners_to_exam fuel b = some res ∧
      (∀ n, res.testBit n = true →
        b.moves.testBit n = true ∧ (get_corners b.size).testBit n = true) ∧
      (b.moves &&& get_corners b.size ≠ 0 → res ≠ 0)) ∧
    (∃ res, get_interesting_borders fuel b = some res ∧
      ∀ n, res.testBit n = true → b.moves.testBit n = true ∧
        (∃ i, i < 4 ∧ ((get_borders b.size).getD i 0).testBit n = true) ∧
        (get_corners b.size).testBit n = false) := by
  obtain ⟨hok, _⟩ := reachable_ok hfuel hb
  have hs := hok.size_ok
  constructor
  · obtain ⟨res, e, h1, h2⟩ := corners_to_exam_sub hfuel hb
    refine ⟨res, e, fun n hn => ?_, h2⟩
    have := h1 n hn
    unfold get_playable_corners board_size at this
    rw [Nat.testBit_and, Bool.and_eq_true] at this
    exact this
  · by_cases hpl : IsColour b.player
    · obtain ⟨res, e, h⟩ := interesting_borders_spec hfuel hb hpl
      refine ⟨res, e, fun n hn => ?_⟩
      obtain ⟨i, j, hi, hj1, hj2, rfl, hm, _⟩ := (h n).1 hn
      exact ⟨hm, ⟨i, hi, (borders_testBit hs hi _).2 ⟨j, by omega, rfl⟩⟩,
        edge_cell_not_corner hs hi hj1 hj2⟩
    · refine ⟨0, interesting_borders_no_colour hfuel hs hpl, fun n hn => ?_⟩
      rw [Nat.zero_testBit] at hn
      cases hn

theorem analyzers_propose_legal_witness :
    10 ≤ 10 ∧ Reachable 10 highcorner4 ∧ highcorner4.player ≠ disc_t.EMPTY_DISC ∧
    highcorner4.moves = 28672 ∧ get_corners_to_exam 10 highcorner4 = some 4096 ∧
    get_interesting_borders 10 highcorner4 = some 16384 ∧
    ((∃ res, get_corners_to_exam 10 highcorner4 = some res ∧
      (∀ n, res.testBit n = true →
        highcorner4.moves.testBit n = true ∧
          (get_corners highcorner4.size).testBit n = true) ∧
      (highcorner4.moves &&& get_corners highcorner4.size ≠ 0 → res ≠ 0)) ∧
    (∃ res, get_interesting_borders 10 highcorner4 = some res ∧
      ∀ n, res.testBit n = true → highcorner4.moves.testBit n = true ∧
        (∃ i, i < 4 ∧ ((get_borders highcorner4.size).getD i 0).testBit n = true) ∧
        (get_corners highcorner4.size).testBit n = false)) :=
  ⟨by decide, highcorner4_reachable, by decide, rfl, by decide, by decide,
    analyzers_propose_legal 10 (by decide) highcorner4 highcorner4_reachable⟩

/-- C31, counterexample: on the 4 × 4 board `lowcorner4` the move (3, 2) of Black, the
position 2 of the south border, gives Black the run of the positions 0 to 2, which holds
the low corner (3, 0) and ends before the legal move (3, 3) of White; on the board `mixed4`
the move (3, 1), the position 1 of the south border, gives Black the run of the positions 1
to 2, between the legal move (3, 0) of White and the disc (3, 3) of White.  Both runs are
anchored at both ends, the game goes on, and `get_interesting_borders` keeps neither move. -/
theorem interesting_borders_anchored_counterexample :
    (Reachable 10 lowcorner4 ∧ lowcorner4.moves.testBit (edge_cell 4 1 2) = true ∧
      edge_move 4 1 2 = ⟨3, 2⟩ ∧
      board_play 10 lowcorner4 (edge_move 4 1 2) =
        some (true, ⟨4, disc_t.WHITE_DISC, 31880, 887, 32768, 0⟩) ∧
      RunThrough 4 1 31880 2 0 2 ∧
      RunAnchored lowcorner4 ⟨4, disc_t.WHITE_DISC, 31880, 887, 32768, 0⟩ 1 2 ∧
      get_interesting_borders 10 lowcorner4 = some 0) ∧
    (Reachable 10 mixed4 ∧ mixed4.moves.testBit (edge_cell 4 1 1) = true ∧
      edge_move 4 1 1 = ⟨3, 1⟩ ∧
      board_play 10 mixed4 (edge_move 4 1 1) =
        some (true, ⟨4, disc_t.WHITE_DISC, 27784, 33655, 4096, 0⟩) ∧
      RunThrough 4 1 27784 1 1 2 ∧
      (4096 : Nat).testBit (edge_cell 4 1 0) = true ∧
      (33655 : Nat).testBit (edge_cell 4 1 3) = true ∧
      RunAnchored mixed4 ⟨4, disc_t.WHITE_DISC, 27784, 33655, 4096, 0⟩ 1 1 ∧
      get_interesting_borders 10 mixed4 = some 0) := by
  have r1 : RunThrough 4 1 31880 2 0 2 := by
    unfold RunThrough
    decide
  have r2 : RunThrough 4 1 27784 1 1 2 := by
    unfold RunThrough
    decide
  exact ⟨⟨lowcorner4_reachable, by decide, by decide, by decide, r1,
      ⟨0, 2, r1, Or.inl rfl, Or.inr (Or.inr (by decide))⟩, by decide⟩,
    ⟨mixed4_reachable, by decide, by decide, by decide, r2, by decide, by decide,
      ⟨1, 2, r2, Or.inr (Or.inr (by decide)), Or.inr (Or.inl (by decide))⟩, by decide⟩⟩

/-- C31, amended: for every board the interface can produce, `get_interesting_borders`
keeps every legal move on a position of a border between its corners after which the game is
not over and the run of the mover through the played cell along that border reaches the
high-index corner of the border, or has an opponent disc just beyond both ends, or has a
legal move of the opponent just beyond both ends. -/
theorem interesting_borders_flags (fuel : Nat) (hfuel : 10 ≤ fuel) (b : board_t)
    (hb : Reachable fuel b) (i j : Nat) (hi : i < 4) (hj1 : 1 ≤ j) (hj2 : j + 1 < b.size)
    (c : board_t) (hm : b.moves.testBit (edge_cell b.size i j) = true)
    (hplay : board_play fuel b (edge_move b.size i j) = some (true, c))
    (hgo : c.player ≠ disc_t.EMPTY_DISC) (hrun : RunFlagged b c i j) :
    ∃ res, get_interesting_borders fuel b = some res ∧
      res.testBit (edge_cell b.size i j) = true := by
  have hpl : IsColour b.player := by
    by_contra hn
    unfold IsColour at hn
    rw [not_or] at hn
    rw [board_play_no_colour fuel b _ hn.1 hn.2] at hplay
    cases hplay
  obtain ⟨res, e, _, h⟩ := interesting_borders_iff hfuel hb hpl
  exact ⟨res, e, (h i j hi hj1 hj2).2 ⟨hm, c, hplay, Or.inr ⟨hgo, Or.inr (Or.inr hrun)⟩⟩⟩

theorem interesting_borders_flags_witness :
    10 ≤ 10 ∧ Reachable 10 highcorner4 ∧ 1 < 4 ∧ 1 ≤ 2 ∧ 2 + 1 < highcorner4.size ∧
    highcorner4.moves.testBit (edge_cell highcorner4.size 1 2) = true ∧
    board_play 10 highcorner4 (edge_move highcorner4.size 1 2) =
      some (true, ⟨4, disc_t.BLACK_DISC, 8, 53239, 4096, 0⟩) ∧
    RunFlagged highcorner4 ⟨4, disc_t.BLACK_DISC, 8, 53239, 4096, 0⟩ 1 2 ∧
    get_interesting_borders 10 highcorner4 = some 16384 ∧
    ∃ res, get_interesting_borders 10 highcorner4 = some res ∧
      res.testBit (edge_cell highcorner4.size 1 2) = true :=
  have r : RunFlagged highcorner4 ⟨4, disc_t.BLACK_DISC, 8, 53239, 4096, 0⟩ 1 2 :=
    ⟨2, 3, by unfold RunThrough; decide, Or.inl rfl⟩
  ⟨by decide, highcorner4_reachable, by decide, by decide, by decide, by decide, by decide, r,
    by decide,
    interesting_borders_flags 10 (by decide) highcorner4 highcorner4_reachable 1 2 (by decide)
      (by decide) (by decide) ⟨4, disc_t.BLACK_DISC, 8, 53239, 4096, 0⟩ (by decide) (by decide)
      (by decide) r⟩

/-- C32, counterexample: on the 4 × 4 board `highcorner4` the move (3, 2) of White, the
position 2 of the south border, leaves Black to move with the legal move (3, 0) on that
border, and gives White the run of the positions 2 to 3, which holds the high corner (3, 3)
and ends after the position 1, an empty cell where Black has no legal move: the four tests
fail, and `get_interesting_borders` keeps the move. -/
theorem interesting_borders_only_counterexample :
    Reachable 10 highcorner4 ∧ highcorner4.moves.testBit (edge_cell 4 1 2) = true ∧
    edge_move 4 1 2 = ⟨3, 2⟩ ∧
    board_play 10 highcorner4 (edge_move 4 1 2) =
      some (true, ⟨4, disc_t.BLACK_DISC, 8, 53239, 4096, 0⟩) ∧
    ¬GameOverNotBehind highcorner4 ⟨4, disc_t.BLACK_DISC, 8, 53239, 4096, 0⟩ ∧
    opponent_moves highcorner4 ⟨4, disc_t.BLACK_DISC, 8, 53239, 4096, 0⟩ ≠ 0 ∧
    ¬EdgeFree highcorner4 ⟨4, disc_t.BLACK_DISC, 8, 53239, 4096, 0⟩ 1 ∧
    RunThrough 4 1 53239 2 2 3 ∧
    ¬RunAnchored highcorner4 ⟨4, disc_t.BLACK_DISC, 8, 53239, 4096, 0⟩ 1 2 ∧
    get_interesting_borders 10 highcorner4 = some (2 ^ edge_cell 4 1 2) := by
  have r : RunThrough 4 1 53239 2 2 3 := by
    unfold RunThrough
    decide
  refine ⟨highcorner4_reachable, by decide, by decide, by decide, ?_, by decide, ?_, r, ?_,
    by decide⟩
  · unfold GameOverNotBehind
    decide
  · unfold EdgeFree
    decide
  · rintro ⟨lo, hi, hr, hlo, _⟩
    obtain ⟨rfl, rfl⟩ := run_through_unique r hr
    revert hlo
    decide

/-- C32, amended: for every board the interface can produce, `get_interesting_borders` keeps
a position of a border between its corners only if it is a legal move after which at least
one of these holds: the game is over and the mover is not behind; the opponent has no legal
move; no opponent disc and no legal move of the opponent lies on that border; the run of the
mover through the played cell along the border reaches a corner of the border, at either
end, or has an opponent disc just beyond both ends, or has a legal move of the opponent just
beyond both ends. -/
theorem interesting_borders_only (fuel : Nat) (hfuel : 10 ≤ fuel) (b : board_t)
    (hb : Reachable fuel b) :
    ∃ res, get_interesting_borders fuel b = some res ∧
      ∀ i j, i < 4 → 1 ≤ j → j + 1 < b.size → res.testBit (edge_cell b.size i j) = true →
        b.moves.testBit (edge_cell b.size i j) = true ∧
        ∃ c, board_play fuel b (edge_move b.size i j) = some (true, c) ∧
          (GameOverNotBehind b c ∨
            (c.player ≠ disc_t.EMPTY_DISC ∧
              (opponent_moves b c = 0 ∨ EdgeFree b c i ∨ RunCornered b c i j))) := by
  obtain ⟨hok, _⟩ := reachable_ok hfuel hb
  by_cases hpl : IsColour b.player
  · obtain ⟨res, e, _, h⟩ := interesting_borders_iff hfuel hb hpl
    refine ⟨res, e, fun i j hi hj1 hj2 hn => ?_⟩
    obtain ⟨hm, c, ec, hf⟩ := (h i j hi hj1 hj2).1 hn
    refine ⟨hm, c, ec, ?_⟩
    rcases hf with hf | ⟨hgo, hf | hf | ⟨lo, hi2, hr, hx⟩⟩
    · exact Or.inl hf
    · exact Or.inr ⟨hgo, Or.inl hf⟩
    · exact Or.inr ⟨hgo, Or.inr (Or.inl hf)⟩
    · exact Or.inr ⟨hgo, Or.inr (Or.inr ⟨lo, hi2, hr, Or.inr hx⟩)⟩
  · refine ⟨0, interesting_borders_no_colour hfuel hok.size_ok hpl, fun i j _ _ _ hn => ?_⟩
    rw [Nat.zero_testBit] at hn
    cases hn

theorem interesting_borders_only_witness :
    10 ≤ 10 ∧ Reachable 10 highcorner4 ∧
    get_interesting_borders 10 highcorner4 = some 16384 ∧
    (16384 : Nat).testBit (edge_cell highcorner4.size 1 2) = true ∧
    ∃ res, get_interesting_borders 10 highcorner4 = some res ∧
      ∀ i j, i < 4 → 1 ≤ j → j + 1 < highcorner4.size →
        res.testBit (edge_cell highcorner4.size i j) = true →
        highcorner4.moves.testBit (edge_cell highcorner4.size i j) = true ∧
        ∃ c, board_play 10 highcorner4 (edge_move highcorner4.size i j) = some (true, c) ∧
          (GameOverNotBehind highcorner4 c ∨
            (c.player ≠ disc_t.EMPTY_DISC ∧
              (opponent_moves highcorner4 c = 0 ∨ EdgeFree highcorner4 c i ∨
                RunCornered highcorner4 c i j))) :=
  ⟨by decide, highcorner4_reachable, by decide, by decide,
    interesting_borders_only 10 (by decide) highcorner4 highcorner4_reachable⟩

/-! ## The searches of the Newton player -/

/-- The loop of `newton_max` and `newton_min` returns as soon as its body does. -/
theorem newton_loop_total {fuel : Nat} (hfuel : 10 ≤ fuel)
    (early : move_t → Option alpha_beta_t)
    (child : board_t → alpha_beta_t → Except fault_t alpha_beta_t)
    (hchild : ∀ c r, Reachable fuel c → ∃ w, child c r = Except.ok w) (todo : Nat) :
    ∀ (b : board_t) (r : alpha_beta_t), Reachable fuel b → (todo ≠ 0 → IsColour b.player) →
      ∃ w, newton_loop fuel early child todo b r = Except.ok w := by
  induction todo with
  | zero => exact fun b r _ _ => ⟨r, rfl⟩
  | succ n ih =>
    intro b r hb hpl
    obtain ⟨e1, hr, hpl2, c, e2, hc⟩ := search_step hfuel hb (hpl (Nat.succ_ne_zero n))
    obtain ⟨w, e3⟩ := hchild c r hc
    unfold newton_loop
    cases early (board_next_move b).1 with
    | some x => exact ⟨x, rfl⟩
    | none =>
      simp only [e1, e2, e3]
      split_ifs
      · exact ⟨w, rfl⟩
      · exact ih _ w hr (fun _ => hpl2)

/-- With more gas than depth, `newton_max` and `newton_min` return a window on every board
the interface can produce. -/
theorem newton_total {fuel : Nat} (hfuel : 10 ≤ fuel) (depth_ini gas : Nat) :
    ∀ (b : board_t) (depth : Nat) (a_b : alpha_beta_t) (p : disc_t), depth < gas →
      Reachable fuel b →
      (∃ w, newton_max fuel depth_ini gas b depth a_b p = Except.ok w) ∧
        (∃ w, newton_min fuel depth_ini gas b depth a_b p = Except.ok w) := by
  induction gas with
  | zero => intro b depth a_b p h; omega
  | succ gas ih =>
    intro b depth a_b p hd hb
    by_cases h0 : depth = 0
    · subst h0
      simp only [newton_max, newton_min, if_true]
      exact ⟨⟨_, rfl⟩, ⟨_, rfl⟩⟩
    · have hd1 : depth - 1 < gas := by omega
      have hd2 : (if depth ≤ 2 then 0 else depth - 2) < gas := by split_ifs <;> omega
      simp only [newton_max, newton_min, if_neg h0]
      constructor
      · apply newton_loop_total hfuel _ _ _ _ _ _ hb (fun h => count_pos_colour h)
        intro c r hc
        exact ab_max_child_total _ _ (fun c r hc => (ih c _ r p hd2 hc).1)
          (fun c r hc => (ih c _ r p hd1 hc).2) _ _ c r hc
      · apply newton_loop_total hfuel _ _ _ _ _ _ hb (fun h => count_pos_colour h)
        intro c r hc
        exact ab_min_child_total _ _ (fun c r hc => (ih c _ r p hd2 hc).2)
          (fun c r hc => (ih c _ r p hd1 hc).1) _ _ c r hc

theorem board_copy_with_cursor (x : bitboard_t) (b : board_t) :
    board_copy (with_cursor x b) = (board_copy b).map (with_cursor x) := by
  unfold board_copy with_cursor
  simp only [Option.bind_eq_bind, Option.pure_def]
  cases board_alloc b.size b.player <;> rfl

/-- The cursor plays no part in `get_corners_to_exam`. -/
theorem corners_to_exam_with_cursor (fuel : Nat) (x : bitboard_t) (b : board_t) :
    get_corners_to_exam fuel (with_cursor x b) = get_corners_to_exam fuel b := by
  have hstep : ∀ (pc : bitboard_t) (cs : List bitboard_t),
      corners_step fuel (with_cursor x b) pc cs = corners_step fuel b pc cs := by
    intro pc cs
    funext d i
    have hsz : board_size (with_cursor x b) = board_size b := rfl
    unfold corners_step
    rw [board_copy_with_cursor, hsz]
    cases board_copy b with
    | none => rfl
    | some c =>
      simp only [Option.map_some', board_play_with_cursor]
      cases board_play fuel c (get_corner_as_move (board_size b) i) <;> rfl
  unfold get_corners_to_exam
  simp only [hstep]
  rfl

/-- The cursor plays no part in `get_interesting_borders`. -/
theorem interesting_borders_with_cursor (fuel : Nat) (x : bitboard_t) (b : board_t) :
    get_interesting_borders fuel (with_cursor x b) = get_interesting_borders fuel b := by
  have hcell : ∀ (bs bi : List bitboard_t) (inc : List Nat) (i : Nat) (pb : bitboard_t),
      borders_cell fuel (with_cursor x b) bs bi inc i pb = borders_cell fuel b bs bi inc i pb := by
    intro bs bi inc i pb
    funext acc j
    have hsz : board_size (with_cursor x b) = board_size b := rfl
    unfold borders_cell
    rw [board_copy_with_cursor, hsz]
    cases board_copy b with
    | none => rfl
    | some c =>
      simp only [Option.map_some', board_play_with_cursor]
      cases get_border_as_move fuel (shl128 (bi.getD i 0) (j * inc.getD i 0)) (board_size b) i with
      | none => rfl
      | some m =>
        simp only []
        cases board_play fuel c m <;> rfl
  have hline : ∀ (bs bi : List bitboard_t) (inc : List Nat),
      borders_line fuel (with_cursor x b) bs bi inc = borders_line fuel b bs bi inc := by
    intro bs bi inc
    funext acc i
    unfold borders_line
    simp only [hcell]
    rfl
  unfold get_interesting_borders
  simp only [hline]
  rfl

/-- The move `random_player` draws on a board with a fresh cursor, and the board it
leaves. -/
theorem random_player_scan {fuel : Nat} (hfuel : 10 ≤ fuel) {b : board_t}
    (hb : Reachable fuel b) (hk : board_count_player_moves b ≠ 0) (hc : b.next_move = 0)
    (rnd : Nat) :
    ∃ c k, Scan fuel b c k ∧
      random_player b rnd = Except.ok (move_at b (rnd % board_count_player_moves b), c) := by
  obtain ⟨c, k, h1, h2, _⟩ := @minimax_ab_player_eq fuel 0 hfuel b hb hk hc rnd
  exact ⟨c, k, h1, h2⟩

/-! ## The Newton player on a single candidate -/

/-- The loop of `newton_player` over the corners finds the index of the one corner of the
mask. -/
theorem find_corner {s : Nat} (hs : board_cheak_size s = true) {i : Nat} (hi : i < 4) :
    ([0, 1, 2, 3] : List Nat).find? (fun k =>
      decide (2 ^ corner_cell s i &&&
        [1, shl128 1 (s - 1), shl128 1 (s * s - 1) >>> (s - 1), shl128 1 (s * s - 1)].getD k 0 =
        [1, shl128 1 (s - 1), shl128 1 (s * s - 1) >>> (s - 1),
          shl128 1 (s * s - 1)].getD k 0)) = some i ∧
      get_corner_as_move s i = cell_of_index s (corner_cell s i) := by
  rcases valid_size_cases hs with h | h | h | h | h <;> subst h <;>
    interval_cases i <;> decide

/-- The loop of `newton_player` over the borders finds the index of the border of the one
cell of the mask. -/
theorem find_border {s : Nat} (hs : board_cheak_size s = true) {i j : Nat} (hi : i < 4)
    (hj1 : 1 ≤ j) (hj2 : j + 1 < s) :
    ([0, 1, 2, 3] : List Nat).find? (fun k =>
      decide ((get_borders s).getD k 0 &&& 2 ^ edge_cell s i j = 2 ^ edge_cell s i j)) =
        some i ∧
      edge_move s i j = cell_of_index s (edge_cell s i j) := by
  have hj : j < s := by omega
  rcases valid_size_cases hs with h | h | h | h | h <;> subst h <;>
    interval_cases i <;> interval_cases j <;> first | omega | decide

theorem same_position_fields {b c : board_t} (h : SamePosition b c) :
    board_size c = b.size ∧ board_player c = b.player ∧
      board_count_player_moves c = board_count_player_moves b :=
  ⟨h.1, h.2.1, count_same h⟩

/-- C33: for every board the interface can produce with a fresh cursor and at least two
legal moves, for every random draw and every amount of gas of the searches, 0 included, where
no search can return: if `get_corners_to_exam` returns the mask of one cell, `newton_player`
returns that cell; and if `get_corners_to_exam` returns the empty mask and
`get_interesting_borders` the mask of one cell, `newton_player` returns that cell. -/
theorem newton_player_single (fuel : Nat) (hfuel : 10 ≤ fuel) (b : board_t)
    (hb : Reachable fuel b) (hc : b.next_move = 0) (hn : 2 ≤ board_count_player_moves b)
    (rnd gas n : Nat) :
    (get_corners_to_exam fuel b = some (2 ^ n) →
      ∃ c, newton_player fuel gas b rnd = Except.ok (cell_of_index b.size n, c)) ∧
    (get_corners_to_exam fuel b = some 0 → get_interesting_borders fuel b = some (2 ^ n) →
      ∃ c, newton_player fuel gas b rnd = Except.ok (cell_of_index b.size n, c)) := by
  have hk : board_count_player_moves b ≠ 0 := by omega
  obtain ⟨hok, _⟩ := reachable_ok hfuel hb
  have hs := hok.size_ok
  have hpl := count_pos_colour hk
  obtain ⟨c, k, hsc, er⟩ := random_player_scan hfuel hb hk hc rnd
  obtain ⟨f1, f2, f3⟩ := same_position_fields hsc.same
  have hcor : get_corners_to_exam fuel c = get_corners_to_exam fuel b := by
    rw [same_position_eq hsc.same, corners_to_exam_with_cursor]
  have hbor : get_interesting_borders fuel c = get_interesting_borders fuel b := by
    rw [same_position_eq hsc.same, interesting_borders_with_cursor]
  have h1 : ¬board_count_player_moves b = 1 := by omega
  constructor
  · intro hex
    obtain ⟨res, e, hsub, _⟩ := corners_to_exam_sub hfuel hb
    rw [hex] at e
    cases e
    obtain ⟨_, i, hi, rfl⟩ := (playable_corners_testBit hs n).1
      (hsub n (Nat.testBit_two_pow_self))
    have hlt : corner_cell b.size i < 128 := by
      have h2 := corners_array hs i hi
      have := cell_index_lt hs h2.2.1 h2.2.2
      unfold corner_cell
      omega
    obtain ⟨g1, g2⟩ := find_corner hs hi
    refine ⟨c, ?_⟩
    unfold newton_player
    simp only [er, f1, f3, if_neg h1, hcor, hex, popcount_two_pow hlt, if_true, g1, g2]
  · intro hex hib
    obtain ⟨res, e, h⟩ := interesting_borders_spec hfuel hb hpl
    rw [hib] at e
    cases e
    obtain ⟨i, j, hi, hj1, hj2, rfl, _⟩ := (h n).1 (Nat.testBit_two_pow_self)
    have hlt : edge_cell b.size i j < 128 := by
      have := edge_cell_lt (i := i) hs (show j < b.size by omega)
      omega
    obtain ⟨g1, g2⟩ := find_border hs hi hj1 hj2
    have hp0 : bitboard_popcount 0 = 0 := by decide
    refine ⟨c, ?_⟩
    unfold newton_player newton_player_borders
    simp only [er, f1, f3, if_neg h1, hcor, hex, hp0, hbor, hib, popcount_two_pow hlt, if_true,
      g1, border_as_move_eq hfuel hs hi (show j < b.size by omega), g2]
    simp

/-! ## Claims on the Newton player -/

theorem oneborder4_game :
    board_init 10 4 = some start4 ∧
    board_play 10 start4 ⟨0, 1⟩ = some (true, second4) ∧
    board_play 10 second4 ⟨0, 2⟩ = some (true, ⟨4, disc_t.BLACK_DISC, 546, 1092, 34952, 0⟩) ∧
    board_play 10 ⟨4, disc_t.BLACK_DISC, 546, 1092, 34952, 0⟩ ⟨1, 3⟩ =
      some (true, ⟨4, disc_t.WHITE_DISC, 738, 1028, 257, 0⟩) ∧
    board_play 10 ⟨4, disc_t.WHITE_DISC, 738, 1028, 257, 0⟩ ⟨0, 0⟩ =
      some (true, oneborder4) := by
  decide

theorem oneborder4_reachable : Reachable 10 oneborder4 :=
  reachable_play (reachable_play (reachable_play (reachable_play
    (Reachable.init 4 start4 oneborder4_game.1) oneborder4_game.2.1) oneborder4_game.2.2.1)
    oneborder4_game.2.2.2.1) oneborder4_game.2.2.2.2

theorem cornerdefault4_game :
    board_init 10 4 = some start4 ∧
    board_play 10 start4 ⟨0, 1⟩ = some (true, second4) ∧
    board_play 10 second4 ⟨0, 0⟩ = some (true, ⟨4, disc_t.BLACK_DISC, 578, 1057, 18448, 0⟩) ∧
    board_play 10 ⟨4, disc_t.BLACK_DISC, 578, 1057, 18448, 0⟩ ⟨3, 2⟩ =
      some (true, ⟨4, disc_t.WHITE_DISC, 17986, 33, 41092, 0⟩) ∧
    board_play 10 ⟨4, disc_t.WHITE_DISC, 17986, 33, 41092, 0⟩ ⟨0, 2⟩ =
      some (true, ⟨4, disc_t.BLACK_DISC, 17984, 39, 16, 0⟩) ∧
    board_play 10 ⟨4, disc_t.BLACK_DISC, 17984, 39, 16, 0⟩ ⟨1, 0⟩ =
      some (true, ⟨4, disc_t.WHITE_DISC, 18032, 7, 43264, 0⟩) ∧
    board_play 10 ⟨4, disc_t.WHITE_DISC, 18032, 7, 43264, 0⟩ ⟨2, 3⟩ =
      some (true, ⟨4, disc_t.BLACK_DISC, 17968, 2119, 136, 0⟩) ∧
    board_play 10 ⟨4, disc_t.BLACK_DISC, 17968, 2119, 136, 0⟩ ⟨1, 3⟩ =
      some (true, ⟨4, disc_t.WHITE_DISC, 18160, 2055, 41224, 0⟩) ∧
    board_play 10 ⟨4, disc_t.WHITE_DISC, 18160, 2055, 41224, 0⟩ ⟨3, 3⟩ =
      some (true, ⟨4, disc_t.BLACK_DISC, 17104, 35879, 8192, 0⟩) ∧
    board_play 10 ⟨4, disc_t.BLACK_DISC, 17104, 35879, 8192, 0⟩ ⟨3, 1⟩ =
      some (true, cornerdefault4) := by
  decide

theorem cornerdefault4_reachable : Reachable 10 cornerdefault4 :=
  have h := cornerdefault4_game
  reachable_play (reachable_play (reachable_play (reachable_play (reachable_play
    (reachable_play (reachable_play (reachable_play (reachable_play
    (Reachable.init 4 start4 h.1) h.2.1) h.2.2.1) h.2.2.2.1) h.2.2.2.2.1) h.2.2.2.2.2.1)
    h.2.2.2.2.2.2.1) h.2.2.2.2.2.2.2.1) h.2.2.2.2.2.2.2.2.1) h.2.2.2.2.2.2.2.2.2

theorem unassigned4_game :
    board_init 10 4 = some start4 ∧
    board_play 10 start4 ⟨1, 0⟩ = some (true, ⟨4, disc_t.WHITE_DISC, 624, 1024, 261, 0⟩) ∧
    board_play 10 ⟨4, disc_t.WHITE_DISC, 624, 1024, 261, 0⟩ ⟨2, 0⟩ =
      some (true, ⟨4, disc_t.BLACK_DISC, 112, 1792, 61440, 0⟩) ∧
    board_play 10 ⟨4, disc_t.BLACK_DISC, 112, 1792, 61440, 0⟩ ⟨3, 0⟩ =
      some (true, ⟨4, disc_t.WHITE_DISC, 4976, 1024, 5, 0⟩) ∧
    board_play 10 ⟨4, disc_t.WHITE_DISC, 4976, 1024, 5, 0⟩ ⟨0, 0⟩ =
      some (true, ⟨4, disc_t.BLACK_DISC, 4944, 1057, 18438, 0⟩) ∧
    board_play 10 ⟨4, disc_t.BLACK_DISC, 4944, 1057, 18438, 0⟩ ⟨3, 2⟩ =
      some (true, ⟨4, disc_t.WHITE_DISC, 22352, 33, 41088, 0⟩) ∧
    board_play 10 ⟨4, disc_t.WHITE_DISC, 22352, 33, 41088, 0⟩ ⟨3, 3⟩ =
      some (true, ⟨4, disc_t.BLACK_DISC, 21328, 33825, 2054, 0⟩) ∧
    board_play 10 ⟨4, disc_t.BLACK_DISC, 21328, 33825, 2054, 0⟩ ⟨0, 2⟩ =
      some (true, ⟨4, disc_t.WHITE_DISC, 21364, 33793, 8192, 0⟩) ∧
    board_play 10 ⟨4, disc_t.WHITE_DISC, 21364, 33793, 8192, 0⟩ ⟨3, 1⟩ =
      some (true, ⟨4, disc_t.BLACK_DISC, 4980, 58369, 2048, 0⟩) ∧
    board_play 10 ⟨4, disc_t.BLACK_DISC, 4980, 58369, 2048, 0⟩ ⟨2, 3⟩ =
      some (true, unassigned4) := by
  decide

theorem unassigned4_reachable : Reachable 10 unassigned4 :=
  have h := unassigned4_game
  reachable_play (reachable_play (reachable_play (reachable_play (reachable_play
    (reachable_play (reachable_play (reachable_play (reachable_play
    (Reachable.init 4 start4 h.1) h.2.1) h.2.2.1) h.2.2.2.1) h.2.2.2.2.1) h.2.2.2.2.2.1)
    h.2.2.2.2.2.2.1) h.2.2.2.2.2.2.2.1) h.2.2.2.2.2.2.2.2.1) h.2.2.2.2.2.2.2.2.2

/-- The loop of `newton_corner_loop` returns the move it starts with or a corner of the mask
`corner`, when the searches return. -/
theorem newton_corner_for_spec {fuel : Nat} (hfuel : 10 ≤ fuel)
    (search_min search_max : board_t → alpha_beta_t → Except fault_t alpha_beta_t)
    (hmin : ∀ c r, Reachable fuel c → ∃ w, search_min c r = Except.ok w)
    (hmax : ∀ c r, Reachable fuel c → ∃ w, search_max c r = Except.ok w)
    {b : board_t} (hb : Reachable fuel b) (hpl : IsColour b.player)
    (corners : List bitboard_t) (corner : bitboard_t) (P : move_t → Prop)
    (hP : ∀ i, corner &&& corners.getD i 0 ≠ 0 → P (get_corner_as_move (board_size b) i)) :
    ∀ (l : List Nat) (st : ab_main_state), P st.best_move →
      ∃ m, newton_corner_for fuel search_min search_max b corners corner l st = Except.ok m ∧
        P m := by
  obtain ⟨hok, hfresh⟩ := reachable_ok hfuel hb
  intro l
  induction l with
  | nil =>
    intro st hst
    exact ⟨st.best_move, rfl, hst⟩
  | cons i l ih =>
    intro st hst
    unfold newton_corner_for
    by_cases h0 : corner &&& corners.getD i 0 = 0
    · rw [if_pos h0]
      exact ih st hst
    · rw [if_neg h0, board_copy_some hok.size_ok hpl]
      obtain ⟨ok, b2, e, _⟩ := board_play_ok hok hfresh hfuel
        (get_corner_as_move (board_size b) i)
      have hb2 : Reachable fuel b2 := Reachable.play _ _ ok b2 hb e
      have ep : play_on_copy fuel b (get_corner_as_move (board_size b) i) = Except.ok b2 := by
        unfold play_on_copy
        rw [e]
      simp only [ep]
      by_cases hE : board_player b2 = disc_t.EMPTY_DISC
      · rw [if_pos hE]
        split_ifs
        all_goals first | exact ⟨_, rfl, hP i h0⟩ | exact ih _ hst | exact ih _ (hP i h0)
      · rw [if_neg hE]
        by_cases hne : board_player b2 ≠ board_player b
        · rw [if_pos hne]
          obtain ⟨w, ew⟩ := hmin b2 st.result_ab hb2
          rw [ew]
          simp only []
          split_ifs
          all_goals first | exact ih _ hst | exact ih _ (hP i h0)
        · rw [if_neg hne]
          obtain ⟨w, ew⟩ := hmax b2 st.result_ab hb2
          rw [ew]
          simp only []
          split_ifs
          all_goals first | exact ih _ hst | exact ih _ (hP i h0)

/-- C34, counterexample: on the 4 × 4 board `cornerdefault4`, where White has the legal
moves (0, 3), (2, 0) and (3, 0), `get_corners_to_exam` returns the mask 4104 of the two
corners (0, 3) and (3, 0), and for the random draw 1 `newton_player` returns (2, 0), the move
that `random_player` drew. -/
theorem newton_player_corners_counterexample :
    Reachable 10 cornerdefault4 ∧ cornerdefault4.next_move = 0 ∧
    board_count_player_moves cornerdefault4 = 3 ∧
    get_corners_to_exam 10 cornerdefault4 = some 4104 ∧
    cells_of 4 4104 = [3, 12] ∧
    (random_player cornerdefault4 1).map (fun r => r.1) = Except.ok ⟨2, 0⟩ ∧
    (newton_player 10 13 cornerdefault4 1).map (fun r => r.1) = Except.ok ⟨2, 0⟩ := by
  refine ⟨cornerdefault4_reachable, rfl, by decide, by decide, by decide, by decide, ?_⟩
  set_option maxRecDepth 100000 in decide

/-- C34, amended: for every board the interface can produce with a fresh cursor and at least
two legal moves, for every random draw and with more gas than the depth of the search, if
`get_corners_to_exam` returns a mask of two or more bits then `newton_player` returns a
corner of that mask or the move that `random_player` drew. -/
theorem newton_player_corners (fuel gas : Nat) (hfuel : 10 ≤ fuel) (b : board_t)
    (hb : Reachable fuel b) (hgas : newton_depth b.size < gas) (hc : b.next_move = 0)
    (hn : 2 ≤ board_count_player_moves b) (rnd : Nat) (corner : bitboard_t)
    (hex : get_corners_to_exam fuel b = some corner) (h2 : 2 ≤ bitboard_popcount corner) :
    ∃ r0 r, random_player b rnd = Except.ok r0 ∧ newton_player fuel gas b rnd = Except.ok r ∧
      (r.1 = r0.1 ∨
        (r.1.row < b.size ∧ r.1.column < b.size ∧
          corner.testBit (r.1.row * b.size + r.1.column) = true)) := by
  have hk : board_count_player_moves b ≠ 0 := by omega
  obtain ⟨hok, _⟩ := reachable_ok hfuel hb
  have hs := hok.size_ok
  have hpl := count_pos_colour hk
  obtain ⟨c, k, hsc, er⟩ := random_player_scan hfuel hb hk hc rnd
  obtain ⟨f1, f2, f3⟩ := same_position_fields hsc.same
  have hcor : get_corners_to_exam fuel c = get_corners_to_exam fuel b := by
    rw [same_position_eq hsc.same, corners_to_exam_with_cursor]
  have h1 : ¬board_count_player_moves b = 1 := by omega
  have hp1 : ¬bitboard_popcount corner = 1 := by omega
  have hp2 : bitboard_popcount corner > 1 := by omega
  have hplc : IsColour c.player := by
    have := f2
    unfold board_player at this
    rw [this]
    exact hpl
  obtain ⟨m, em, hm⟩ := newton_corner_for_spec hfuel
    (fun copy a_b => newton_min fuel (newton_depth b.size) gas copy (newton_depth b.size) a_b
      b.player)
    (fun copy a_b => newton_max fuel (newton_depth b.size) gas copy (newton_depth b.size) a_b
      b.player)
    (fun x r hx => (newton_total hfuel _ gas x _ r _ hgas hx).2)
    (fun x r hx => (newton_total hfuel _ gas x _ r _ hgas hx).1)
    hsc.reach hplc
    [1, shl128 1 (b.size - 1), shl128 1 (b.size * b.size - 1) >>> (b.size - 1),
      shl128 1 (b.size * b.size - 1)] corner
    (fun m => m = move_at b (rnd % board_count_player_moves b) ∨
      (m.row < b.size ∧ m.column < b.size ∧ corner.testBit (m.row * b.size + m.column) = true))
    (fun i hi => by
      right
      rw [f1]
      have hi4 : i < 4 := by
        by_contra hge
        rw [List.getD_eq_default _ _ (by simp; omega)] at hi
        exact hi (Nat.and_zero _)
      obtain ⟨ea, hr, hcl⟩ := corners_array hs i hi4
      refine ⟨hr, hcl, ?_⟩
      rw [ea, Nat.land_comm, two_pow_and_ne_zero] at hi
      exact hi)
    [0, 1, 2, 3]
    { result_ab := { alpha := -infinity, beta := infinity },
      tampon_ab := { alpha := -infinity, beta := infinity },
      best_move := move_at b (rnd % board_count_player_moves b) } (Or.inl rfl)
  have f4 : c.size = b.size := f1
  have f5 : c.player = b.player := f2
  refine ⟨_, (m, c), er, ?_, hm⟩
  unfold newton_player newton_corner_loop
  simp only [er, f3, if_neg h1, hcor, hex, if_neg hp1, if_pos hp2, board_size,
    board_player, f4, f5, em]

theorem newton_player_corners_witness :
    10 ≤ 10 ∧ Reachable 10 cornerdefault4 ∧ newton_depth cornerdefault4.size < 13 ∧
    cornerdefault4.next_move = 0 ∧ 2 ≤ board_count_player_moves cornerdefault4 ∧
    get_corners_to_exam 10 cornerdefault4 = some 4104 ∧ 2 ≤ bitboard_popcount 4104 ∧
    ∃ r0 r, random_player cornerdefault4 0 = Except.ok r0 ∧
      newton_player 10 13 cornerdefault4 0 = Except.ok r ∧
      (r.1 = r0.1 ∨
        (r.1.row < cornerdefault4.size ∧ r.1.column < cornerdefault4.size ∧
          (4104 : Nat).testBit (r.1.row * cornerdefault4.size + r.1.column) = true)) :=
  ⟨by decide, cornerdefault4_reachable, by decide, rfl, by decide, by decide, by decide,
    newton_player_corners 10 13 (by decide) cornerdefault4 cornerdefault4_reachable (by decide)
      rfl (by decide) 0 4104 (by decide) (by decide)⟩

theorem newton_player_single_witness :
    10 ≤ 10 ∧ Reachable 10 second4 ∧ second4.next_move = 0 ∧
    2 ≤ board_count_player_moves second4 ∧ get_corners_to_exam 10 second4 = some (2 ^ 0) ∧
    (∃ c, newton_player 10 0 second4 1 = Except.ok (cell_of_index second4.size 0, c)) ∧
    Reachable 10 oneborder4 ∧ oneborder4.next_move = 0 ∧
    2 ≤ board_count_player_moves oneborder4 ∧ get_corners_to_exam 10 oneborder4 = some 0 ∧
    get_interesting_borders 10 oneborder4 = some (2 ^ 14) ∧
    (∃ c, newton_player 10 0 oneborder4 1 = Except.ok (cell_of_index oneborder4.size 14, c)) :=
  ⟨by decide, second4_reachable, rfl, by decide, by decide,
    (newton_player_single 10 (by decide) second4 second4_reachable rfl (by decide) 1 0 0).1
      (by decide),
    oneborder4_reachable, rfl, by decide, by decide, by decide,
    (newton_player_single 10 (by decide) oneborder4 oneborder4_reachable rfl (by decide)
      1 0 14).2 (by decide) (by decide)⟩

/-- C36 at its failing input: on the 4 × 4 board `unassigned4`, where White has the two
legal moves (0, 1) and (1, 3), no corner is a legal move and `get_interesting_borders` keeps
both moves; for the random draw 0 the two searches of `newton_border_loop` return a window
with alpha ≥ beta, both moves are skipped, and `newton_player` returns the variable
`best_move` of `newton_border_loop`, which was never assigned. -/
theorem newton_player_uninitialised :
    Reachable 10 unassigned4 ∧ unassigned4.next_move = 0 ∧
    board_count_player_moves unassigned4 = 2 ∧
    get_corners_to_exam 10 unassigned4 = some 0 ∧
    get_interesting_borders 10 unassigned4 = some 130 ∧
    newton_player 10 13 unassigned4 0 = Except.error fault_t.uninitialised := by
  refine ⟨unassigned4_reachable, rfl, by decide, by decide, by decide, ?_⟩
  set_option maxRecDepth 100000 in decide

/-! ## The children of the minimax player -/

theorem stalechild4_game :
    board_init 10 4 = some start4 ∧
    board_play 10 start4 ⟨0, 1⟩ = some (true, second4) ∧
    board_play 10 second4 ⟨0, 0⟩ = some (true, ⟨4, disc_t.BLACK_DISC, 578, 1057, 18448, 0⟩) ∧
    board_play 10 ⟨4, disc_t.BLACK_DISC, 578, 1057, 18448, 0⟩ ⟨1, 0⟩ =
      some (true, ⟨4, disc_t.WHITE_DISC, 626, 1025, 260, 0⟩) ∧
    board_play 10 ⟨4, disc_t.WHITE_DISC, 626, 1025, 260, 0⟩ ⟨0, 2⟩ =
      some (true, ⟨4, disc_t.BLACK_DISC, 560, 1095, 34952, 0⟩) ∧
    board_play 10 ⟨4, disc_t.BLACK_DISC, 560, 1095, 34952, 0⟩ ⟨2, 3⟩ =
      some (true, ⟨4, disc_t.WHITE_DISC, 3632, 71, 61696, 0⟩) ∧
    board_play 10 ⟨4, disc_t.WHITE_DISC, 3632, 71, 61696, 0⟩ ⟨3, 1⟩ =
      some (true, ⟨4, disc_t.BLACK_DISC, 3088, 8807, 16768, 0⟩) ∧
    board_play 10 ⟨4, disc_t.BLACK_DISC, 3088, 8807, 16768, 0⟩ ⟨3, 2⟩ =
      some (true, ⟨4, disc_t.WHITE_DISC, 19984, 8295, 37248, 0⟩) ∧
    board_play 10 ⟨4, disc_t.WHITE_DISC, 19984, 8295, 37248, 0⟩ ⟨3, 3⟩ =
      some (true, ⟨4, disc_t.BLACK_DISC, 2576, 58471, 136, 0⟩) ∧
    board_play 10 ⟨4, disc_t.BLACK_DISC, 2576, 58471, 136, 0⟩ ⟨0, 3⟩ =
      some (true, stalechild4) := by
  decide

theorem stalechild4_reachable : Reachable 10 stalechild4 :=
  have h := stalechild4_game
  reachable_play (reachable_play (reachable_play (reachable_play (reachable_play
    (reachable_play (reachable_play (reachable_play (reachable_play
    (Reachable.init 4 start4 h.1) h.2.1) h.2.2.1) h.2.2.2.1) h.2.2.2.2.1) h.2.2.2.2.2.1)
    h.2.2.2.2.2.2.1) h.2.2.2.2.2.2.2.1) h.2.2.2.2.2.2.2.2.1) h.2.2.2.2.2.2.2.2.2

/-- C22 at its failing input: on the 4 × 4 board `stalechild4`, with a fresh cursor, White
has the legal moves (1, 3) and (2, 0); on the positions `board_play` gives for them, `min` at
the depth 8 for White returns −30 and −26, so the root values are 30 and 26 and (1, 3) is the
one move of greatest root value.  The loop of `minimax_player` plays (1, 3) on a copy that
keeps the cursor 256 of the enumeration of the root, `min` returns −24 on that copy, and
`minimax_player` returns (2, 0) for every random draw. -/
theorem minimax_player_stale_children :
    Reachable 10 stalechild4 ∧ stalechild4.next_move = 0 ∧
    cells_of 4 stalechild4.moves = [7, 8] ∧
    cell_of_index 4 7 = ⟨1, 3⟩ ∧ cell_of_index 4 8 = ⟨2, 0⟩ ∧ minimax_depth 4 = 8 ∧
    board_play 10 stalechild4 ⟨1, 3⟩ =
      some (true, ⟨4, disc_t.WHITE_DISC, 536, 60647, 4352, 0⟩) ∧
    board_play 10 stalechild4 ⟨2, 0⟩ =
      some (true, ⟨4, disc_t.BLACK_DISC, 2120, 59191, 4096, 0⟩) ∧
    min 10 9 ⟨4, disc_t.WHITE_DISC, 536, 60647, 4352, 0⟩ 8 disc_t.WHITE_DISC =
      Except.ok (-30) ∧
    min 10 9 ⟨4, disc_t.BLACK_DISC, 2120, 59191, 4096, 0⟩ 8 disc_t.WHITE_DISC =
      Except.ok (-26) ∧
    board_next_move stalechild4 = (⟨1, 3⟩, { stalechild4 with next_move := 256 }) ∧
    play_on_copy 10 { stalechild4 with next_move := 256 } ⟨1, 3⟩ =
      Except.ok ⟨4, disc_t.WHITE_DISC, 536, 60647, 4352, 256⟩ ∧
    min 10 9 ⟨4, disc_t.WHITE_DISC, 536, 60647, 4352, 256⟩ 8 disc_t.WHITE_DISC =
      Except.ok (-24) ∧
    ∀ rnd, (minimax_player 10 9 stalechild4 rnd).map (fun r => r.1) = Except.ok ⟨2, 0⟩ := by
  have hloop : minimax_loop 10 9 8 disc_t.WHITE_DISC 2 stalechild4
      { best_value := -infinity, possible_moves := [] } =
      Except.ok (some { best_value := 26, possible_moves := [⟨2, 0⟩] }, stalechild4) := by
    set_option maxRecDepth 100000 in decide
  refine ⟨stalechild4_reachable, rfl, by decide, by decide, by decide, by decide, by decide,
    by decide, ?_, ?_, by decide, by decide, ?_, ?_⟩
  · set_option maxRecDepth 100000 in decide
  · set_option maxRecDepth 100000 in decide
  · set_option maxRecDepth 100000 in decide
  · intro rnd
    have h2 : board_count_player_moves stalechild4 = 2 := by decide
    have hd : minimax_depth (board_size stalechild4) = 8 := by decide
    have hp : board_player stalechild4 = disc_t.WHITE_DISC := rfl
    unfold minimax_player
    simp only [h2, hd, hp, hloop, rand_mod, List.length_singleton, Nat.mod_one]
    rfl

end Reversi
